import Mathlib

/-!
# A shallow embedding of the block-backed Bε-tree

The development follows `src/inc/be_tree/be_tree.hpp`, `src/src/be_tree/be_tree.cpp`
and `src/src/block_manager/block_manager.cpp`.

Modelling conventions.

* A page (`Block`) is kept as a record of its fields instead of 4096 raw bytes.  The leaf
  layout (`BeData`) and the internal layout (`BeBuffer` followed by `BePivots`) start at the
  same offset 8, so `data->size` and `buffer->size` are one and the same word: the record has
  a single field `size` for both.  The remaining fields of the two layouts are kept apart; a
  page is written under one layout only (`is_leaf` is set once, on a zero-filled fresh page).
* A C array is a `List` read with `getD` (cells never written read as zero, the content of a
  fresh page) and written with `writeAt`; cells beyond the live prefix keep their stale content.
* `assert`, `rtassert` and `exit` are fatal: the function returns `none`.
* The pointers a `BeNode` cursor keeps into the page cache are modelled by the id of the page
  they were last resolved to by `Open` (the cache is taken large enough that the page is not
  evicted while such a pointer is in use).  `BlockManager.internal_mem` below is the content of
  every page as `OpenBlock` presents it.
* Loops whose number of iterations is not bounded by a field of the page (the walk of `Query`,
  the two phases of `FullFlush`) take a fuel argument.
-/

namespace BeTree

/-! ## Constants (be_tree.hpp, block_manager.hpp) -/

def BLOCK_SIZE : Nat := 4096
def DATA_SIZE : Nat := BLOCK_SIZE - 2 * 4
def LEAF_SIZE : Nat := DATA_SIZE
def PIVOT_SIZE : Nat := 128
def BUFFER_SIZE : Nat := DATA_SIZE - PIVOT_SIZE
def NUM_CHILDREN : Nat := PIVOT_SIZE / (2 * 4)
def FLUSH_THRESHOLD : Nat := 11
def LEAF_FLUSH_THRESHOLD : Nat := 255
def NUM_DATA_PAIRS : Nat := ((LEAF_SIZE - 4) / 4) / 2
def NUM_UPSERTS : Nat := (BUFFER_SIZE - 2 * 4) / 16
def NUM_PIVOTS : Nat := ((PIVOT_SIZE - 4) / 4) / 2
def KEY_NOT_FOUND : Nat := 4294967295

/-! ## Data model -/

inductive UpsertFunction where
  | INSERT
  | DELETE
  | UPDATE
  | INVALID
deriving DecidableEq, Repr

structure BeUpsert where
  key : Nat
  type : UpsertFunction
  parameter : Nat
  timestamp : Nat
deriving DecidableEq, Repr

/-- The all-zero message cell (`INSERT` is the enumerator 0). -/
def zeroUpsert : BeUpsert := ⟨0, UpsertFunction.INSERT, 0, 0⟩

inductive FlushResult where
  | SPLIT
  | NO_SPLIT
  | ENSURE_SPACE
deriving DecidableEq, Repr

/-- One page.  `size` is the word at offset 8 (`data->size` and `buffer->size`). -/
structure Block where
  parent : Nat
  is_leaf : Nat
  size : Nat
  flush_size : Nat
  buffer : List BeUpsert
  pivots_size : Nat
  pivots : List Nat
  pointers : List Nat
  keys : List Nat
  values : List Nat
deriving DecidableEq, Repr

/-- The page after `memset(..., 0, ...)`. -/
def zeroBlock : Block := ⟨0, 0, 0, 0, [], 0, [], [], [], []⟩

/-- Array write `a[i] = x`; cells between the end of the list and `i` are zero (`d`). -/
def writeAt {α : Type} (d : α) (l : List α) (i : Nat) (x : α) : List α :=
  if i < l.length then l.set i x else l ++ List.replicate (i - l.length) d ++ [x]

structure BlockManager where
  cur_num_blocks : Nat
  internal_mem : List Block
deriving DecidableEq, Repr

namespace BlockManager

/-- The page `internal_mem[OpenBlock(id)]`. -/
def OpenBlock (bm : BlockManager) (id : Nat) : Block :=
  bm.internal_mem.getD id zeroBlock

/-- A store through a pointer resolved to page `id`. -/
def store (bm : BlockManager) (id : Nat) (b : Block) : BlockManager :=
  { bm with internal_mem := writeAt zeroBlock bm.internal_mem id b }

/-- The block manager after `CreateBlock`: `++cur_num_blocks`; the backing file is created
empty (an existing file of that name is truncated), so the page reads as zeros. -/
def created (bm : BlockManager) : BlockManager :=
  store { bm with cur_num_blocks := bm.cur_num_blocks + 1 } (bm.cur_num_blocks + 1) zeroBlock

/-- `BlockManager::CreateBlock`: the new id and the block manager afterwards. -/
def CreateBlock (bm : BlockManager) : Nat × BlockManager :=
  (bm.cur_num_blocks + 1, bm.created)

end BlockManager

/-! ## BeNode -/

/-- The loop of `IndexOfKey`, at index `i` with `n` iterations left (`i + n = size + 1`).
Falling out of the loop has no return value: `none`. -/
def IndexOfKeyLoop (pivots : List Nat) (size key : Nat) : Nat → Nat → Option Nat
  | _, 0 => none
  | i, n + 1 =>
    if (i = size ∨ key < pivots.getD i 0) ∧ (i = 0 ∨ key ≥ pivots.getD (i - 1) 0) then some i
    else IndexOfKeyLoop pivots size key (i + 1) n

/-- `BeNode::IndexOfKey`. -/
def IndexOfKey (b : Block) (key : Nat) : Option Nat :=
  if b.is_leaf ≠ 0 then none
  else IndexOfKeyLoop b.pivots b.pivots_size key 0 (b.pivots_size + 1)

/-- The search loop of `UpsertLeaf` (`index = -1` is `none`): first `j < size` with
`keys[j] = key`; `n` iterations left from `j`. -/
def findIndex (keys : List Nat) (key : Nat) : Nat → Nat → Option Nat
  | _, 0 => none
  | j, n + 1 => if keys.getD j 0 = key then some j else findIndex keys key (j + 1) n

/-- The shifting loop of the `DELETE` case: `for (j = index + 1; j < size; ++j)`, with `n`
iterations left from `j`. -/
def shiftLeft (b : Block) : Nat → Nat → Block
  | _, 0 => b
  | j, n + 1 =>
    shiftLeft
      { b with keys := writeAt 0 b.keys (j - 1) (b.keys.getD j 0),
               values := writeAt 0 b.values (j - 1) (b.values.getD j 0) }
      (j + 1) n

/-- The `while (num > 0)` loop of `UpsertLeaf`, reading `upsert[num-1], ..., upsert[0]`.
Returns the flag, the page and the final value of `num`. -/
def UpsertLeafLoop (upsert : List BeUpsert) : Block → Nat → Option (Bool × Block × Nat)
  | b, 0 => some (false, b, 0)
  | b, num + 1 =>
    let u := upsert.getD num zeroUpsert
    let index := findIndex b.keys u.key 0 b.size
    match u.type with
    | UpsertFunction.INSERT =>
      match index with
      | some _ => none
      | none =>
        let b1 := { b with keys := writeAt 0 b.keys b.size u.key,
                           values := writeAt 0 b.values b.size u.parameter,
                           size := b.size + 1 }
        if b1.size = NUM_DATA_PAIRS then some (true, b1, num)
        else UpsertLeafLoop upsert b1 num
    | UpsertFunction.UPDATE =>
      match index with
      | none => none
      | some i => UpsertLeafLoop upsert { b with values := writeAt 0 b.values i u.parameter } num
    | UpsertFunction.DELETE =>
      match index with
      | none => none
      | some i =>
        let b1 := shiftLeft b (i + 1) (b.size - (i + 1))
        UpsertLeafLoop upsert { b1 with size := b1.size - 1 } num
    | UpsertFunction.INVALID => none

/-- `BeNode::UpsertLeaf` on the leaf page `b`. -/
def UpsertLeaf (upsert : List BeUpsert) (b : Block) (num : Nat) : Option (Bool × Block × Nat) :=
  if b.is_leaf = 0 then none else UpsertLeafLoop upsert b num

/-- A run of consecutive array writes `a[i] = x₀; a[i+1] = x₁; ...`. -/
def writeList {α : Type} (d : α) : List α → Nat → List α → List α
  | l, _, [] => l
  | l, i, x :: xs => writeList d (writeAt d l i x) (i + 1) xs

/-- The cells `a[i], ..., a[i+n-1]`. -/
def readRange {α : Type} (d : α) (l : List α) (i n : Nat) : List α :=
  (List.range n).map (fun k => l.getD (i + k) d)

/-- The order of `std::sort` on `std::pair<uint32_t, uint32_t>`. -/
def pairLe (a b : Nat × Nat) : Prop := a.1 < b.1 ∨ (a.1 = b.1 ∧ a.2 ≤ b.2)

instance : DecidableRel pairLe := fun a b => by unfold pairLe; exact inferInstance

/-- The order `std::sort` produces with the comparator `SortBeUpsert`
(`lhs.timestamp > rhs.timestamp`): timestamps descending. -/
def upsertGe (a b : BeUpsert) : Prop := a.timestamp ≥ b.timestamp

instance : DecidableRel upsertGe := fun a b => by unfold upsertGe; exact inferInstance

/-- `BeNode::SplitLeaf` on page `id`: returns the split key, `new_id` and the store. -/
def SplitLeaf (bm : BlockManager) (id : Nat) : Option (Nat × Nat × BlockManager) :=
  let b := bm.OpenBlock id
  if b.is_leaf = 0 then none else
  let (new_id, bm1) := bm.CreateBlock
  let b := bm1.OpenBlock id
  let sib := { bm1.OpenBlock new_id with parent := b.parent, is_leaf := b.is_leaf }
  -- sort the data in place
  let pairs := (List.range b.size).map (fun i => (b.keys.getD i 0, b.values.getD i 0))
  let pairs := pairs.insertionSort pairLe
  let b := { b with keys := writeList 0 b.keys 0 (pairs.map Prod.fst),
                    values := writeList 0 b.values 0 (pairs.map Prod.snd) }
  -- move the upper half
  let half := b.size / 2
  let sib := { sib with keys := writeList 0 sib.keys 0 (readRange 0 b.keys half (b.size - half)),
                        values := writeList 0 sib.values 0 (readRange 0 b.values half (b.size - half)),
                        size := sib.size + (b.size - half) }
  let b := { b with size := b.size - sib.size }
  some (sib.keys.getD 0 0, new_id, (bm1.store id b).store new_id sib)

/-- The pivot/pointer loop of `SplitInternal`, at index `i` with `n` iterations left. -/
def SplitInternalMove (id new_id start_index : Nat) : BlockManager → Nat → Nat → BlockManager
  | bm, _, 0 => bm
  | bm, i, n + 1 =>
    let b := bm.OpenBlock id
    let nn := bm.OpenBlock new_id
    let nn := if i < b.pivots_size then
        { nn with pivots := writeAt 0 nn.pivots (i - start_index) (b.pivots.getD i 0),
                  pivots_size := nn.pivots_size + 1 }
      else nn
    let nn := { nn with pointers := writeAt 0 nn.pointers (i - start_index) (b.pointers.getD i 0) }
    let bm := bm.store new_id nn
    -- moving_node.SetId(pivots->pointers[i]); *moving_node.parent = new_node.id
    let c := (bm.OpenBlock id).pointers.getD i 0
    let bm := bm.store c { bm.OpenBlock c with parent := new_id }
    SplitInternalMove id new_id start_index bm (i + 1) n

/-- A copy loop of `SplitInternal`: for `i` in a range, append `buffer[i]` to the new
node's buffer and mark the cell `INVALID`; with `cond`, only the cells with `key ≥ split_key`. -/
def SplitInternalCopy (cond : Bool) (split_key : Nat) : Block → Block → Nat → Nat → Block × Block
  | b, nn, _, 0 => (b, nn)
  | b, nn, i, n + 1 =>
    let u := b.buffer.getD i zeroUpsert
    if cond = false ∨ u.key ≥ split_key then
      let nn := { nn with buffer := writeAt zeroUpsert nn.buffer nn.size u, size := nn.size + 1 }
      let b := { b with buffer := writeAt zeroUpsert b.buffer i { u with type := UpsertFunction.INVALID } }
      SplitInternalCopy cond split_key b nn (i + 1) n
    else SplitInternalCopy cond split_key b nn (i + 1) n

/-- The compaction loop of `SplitInternal`: returns the buffer and `new_node_size`. -/
def SplitInternalTighten : List BeUpsert → Nat → Nat → Nat → List BeUpsert × Nat
  | buf, new_node_size, _, 0 => (buf, new_node_size)
  | buf, new_node_size, i, n + 1 =>
    let u := buf.getD i zeroUpsert
    if u.type ≠ UpsertFunction.INVALID then
      SplitInternalTighten (writeAt zeroUpsert buf new_node_size u) (new_node_size + 1) (i + 1) n
    else SplitInternalTighten buf new_node_size (i + 1) n

/-- The second half of `SplitInternal`, on the page `b` of the node and the page `nn` of the new
node once pivots and pointers are moved: the reset of `pivots->size`, the split key and the
three buffer loops.  Returns the split key and the two pages. -/
def SplitInternalBuffer (b nn : Block) : Nat × Block × Block :=
  let b := { b with pivots_size := b.pivots_size - (nn.pivots_size + 1) }
  let split_key := b.pivots.getD b.pivots_size 0
  -- move regular upserts over to the new node
  let r := SplitInternalCopy true split_key b nn 0 (b.size - b.flush_size)
  -- move flush buffer
  let r :=
    if (r.1.buffer.getD (r.1.size - r.1.flush_size) zeroUpsert).key ≥ split_key then
      let r2 := SplitInternalCopy false split_key r.1 r.2 (r.1.size - r.1.flush_size) r.1.flush_size
      ({ r2.1 with size := r2.1.size - r2.1.flush_size, flush_size := 0 },
       { r2.2 with flush_size := r2.1.flush_size })
    else r
  -- tighten current node buffer
  let t := SplitInternalTighten r.1.buffer 0 0 r.1.size
  (split_key, { r.1 with buffer := t.1, size := t.2 }, r.2)

/-- `BeNode::SplitInternal` on page `id`: returns the split key, `new_id` and the store. -/
def SplitInternal (bm : BlockManager) (id : Nat) : Option (Nat × Nat × BlockManager) :=
  if (bm.OpenBlock id).is_leaf ≠ 0 then none else
  if (bm.OpenBlock id).pivots_size ≠ NUM_PIVOTS then none else
  let new_id := bm.CreateBlock.1
  let bm1 := bm.CreateBlock.2
  let bm2 := bm1.store new_id
    { bm1.OpenBlock new_id with
      is_leaf := (bm1.OpenBlock id).is_leaf
      parent := (bm1.OpenBlock id).parent }
  let start_index := ((bm2.OpenBlock id).pivots_size + 1) / 2
  let bm3 := SplitInternalMove id new_id start_index bm2 start_index
    ((bm2.OpenBlock id).pivots_size + 1 - start_index)
  let r := SplitInternalBuffer (bm3.OpenBlock id) (bm3.OpenBlock new_id)
  some (r.1, new_id, (bm3.store id r.2.1).store new_id r.2.2)

/-- The counting loop of `FullFlushSetup`: `++nums[IndexOfKey(buffer[i].key)]`. -/
def FullFlushSetupCount (b : Block) : List Nat → Nat → Nat → Option (List Nat)
  | nums, _, 0 => some nums
  | nums, i, n + 1 =>
    match IndexOfKey b (b.buffer.getD i zeroUpsert).key with
    | none => none
    | some c => FullFlushSetupCount b (writeAt 0 nums c (nums.getD c 0 + 1)) (i + 1) n

/-- The maximum loop of `FullFlushSetup`: `if (nums[i] > nums[to_flush]) to_flush = i`. -/
def FullFlushSetupMax (nums : List Nat) : Nat → Nat → Nat → Nat
  | to_flush, _, 0 => to_flush
  | to_flush, i, n + 1 =>
    FullFlushSetupMax nums (if nums.getD i 0 > nums.getD to_flush 0 then i else to_flush) (i + 1) n

/-- The reordering loop of `FullFlushSetup`.  The two `int` cursors run down to `-1`; they are
kept shifted by one (`flush_pos1 = flush_pos + 1`, `cur_pos1 = cur_pos + 1`). -/
def FullFlushSetupReorder (b : Block) (to_flush : Nat) :
    List BeUpsert → Nat → Nat → Option (List BeUpsert × Nat)
  | buf, flush_pos1, 0 => some (buf, flush_pos1)
  | buf, flush_pos1, cur_pos + 1 =>
    match IndexOfKey b (buf.getD cur_pos zeroUpsert).key with
    | none => none
    | some c =>
      if c = to_flush then
        let flush_pos := flush_pos1 - 1
        let tmp := buf.getD flush_pos zeroUpsert
        let buf := writeAt zeroUpsert buf flush_pos (buf.getD cur_pos zeroUpsert)
        let buf := writeAt zeroUpsert buf cur_pos tmp
        FullFlushSetupReorder b to_flush buf flush_pos cur_pos
      else FullFlushSetupReorder b to_flush buf flush_pos1 cur_pos

/-- The body of `FullFlushSetup` on the page `b` of the node. -/
def FullFlushSetupBlock (b : Block) : Option Block :=
  let buf_size := b.size
  let pivot_size := b.pivots_size
  match FullFlushSetupCount b (List.replicate NUM_CHILDREN 0) 0 buf_size with
  | none => none
  | some nums =>
    let to_flush := FullFlushSetupMax nums 0 1 pivot_size
    match FullFlushSetupReorder b to_flush b.buffer b.size b.size with
    | none => none
    | some r =>
      if b.size - r.2 ≠ nums.getD to_flush 0 then none else
      let flush_size := nums.getD to_flush 0
      let region :=
        (readRange zeroUpsert r.1 (b.size - flush_size) flush_size).insertionSort upsertGe
      some { b with flush_size := flush_size,
                    buffer := writeList zeroUpsert r.1 (b.size - flush_size) region }

/-- `BeNode::FullFlushSetup` on page `id`. -/
def FullFlushSetup (bm : BlockManager) (id : Nat) : Option BlockManager :=
  if (bm.OpenBlock id).flush_size ≠ 0 then none else
  if (bm.OpenBlock id).is_leaf ≠ 0 then none else
  match FullFlushSetupBlock (bm.OpenBlock id) with
  | none => none
  | some b => some (bm.store id b)

/-- The end of `FlushOneLeaf`: `buffer->size -= min(flush_size, LEAF_FLUSH_THRESHOLD);
buffer->flush_size = 0`. -/
def FlushOneLeafSizes (b : Block) : Block :=
  { b with size := b.size - min b.flush_size LEAF_FLUSH_THRESHOLD, flush_size := 0 }

/-- `BeNode::FlushOneLeaf` from page `id` into the leaf `child`. -/
def FlushOneLeaf (bm : BlockManager) (id child split_key new_id : Nat) :
    Option (FlushResult × Nat × Nat × BlockManager) :=
  if (bm.OpenBlock id).is_leaf ≠ 0 then none else
  if (bm.OpenBlock child).is_leaf = 0 then none else
  if (bm.OpenBlock child).parent ≠ id then none else
  let to_flush := (bm.OpenBlock id).buffer.drop ((bm.OpenBlock id).size - (bm.OpenBlock id).flush_size)
  let num_to_flush := min (bm.OpenBlock id).flush_size LEAF_FLUSH_THRESHOLD
  match UpsertLeaf to_flush (bm.OpenBlock child) num_to_flush with
  | none => none
  | some (true, c, num_to_flush) =>
    -- need to split
    match SplitLeaf (bm.store child c) child with
    | none => none
    | some (split_key, new_id, bm1) =>
      let flush_key := (to_flush.getD 0 zeroUpsert).key
      let child := if flush_key ≥ split_key then new_id else child
      -- flush the remainder
      match UpsertLeaf to_flush (bm1.OpenBlock child) num_to_flush with
      | none => none
      | some r =>
        let bm2 := bm1.store child r.2.1
        some (FlushResult.SPLIT, split_key, new_id,
          bm2.store id (FlushOneLeafSizes (bm2.OpenBlock id)))
  | some (false, c, _) =>
    let bm1 := bm.store child c
    some (FlushResult.NO_SPLIT, split_key, new_id,
      bm1.store id (FlushOneLeafSizes (bm1.OpenBlock id)))

/-- The choice of `flush_num` in `FlushOneInternal` (`none`: neither branch applies).
`num_empty_in_child` is an `int`, converted to `uint32_t` in the two comparisons. -/
def FlushOneInternalNum (b c : Block) : Option Nat :=
  let num_empty_in_child : Nat := (((NUM_UPSERTS : Int) - (c.size : Int)) % (2 ^ 32 : Int)).toNat
  if num_empty_in_child ≥ b.flush_size then some b.flush_size
  else if num_empty_in_child ≥ FLUSH_THRESHOLD then some FLUSH_THRESHOLD
  else none

/-- `BeNode::FlushOneInternal` from page `id` into the internal node `child`; the last
component is the id of the cursor afterwards (`SetId(child_node.id)` on `ENSURE_SPACE`). -/
def FlushOneInternal (bm : BlockManager) (id child : Nat) :
    Option (FlushResult × BlockManager × Nat) :=
  if (bm.OpenBlock id).is_leaf ≠ 0 then none else
  if (bm.OpenBlock child).is_leaf ≠ 0 then none else
  if (bm.OpenBlock child).parent ≠ id then none else
  match FlushOneInternalNum (bm.OpenBlock id) (bm.OpenBlock child) with
  | none => some (FlushResult.ENSURE_SPACE, bm, child)
  | some flush_num =>
    -- memcpy(child.buffer + child.size, buffer + (size - flush_size), flush_num cells)
    let bm1 := bm.store child
      { bm.OpenBlock child with
        buffer := writeList zeroUpsert (bm.OpenBlock child).buffer (bm.OpenBlock child).size
          (readRange zeroUpsert (bm.OpenBlock id).buffer
            ((bm.OpenBlock id).size - (bm.OpenBlock id).flush_size) flush_num) }
    -- update sizes
    let bm2 := bm1.store id
      { bm1.OpenBlock id with
        size := (bm1.OpenBlock id).size - flush_num
        flush_size := 0 }
    let bm3 := bm2.store child { bm2.OpenBlock child with size := (bm2.OpenBlock child).size + flush_num }
    some (FlushResult.NO_SPLIT, bm3, id)

/-- `BeNode::FlushOneLevel` on page `id`; the last component is the id of the cursor
afterwards. -/
def FlushOneLevel (bm : BlockManager) (id split_key new_id : Nat) :
    Option (FlushResult × Nat × Nat × BlockManager × Nat) :=
  let b := bm.OpenBlock id
  match IndexOfKey b (b.buffer.getD (b.size - b.flush_size) zeroUpsert).key with
  | none => none
  | some i =>
    let child_id := b.pointers.getD i 0
    if (bm.OpenBlock child_id).is_leaf ≠ 0 then
      match FlushOneLeaf bm id child_id split_key new_id with
      | none => none
      | some (r, split_key, new_id, bm) => some (r, split_key, new_id, bm, id)
    else
      match FlushOneInternal bm id child_id with
      | none => none
      | some (r, bm, id) => some (r, split_key, new_id, bm, id)

/-- The shifting loop of `AddPivot`: `for (j = size - 1; j >= pos; --j)`, with the `int`
cursor kept shifted by one (`j1 = j + 1`) and `n` iterations left. -/
def AddPivotShift : Block → Nat → Nat → Block
  | b, _, 0 => b
  | b, j1, n + 1 =>
    let b := { b with pointers := writeAt 0 b.pointers (j1 + 1) (b.pointers.getD j1 0) }
    let b := { b with pivots := writeAt 0 b.pivots j1 (b.pivots.getD (j1 - 1) 0) }
    AddPivotShift b (j1 - 1) n

/-- The body of `AddPivot` on the page `b`, with `pos = IndexOfKey(split_key)`. -/
def AddPivotBlock (b : Block) (split_key new_id pos : Nat) : Block :=
  let b := AddPivotShift b b.pivots_size (b.pivots_size - pos)
  let b := { b with pivots := writeAt 0 b.pivots pos split_key }
  let b := { b with pointers := writeAt 0 b.pointers (pos + 1) new_id }
  { b with pivots_size := b.pivots_size + 1 }

/-- `BeNode::AddPivot` on page `id`. -/
def AddPivot (bm : BlockManager) (id split_key new_id : Nat) : Option (Bool × BlockManager) :=
  if (bm.OpenBlock id).is_leaf ≠ 0 then none else
  if new_id = 0 then none else
  match IndexOfKey (bm.OpenBlock id) split_key with
  | none => none
  | some pos =>
    let b := AddPivotBlock (bm.OpenBlock id) split_key new_id pos
    some (decide (b.pivots_size = NUM_PIVOTS), bm.store id b)

/-- The leaf loop of `Query`: `if (keys[i] == key) ret = values[i]`. -/
def QueryLeaf (b : Block) (key : Nat) : Nat → Nat → Nat → Nat
  | ret, _, 0 => ret
  | ret, i, n + 1 =>
    QueryLeaf b key (if b.keys.getD i 0 = key then b.values.getD i 0 else ret) (i + 1) n

/-- The buffer loop of `Query`, on the state `(ret, latest_timestamp, found)`. -/
def QueryBuffer (b : Block) (key : Nat) : Nat × Nat × Bool → Nat → Nat → Nat × Nat × Bool
  | st, _, 0 => st
  | (ret, latest_timestamp, found), i, n + 1 =>
    let u := b.buffer.getD i zeroUpsert
    if u.key = key ∧ u.timestamp ≥ latest_timestamp then
      QueryBuffer b key
        (if u.type = UpsertFunction.DELETE then KEY_NOT_FOUND else u.parameter, u.timestamp, true)
        (i + 1) n
    else QueryBuffer b key (ret, latest_timestamp, found) (i + 1) n

/-- The walk of `BeNode::Query` from page `id`.  Returns `ret` and the id of the page the
cursor was last resolved to (the last `Open()`; `id = orig_id` follows without an `Open()`). -/
def QueryWalk (bm : BlockManager) (key : Nat) : Nat → Nat → Nat × Nat × Bool → Option (Nat × Nat)
  | 0, _, _ => none
  | fuel + 1, id, (ret, latest_timestamp, found) =>
    let b := bm.OpenBlock id
    if b.is_leaf ≠ 0 then
      some (QueryLeaf b key ret 0 b.size, id)
    else
      match QueryBuffer b key (ret, latest_timestamp, found) 0 b.size with
      | (ret, _, true) => some (ret, id)
      | (ret, latest_timestamp, false) =>
        match IndexOfKey b key with
        | none => none
        | some i =>
          let next_id := b.pointers.getD i 0
          if next_id = 0 then none
          else QueryWalk bm key fuel next_id (ret, latest_timestamp, false)

/-- `BeNode::Query`. -/
def BeNodeQuery (bm : BlockManager) (fuel id key : Nat) : Option (Nat × Nat) :=
  QueryWalk bm key fuel id (KEY_NOT_FOUND, 0, false)

/-- `BeNode::Upsert` on page `id`, with the global `all_timestamp` (a `uint32_t`). -/
def BeNodeUpsert (bm : BlockManager) (all_timestamp id key : Nat) (type : UpsertFunction)
    (val : Nat) : Option (BlockManager × Nat) :=
  let b := bm.OpenBlock id
  if ¬ b.size < NUM_UPSERTS then none else
  let all_timestamp := (all_timestamp + 1) % 2 ^ 32
  some (bm.store id { b with buffer := writeAt zeroUpsert b.buffer b.size
                                          ⟨key, type, val, all_timestamp⟩,
                               size := b.size + 1 },
        all_timestamp)

/-! ## BeTree -/

/-- The tree object: the block manager, the root cursor and the global timestamp counter.
`root_view` is the id of the page the root cursor's `parent`/`buffer`/`pivots` pointers were
last resolved to. -/
structure Tree where
  bmanager : BlockManager
  root_id : Nat
  root_view : Nat
  all_timestamp : Nat
deriving DecidableEq, Repr

/-- `BeTree::BeTree` over a block manager just constructed on the backing store `files`
(`cur_num_blocks(0)`, nothing resident). -/
def Tree.create (files : List Block) (all_timestamp : Nat) : Tree :=
  let bm : BlockManager := ⟨0, files⟩
  let (root_id, bm) := bm.CreateBlock
  let (leaf1_id, bm) := bm.CreateBlock
  let (leaf2_id, bm) := bm.CreateBlock
  -- root setup
  let r1 := bm.OpenBlock root_id
  let bm := bm.store root_id
    { r1 with is_leaf := 0, parent := 0, pivots_size := 1,
              pivots := writeAt 0 r1.pivots 0 500000000,
              pointers := writeAt 0 (writeAt 0 r1.pointers 0 leaf1_id) 1 leaf2_id }
  -- leaf setup, parent setup
  let bm := bm.store leaf1_id { bm.OpenBlock leaf1_id with is_leaf := 1 }
  let bm := bm.store leaf2_id { bm.OpenBlock leaf2_id with is_leaf := 1 }
  let bm := bm.store leaf1_id { bm.OpenBlock leaf1_id with parent := root_id }
  let bm := bm.store leaf2_id { bm.OpenBlock leaf2_id with parent := root_id }
  ⟨bm, root_id, root_id, all_timestamp⟩

/-- A tree created in a fresh process on an empty directory. -/
def Tree.fresh : Tree := Tree.create [] 0

/-- `BeTree::CreateNewRoot`. -/
def CreateNewRoot (t : Tree) (split_key new_id : Nat) : Tree :=
  let (root_id, bm) := t.bmanager.CreateBlock
  -- *root->parent = root_id, through the pointer the root cursor holds
  let bm := bm.store t.root_view { bm.OpenBlock t.root_view with parent := root_id }
  let bm := bm.store new_id { bm.OpenBlock new_id with parent := root_id }
  let orig_root_id := t.root_id
  let r := bm.OpenBlock root_id
  let bm := bm.store root_id
    { r with is_leaf := 0, parent := 0, pivots_size := 1,
             pivots := writeAt 0 r.pivots 0 split_key,
             pointers := writeAt 0 (writeAt 0 r.pointers 0 orig_root_id) 1 new_id }
  { t with bmanager := bm, root_id := root_id, root_view := root_id }

/-- Step 1 of `FullFlush`: `do { FullFlushSetup; FlushOneLevel } while (ENSURE_SPACE)`.
Returns `flush_res`, `split_key`, `new_id`, the store and the id of `node`. -/
def FullFlushDown : Nat → BlockManager → Nat → Nat → Nat →
    Option (FlushResult × Nat × Nat × BlockManager × Nat)
  | 0, _, _, _, _ => none
  | fuel + 1, bm, node, split_key, new_id =>
    match FullFlushSetup bm node with
    | none => none
    | some bm =>
      match FlushOneLevel bm node split_key new_id with
      | none => none
      | some (FlushResult.ENSURE_SPACE, split_key, new_id, bm, node) =>
        FullFlushDown fuel bm node split_key new_id
      | some r => some r

/-- Step 2 of `FullFlush`: the `while (true)` loop that bubbles back up. -/
def FullFlushUp : Nat → Tree → Nat → FlushResult → Nat → Nat → Option Tree
  | 0, _, _, _, _, _ => none
  | fuel + 1, t, node, flush_res, split_key, new_id =>
    -- if the previous node split, deal with it
    let r : Option (FlushResult × Nat × Nat × BlockManager × Nat) :=
      if flush_res = FlushResult.SPLIT then
        match AddPivot t.bmanager node split_key new_id with
        | none => none
        | some (true, bm) =>
          match SplitInternal bm node with
          | none => none
          | some (split_key, new_id, bm) =>
            some (flush_res, split_key, new_id, bm,
                  if (bm.OpenBlock node).flush_size = 0 then new_id else node)
        | some (false, bm) => some (FlushResult.NO_SPLIT, split_key, new_id, bm, node)
      else some (flush_res, split_key, new_id, t.bmanager, node)
    match r with
    | none => none
    | some (flush_res, split_key, new_id, bm, node) =>
      -- if there are any outstanding upserts, push them down
      let r : Option (Nat × Nat × BlockManager × Nat) :=
        if (bm.OpenBlock node).flush_size > 0 then
          match FlushOneLevel bm node split_key new_id with
          | some (FlushResult.NO_SPLIT, split_key, new_id, bm, node) =>
            some (split_key, new_id, bm, node)
          | _ => none
        else some (split_key, new_id, bm, node)
      match r with
      | none => none
      | some (split_key, new_id, bm, node) =>
        let t := { t with bmanager := bm }
        if (bm.OpenBlock node).parent = 0 then
          some (if flush_res = FlushResult.SPLIT then CreateNewRoot t split_key new_id else t)
        else FullFlushUp fuel t (bm.OpenBlock node).parent flush_res split_key new_id

/-- `BeTree::FullFlush`. -/
def FullFlush (fuel : Nat) (t : Tree) : Option Tree :=
  match FullFlushDown fuel t.bmanager t.root_id 0 0 with
  | none => none
  | some (flush_res, split_key, new_id, bm, node) =>
    FullFlushUp fuel { t with bmanager := bm } node flush_res split_key new_id

/-- `BeTree::Query`: the value returned and the tree afterwards. -/
def Tree.Query (fuel : Nat) (t : Tree) (key : Nat) : Option (Nat × Tree) :=
  match BeNodeQuery t.bmanager fuel t.root_id key with
  | none => none
  | some (ret, view) => some (ret, { t with root_view := view })

/-- `BeTree::Upsert`. -/
def Tree.Upsert (fuel : Nat) (t : Tree) (key : Nat) (type : UpsertFunction) (parameter : Nat) :
    Option Tree :=
  let t' : Option Tree :=
    if (t.bmanager.OpenBlock t.root_view).size = NUM_UPSERTS then FullFlush fuel t else some t
  match t' with
  | none => none
  | some t =>
    match BeNodeUpsert t.bmanager t.all_timestamp t.root_id key type parameter with
    | none => none
    | some (bm, ts) => some { t with bmanager := bm, all_timestamp := ts, root_view := t.root_id }

def Tree.Update (fuel : Nat) (t : Tree) (key val : Nat) : Option Tree :=
  t.Upsert fuel key UpsertFunction.UPDATE val

def Tree.Delete (fuel : Nat) (t : Tree) (key : Nat) : Option Tree :=
  t.Upsert fuel key UpsertFunction.DELETE 0

def Tree.Insert (fuel : Nat) (t : Tree) (key val : Nat) : Option Tree :=
  t.Upsert fuel key UpsertFunction.INSERT val

/-! ## Operation sequences -/

/-- A call of the public interface. -/
inductive Op where
  | Insert (key val : Nat)
  | Update (key val : Nat)
  | Delete (key : Nat)
  | Query (key : Nat)
deriving DecidableEq, Repr

/-- One public call; the value returned by `Query` is dropped. -/
def Tree.step (fuel : Nat) (t : Tree) : Op → Option Tree
  | Op.Insert key val => t.Insert fuel key val
  | Op.Update key val => t.Update fuel key val
  | Op.Delete key => t.Delete fuel key
  | Op.Query key => (t.Query fuel key).map Prod.snd

/-- A sequence of public calls, none of which is fatal. -/
def Tree.run (fuel : Nat) : Tree → List Op → Option Tree
  | t, [] => some t
  | t, op :: ops =>
    match t.step fuel op with
    | none => none
    | some t => Tree.run fuel t ops

/-- The value `Query` returns. -/
def Tree.get (fuel : Nat) (t : Tree) (key : Nat) : Option Nat :=
  (t.Query fuel key).map Prod.fst

/-- `BeTree::~BeTree` followed by `BeTree::BeTree` with the same name: the destructor of the
block manager writes every resident page to its file, the constructor starts a block manager
with `cur_num_blocks = 0` over these files.  `all_timestamp` is the value of the static
counter in the process that reopens. -/
def Tree.reopen (t : Tree) (all_timestamp : Nat) : Tree :=
  Tree.create t.bmanager.internal_mem all_timestamp

/-! ## Specification-level notions -/

/-- The cells `keys[0..size)` of a leaf. -/
def liveKeys (b : Block) : List Nat := readRange 0 b.keys 0 b.size

/-- The answer a buffered message gives to a query. -/
def answerOf (u : BeUpsert) : Nat :=
  if u.type = UpsertFunction.DELETE then KEY_NOT_FOUND else u.parameter

/-- A tree of height at most `h` below page `id` in which a query is well defined: in a leaf
the live keys are pairwise distinct; in an internal node no live message is `INVALID`, two
live messages never carry the same timestamp, and every pointer `pointers[0..size]` is a
nonzero id of such a tree of smaller height. -/
def WellFormed (bm : BlockManager) : Nat → Nat → Prop
  | 0, id =>
    (bm.OpenBlock id).is_leaf ≠ 0 ∧
    ∀ i j, i < (bm.OpenBlock id).size → j < (bm.OpenBlock id).size →
      (bm.OpenBlock id).keys.getD i 0 = (bm.OpenBlock id).keys.getD j 0 → i = j
  | h + 1, id =>
    ((bm.OpenBlock id).is_leaf ≠ 0 ∧
      ∀ i j, i < (bm.OpenBlock id).size → j < (bm.OpenBlock id).size →
        (bm.OpenBlock id).keys.getD i 0 = (bm.OpenBlock id).keys.getD j 0 → i = j) ∨
    ((bm.OpenBlock id).is_leaf = 0 ∧
      (∀ i, i < (bm.OpenBlock id).size →
        ((bm.OpenBlock id).buffer.getD i zeroUpsert).type ≠ UpsertFunction.INVALID) ∧
      (∀ i j, i < (bm.OpenBlock id).size → j < (bm.OpenBlock id).size →
        ((bm.OpenBlock id).buffer.getD i zeroUpsert).timestamp =
          ((bm.OpenBlock id).buffer.getD j zeroUpsert).timestamp → i = j) ∧
      ∀ c, c ≤ (bm.OpenBlock id).pivots_size →
        (bm.OpenBlock id).pointers.getD c 0 ≠ 0 ∧
        WellFormed bm h ((bm.OpenBlock id).pointers.getD c 0))

/-- The answer of the first node that holds `key` on the walk from page `id` along
`pointers[IndexOfKey(key)]`. -/
inductive Answer (bm : BlockManager) (key : Nat) : Nat → Nat → Prop where
  | leaf_hit (id i : Nat) :
      (bm.OpenBlock id).is_leaf ≠ 0 → i < (bm.OpenBlock id).size →
      (bm.OpenBlock id).keys.getD i 0 = key →
      Answer bm key id ((bm.OpenBlock id).values.getD i 0)
  | leaf_miss (id : Nat) :
      (bm.OpenBlock id).is_leaf ≠ 0 →
      (∀ i, i < (bm.OpenBlock id).size → (bm.OpenBlock id).keys.getD i 0 ≠ key) →
      Answer bm key id KEY_NOT_FOUND
  | buffered (id i : Nat) :
      (bm.OpenBlock id).is_leaf = 0 → i < (bm.OpenBlock id).size →
      ((bm.OpenBlock id).buffer.getD i zeroUpsert).key = key →
      (∀ j, j < (bm.OpenBlock id).size →
        ((bm.OpenBlock id).buffer.getD j zeroUpsert).key = key →
        ((bm.OpenBlock id).buffer.getD j zeroUpsert).timestamp ≤
          ((bm.OpenBlock id).buffer.getD i zeroUpsert).timestamp) →
      Answer bm key id (answerOf ((bm.OpenBlock id).buffer.getD i zeroUpsert))
  | descend (id c r : Nat) :
      (bm.OpenBlock id).is_leaf = 0 →
      (∀ i, i < (bm.OpenBlock id).size →
        ((bm.OpenBlock id).buffer.getD i zeroUpsert).key ≠ key) →
      IndexOfKey (bm.OpenBlock id) key = some c →
      Answer bm key ((bm.OpenBlock id).pointers.getD c 0) r →
      Answer bm key id r

/-- The message `u` is a logical error on the leaf `b`: an `INSERT` of a key among
`keys[0..size)`, an `UPDATE` or `DELETE` of a key not among them, or any other kind. -/
def fatalAt (b : Block) (u : BeUpsert) : Prop :=
  match u.type with
  | UpsertFunction.INSERT => u.key ∈ liveKeys b
  | UpsertFunction.UPDATE => u.key ∉ liveKeys b
  | UpsertFunction.DELETE => u.key ∉ liveKeys b
  | UpsertFunction.INVALID => True

/-! ## Auxiliary definitions for the proofs -/

/-- One iteration of the loop of `UpsertLeaf`: fatal, or the page and the `full` flag. -/
def leafStep (b : Block) (u : BeUpsert) : Option (Bool × Block) :=
  match u.type with
  | UpsertFunction.INSERT =>
    match findIndex b.keys u.key 0 b.size with
    | some _ => none
    | none =>
      some (decide (b.size + 1 = NUM_DATA_PAIRS),
            { b with keys := writeAt 0 b.keys b.size u.key,
                     values := writeAt 0 b.values b.size u.parameter,
                     size := b.size + 1 })
  | UpsertFunction.UPDATE =>
    match findIndex b.keys u.key 0 b.size with
    | none => none
    | some i => some (false, { b with values := writeAt 0 b.values i u.parameter })
  | UpsertFunction.DELETE =>
    match findIndex b.keys u.key 0 b.size with
    | none => none
    | some i =>
      some (false, { shiftLeft b (i + 1) (b.size - (i + 1)) with
                       size := (shiftLeft b (i + 1) (b.size - (i + 1))).size - 1 })
  | UpsertFunction.INVALID => none

/-- The loop invariant of the buffer scan of `Query` after the cells `[0, i)`. -/
def QueryBufferInv (b : Block) (key : Nat) (i : Nat) (st : Nat × Nat × Bool) : Prop :=
  (st.2.2 = false ∧ st.1 = KEY_NOT_FOUND ∧ st.2.1 = 0 ∧
    ∀ k, k < i → (b.buffer.getD k zeroUpsert).key ≠ key) ∨
  (st.2.2 = true ∧ ∃ m, m < i ∧ (b.buffer.getD m zeroUpsert).key = key ∧
    st.1 = answerOf (b.buffer.getD m zeroUpsert) ∧
    st.2.1 = (b.buffer.getD m zeroUpsert).timestamp ∧
    ∀ k, k < i → (b.buffer.getD k zeroUpsert).key = key →
      (b.buffer.getD k zeroUpsert).timestamp ≤ (b.buffer.getD m zeroUpsert).timestamp)


/-- The pages that exist in `bm` keep their `is_leaf` word in `bm'`. -/
def LeafFrame (bm bm' : BlockManager) : Prop :=
  bm.cur_num_blocks ≤ bm'.cur_num_blocks ∧
  ∀ id, id ≤ bm.cur_num_blocks → (bm'.OpenBlock id).is_leaf = (bm.OpenBlock id).is_leaf

/-- The buffer of an internal page is within capacity, its flush region lies inside the live
prefix, and no live message is `INVALID`. -/
def Sound (b : Block) : Prop :=
  b.is_leaf = 0 →
    b.size ≤ NUM_UPSERTS ∧ b.flush_size ≤ b.size ∧
    ∀ i, i < b.size → (b.buffer.getD i zeroUpsert).type ≠ UpsertFunction.INVALID

def AllSound (bm : BlockManager) : Prop := ∀ id, Sound (bm.OpenBlock id)

/-- From `bm` to `bm2` only leaf pages were written: a page is unchanged, or it is a leaf (and
was one, if it existed); the pages created are leaves. -/
def LeafOnly (bm bm2 : BlockManager) : Prop :=
  bm.cur_num_blocks ≤ bm2.cur_num_blocks ∧
  (∀ q, bm2.OpenBlock q = bm.OpenBlock q ∨
    ((bm2.OpenBlock q).is_leaf ≠ 0 ∧ (q ≤ bm.cur_num_blocks → (bm.OpenBlock q).is_leaf ≠ 0))) ∧
  ∀ q, bm.cur_num_blocks < q → q ≤ bm2.cur_num_blocks → (bm2.OpenBlock q).is_leaf ≠ 0

/-- The pages `b` and `b'` agree on the words that make the tree: parent, kind, pivots and
pointers. -/
def SameTree (b b' : Block) : Prop :=
  b'.parent = b.parent ∧ b'.is_leaf = b.is_leaf ∧ b'.pivots_size = b.pivots_size ∧
  b'.pivots = b.pivots ∧ b'.pointers = b.pointers

/-- The pages `b` and `b'` agree on the kind and on the buffer. -/
def SameBuf (b b' : Block) : Prop :=
  b'.is_leaf = b.is_leaf ∧ b'.size = b.size ∧ b'.flush_size = b.flush_size ∧
  b'.buffer = b.buffer

def SameBufAll (bm bm' : BlockManager) : Prop :=
  ∀ q, SameBuf (bm.OpenBlock q) (bm'.OpenBlock q)

/-- From `bm` to `bm'` no flush region appeared except possibly on page `id`. -/
def PendStep (bm bm' : BlockManager) (id : Nat) : Prop :=
  ∀ q, (bm'.OpenBlock q).is_leaf = 0 → (bm'.OpenBlock q).flush_size ≠ 0 →
    q = id ∨ ((bm.OpenBlock q).is_leaf = 0 ∧ (bm.OpenBlock q).flush_size ≠ 0)

/-- One iteration of the pivot/pointer loop of `SplitInternal`. -/
def moveStep (id new_id start_index : Nat) (bm : BlockManager) (i : Nat) : BlockManager :=
  let b := bm.OpenBlock id
  let nn := bm.OpenBlock new_id
  let nn := if i < b.pivots_size then
      { nn with pivots := writeAt 0 nn.pivots (i - start_index) (b.pivots.getD i 0),
                pivots_size := nn.pivots_size + 1 }
    else nn
  let nn := { nn with pointers := writeAt 0 nn.pointers (i - start_index) (b.pointers.getD i 0) }
  let bm := bm.store new_id nn
  let c := (bm.OpenBlock id).pointers.getD i 0
  bm.store c { bm.OpenBlock c with parent := new_id }

/-- A read through a pointer; `none` when the address is not that of an object. -/
def rd {α : Type} (xs : List α) (a : Nat) : Option α := xs[a]?

/-- A write through a pointer; `none` when the address is not that of an object. -/
def wr {α : Type} (xs : List α) (a : Nat) (v : α) : Option (List α) :=
  if a < xs.length then some (xs.set a v) else none

/-- `LRULinkedList` together with the `LRUNode` objects on the heap.  A node pointer is an
index; the heap is kept field by field (`id[a]`, `pos[a]`, `prev[a]`, `next[a]` are the fields
of the node at address `a`), `nullptr` is `none`.  `new` takes the next address; a deleted
node keeps its cells. -/
structure LRULinkedList where
  id : List Nat
  pos : List Nat
  prev : List (Option Nat)
  next : List (Option Nat)
  head : Nat
  rear : Nat
deriving DecidableEq, Repr

/-- `LRULinkedList::LRULinkedList`: two sentinels `LRUNode(-1, -1)` linked to each other. -/
def LRULinkedList.new : LRULinkedList :=
  ⟨[4294967295, 4294967295], [4294967295, 4294967295], [none, some 0], [some 1, none], 0, 1⟩

/-- First half of `MoveNodeToHead`, "remove from current position":
`if (node->prev) node->prev->next = node->next; if (node->next) node->next->prev = node->prev;` -/
def LRULinkedList.unlinkNode (l : LRULinkedList) (node : Nat) : Option LRULinkedList :=
  match rd l.prev node with
  | none => none
  | some pv =>
    let l1 : Option LRULinkedList :=
      match pv with
      | none => some l
      | some p =>
        (rd l.next node).bind fun nx =>
        (wr l.next p nx).map fun next => { l with next := next }
    match l1 with
    | none => none
    | some l =>
      match rd l.next node with
      | none => none
      | some none => some l
      | some (some n) =>
        (rd l.prev node).bind fun pv =>
        (wr l.prev n pv).map fun prev => { l with prev := prev }

/-- Second half of `MoveNodeToHead`, "add to head": `node->next = head->next;
node->prev = head; head->next->prev = node; head->next = node;` -/
def LRULinkedList.linkAtHead (l : LRULinkedList) (node : Nat) : Option LRULinkedList :=
  (rd l.next l.head).bind fun hn =>
  (wr l.next node hn).bind fun next =>
  (wr l.prev node (some l.head)).bind fun prev =>
  (rd next l.head).bind fun hn =>
  match hn with
  | none => none
  | some h1 =>
    (wr prev h1 (some node)).bind fun prev =>
    (wr next l.head (some node)).map fun next => { l with prev := prev, next := next }

/-- `LRULinkedList::MoveNodeToHead`. -/
def LRULinkedList.MoveNodeToHead (l : LRULinkedList) (node : Nat) : Option LRULinkedList :=
  (l.unlinkNode node).bind fun l => l.linkAtHead node

/-- `LRULinkedList::AddNodeToHead`: the address of the new node and the list. -/
def LRULinkedList.AddNodeToHead (l : LRULinkedList) (id pos : Nat) : Option (Nat × LRULinkedList) :=
  let node := l.id.length
  let l := { l with id := l.id ++ [id], pos := l.pos ++ [pos], prev := l.prev ++ [none],
                    next := l.next ++ [none] }
  (l.MoveNodeToHead node).map fun l => (node, l)

/-- `LRULinkedList::GetRearNode` (`some none` is `nullptr`). -/
def LRULinkedList.GetRearNode (l : LRULinkedList) : Option (Option Nat) :=
  (rd l.prev l.rear).map fun rp => if rp = some l.head then none else rp

/-- `LRULinkedList::RemoveRearNode`. -/
def LRULinkedList.RemoveRearNode (l : LRULinkedList) : Option LRULinkedList :=
  (rd l.prev l.rear).bind fun rp =>
  if rp = some l.head then some l else
  match rp with
  | none => none
  | some temp =>
    -- rear->prev->prev->next = rear
    (rd l.prev temp).bind fun pp =>
    match pp with
    | none => none
    | some p =>
      (wr l.next p (some l.rear)).bind fun next =>
      -- rear->prev = rear->prev->prev
      (wr l.prev l.rear (some p)).map fun prev => { l with next := next, prev := prev }

/-- `LRUCache`; `node_hash` is the `std::unordered_map` from id to node pointer, kept as an
association list with one entry per key. -/
structure LRUCache where
  cap : Nat
  size : Nat
  node_list : LRULinkedList
  node_hash : List (Nat × Nat)
deriving DecidableEq, Repr

/-- `LRUCache::LRUCache`. -/
def LRUCache.new (cap : Nat) : LRUCache := ⟨cap, 0, LRULinkedList.new, []⟩

/-- `LRUCache::Get`: the value returned (`cap + 1` on a miss) and the cache.  `cap` is an
`int`, so that `cap + 1` is undefined when it is not below `2 ^ 31`. -/
def LRUCache.Get (c : LRUCache) (id : Nat) : Option (Nat × LRUCache) :=
  match c.node_hash.lookup id with
  | none => if c.cap + 1 < 2 ^ 31 then some (c.cap + 1, c) else none
  | some node =>
    (c.node_list.MoveNodeToHead node).bind fun l =>
    (rd l.pos node).map fun p => (p, { c with node_list := l })

/-- `LRUCache::Put` with a non-null `evicted_id`: the value returned, the content of
`*evicted_id` afterwards (`evicted_id` is its content before) and the cache. -/
def LRUCache.Put (c : LRUCache) (id evicted_id : Nat) : Option (Nat × Nat × LRUCache) :=
  (c.Get id).bind fun (pos, c) =>
  if pos ≥ c.cap then
    -- need to put the block
    let r : Option (Nat × Nat × LRUCache) :=
      if c.size = c.cap then
        -- need to evict
        match c.node_list.GetRearNode with
        | some (some to_evict) =>
          (rd c.node_list.pos to_evict).bind fun pos =>
          (rd c.node_list.id to_evict).bind fun eid =>
          (c.node_list.RemoveRearNode).map fun l =>
            (pos, eid, { c with node_hash := c.node_hash.filter (fun e => e.1 ≠ eid),
                                node_list := l, size := c.size - 1 })
        | _ => none
      else some (c.size, 0, c)
    r.bind fun (pos, evicted_id, c) =>
    (c.node_list.AddNodeToHead id pos).map fun (node, l) =>
      (pos, evicted_id,
        { c with node_list := l, size := c.size + 1,
                 node_hash := (id, node) :: c.node_hash.filter (fun e => e.1 ≠ id) })
  else some (pos, evicted_id, c)

/-- The doubly linked segment from node `x` through the nodes `as` to node `y`. -/
def Seg (prev next : List (Option Nat)) : Nat → List Nat → Nat → Prop
  | x, [], y => rd next x = some (some y) ∧ rd prev y = some (some x)
  | x, a :: as, y => rd next x = some (some a) ∧ rd prev a = some (some x) ∧ Seg prev next a as y

/-- The heap of `l` holds a well-formed list whose nodes, from the head sentinel to the rear
sentinel, are at the addresses `as`. -/
def ListWF (l : LRULinkedList) (as : List Nat) : Prop :=
  l.prev.length = l.id.length ∧ l.next.length = l.id.length ∧ l.pos.length = l.id.length ∧
  (l.head :: as ++ [l.rear]).Nodup ∧ (∀ a, a ∈ as → a < l.id.length) ∧
  Seg l.prev l.next l.head as l.rear

/-- The nodes from `a` to the rear sentinel along `next`, at most `fuel` of them. -/
def LRULinkedList.walk (l : LRULinkedList) : Nat → Nat → List Nat
  | 0, _ => []
  | fuel + 1, a =>
    if a = l.rear then [] else a :: walk l fuel ((l.next.getD a none).getD l.rear)

/-- The resident entries `(id, pos)` in list order, the node after the head sentinel first. -/
def LRUCache.entries (c : LRUCache) : List (Nat × Nat) :=
  (c.node_list.walk c.size ((c.node_list.next.getD c.node_list.head none).getD
    c.node_list.rear)).map fun a => (c.node_list.id.getD a 0, c.node_list.pos.getD a 0)

/-- The slot of a resident id: `node_hash[id]->pos`. -/
def LRUCache.slot (c : LRUCache) (id : Nat) : Option Nat :=
  (c.node_hash.lookup id).bind fun a => rd c.node_list.pos a

/-- A call of the interface of `LRUCache`; `Put` carries the content of `*evicted_id` before
the call. -/
inductive LRUCall where
  | Get (id : Nat)
  | Put (id evicted_id : Nat)
deriving DecidableEq, Repr

/-- One call: the value returned, the content of `*evicted_id` after a `Put`, the cache. -/
def LRUCache.call (c : LRUCache) : LRUCall → Option ((Nat × Option Nat) × LRUCache)
  | LRUCall.Get id => (c.Get id).map fun r => ((r.1, none), r.2)
  | LRUCall.Put id evicted_id => (c.Put id evicted_id).map fun r => ((r.1, some r.2.1), r.2.2)

/-- A sequence of calls, with the values they return. -/
def LRUCache.run (c : LRUCache) : List LRUCall → Option (List (Nat × Option Nat) × LRUCache)
  | [] => some ([], c)
  | x :: xs =>
    (c.call x).bind fun r => (run r.2 xs).map fun rs => (r.1 :: rs.1, rs.2)

/-- The reference LRU of the specification: the resident ids with their slots, the most
recently used first. -/
structure RefLRU where
  cap : Nat
  entries : List (Nat × Nat)
deriving DecidableEq, Repr

def RefLRU.new (cap : Nat) : RefLRU := ⟨cap, []⟩

/-- The entries with `id` promoted to most recently used. -/
def RefLRU.promote (r : RefLRU) (id s : Nat) : RefLRU :=
  { r with entries := (id, s) :: r.entries.filter fun e => e.1 ≠ id }

/-- `Get`: the slot of a resident id, which becomes most recently used; `none` on a miss,
which changes nothing. -/
def RefLRU.Get (r : RefLRU) (id : Nat) : Option Nat × RefLRU :=
  match r.entries.lookup id with
  | none => (none, r)
  | some s => (some s, r.promote id s)

/-- `Put`: the slot, the id reported as evicted (`none`: nothing is reported) and the state.
A resident id is promoted.  A non-resident id gets the next free slot, with 0 reported, while
fewer than `cap` ids are resident; otherwise the least recently used entry is evicted and
reported, and its slot is reused.  The new entry is most recently used. -/
def RefLRU.Put (r : RefLRU) (id : Nat) : Nat × Option Nat × RefLRU :=
  match r.entries.lookup id with
  | some s => (s, none, r.promote id s)
  | none =>
    if r.entries.length < r.cap then
      (r.entries.length, some 0, { r with entries := (id, r.entries.length) :: r.entries })
    else
      match r.entries.getLast? with
      | some victim =>
        (victim.2, some victim.1, { r with entries := (id, victim.2) :: r.entries.dropLast })
      | none => (0, some 0, r)

def RefLRU.call (r : RefLRU) : LRUCall → (Option Nat × Option Nat) × RefLRU
  | LRUCall.Get id => (((r.Get id).1, none), (r.Get id).2)
  | LRUCall.Put id _ => (((some (r.Put id).1), (r.Put id).2.1), (r.Put id).2.2)

def RefLRU.run (r : RefLRU) : List LRUCall → List (Option Nat × Option Nat) × RefLRU
  | [] => ([], r)
  | x :: xs => ((r.call x).1 :: (run (r.call x).2 xs).1, (run (r.call x).2 xs).2)

/-- The value `o` returned by the cache agrees with the value `ro` of the reference: the same
slot on a hit, a value of at least `M` on a miss, and the same id reported as evicted. -/
def LRUAgree (M : Nat) (o : Nat × Option Nat) (ro : Option Nat × Option Nat) : Prop :=
  (∀ s, ro.1 = some s → o.1 = s) ∧ (ro.1 = none → M ≤ o.1) ∧
  (∀ e, ro.2 = some e → o.2 = some e)

/-- The entry of the node at address `a`. -/
def nodeEntry (l : LRULinkedList) (a : Nat) : Nat × Nat := (l.id.getD a 0, l.pos.getD a 0)

/-- The representation invariant of `LRUCache`, with the addresses `as` of the list nodes. -/
def CacheInv (c : LRUCache) (as : List Nat) : Prop :=
  ListWF c.node_list as ∧ c.size = as.length ∧ c.size ≤ c.cap ∧
  (∀ id a, c.node_hash.lookup id = some a ↔ a ∈ as ∧ c.node_list.id.getD a 0 = id) ∧
  (c.node_hash.map Prod.fst).Nodup ∧ c.node_hash.length = c.size ∧
  (as.map fun a => c.node_list.pos.getD a 0).Perm (List.range c.size)

/-- The cache `c` represents the reference state `r`. -/
def LRURel (c : LRUCache) (r : RefLRU) : Prop :=
  ∃ as, CacheInv c as ∧ r.cap = c.cap ∧ r.entries = as.map (nodeEntry c.node_list)

/-! ## Block manager with its cache (block_manager.hpp, block_manager.cpp) -/

/-- `BLOCKS_IN_MEMORY` (block_manager.hpp). -/
def Disk.BLOCKS_IN_MEMORY : Nat := 16

/-- `BlockManager` (block_manager.hpp, block_manager.cpp) with its cache and its files: the
slots `internal_mem`, each a `block_buf` of `BLOCK_SIZE` bytes, the index `open_blocks`, and
`files`, the bytes of the file of a page id (the first entry of an id counts; no entry: no
such file).  The counters `num_reads` and `num_writes` take no part in a result and are left
out. -/
structure Disk.BlockManager where
  cur_num_blocks : Nat
  open_blocks : LRUCache
  internal_mem : List (List Nat)
  files : List (Nat × List Nat)
deriving DecidableEq, Repr

/-- `BlockManager::BlockManager`; `mem` is the indeterminate content of `new Block[16]`. -/
def Disk.BlockManager.new (mem : List (List Nat)) : Disk.BlockManager :=
  ⟨0, LRUCache.new Disk.BLOCKS_IN_MEMORY, mem, []⟩

/-- `BlockManager::CreateBlock`: `++cur_num_blocks` on a `uint32_t`; the `ofstream` creates the
file empty or truncates it. -/
def Disk.BlockManager.CreateBlock (bm : Disk.BlockManager) : Nat × Disk.BlockManager :=
  ((bm.cur_num_blocks + 1) % 2 ^ 32,
    { bm with cur_num_blocks := (bm.cur_num_blocks + 1) % 2 ^ 32,
              files := ((bm.cur_num_blocks + 1) % 2 ^ 32, []) :: bm.files })

/-- `BlockManager::WriteBlock`: the file of `id` becomes the `BLOCK_SIZE` bytes of slot `pos`. -/
def Disk.BlockManager.WriteBlock (bm : Disk.BlockManager) (id pos : Nat) :
    Option Disk.BlockManager :=
  if pos ≥ Disk.BLOCKS_IN_MEMORY then some bm
  else (rd bm.internal_mem pos).map fun buf => { bm with files := (id, buf) :: bm.files }

/-- `BlockManager::ReadBlock`: up to `BLOCK_SIZE` bytes of the file of `id` are read into slot
`pos`; the bytes of the slot beyond the end of the file stay, and nothing is read when there is
no such file. -/
def Disk.BlockManager.ReadBlock (bm : Disk.BlockManager) (id pos : Nat) :
    Option Disk.BlockManager :=
  match bm.files.lookup id with
  | none => some bm
  | some f =>
    (rd bm.internal_mem pos).bind fun buf =>
    (wr bm.internal_mem pos (f.take BLOCK_SIZE ++ buf.drop (f.take BLOCK_SIZE).length)).map
      fun m => { bm with internal_mem := m }

/-- `BlockManager::OpenBlock`: the slot and the block manager afterwards.  The local
`evicted_id` is not initialised; `Put` assigns it whenever its own `Get` misses, as it does
after the miss of the first `Get`, so that 0 stands for its content before the call. -/
def Disk.BlockManager.OpenBlock (bm : Disk.BlockManager) (id : Nat) :
    Option (Nat × Disk.BlockManager) :=
  (bm.open_blocks.Get id).bind fun (pos, c) =>
  if pos < Disk.BLOCKS_IN_MEMORY then some (pos, { bm with open_blocks := c })
  else
    (c.Put id 0).bind fun (pos, evicted_id, c) =>
    (if evicted_id > 0 then
      Disk.BlockManager.WriteBlock { bm with open_blocks := c } evicted_id pos
     else some { bm with open_blocks := c }).bind fun bm =>
    (wr bm.internal_mem pos (List.replicate BLOCK_SIZE 0)).bind fun m =>
    (Disk.BlockManager.ReadBlock { bm with internal_mem := m } id pos).map fun bm => (pos, bm)

/-- A user of the block manager in the manner of `BeNode`: `slot_of` holds, for a page, the
slot that the most recent `OpenBlock` of that page returned (`BeNode::Open` keeps pointers into
that slot and the node is written through them). -/
structure Disk.Client where
  bm : Disk.BlockManager
  slot_of : List (Nat × Nat)
deriving DecidableEq, Repr

/-- The calls of a user: `CreateBlock`, `OpenBlock(id)`, and a write of the byte `b` at offset
`off` of page `id`, into the slot that the most recent `OpenBlock(id)` returned. -/
inductive Disk.Call where
  | CreateBlock
  | OpenBlock (id : Nat)
  | Write (id off b : Nat)
deriving DecidableEq, Repr

def Disk.Client.new (mem : List (List Nat)) : Disk.Client := ⟨Disk.BlockManager.new mem, []⟩

/-- One call; `none` when the call is fatal or a page is written that was never opened.  A
write stores one byte of the buffer of the slot. -/
def Disk.Client.call (cl : Disk.Client) : Disk.Call → Option Disk.Client
  | Disk.Call.CreateBlock => some { cl with bm := cl.bm.CreateBlock.2 }
  | Disk.Call.OpenBlock id =>
    (cl.bm.OpenBlock id).map fun r => ⟨r.2, (id, r.1) :: cl.slot_of⟩
  | Disk.Call.Write id off b =>
    (cl.slot_of.lookup id).bind fun pos =>
    (rd cl.bm.internal_mem pos).bind fun buf =>
    (wr cl.bm.internal_mem pos (buf.set off b)).map fun m =>
      { cl with bm := { cl.bm with internal_mem := m } }

def Disk.Client.run (cl : Disk.Client) : List Disk.Call → Option Disk.Client
  | [] => some cl
  | x :: xs => (cl.call x).bind fun cl => Disk.Client.run cl xs

/-- The content of page `id` in the backing store `st` of the specification, a map from page
id to page image kept as the list of the images written, the most recent first: the content
last written, all zeros if the page was never written. -/
def Disk.refRead (st : List (Nat × List Nat)) (id : Nat) : List Nat :=
  (st.lookup id).getD (List.replicate BLOCK_SIZE 0)

/-- The effect of a call on the backing store of the specification. -/
def Disk.refStep (st : List (Nat × List Nat)) : Disk.Call → List (Nat × List Nat)
  | Disk.Call.Write id off b => (id, (Disk.refRead st id).set off b) :: st
  | _ => st

/-- The backing store of the specification after the calls. -/
def Disk.refStore (calls : List Disk.Call) : List (Nat × List Nat) :=
  calls.foldl Disk.refStep []

/-- The calls of the claim: any `CreateBlock`, `OpenBlock` of a created id, and a write into
the slot that the most recent `OpenBlock` of the page returned. -/
def Disk.Client.permits (cl : Disk.Client) : Disk.Call → Bool
  | Disk.Call.CreateBlock => true
  | Disk.Call.OpenBlock id => decide (1 ≤ id ∧ id ≤ cl.bm.cur_num_blocks)
  | Disk.Call.Write id off _ => decide (off < BLOCK_SIZE) && (cl.slot_of.lookup id).isSome

def Disk.Client.permitsRun (cl : Disk.Client) : List Disk.Call → Bool
  | [] => true
  | x :: xs =>
    cl.permits x &&
      match cl.call x with
      | some cl => Disk.Client.permitsRun cl xs
      | none => true

/-- The calls with the writes restricted to pages that are resident at the time of the write,
and with fewer than `2 ^ 32` pages created. -/
def Disk.Client.valid (cl : Disk.Client) : Disk.Call → Bool
  | Disk.Call.CreateBlock => decide (cl.bm.cur_num_blocks + 1 < 2 ^ 32)
  | Disk.Call.OpenBlock id => decide (1 ≤ id ∧ id ≤ cl.bm.cur_num_blocks)
  | Disk.Call.Write id off _ =>
    decide (off < BLOCK_SIZE) && (cl.bm.open_blocks.slot id).isSome

def Disk.Client.validRun (cl : Disk.Client) : List Disk.Call → Bool
  | [] => true
  | x :: xs =>
    cl.valid x &&
      match cl.call x with
      | some cl => Disk.Client.validRun cl xs
      | none => true

/-- The content of a slot after `memset` and `ReadBlock` of a file with the bytes `f`. -/
def Disk.load (f : List Nat) : List Nat :=
  f.take BLOCK_SIZE ++ (List.replicate BLOCK_SIZE 0).drop (f.take BLOCK_SIZE).length

/-- The cache of `cl` is coherent with the backing store `st` of the specification. -/
def Disk.Coh (cl : Disk.Client) (st : List (Nat × List Nat)) : Prop :=
  (∃ as, CacheInv cl.bm.open_blocks as) ∧ cl.bm.open_blocks.cap = Disk.BLOCKS_IN_MEMORY ∧
  cl.bm.internal_mem.length = Disk.BLOCKS_IN_MEMORY ∧
  (∀ id s, cl.bm.open_blocks.slot id = some s →
    rd cl.bm.internal_mem s = some (Disk.refRead st id) ∧ cl.slot_of.lookup id = some s ∧
    1 ≤ id ∧ id ≤ cl.bm.cur_num_blocks) ∧
  (∀ id, 1 ≤ id → id ≤ cl.bm.cur_num_blocks → cl.bm.open_blocks.slot id = none →
    ∃ f, cl.bm.files.lookup id = some f ∧ Disk.load f = Disk.refRead st id) ∧
  (∀ id, (Disk.refRead st id).length = BLOCK_SIZE) ∧
  (∀ id, cl.bm.cur_num_blocks < id → st.lookup id = none)

/-- The calls of the example: 17 pages are created and opened in turn, which evicts page 1
from slot 0 and loads page 17 into it; then page 1 is written through slot 0. -/
def Disk.staleCalls : List Disk.Call :=
  List.replicate 17 Disk.Call.CreateBlock ++
    (List.range 17).map (fun i => Disk.Call.OpenBlock (i + 1)) ++
    [Disk.Call.Write 1 0 7]

/-- The calls of the example: 17 pages are created, page 1 is opened and written, and the
pages 2 to 17 are opened, which evicts page 1. -/
def Disk.evictCalls : List Disk.Call :=
  List.replicate 17 Disk.Call.CreateBlock ++
    [Disk.Call.OpenBlock 1, Disk.Call.Write 1 0 7] ++
    (List.range 16).map (fun i => Disk.Call.OpenBlock (i + 2))

/-! ## Examples -/

/-- The calls `Insert(i + 1, i)` for `i = 0..246`, which fill the buffer of the root, followed
by `Query(1000)`. -/
def fullRootOps : List Op :=
  (List.range 247).map (fun i => Op.Insert (i + 1) i) ++ [Op.Query 1000]

/-- The fresh tree after `Query(5)`: the view of the root cursor is on the leaf page 2. -/
def staleFresh : Tree := { Tree.fresh with root_view := 2 }

/-- No two of the cells `buf[0..n)` carry the same timestamp. -/
def TsDistinct (buf : List BeUpsert) (n : Nat) : Prop :=
  ∀ i j, i < n → j < n → (buf.getD i zeroUpsert).timestamp = (buf.getD j zeroUpsert).timestamp →
    i = j

/-- The root of the fresh tree after `Insert(5, 50)` and `Insert(6, 60)`. -/
def twoMessages : Block :=
  ⟨0, 0, 2, 0, [⟨5, UpsertFunction.INSERT, 50, 1⟩, ⟨6, UpsertFunction.INSERT, 60, 2⟩], 1,
    [500000000], [2, 3], [], []⟩

/-- The page `twoMessages` after `FullFlushSetup`. -/
def twoMessagesSetup : Block :=
  ⟨0, 0, 2, 2, [⟨6, UpsertFunction.INSERT, 60, 2⟩, ⟨5, UpsertFunction.INSERT, 50, 1⟩], 1,
    [500000000], [2, 3], [], []⟩

/-! ## Leaf pairs and the reference map -/

/-- The key/value pairs `(keys[i], values[i])`, `i < size`, of a leaf page, in index order. -/
def leafPairs (b : Block) : List (Nat × Nat) :=
  (List.range b.size).map fun i => (b.keys.getD i 0, b.values.getD i 0)

/-- The reference map of the specification, as the list of its pairs: `INSERT` of an absent
key appends the pair, `UPDATE` of a present key overwrites its value, `DELETE` of a present key
removes its pair and keeps the order of the others; any other message is not valid. -/
def refLeafStep (m : List (Nat × Nat)) (u : BeUpsert) : Option (List (Nat × Nat)) :=
  match u.type with
  | UpsertFunction.INSERT =>
    if u.key ∈ m.map Prod.fst then none else some (m ++ [(u.key, u.parameter)])
  | UpsertFunction.UPDATE =>
    if u.key ∈ m.map Prod.fst then
      some (m.map fun p => if p.1 = u.key then (p.1, u.parameter) else p)
    else none
  | UpsertFunction.DELETE =>
    if u.key ∈ m.map Prod.fst then some (m.filter fun p => p.1 ≠ u.key) else none
  | UpsertFunction.INVALID => none

/-- The reference for `UpsertLeaf`: the messages `upsert[n-1], ..., upsert[0]` are applied to
the reference map in this order; when an `INSERT` brings the number of pairs to
`NUM_DATA_PAIRS` the result is `true` with the number of messages not yet applied, otherwise
`false` with 0.  `none`: a message is not valid. -/
def refLeaf (upsert : List BeUpsert) :
    List (Nat × Nat) → Nat → Option (Bool × List (Nat × Nat) × Nat)
  | m, 0 => some (false, m, 0)
  | m, n + 1 =>
    match refLeafStep m (upsert.getD n zeroUpsert) with
    | none => none
    | some m' =>
      if (upsert.getD n zeroUpsert).type = UpsertFunction.INSERT ∧ m'.length = NUM_DATA_PAIRS
      then some (true, m', n)
      else refLeaf upsert m' n

/-- A leaf with the pairs `(5, 50)` and `(7, 70)`. -/
def twoPairs : Block := ⟨1, 1, 2, 0, [], 0, [], [], [5, 7], [50, 70]⟩

/-- A store whose leaf page 2 holds the pairs `(7, 70)`, `(5, 50)`, `(9, 90)`. -/
def splitExample : BlockManager :=
  Tree.fresh.bmanager.store 2 ⟨1, 1, 3, 0, [], 0, [], [], [7, 5, 9], [70, 50, 90]⟩

/-! ## Internal split: buffers as lists -/

/-- Page `q` is one of the children `pointers[j]`, `i ≤ j < i + n`, of page `b`. -/
def MovedChild (b : Block) (i n q : Nat) : Prop :=
  ∃ j, i ≤ j ∧ j < i + n ∧ q = b.pointers.getD j 0

/-- A store of 17 pages whose page 1 is an internal node with the pivots 10, 20, ..., 150 and
the pointers 2, 3, ..., 17. -/
def splitInternalExample : BlockManager :=
  ⟨17, [zeroBlock, ⟨0, 0, 0, 0, [], 15, (List.range 15).map (fun i => 10 * (i + 1)),
    (List.range 16).map (fun i => i + 2), [], []⟩]⟩

/-- The messages `buffer[0..size)` of a node. -/
def liveBuffer (b : Block) : List BeUpsert := readRange zeroUpsert b.buffer 0 b.size

/-- The flush region `buffer[size - flush_size .. size)` of a node. -/
def flushRegion (b : Block) : List BeUpsert :=
  readRange zeroUpsert b.buffer (b.size - b.flush_size) b.flush_size

/-- The mark that the copy loops of `SplitInternal` leave on a message that moves. -/
def markMoved (sk : Nat) (u : BeUpsert) : BeUpsert :=
  if u.key ≥ sk then { u with type := UpsertFunction.INVALID } else u

def splitBufferExample : BlockManager :=
  ⟨17, [zeroBlock, ⟨0, 0, 4, 1, [⟨15, UpsertFunction.INSERT, 1, 1⟩, ⟨105, UpsertFunction.DELETE, 0, 2⟩, ⟨80, UpsertFunction.UPDATE, 5, 3⟩, ⟨85, UpsertFunction.INSERT, 7, 4⟩], 15, (List.range 15).map (fun i => 10 * (i + 1)), (List.range 16).map (fun i => i + 2), [], []⟩]⟩

/-! ## Routing, pivots and the flush setup -/

/-- A node with the pivots `10, 20, 30`. -/
def threePivots : Block := ⟨0, 0, 0, 0, [], 3, [10, 20, 30], [2, 3, 4, 5], [], []⟩

/-- A store whose page 1 is an internal node with the pivots `10, 20, 30`. -/
def addPivotExample : BlockManager :=
  ⟨5, [zeroBlock, ⟨0, 0, 0, 0, [], 3, [10, 20, 30], [2, 3, 4, 5], [], []⟩]⟩

/-- The number of live messages of `b` that `IndexOfKey` routes to child `c`. -/
def routedCount (b : Block) (c : Nat) : Nat :=
  ((liveBuffer b).filter (fun u => IndexOfKey b u.key = some c)).length

/-- The index map of a swap of the cells `i` and `j`. -/
def swapIdx (i j k : Nat) : Nat := if k = i then j else if k = j then i else k

/-- A store whose page 1 is an internal node with the pivots `10, 20, 30` and five buffered
messages: one for child 0, two for child 1 and two for child 2. -/
def setupExample : BlockManager :=
  ⟨5, [zeroBlock, ⟨0, 0, 5, 0, [⟨12, UpsertFunction.INSERT, 0, 1⟩, ⟨25, UpsertFunction.INSERT, 0, 2⟩, ⟨5, UpsertFunction.INSERT, 0, 3⟩, ⟨27, UpsertFunction.INSERT, 0, 4⟩, ⟨15, UpsertFunction.INSERT, 0, 5⟩], 3, [10, 20, 30], [2, 3, 4, 5], [], []⟩]⟩

/-! ## Flushing into a child -/

/-- A store whose page 1 is an internal node with a flush region of 12 messages (keys
`1, ..., 12`, timestamps descending) and whose page 2 is an internal child of page 1 with 236
buffered messages, so that 11 cells of its buffer are empty. -/
def partialFlushExample : BlockManager :=
  ⟨5, [zeroBlock, ⟨0, 0, 12, 12, (List.range 12).map (fun i => ⟨i + 1, UpsertFunction.INSERT, 0, 400 - i⟩), 1, [500], [2, 3], [], []⟩, ⟨1, 0, 236, 0, (List.range 236).map (fun i => ⟨200 + i, UpsertFunction.INSERT, 0, 100 + i⟩), 1, [100], [4, 5], [], []⟩]⟩

/-- The pointer `to_flush` of `FlushOneLeaf`: the cells of the buffer from the start of the
flush region on, so that `to_flush[0]` is the first (newest) message of the region. -/
def flushCells (b : Block) : List BeUpsert := b.buffer.drop (b.size - b.flush_size)

/-- The reference map applied to the messages `upsert[n-1], ..., upsert[0]` in this order,
without a bound on the number of pairs; `none`: a message is not valid at its turn. -/
def refRun (upsert : List BeUpsert) : List (Nat × Nat) → Nat → Option (List (Nat × Nat))
  | m, 0 => some m
  | m, n + 1 =>
    match refLeafStep m (upsert.getD n zeroUpsert) with
    | none => none
    | some m' => refRun upsert m' n

/-- The leaf page with parent `parent` that holds the pairs `L` in this order. -/
def leafOf (L : List (Nat × Nat)) (parent : Nat) : Block :=
  ⟨parent, 1, L.length, 0, [], 0, [], [], L.map Prod.fst, L.map Prod.snd⟩

/-- The 509 pairs `(2, 0), (4, 0), ..., (1018, 0)`. -/
def evens : List (Nat × Nat) := (List.range 509).map (fun i => (2 * (i + 1), 0))

/-- A store whose page 1 is an internal node whose buffer is the flush region `region` and
whose page 2 is a leaf child of page 1 holding the 509 pairs `evens`. -/
def leafFlushExample (region : List BeUpsert) : BlockManager :=
  ⟨3, [zeroBlock, ⟨0, 0, region.length, region.length, region, 1, [5000], [2, 3], [], []⟩, leafOf evens 1, leafOf [] 1]⟩

/-- A flush region, newest message first: `INSERT 2001`, `INSERT 3`, `INSERT 5`. -/
def straddleRegion : List BeUpsert :=
  [⟨2001, UpsertFunction.INSERT, 0, 3⟩, ⟨3, UpsertFunction.INSERT, 0, 2⟩, ⟨5, UpsertFunction.INSERT, 0, 1⟩]

/-- A flush region, newest message first: `INSERT 2001`, `UPDATE 4`, `INSERT 5`. -/
def updateRegion : List BeUpsert :=
  [⟨2001, UpsertFunction.INSERT, 0, 3⟩, ⟨4, UpsertFunction.UPDATE, 7, 2⟩, ⟨5, UpsertFunction.INSERT, 0, 1⟩]

/-! ## Single-target flush regions -/

/-- The flush region of a node has a single target: `IndexOfKey` routes all its messages to
the same child. -/
def SingleTarget (b : Block) : Prop :=
  ∀ u v, u ∈ flushRegion b → v ∈ flushRegion b → IndexOfKey b u.key = IndexOfKey b v.key

/-- A store whose page 1 is an internal node with the pivots `10, 20, 30` and a flush region
of two messages with the keys 17 and 12, both routed to child 1. -/
def straddleExample : BlockManager :=
  ⟨5, [zeroBlock, ⟨0, 0, 2, 2, [⟨17, UpsertFunction.INSERT, 0, 2⟩, ⟨12, UpsertFunction.INSERT, 0, 1⟩], 3, [10, 20, 30], [2, 3, 4, 5], [], []⟩]⟩

/-! ## Reference runs and the messages handed to a leaf -/

/-- The cells `to_flush[0..n)` that `FlushOneLeaf` hands to `UpsertLeaf`, in index order, `n`
being the smaller of `flush_size` and `LEAF_FLUSH_THRESHOLD`. -/
def handed (b : Block) : List BeUpsert :=
  readRange zeroUpsert b.buffer (b.size - b.flush_size) (min b.flush_size LEAF_FLUSH_THRESHOLD)

/-- The reference map under a list of messages applied in list order, first message first:
fatal (`none`) when a message is not valid at its turn; when an `INSERT` brings the number of
pairs to `NUM_DATA_PAIRS` the result is `true` with the number of messages not yet applied,
otherwise `false` with 0. -/
def refFold : List BeUpsert → List (Nat × Nat) → Option (Bool × List (Nat × Nat) × Nat)
  | [], m => some (false, m, 0)
  | u :: rest, m =>
    match refLeafStep m u with
    | none => none
    | some m' =>
      if u.type = UpsertFunction.INSERT ∧ m'.length = NUM_DATA_PAIRS
      then some (true, m', rest.length)
      else refFold rest m'

/-- The root of the fresh tree after `Insert(5, 50)` and `Update(5, 70)`. -/
def insertThenUpdate : Block :=
  ⟨0, 0, 2, 0, [⟨5, UpsertFunction.INSERT, 50, 1⟩, ⟨5, UpsertFunction.UPDATE, 70, 2⟩], 1,
    [500000000], [2, 3], [], []⟩

/-- The store of the fresh tree with the root page `twoMessagesSetup`. -/
def twoMessagesStore : BlockManager := Tree.fresh.bmanager.store 1 twoMessagesSetup

/-! ## Arrays and the page store -/

theorem getD_writeAt {α : Type} (d : α) (l : List α) (i j : Nat) (x : α) :
    (writeAt d l i x).getD j d = if j = i then x else l.getD j d := by
  unfold writeAt
  by_cases h : i < l.length
  · simp only [h, if_true, List.getD_eq_getElem?_getD, List.getElem?_set]
    by_cases hji : j = i
    · subst hji; simp [h]
    · have : ¬ i = j := fun e => hji e.symm
      simp [hji, this]
  · simp only [h, if_false, List.getD_eq_getElem?_getD]
    have hl : l.length ≤ i := Nat.le_of_not_lt h
    by_cases hji : j = i
    · subst hji
      rw [List.getElem?_append_right (by simp; omega)]
      have e : j - (l ++ List.replicate (j - l.length) d).length = 0 := by simp; omega
      rw [e]; simp
    · simp only [hji, if_false]
      by_cases hj : j < l.length
      · rw [List.append_assoc, List.getElem?_append_left hj]
      · have hj' : l.length ≤ j := Nat.le_of_not_lt hj
        rw [List.append_assoc, List.getElem?_append_right hj', List.getElem?_eq_none hj']
        by_cases hj2 : j - l.length < i - l.length
        · rw [List.getElem?_append_left (by simpa using hj2)]
          simp [hj2]
        · rw [List.getElem?_append_right (by simpa using Nat.le_of_not_lt hj2)]
          have e : ∃ m, j - l.length - (List.replicate (i - l.length) d).length = m + 1 :=
            ⟨j - l.length - (i - l.length) - 1, by simp; omega⟩
          obtain ⟨m, hm⟩ := e
          rw [hm]
          simp

theorem OpenBlock_store (bm : BlockManager) (i j : Nat) (b : Block) :
    (bm.store i b).OpenBlock j = if j = i then b else bm.OpenBlock j := by
  unfold BlockManager.store BlockManager.OpenBlock
  exact getD_writeAt zeroBlock bm.internal_mem i j b

theorem OpenBlock_store_same (bm : BlockManager) (i : Nat) (b : Block) :
    (bm.store i b).OpenBlock i = b := by simp [OpenBlock_store]

theorem OpenBlock_store_ne (bm : BlockManager) (i j : Nat) (b : Block) (h : j ≠ i) :
    (bm.store i b).OpenBlock j = bm.OpenBlock j := by simp [OpenBlock_store, h]


theorem OpenBlock_created (bm : BlockManager) (j : Nat) :
    bm.created.OpenBlock j = if j = bm.cur_num_blocks + 1 then zeroBlock else bm.OpenBlock j := by
  unfold BlockManager.created
  rw [OpenBlock_store]
  rfl

theorem cur_created (bm : BlockManager) : bm.created.cur_num_blocks = bm.cur_num_blocks + 1 := rfl

theorem cur_store (bm : BlockManager) (i : Nat) (b : Block) :
    (bm.store i b).cur_num_blocks = bm.cur_num_blocks := rfl


/-! ## Leaf application: fatal errors -/

theorem UpsertLeafLoop_succ (upsert : List BeUpsert) (b : Block) (num : Nat) :
    UpsertLeafLoop upsert b (num + 1) =
      match leafStep b (upsert.getD num zeroUpsert) with
      | none => none
      | some (true, b1) => some (true, b1, num)
      | some (false, b1) => UpsertLeafLoop upsert b1 num := by
  rw [UpsertLeafLoop]
  unfold leafStep
  cases hty : (upsert.getD num zeroUpsert).type <;> simp only []
  · cases hfi : findIndex b.keys (upsert.getD num zeroUpsert).key 0 b.size <;> simp only []
    by_cases hfull : b.size + 1 = NUM_DATA_PAIRS <;> simp [hfull]
  · cases hfi : findIndex b.keys (upsert.getD num zeroUpsert).key 0 b.size <;> simp only []
  · cases hfi : findIndex b.keys (upsert.getD num zeroUpsert).key 0 b.size <;> simp only []

theorem findIndex_eq_none (keys : List Nat) (key : Nat) (n j : Nat) :
    findIndex keys key j n = none ↔ ∀ k, j ≤ k → k < j + n → keys.getD k 0 ≠ key := by
  induction n generalizing j with
  | zero => simp [findIndex]; intro k h1 h2; omega
  | succ n ih =>
    rw [findIndex]
    by_cases h : keys.getD j 0 = key
    · simp only [h, if_true]
      constructor
      · intro h'; cases h'
      · intro h'; exact absurd h (h' j (Nat.le_refl j) (by omega))
    · simp only [h, if_false, ih]
      constructor
      · intro h' k h1 h2
        by_cases e : k = j
        · subst e; exact h
        · exact h' k (by omega) (by omega)
      · intro h' k h1 h2
        exact h' k (by omega) (by omega)

theorem getD_readRange {α : Type} (d : α) (l : List α) (i n k : Nat) (h : k < n) :
    (readRange d l i n).getD k d = l.getD (i + k) d := by
  unfold readRange
  simp [List.getD_eq_getElem?_getD, List.getElem?_map, List.getElem?_range h]

theorem mem_readRange {α : Type} (d : α) (l : List α) (i n : Nat) (x : α) :
    x ∈ readRange d l i n ↔ ∃ k, k < n ∧ l.getD (i + k) d = x := by
  unfold readRange
  simp [List.mem_map]

theorem mem_liveKeys (b : Block) (key : Nat) :
    key ∈ liveKeys b ↔ ∃ k, k < b.size ∧ b.keys.getD k 0 = key := by
  unfold liveKeys
  rw [mem_readRange]
  simp

theorem findIndex_live (b : Block) (key : Nat) :
    findIndex b.keys key 0 b.size = none ↔ key ∉ liveKeys b := by
  rw [findIndex_eq_none, mem_liveKeys]
  constructor
  · rintro h ⟨k, hk, e⟩
    exact h k (Nat.zero_le k) (by omega) e
  · intro h k _ hk e
    exact h ⟨k, by omega, e⟩

theorem leafStep_eq_none (b : Block) (u : BeUpsert) : leafStep b u = none ↔ fatalAt b u := by
  unfold leafStep fatalAt
  cases hty : u.type <;> simp only []
  · cases hfi : findIndex b.keys u.key 0 b.size
    · have := (findIndex_live b u.key).1 hfi
      simp [this]
    · have : ¬ (findIndex b.keys u.key 0 b.size = none) := by simp [hfi]
      rw [findIndex_live] at this
      simp
      exact not_not.1 this
  · cases hfi : findIndex b.keys u.key 0 b.size
    · have := (findIndex_live b u.key).1 hfi
      simp [this]
    · have : ¬ (findIndex b.keys u.key 0 b.size = none) := by simp [hfi]
      rw [findIndex_live] at this
      simp
      exact not_not.1 this
  · cases hfi : findIndex b.keys u.key 0 b.size
    · have := (findIndex_live b u.key).1 hfi
      simp [this]
    · have : ¬ (findIndex b.keys u.key 0 b.size = none) := by simp [hfi]
      rw [findIndex_live] at this
      simp
      exact not_not.1 this

theorem getD_drop {α : Type} (d : α) (l : List α) (i j : Nat) :
    (l.drop i).getD j d = l.getD (i + j) d := by
  simp [List.getD_eq_getElem?_getD, List.getElem?_drop]

theorem UpsertLeafLoop_fatal_iff (upsert : List BeUpsert) (num : Nat) (b : Block) :
    UpsertLeafLoop upsert b num = none ↔
      ∃ j b', j < num ∧
        UpsertLeafLoop (upsert.drop (j + 1)) b (num - (j + 1)) = some (false, b', 0) ∧
        fatalAt b' (upsert.getD j zeroUpsert) := by
  induction num generalizing b with
  | zero => simp [UpsertLeafLoop]
  | succ n ih =>
    have hstep : ∀ j, j < n →
        UpsertLeafLoop (upsert.drop (j + 1)) b (n + 1 - (j + 1)) =
          match leafStep b (upsert.getD n zeroUpsert) with
          | none => none
          | some (true, b1) => some (true, b1, n - (j + 1))
          | some (false, b1) => UpsertLeafLoop (upsert.drop (j + 1)) b1 (n - (j + 1)) := by
      intro j hj
      have e : n + 1 - (j + 1) = (n - (j + 1)) + 1 := by omega
      rw [e, UpsertLeafLoop_succ, getD_drop]
      have e2 : j + 1 + (n - (j + 1)) = n := by omega
      rw [e2]
    rw [UpsertLeafLoop_succ]
    constructor
    · intro h
      cases hs : leafStep b (upsert.getD n zeroUpsert) with
      | none =>
        refine ⟨n, b, Nat.lt_succ_self n, ?_, (leafStep_eq_none _ _).1 hs⟩
        simp [UpsertLeafLoop]
      | some r =>
        obtain ⟨fl, b1⟩ := r
        rw [hs] at h
        cases fl with
        | true => simp at h
        | false =>
          simp only [] at h
          obtain ⟨j, b', hj, hrun, hfat⟩ := (ih b1).1 h
          refine ⟨j, b', by omega, ?_, hfat⟩
          rw [hstep j hj, hs]
          exact hrun
    · rintro ⟨j, b', hj, hrun, hfat⟩
      by_cases hjn : j = n
      · subst hjn
        simp [UpsertLeafLoop] at hrun
        subst hrun
        rw [(leafStep_eq_none _ _).2 hfat]
      · have hj' : j < n := by omega
        rw [hstep j hj'] at hrun
        cases hs : leafStep b (upsert.getD n zeroUpsert) with
        | none => rfl
        | some r =>
          obtain ⟨fl, b1⟩ := r
          rw [hs] at hrun
          cases fl with
          | true => simp at hrun
          | false =>
            simp only [] at hrun ⊢
            exact (ih b1).2 ⟨j, b', hj', hrun, hfat⟩

/-- Claim C10.  On a leaf, `UpsertLeaf` is fatal exactly when, after some messages
`upsert[num-1], ..., upsert[j+1]` have been applied without error and without filling the leaf,
the next message `upsert[j]` is an `INSERT` of a key already among `keys[0..size)`, an `UPDATE`
or `DELETE` of a key not among them, or a message of another kind (`fatalAt`). -/
theorem UpsertLeaf_fatal_iff (upsert : List BeUpsert) (num : Nat) (b : Block)
    (hleaf : b.is_leaf ≠ 0) :
    UpsertLeaf upsert b num = none ↔
      ∃ j b', j < num ∧
        UpsertLeaf (upsert.drop (j + 1)) b (num - (j + 1)) = some (false, b', 0) ∧
        fatalAt b' (upsert.getD j zeroUpsert) := by
  unfold UpsertLeaf
  simp only [hleaf, if_false]
  exact UpsertLeafLoop_fatal_iff upsert num b

/-! ## Query -/

theorem IndexOfKeyLoop_total (pivots : List Nat) (size key : Nat) (n i : Nat)
    (hi : i ≤ size) (hn : i + n = size + 1) (hinv : i = 0 ∨ key ≥ pivots.getD (i - 1) 0) :
    ∃ c, i ≤ c ∧ c ≤ size ∧ IndexOfKeyLoop pivots size key i n = some c := by
  induction n generalizing i with
  | zero => omega
  | succ n ih =>
    rw [IndexOfKeyLoop]
    by_cases hc : (i = size ∨ key < pivots.getD i 0) ∧ (i = 0 ∨ key ≥ pivots.getD (i - 1) 0)
    · rw [if_pos hc]
      exact ⟨i, Nat.le_refl i, by omega, rfl⟩
    · rw [if_neg hc]
      have h1 : ¬ (i = size ∨ key < pivots.getD i 0) := fun h => hc ⟨h, hinv⟩
      have h2 : i ≠ size := fun e => h1 (Or.inl e)
      have h3 : ¬ key < pivots.getD i 0 := fun e => h1 (Or.inr e)
      obtain ⟨c, hc1, hc2, hc3⟩ :=
        ih (i + 1) (by omega) (by omega) (Or.inr (by simpa using Nat.le_of_not_lt h3))
      exact ⟨c, by omega, hc2, hc3⟩

theorem IndexOfKey_total (b : Block) (key : Nat) (h : b.is_leaf = 0) :
    ∃ c, c ≤ b.pivots_size ∧ IndexOfKey b key = some c := by
  unfold IndexOfKey
  simp only [h, ne_eq, not_true_eq_false, if_false]
  obtain ⟨c, _, hc2, hc3⟩ :=
    IndexOfKeyLoop_total b.pivots b.pivots_size key (b.pivots_size + 1) 0 (by omega) (by omega)
      (Or.inl rfl)
  exact ⟨c, hc2, hc3⟩

theorem QueryLeaf_spec (b : Block) (key : Nat) (n i ret : Nat) :
    (QueryLeaf b key ret i n = ret ∧ ∀ k, i ≤ k → k < i + n → b.keys.getD k 0 ≠ key) ∨
    (∃ k, i ≤ k ∧ k < i + n ∧ b.keys.getD k 0 = key ∧
      QueryLeaf b key ret i n = b.values.getD k 0) := by
  induction n generalizing i ret with
  | zero => left; exact ⟨rfl, fun k h1 h2 => by omega⟩
  | succ n ih =>
    rw [QueryLeaf]
    by_cases hk : b.keys.getD i 0 = key
    · rw [if_pos hk]
      right
      rcases ih (i + 1) (b.values.getD i 0) with ⟨h1, _⟩ | ⟨k, h1, h2, h3, h4⟩
      · exact ⟨i, Nat.le_refl i, by omega, hk, h1⟩
      · exact ⟨k, by omega, by omega, h3, h4⟩
    · rw [if_neg hk]
      rcases ih (i + 1) ret with ⟨h1, h2⟩ | ⟨k, h1, h2, h3, h4⟩
      · left
        refine ⟨h1, fun k hk1 hk2 => ?_⟩
        by_cases e : k = i
        · subst e; exact hk
        · exact h2 k (by omega) (by omega)
      · right; exact ⟨k, by omega, by omega, h3, h4⟩

theorem QueryBuffer_inv (b : Block) (key : Nat) (n i : Nat) (st : Nat × Nat × Bool)
    (h : QueryBufferInv b key i st) : QueryBufferInv b key (i + n) (QueryBuffer b key st i n) := by
  induction n generalizing i st with
  | zero => obtain ⟨r, l, f⟩ := st; simpa [QueryBuffer] using h
  | succ n ih =>
    obtain ⟨ret, lt, found⟩ := st
    rw [QueryBuffer]
    have e : i + (n + 1) = (i + 1) + n := by omega
    rw [e]
    by_cases hc : (b.buffer.getD i zeroUpsert).key = key ∧ (b.buffer.getD i zeroUpsert).timestamp ≥ lt
    · simp only [hc, and_self, if_true]
      apply ih
      right
      refine ⟨rfl, i, by omega, hc.1, ?_, rfl, ?_⟩
      · simp [answerOf]
      · intro k hk hkey
        by_cases e : k = i
        · subst e; exact Nat.le_refl _
        · rcases h with ⟨_, _, _, h4⟩ | ⟨_, m, hm, _, _, h4, h5⟩
          · exact absurd hkey (h4 k (by omega))
          · have := h5 k (by omega) hkey
            simp only at h4
            have h6 := hc.2
            omega
    · rw [if_neg hc]
      apply ih
      rcases h with ⟨h1, h2, h3, h4⟩ | ⟨h1, m, hm, h2, h3, h4, h5⟩
      · left
        refine ⟨h1, h2, h3, fun k hk => ?_⟩
        by_cases e : k = i
        · subst e
          intro hkey
          simp only at h3
          exact hc ⟨hkey, by omega⟩
        · exact h4 k (by omega)
      · right
        refine ⟨h1, m, by omega, h2, h3, h4, fun k hk hkey => ?_⟩
        by_cases e : k = i
        · subst e
          simp only at h4
          have : ¬ (b.buffer.getD k zeroUpsert).timestamp ≥ lt := fun h' => hc ⟨hkey, h'⟩
          omega
        · exact h5 k (by omega) hkey

theorem QueryWalk_correct (bm : BlockManager) (key : Nat) (h : Nat) :
    ∀ id fuel, WellFormed bm h id → h < fuel →
      ∃ r view, QueryWalk bm key fuel id (KEY_NOT_FOUND, 0, false) = some (r, view) ∧
        Answer bm key id r := by
  have leafCase : ∀ id fuel, (bm.OpenBlock id).is_leaf ≠ 0 →
      ∃ r view, QueryWalk bm key (fuel + 1) id (KEY_NOT_FOUND, 0, false) = some (r, view) ∧
        Answer bm key id r := by
    intro id fuel hl
    refine ⟨QueryLeaf (bm.OpenBlock id) key KEY_NOT_FOUND 0 (bm.OpenBlock id).size, id, ?_, ?_⟩
    · rw [QueryWalk]; simp [hl]
    · rcases QueryLeaf_spec (bm.OpenBlock id) key (bm.OpenBlock id).size 0 KEY_NOT_FOUND with
        ⟨h1, h2⟩ | ⟨k, _, h2, h3, h4⟩
      · rw [h1]
        exact Answer.leaf_miss id hl (fun i hi => h2 i (Nat.zero_le i) (by omega))
      · rw [h4]
        exact Answer.leaf_hit id k hl (by omega) h3
  induction h with
  | zero =>
    intro id fuel hwf hf
    obtain ⟨f, rfl⟩ : ∃ f, fuel = f + 1 := ⟨fuel - 1, by omega⟩
    exact leafCase id f hwf.1
  | succ h ih =>
    intro id fuel hwf hf
    obtain ⟨f, rfl⟩ : ∃ f, fuel = f + 1 := ⟨fuel - 1, by omega⟩
    rcases hwf with ⟨hl, _⟩ | ⟨hl, _, _, hch⟩
    · exact leafCase id f hl
    · have hinv := QueryBuffer_inv (bm.OpenBlock id) key (bm.OpenBlock id).size 0
        (KEY_NOT_FOUND, 0, false) (Or.inl ⟨rfl, rfl, rfl, fun k hk => by omega⟩)
      rw [QueryWalk]
      simp only [hl, ne_eq, not_true_eq_false, if_false]
      rcases hq : QueryBuffer (bm.OpenBlock id) key (KEY_NOT_FOUND, 0, false) 0
        (bm.OpenBlock id).size with ⟨ret, lt, found⟩
      rw [hq] at hinv
      simp only [Nat.zero_add] at hinv
      cases found with
      | true =>
        simp only []
        rcases hinv with ⟨h1, _⟩ | ⟨_, m, hm, h2, h3, _, h5⟩
        · simp at h1
        · refine ⟨ret, id, rfl, ?_⟩
          simp only at h3
          rw [h3]
          exact Answer.buffered id m hl hm h2 (fun j hj hkey => h5 j hj hkey)
      | false =>
        simp only []
        rcases hinv with ⟨_, h2, h3, h4⟩ | ⟨h1, _⟩
        · obtain ⟨c, hc1, hc2⟩ := IndexOfKey_total (bm.OpenBlock id) key hl
          rw [hc2]
          simp only []
          obtain ⟨hnz, hwfc⟩ := hch c hc1
          simp only [hnz, if_false]
          simp only at h2 h3
          subst h2 h3
          obtain ⟨r, view, hr1, hr2⟩ := ih _ f hwfc (by omega)
          exact ⟨r, view, hr1, Answer.descend id c r hl h4 hc2 hr2⟩
        · simp at h1

theorem Answer_unique (bm : BlockManager) (key : Nat) (h : Nat) :
    ∀ id r r', WellFormed bm h id → Answer bm key id r → Answer bm key id r' → r = r' := by
  have leafCase : ∀ id r r', (bm.OpenBlock id).is_leaf ≠ 0 →
      (∀ i j, i < (bm.OpenBlock id).size → j < (bm.OpenBlock id).size →
        (bm.OpenBlock id).keys.getD i 0 = (bm.OpenBlock id).keys.getD j 0 → i = j) →
      Answer bm key id r → Answer bm key id r' → r = r' := by
    intro id r r' hl hd h1 h2
    cases h1 with
    | leaf_hit _ i _ hi hk =>
      cases h2 with
      | leaf_hit _ j _ hj hk' =>
        have := hd i j hi hj (hk.trans hk'.symm)
        subst this; rfl
      | leaf_miss _ _ hm => exact absurd hk (hm i hi)
      | buffered _ _ hl' => exact absurd hl' hl
      | descend _ _ _ hl' => exact absurd hl' hl
    | leaf_miss _ _ hm =>
      cases h2 with
      | leaf_hit _ j _ hj hk' => exact absurd hk' (hm j hj)
      | leaf_miss _ _ _ => rfl
      | buffered _ _ hl' => exact absurd hl' hl
      | descend _ _ _ hl' => exact absurd hl' hl
    | buffered _ _ hl' => exact absurd hl' hl
    | descend _ _ _ hl' => exact absurd hl' hl
  induction h with
  | zero =>
    intro id r r' hwf h1 h2
    exact leafCase id r r' hwf.1 hwf.2 h1 h2
  | succ h ih =>
    intro id r r' hwf h1 h2
    rcases hwf with ⟨hl, hd⟩ | ⟨hl, _, hts, hch⟩
    · exact leafCase id r r' hl hd h1 h2
    · cases h1 with
      | leaf_hit _ _ hl' => exact absurd hl hl'
      | leaf_miss _ hl' => exact absurd hl hl'
      | buffered _ i _ hi hk hmax =>
        cases h2 with
        | leaf_hit _ _ hl' => exact absurd hl hl'
        | leaf_miss _ hl' => exact absurd hl hl'
        | buffered _ j _ hj hk' hmax' =>
          have e1 := hmax j hj hk'
          have e2 := hmax' i hi hk
          have := hts i j hi hj (by omega)
          subst this; rfl
        | descend _ _ _ _ hno => exact absurd hk (hno i hi)
      | descend _ c _ _ hno hc hr =>
        cases h2 with
        | leaf_hit _ _ hl' => exact absurd hl hl'
        | leaf_miss _ hl' => exact absurd hl hl'
        | buffered _ j _ hj hk' _ => exact absurd hk' (hno j hj)
        | descend _ c' _ _ _ hc' hr' =>
          have e : c = c' := by rw [hc] at hc'; exact Option.some.inj hc'
          subst e
          obtain ⟨c1, hc1, hc2⟩ := IndexOfKey_total (bm.OpenBlock id) key hl
          have e : c = c1 := by rw [hc] at hc2; exact Option.some.inj hc2
          subst e
          exact ih _ r r' (hch c hc1).2 hr hr'

/-- Claim C3.  On a well-formed tree of height `h`, `Query` with more than `h` steps of fuel
returns (it is never fatal), and the value is the answer of the first node holding the key on
the walk along `pointers[IndexOfKey(key)]`: the newest matching message of an internal buffer,
the stored value in a leaf, `KEY_NOT_FOUND` when the leaf lacks the key.  That answer is
unique. -/
theorem Query_semantics (t : Tree) (h key fuel : Nat)
    (hwf : WellFormed t.bmanager h t.root_id) (hf : h < fuel) :
    ∃ r t', t.Query fuel key = some (r, t') ∧ Answer t.bmanager key t.root_id r ∧
      ∀ r', Answer t.bmanager key t.root_id r' → r' = r := by
  obtain ⟨r, view, h1, h2⟩ := QueryWalk_correct t.bmanager key h t.root_id fuel hwf hf
  refine ⟨r, { t with root_view := view }, ?_, h2, fun r' h' => ?_⟩
  · unfold Tree.Query BeNodeQuery
    rw [h1]
  · exact Answer_unique t.bmanager key h t.root_id r' r hwf h' h2

/-! ## Reopening -/

theorem create_root (files : List Block) (ts : Nat) :
    (Tree.create files ts).root_id = 1 ∧
    (Tree.create files ts).bmanager.OpenBlock 1 =
      ⟨0, 0, 0, 0, [], 1, [500000000], [2, 3], [], []⟩ ∧
    (Tree.create files ts).bmanager.OpenBlock 2 = ⟨1, 1, 0, 0, [], 0, [], [], [], []⟩ ∧
    (Tree.create files ts).bmanager.OpenBlock 3 = ⟨1, 1, 0, 0, [], 0, [], [], [], []⟩ := by
  have e1 : ∀ x : Nat, writeAt 0 ([] : List Nat) 0 x = [x] := fun x => by simp [writeAt]
  have e2 : ∀ x y : Nat, writeAt 0 [x] 1 y = [x, y] := fun x y => by simp [writeAt]
  unfold Tree.create
  simp [BlockManager.CreateBlock, OpenBlock_store, OpenBlock_created, cur_store, cur_created,
    e1, e2, zeroBlock]

theorem IndexOfKey_root (key : Nat) :
    IndexOfKey ⟨0, 0, 0, 0, [], 1, [500000000], [2, 3], [], []⟩ key =
      some (if key < 500000000 then 0 else 1) := by
  unfold IndexOfKey
  simp [IndexOfKeyLoop]
  by_cases h : key < 500000000
  · simp [h]
  · simp [h]

theorem QueryWalk_leaf0 (bm : BlockManager) (key fuel id : Nat)
    (h : bm.OpenBlock id = ⟨1, 1, 0, 0, [], 0, [], [], [], []⟩) :
    QueryWalk bm key (fuel + 1) id (KEY_NOT_FOUND, 0, false) = some (KEY_NOT_FOUND, id) := by
  rw [QueryWalk, h]
  simp [QueryLeaf]

/-- Claim C5, as amended.  Whatever the tree held, after destroying it and constructing a
`BeTree` of the same name over the same files, `Query` returns `KEY_NOT_FOUND` for every key:
the constructor restarts the block counter and re-creates pages 1 to 3 as an empty tree. -/
theorem reopen_is_fresh (t : Tree) (ts key fuel : Nat) :
    (t.reopen ts).get (fuel + 2) key = some KEY_NOT_FOUND := by
  obtain ⟨h0, h1, h2, h3⟩ := create_root t.bmanager.internal_mem ts
  unfold Tree.get Tree.Query BeNodeQuery Tree.reopen
  rw [h0, QueryWalk, h1]
  simp only [QueryBuffer, IndexOfKey_root]
  by_cases h : key < 500000000
  · have e : ([2, 3] : List Nat).getD (if key < 500000000 then 0 else 1) 0 = 2 := by simp [h]
    simp only [e]
    rw [QueryWalk_leaf0 _ _ _ _ h2]
    simp
  · have e : ([2, 3] : List Nat).getD (if key < 500000000 then 0 else 1) 0 = 3 := by simp [h]
    simp only [e]
    rw [QueryWalk_leaf0 _ _ _ _ h3]
    simp

/-- Claim C5, counterexample.  After `Insert(7, 70)` the tree answers 70 for key 7; destroyed
and constructed again under the same name it answers `KEY_NOT_FOUND`. -/
theorem reopen_forgets_key :
    (Tree.run 1 Tree.fresh [Op.Insert 7 70]).bind (fun t => t.get 1 7) = some 70 ∧
    (Tree.run 1 Tree.fresh [Op.Insert 7 70]).bind (fun t => (t.reopen 0).get 2 7) =
      some KEY_NOT_FOUND ∧
    70 ≠ KEY_NOT_FOUND := by
  decide

/-! ## Read-your-write -/

theorem LeafFrame_store (bm : BlockManager) (i : Nat) (b : Block)
    (h : b.is_leaf = (bm.OpenBlock i).is_leaf) : LeafFrame bm (bm.store i b) := by
  refine ⟨Nat.le_refl _, fun id _ => ?_⟩
  rw [OpenBlock_store]
  by_cases e : id = i
  · subst e; simp [h]
  · simp [e]

theorem LeafFrame_store_fresh (bm : BlockManager) (b : Block) (i : Nat)
    (h : bm.cur_num_blocks < i) : LeafFrame bm (bm.store i b) := by
  refine ⟨Nat.le_refl _, fun id hid => ?_⟩
  rw [OpenBlock_store]
  have : id ≠ i := by omega
  simp [this]

theorem shiftLeft_frame (n : Nat) (b : Block) (j : Nat) :
    (shiftLeft b j n).buffer = b.buffer ∧ (shiftLeft b j n).is_leaf = b.is_leaf ∧
    (shiftLeft b j n).size = b.size := by
  induction n generalizing b j with
  | zero => exact ⟨rfl, rfl, rfl⟩
  | succ n ih =>
    rw [shiftLeft]
    obtain ⟨h1, h2, h3⟩ := ih _ (j + 1)
    exact ⟨h1, h2, h3⟩

theorem WellFormed_fresh : WellFormed Tree.fresh.bmanager 1 Tree.fresh.root_id := by
  obtain ⟨h0, h1, h2, h3⟩ := create_root [] 0
  unfold Tree.fresh
  rw [h0]
  right
  rw [h1]
  refine ⟨rfl, fun i hi => absurd hi (Nat.not_lt_zero i), fun i j hi => absurd hi (Nat.not_lt_zero i),
    fun c hc => ?_⟩
  have hc' : c = 0 ∨ c = 1 := by
    simp only at hc
    omega
  rcases hc' with rfl | rfl
  · refine ⟨by decide, ?_⟩
    show WellFormed _ 0 2
    unfold WellFormed
    rw [h2]
    exact ⟨by decide, fun i j hi => absurd hi (Nat.not_lt_zero i)⟩
  · refine ⟨by decide, ?_⟩
    show WellFormed _ 0 3
    unfold WellFormed
    rw [h3]
    exact ⟨by decide, fun i j hi => absurd hi (Nat.not_lt_zero i)⟩

theorem Query_semantics_witness :
    WellFormed Tree.fresh.bmanager 1 Tree.fresh.root_id ∧
    ∃ r t', Tree.fresh.Query 2 5 = some (r, t') ∧
      Answer Tree.fresh.bmanager 5 Tree.fresh.root_id r ∧
      ∀ r', Answer Tree.fresh.bmanager 5 Tree.fresh.root_id r' → r' = r :=
  ⟨WellFormed_fresh, Query_semantics Tree.fresh 1 5 2 WellFormed_fresh (by decide)⟩

theorem UpsertLeaf_fatal_iff_witness :
    (⟨1, 1, 1, 0, [], 0, [], [], [5], [50]⟩ : Block).is_leaf ≠ 0 ∧
    (UpsertLeaf [⟨5, UpsertFunction.INSERT, 51, 1⟩] ⟨1, 1, 1, 0, [], 0, [], [], [5], [50]⟩ 1 = none ↔
      ∃ j b', j < 1 ∧
        UpsertLeaf (([⟨5, UpsertFunction.INSERT, 51, 1⟩] : List BeUpsert).drop (j + 1))
          ⟨1, 1, 1, 0, [], 0, [], [], [5], [50]⟩ (1 - (j + 1)) = some (false, b', 0) ∧
        fatalAt b' (([⟨5, UpsertFunction.INSERT, 51, 1⟩] : List BeUpsert).getD j zeroUpsert)) :=
  ⟨by decide, UpsertLeaf_fatal_iff _ 1 _ (by decide)⟩

/-- Claim C4, evaluated.  On a fresh tree `Query(5)` descends to the leaf page 2 and returns
with the root cursor's view left on that page: the state after the call differs from the state
before it (`root_view` is 2, it was 1). -/
theorem Query_moves_root_view :
    Tree.fresh.root_view = 1 ∧
    Tree.fresh.Query 2 5 = some (KEY_NOT_FOUND, { Tree.fresh with root_view := 2 }) := by
  decide

/-- The fullness test of `BeTree::Upsert` reads the page the root cursor's view is on: when
that page's size word is not `NUM_UPSERTS` while the root's buffer is full, no flush takes
place and the assertion of `BeNode::Upsert` fails. -/
theorem Upsert_fatal_of_stale_view (fuel : Nat) (t : Tree) (key : Nat) (type : UpsertFunction)
    (parameter : Nat) (hview : (t.bmanager.OpenBlock t.root_view).size ≠ NUM_UPSERTS)
    (hfull : ¬ (t.bmanager.OpenBlock t.root_id).size < NUM_UPSERTS) :
    t.Upsert fuel key type parameter = none := by
  unfold Tree.Upsert BeNodeUpsert
  simp [hview, hfull]

theorem NUM_UPSERTS_eq : NUM_UPSERTS = 247 := by decide

theorem FLUSH_THRESHOLD_eq : FLUSH_THRESHOLD = 11 := rfl

theorem Sound_of_leaf (b : Block) (h : b.is_leaf ≠ 0) : Sound b := fun h0 => absurd h0 h

theorem length_writeAt {α : Type} (d : α) (l : List α) (i : Nat) (x : α) :
    (writeAt d l i x).length = max l.length (i + 1) := by
  unfold writeAt
  split
  · simp; omega
  · simp; omega

theorem getD_writeList {α : Type} (d : α) (xs : List α) (l : List α) (i j : Nat) :
    (writeList d l i xs).getD j d =
      if i ≤ j ∧ j < i + xs.length then xs.getD (j - i) d else l.getD j d := by
  induction xs generalizing l i with
  | nil =>
    have h : ¬ (i ≤ j ∧ j < i) := by omega
    simp [writeList, h]
  | cons x xs ih =>
    rw [writeList, ih, getD_writeAt]
    by_cases h1 : j = i
    · subst h1
      simp
    · by_cases h2 : i + 1 ≤ j ∧ j < i + 1 + xs.length
      · have h3 : i ≤ j ∧ j < i + (x :: xs).length := by simp; omega
        rw [if_pos h2, if_pos h3]
        obtain ⟨m, hm⟩ : ∃ m, j - i = m + 1 := ⟨j - i - 1, by omega⟩
        have : j - (i + 1) = m := by omega
        rw [hm, this]
        simp
      · have h3 : ¬ (i ≤ j ∧ j < i + (x :: xs).length) := by simp; omega
        rw [if_neg h2, if_neg h3, if_neg h1]

theorem Sound_getD (b : Block) (h : Sound b) (h0 : b.is_leaf = 0) (i : Nat) (hi : i < b.size) :
    (b.buffer.getD i zeroUpsert).type ≠ UpsertFunction.INVALID := (h h0).2.2 i hi

/-! ### `BeNode::Upsert` -/

theorem AllSound_leafOnly (bm bm2 : BlockManager) (h : AllSound bm) (hl : LeafOnly bm bm2) :
    AllSound bm2 := by
  intro q
  rcases hl.2.1 q with e | ⟨e, _⟩
  · rw [e]
    exact h q
  · exact Sound_of_leaf _ e

theorem SameTree_refl (b : Block) : SameTree b b := ⟨rfl, rfl, rfl, rfl, rfl⟩

theorem SplitInternalCopy_fields (cond : Bool) (sk : Nat) (n : Nat) :
    ∀ (b nn : Block) (i : Nat),
      SameTree b (SplitInternalCopy cond sk b nn i n).1 ∧
      (SplitInternalCopy cond sk b nn i n).1.size = b.size ∧
      (SplitInternalCopy cond sk b nn i n).1.flush_size = b.flush_size ∧
      SameTree nn (SplitInternalCopy cond sk b nn i n).2 ∧
      (SplitInternalCopy cond sk b nn i n).2.flush_size = nn.flush_size ∧
      nn.size ≤ (SplitInternalCopy cond sk b nn i n).2.size ∧
      (SplitInternalCopy cond sk b nn i n).2.size ≤ nn.size + n ∧
      (cond = false → (SplitInternalCopy cond sk b nn i n).2.size = nn.size + n) ∧
      ∀ j, j < i ∨ i + n ≤ j →
        (SplitInternalCopy cond sk b nn i n).1.buffer.getD j zeroUpsert =
          b.buffer.getD j zeroUpsert := by
  induction n with
  | zero =>
    intro b nn i
    exact ⟨SameTree_refl _, rfl, rfl, SameTree_refl _, rfl, le_refl _, le_refl _, fun _ => rfl,
      fun _ _ => rfl⟩
  | succ n ih =>
    intro b nn i
    rw [SplitInternalCopy]
    simp only []
    split
    · rename_i hc
      obtain ⟨a1, a2, a3, a4, a5, a6, a7, a8, a9⟩ := ih
        { b with buffer := writeAt zeroUpsert b.buffer i { (b.buffer.getD i zeroUpsert) with type := UpsertFunction.INVALID } }
        { nn with buffer := writeAt zeroUpsert nn.buffer nn.size (b.buffer.getD i zeroUpsert),
                  size := nn.size + 1 } (i + 1)
      simp only [] at a6 a7 a8
      refine ⟨a1, a2, a3, a4, a5, ?_, ?_, ?_, ?_⟩
      · have : nn.size + 1 ≤ _ := a6
        omega
      · have : _ ≤ nn.size + 1 + n := a7
        omega
      · intro hcond
        have : _ = nn.size + 1 + n := a8 hcond
        omega
      · intro j hj
        rw [a9 j (by omega)]
        show (writeAt zeroUpsert b.buffer i _).getD j zeroUpsert = _
        rw [getD_writeAt, if_neg (by omega)]
    · rename_i hc
      obtain ⟨a1, a2, a3, a4, a5, a6, a7, a8, a9⟩ := ih b nn (i + 1)
      refine ⟨a1, a2, a3, a4, a5, a6, by omega, ?_, fun j hj => a9 j (by omega)⟩
      intro hcond
      exact absurd (Or.inl hcond) hc

theorem SameBufAll_refl (bm : BlockManager) : SameBufAll bm bm := fun _ => ⟨rfl, rfl, rfl, rfl⟩

theorem SameBufAll_store (bm X : BlockManager) (i : Nat) (b : Block) (h : SameBufAll bm X)
    (hb : SameBuf (X.OpenBlock i) b) : SameBufAll bm (X.store i b) := by
  intro q
  rw [OpenBlock_store]
  split
  · rename_i e
    subst e
    obtain ⟨a1, a2, a3, a4⟩ := h q
    obtain ⟨b1, b2, b3, b4⟩ := hb
    exact ⟨b1.trans a1, b2.trans a2, b3.trans a3, b4.trans a4⟩
  · exact h q

theorem SplitInternalMove_sameBuf (id new_id start n : Nat) :
    ∀ (bm X : BlockManager) (i : Nat), SameBufAll bm X →
      SameBufAll bm (SplitInternalMove id new_id start X i n) := by
  induction n with
  | zero =>
    intro bm X i h
    exact h
  | succ n ih =>
    intro bm X i h
    rw [SplitInternalMove]
    simp only []
    refine ih _ _ _ (SameBufAll_store _ _ _ _ (SameBufAll_store _ _ _ _ h ?_) ?_)
    · split <;> exact ⟨rfl, rfl, rfl, rfl⟩
    · exact ⟨rfl, rfl, rfl, rfl⟩

theorem SplitInternal_shape (bm bm' : BlockManager) (id sk nid : Nat)
    (h : SplitInternal bm id = some (sk, nid, bm')) :
    (bm.OpenBlock id).is_leaf = 0 ∧ (bm.OpenBlock id).pivots_size = NUM_PIVOTS ∧
    nid = bm.cur_num_blocks + 1 ∧
    ∃ bm2 bm3 : BlockManager,
      bm2 = bm.created.store (bm.cur_num_blocks + 1)
        { bm.created.OpenBlock (bm.cur_num_blocks + 1) with
          is_leaf := (bm.created.OpenBlock id).is_leaf
          parent := (bm.created.OpenBlock id).parent } ∧
      bm3 = SplitInternalMove id (bm.cur_num_blocks + 1) (((bm2.OpenBlock id).pivots_size + 1) / 2)
        bm2 (((bm2.OpenBlock id).pivots_size + 1) / 2)
        ((bm2.OpenBlock id).pivots_size + 1 - ((bm2.OpenBlock id).pivots_size + 1) / 2) ∧
      sk = (SplitInternalBuffer (bm3.OpenBlock id) (bm3.OpenBlock (bm.cur_num_blocks + 1))).1 ∧
      bm' = (bm3.store id
          (SplitInternalBuffer (bm3.OpenBlock id) (bm3.OpenBlock (bm.cur_num_blocks + 1))).2.1).store
        (bm.cur_num_blocks + 1)
          (SplitInternalBuffer (bm3.OpenBlock id) (bm3.OpenBlock (bm.cur_num_blocks + 1))).2.2 := by
  unfold SplitInternal at h
  split at h
  · cases h
  rename_i hl
  split at h
  · cases h
  rename_i hp
  simp only [ne_eq, not_not] at hl hp
  simp only [Option.some.injEq, Prod.mk.injEq, BlockManager.CreateBlock] at h
  obtain ⟨h1, h2, h3⟩ := h
  exact ⟨hl, hp, h2.symm, _, _, rfl, rfl, h1.symm, h3.symm⟩

theorem AddPivotShift_sameBuf (n : Nat) : ∀ (b : Block) (j : Nat),
    SameBuf b (AddPivotShift b j n) ∧ (AddPivotShift b j n).parent = b.parent ∧
      (AddPivotShift b j n).pivots_size = b.pivots_size := by
  induction n with
  | zero => intro b j; exact ⟨⟨rfl, rfl, rfl, rfl⟩, rfl, rfl⟩
  | succ n ih =>
    intro b j
    rw [AddPivotShift]
    obtain ⟨⟨a1, a2, a3, a4⟩, a5, a6⟩ := ih
      { b with pointers := writeAt 0 b.pointers (j + 1) (b.pointers.getD j 0),
               pivots := writeAt 0 b.pivots j (b.pivots.getD (j - 1) 0) } (j - 1)
    exact ⟨⟨a1, a2, a3, a4⟩, a5, a6⟩

theorem PendStep_refl (bm : BlockManager) (id : Nat) : PendStep bm bm id :=
  fun _ h1 h2 => Or.inr ⟨h1, h2⟩

theorem AddPivotShift_pointers (n : Nat) : ∀ (b : Block) (j1 : Nat), n ≤ j1 →
    ∀ k, (AddPivotShift b j1 n).pointers.getD k 0 =
      if j1 - n + 1 < k ∧ k ≤ j1 + 1 then b.pointers.getD (k - 1) 0 else b.pointers.getD k 0 := by
  induction n with
  | zero =>
    intro b j1 _ k
    rw [AddPivotShift, if_neg (by omega)]
  | succ n ih =>
    intro b j1 hn k
    rw [AddPivotShift]
    simp only []
    rw [ih _ (j1 - 1) (by omega) k]
    by_cases h1 : j1 - 1 - n + 1 < k ∧ k ≤ j1 - 1 + 1
    · rw [if_pos h1, if_pos (by omega), getD_writeAt, if_neg (by omega)]
    · rw [if_neg h1, getD_writeAt]
      by_cases h2 : k = j1 + 1
      · rw [if_pos h2, if_pos (by omega), h2]
        simp
      · rw [if_neg h2, if_neg (by omega)]

theorem SplitInternalMove_step (id new_id start n : Nat) (bm : BlockManager) (i : Nat) :
    SplitInternalMove id new_id start bm i (n + 1) =
      SplitInternalMove id new_id start (moveStep id new_id start bm i) (i + 1) n := by
  rw [SplitInternalMove]
  rfl

theorem moveStep_spec (id new_id start : Nat) (bm : BlockManager) (i : Nat)
    (hne : id ≠ new_id)
    (hc : (bm.OpenBlock id).pointers.getD i 0 ≠ id ∧ (bm.OpenBlock id).pointers.getD i 0 ≠ new_id) :
    (moveStep id new_id start bm i).OpenBlock id = bm.OpenBlock id ∧
    ((moveStep id new_id start bm i).OpenBlock new_id).parent = (bm.OpenBlock new_id).parent ∧
    ((moveStep id new_id start bm i).OpenBlock new_id).is_leaf = (bm.OpenBlock new_id).is_leaf ∧
    ((moveStep id new_id start bm i).OpenBlock new_id).pivots_size =
      (bm.OpenBlock new_id).pivots_size + (if i < (bm.OpenBlock id).pivots_size then 1 else 0) ∧
    (∀ k, ((moveStep id new_id start bm i).OpenBlock new_id).pointers.getD k 0 =
      if k = i - start then (bm.OpenBlock id).pointers.getD i 0
      else (bm.OpenBlock new_id).pointers.getD k 0) ∧
    ∀ q, q ≠ id → q ≠ new_id →
      (moveStep id new_id start bm i).OpenBlock q =
        if q = (bm.OpenBlock id).pointers.getD i 0 then
          { bm.OpenBlock q with parent := new_id }
        else bm.OpenBlock q := by
  have e1 : ∀ (nn : Block), ((bm.store new_id nn).OpenBlock id) = bm.OpenBlock id :=
    fun nn => OpenBlock_store_ne _ _ _ _ hne
  unfold moveStep
  simp only [e1]
  refine ⟨?_, ?_, ?_, ?_, ?_, ?_⟩
  · rw [OpenBlock_store_ne _ _ _ _ (Ne.symm hc.1), e1]
  · rw [OpenBlock_store_ne _ _ _ _ (Ne.symm hc.2), OpenBlock_store_same]
    split <;> rfl
  · rw [OpenBlock_store_ne _ _ _ _ (Ne.symm hc.2), OpenBlock_store_same]
    split <;> rfl
  · rw [OpenBlock_store_ne _ _ _ _ (Ne.symm hc.2), OpenBlock_store_same]
    split <;> rfl
  · intro k
    rw [OpenBlock_store_ne _ _ _ _ (Ne.symm hc.2), OpenBlock_store_same]
    show (writeAt 0 _ (i - start) _).getD k 0 = _
    rw [getD_writeAt]
    split
    · rfl
    · split <;> rfl
  · intro q hq1 hq2
    rw [OpenBlock_store]
    split
    · rename_i e
      subst e
      rw [OpenBlock_store_ne _ _ _ _ hq2]
    · rw [OpenBlock_store_ne _ _ _ _ hq2]

theorem SplitInternalMove_spec (id new_id start n : Nat) (hne : id ≠ new_id) :
    ∀ (bm : BlockManager) (i : Nat), start ≤ i →
      (∀ j, i ≤ j → j < i + n →
        (bm.OpenBlock id).pointers.getD j 0 ≠ id ∧
        (bm.OpenBlock id).pointers.getD j 0 ≠ new_id) →
      (SplitInternalMove id new_id start bm i n).OpenBlock id = bm.OpenBlock id ∧
      ((SplitInternalMove id new_id start bm i n).OpenBlock new_id).parent =
        (bm.OpenBlock new_id).parent ∧
      ((SplitInternalMove id new_id start bm i n).OpenBlock new_id).is_leaf =
        (bm.OpenBlock new_id).is_leaf ∧
      ((SplitInternalMove id new_id start bm i n).OpenBlock new_id).pivots_size =
        (bm.OpenBlock new_id).pivots_size +
          (min (i + n) (bm.OpenBlock id).pivots_size - min i (bm.OpenBlock id).pivots_size) ∧
      (∀ j, i ≤ j → j < i + n →
        ((SplitInternalMove id new_id start bm i n).OpenBlock new_id).pointers.getD (j - start) 0 =
          (bm.OpenBlock id).pointers.getD j 0) ∧
      (∀ k, k + start < i →
        ((SplitInternalMove id new_id start bm i n).OpenBlock new_id).pointers.getD k 0 =
          (bm.OpenBlock new_id).pointers.getD k 0) ∧
      ∀ q, q ≠ id → q ≠ new_id →
        ((SplitInternalMove id new_id start bm i n).OpenBlock q).is_leaf =
          (bm.OpenBlock q).is_leaf ∧
        ((SplitInternalMove id new_id start bm i n).OpenBlock q).pivots_size =
          (bm.OpenBlock q).pivots_size ∧
        ((SplitInternalMove id new_id start bm i n).OpenBlock q).pointers =
          (bm.OpenBlock q).pointers ∧
        (((SplitInternalMove id new_id start bm i n).OpenBlock q).parent =
            (bm.OpenBlock q).parent ∨
          ∃ j, i ≤ j ∧ j < i + n ∧ q = (bm.OpenBlock id).pointers.getD j 0) := by
  induction n with
  | zero =>
    intro bm i _ _
    refine ⟨rfl, rfl, rfl, ?_, fun j h1 h2 => by omega, fun _ _ => rfl,
      fun q _ _ => ⟨rfl, rfl, rfl, Or.inl rfl⟩⟩
    show _ = _ + (min (i + 0) _ - min i _)
    simp
    rfl
  | succ n ih =>
    intro bm i hi hc
    rw [SplitInternalMove_step]
    obtain ⟨s1, s2, s3, s4, s5, s6⟩ := moveStep_spec id new_id start bm i hne
      (hc i (le_refl _) (by omega))
    obtain ⟨a1, a2, a3, a4, a5, a6, a7⟩ := ih (moveStep id new_id start bm i) (i + 1) (by omega)
      (fun j h1 h2 => by rw [s1]; exact hc j (by omega) (by omega))
    rw [s1] at a1 a4 a5 a7
    refine ⟨a1, a2.trans s2, a3.trans s3, ?_, ?_, ?_, ?_⟩
    · rw [a4, s4]
      split <;> omega
    · intro j h1 h2
      by_cases e : j = i
      · subst e
        rw [a6 (j - start) (by omega), s5, if_pos rfl]
      · exact a5 j (by omega) (by omega)
    · intro k hk
      rw [a6 k (by omega), s5, if_neg (by omega)]
    · intro q hq1 hq2
      obtain ⟨b1, b2, b3, b4⟩ := a7 q hq1 hq2
      have hs := s6 q hq1 hq2
      refine ⟨?_, ?_, ?_, ?_⟩
      · rw [b1, hs]
        split <;> rfl
      · rw [b2, hs]
        split <;> rfl
      · rw [b3, hs]
        split <;> rfl
      · rcases b4 with e | ⟨j, j1, j2, j3⟩
        · rw [e, hs]
          split
          · rename_i e2
            exact Or.inr ⟨i, le_refl _, by omega, e2⟩
          · exact Or.inl rfl
        · exact Or.inr ⟨j, by omega, by omega, j3⟩

theorem rd_set {α : Type} (xs : List α) (a b : Nat) (v : α) :
    rd (xs.set a v) b = if b = a then (if a < xs.length then some v else none) else rd xs b := by
  unfold rd
  rw [List.getElem?_set]
  by_cases h : a = b
  · subst h
    simp
  · have h2 : ¬ b = a := fun e => h e.symm
    simp [h, h2]

theorem rd_lt {α : Type} (xs : List α) (a : Nat) (v : α) (h : rd xs a = some v) :
    a < xs.length := by
  unfold rd at h
  by_contra hc
  rw [List.getElem?_eq_none (by omega)] at h
  cases h

theorem wr_eq {α : Type} (xs : List α) (a : Nat) (v : α) (h : a < xs.length) :
    wr xs a v = some (xs.set a v) := by
  simp [wr, h]

theorem Seg_frame (prev next prev2 next2 : List (Option Nat)) (as : List Nat) :
    ∀ (x y : Nat), (∀ a, a ∈ x :: as → rd next2 a = rd next a) →
      (∀ a, a ∈ as ++ [y] → rd prev2 a = rd prev a) →
      Seg prev next x as y → Seg prev2 next2 x as y := by
  induction as with
  | nil =>
    intro x y h1 h2 h
    simp only [Seg] at h ⊢
    rw [h1 x (by simp), h2 y (by simp)]
    exact h
  | cons a as ih =>
    intro x y h1 h2 h
    simp only [Seg] at h ⊢
    rw [h1 x (by simp), h2 a (by simp)]
    refine ⟨h.1, h.2.1, ih a y (fun b hb => h1 b (List.mem_cons_of_mem _ hb))
      (fun b hb => h2 b (by simp at hb ⊢; tauto)) h.2.2⟩

theorem Seg_mid (prev next : List (Option Nat)) (node : Nat) (ys : List Nat) (r : Nat)
    (xs : List Nat) : ∀ (h : Nat), Seg prev next h (xs ++ node :: ys) r →
      rd prev node = some (some (xs.getLastD h)) ∧
      rd next (xs.getLastD h) = some (some node) ∧
      rd next node = some (some (ys.headD r)) ∧
      rd prev (ys.headD r) = some (some node) := by
  induction xs with
  | nil =>
    intro h hs
    simp only [List.nil_append, Seg] at hs
    refine ⟨hs.2.1, hs.1, ?_⟩
    cases ys with
    | nil => exact hs.2.2
    | cons y ys => exact ⟨hs.2.2.1, hs.2.2.2.1⟩
  | cons a xs ih =>
    intro h hs
    simp only [List.cons_append, Seg] at hs
    rw [List.getLastD_cons]
    exact ih a hs.2.2

theorem getLastD_mem (xs : List Nat) : ∀ (h : Nat), xs.getLastD h ∈ h :: xs := by
  induction xs with
  | nil => intro h; simp
  | cons a xs ih =>
    intro h
    have := ih a
    simp only [List.getLastD_cons]
    exact List.mem_cons_of_mem _ this

theorem headD_mem (ys : List Nat) (r : Nat) : ys.headD r ∈ ys ++ [r] := by
  cases ys <;> simp

theorem Seg_head (prev next : List (Option Nat)) (zs : List Nat) (h r : Nat)
    (hs : Seg prev next h zs r) :
    rd next h = some (some (zs.headD r)) ∧ rd prev (zs.headD r) = some (some h) := by
  cases zs with
  | nil => exact hs
  | cons z zs => exact ⟨hs.1, hs.2.1⟩

theorem Seg_tail (prev next : List (Option Nat)) (node : Nat) (ys : List Nat) (r : Nat)
    (xs : List Nat) : ∀ (h : Nat), Seg prev next h (xs ++ node :: ys) r →
      Seg prev next node ys r := by
  induction xs with
  | nil =>
    intro h hs
    exact hs.2.2
  | cons a xs ih =>
    intro h hs
    exact ih a hs.2.2

theorem Seg_splice (prev next : List (Option Nat)) (node : Nat) (ys : List Nat) (r : Nat)
    (xs : List Nat) : ∀ (h : Nat), Seg prev next h (xs ++ node :: ys) r →
      (h :: (xs ++ node :: ys) ++ [r]).Nodup →
      Seg (prev.set (ys.headD r) (some (xs.getLastD h)))
        (next.set (xs.getLastD h) (some (ys.headD r))) h (xs ++ ys) r := by
  induction xs with
  | nil =>
    intro h hs hnd
    simp only [List.nil_append, Seg] at hs
    obtain ⟨s1, s2, s3⟩ := hs
    have hh := rd_lt _ _ _ s1
    simp only [List.nil_append, List.getLastD_nil]
    cases ys with
    | nil =>
      simp only [Seg] at s3 ⊢
      have hr := rd_lt _ _ _ s3.2
      simp only [List.headD_nil]
      rw [rd_set, rd_set]
      simp [hh, hr]
    | cons y ys =>
      simp only [Seg] at s3 ⊢
      have hy := rd_lt _ _ _ s3.2.1
      simp only [List.headD_cons]
      rw [rd_set, rd_set]
      refine ⟨by simp [hh], by simp [hy], ?_⟩
      refine Seg_frame prev next _ _ ys y r ?_ ?_ s3.2.2
      · intro a ha
        rw [rd_set, if_neg]
        intro e
        subst e
        simp at ha hnd
        tauto
      · intro a ha
        rw [rd_set, if_neg]
        intro e
        subst e
        simp at ha hnd
        tauto
  | cons a xs ih =>
    intro h hs hnd
    simp only [List.cons_append, Seg] at hs
    obtain ⟨s1, s2, s3⟩ := hs
    have hnd2 : (a :: (xs ++ node :: ys) ++ [r]).Nodup := by
      simp only [List.cons_append, List.nodup_cons] at hnd ⊢
      exact hnd.2
    have IH := ih a s3 hnd2
    simp only [List.cons_append, List.getLastD_cons, Seg]
    have hp := getLastD_mem xs a
    have hx := headD_mem ys r
    refine ⟨?_, ?_, IH⟩
    · rw [rd_set, if_neg]
      · exact s1
      · intro e
        rw [e] at hnd
        simp at hp hnd
        tauto
    · rw [rd_set, if_neg]
      · exact s2
      · intro e
        rw [← e] at hx
        simp at hx hnd
        tauto

theorem Seg_link (prev next : List (Option Nat)) (node h r : Nat) (zs : List Nat)
    (hs : Seg prev next h zs r) (hnd : (h :: zs ++ [r]).Nodup)
    (hnot : node ∉ h :: zs ++ [r]) (hn1 : node < prev.length) (hn2 : node < next.length) :
    Seg ((prev.set node (some h)).set (zs.headD r) (some node))
      ((next.set node (some (zs.headD r))).set h (some node)) h (node :: zs) r := by
  obtain ⟨e1, e2⟩ := Seg_head prev next zs h r hs
  have hh := rd_lt _ _ _ e1
  have hf := rd_lt _ _ _ e2
  have hfm := headD_mem zs r
  have hne1 : node ≠ h := by
    intro e
    apply hnot
    rw [e]
    simp
  have hne2 : node ≠ zs.headD r := by
    intro e
    apply hnot
    rw [e]
    exact List.mem_cons_of_mem _ hfm
  simp only [Seg]
  refine ⟨?_, ?_, ?_⟩
  · rw [rd_set, if_pos rfl, if_pos (by simp; exact hh)]
  · rw [rd_set, if_neg hne2, rd_set, if_pos rfl, if_pos hn1]
  · cases zs with
    | nil =>
      simp only [Seg, List.headD_nil] at hs ⊢
      simp only [List.headD_nil] at hf hne2
      refine ⟨?_, ?_⟩
      · rw [rd_set, if_neg hne1, rd_set, if_pos rfl, if_pos hn2]
      · rw [rd_set, if_pos rfl, if_pos (by simp; exact hf)]
    | cons f zs =>
      simp only [Seg, List.headD_cons] at hs ⊢
      simp only [List.headD_cons] at hf hne2
      refine ⟨?_, ?_, ?_⟩
      · rw [rd_set, if_neg hne1, rd_set, if_pos rfl, if_pos hn2]
      · rw [rd_set, if_pos rfl, if_pos (by simp; exact hf)]
      · refine Seg_frame prev next _ _ zs f r ?_ ?_ hs.2.2
        · intro a ha
          rw [rd_set, if_neg, rd_set, if_neg]
          · intro e
            subst e
            simp at ha hnot
            tauto
          · intro e
            subst e
            simp at ha hnd
            tauto
        · intro a ha
          rw [rd_set, if_neg, rd_set, if_neg]
          · intro e
            subst e
            simp at ha hnot
            tauto
          · intro e
            subst e
            simp at ha hnd
            tauto

theorem nodup_mid (xs ys : List Nat) (h node r : Nat)
    (hnd : (h :: (xs ++ node :: ys) ++ [r]).Nodup) :
    node ∉ h :: (xs ++ ys) ++ [r] ∧ (h :: (xs ++ ys) ++ [r]).Nodup := by
  have e1 : h :: (xs ++ node :: ys) ++ [r] = (h :: xs) ++ node :: (ys ++ [r]) := by simp
  have e2 : h :: (xs ++ ys) ++ [r] = (h :: xs) ++ (ys ++ [r]) := by simp
  rw [e1, List.nodup_middle] at hnd
  rw [e2]
  exact List.nodup_cons.mp hnd

theorem unlinkNode_spec (l : LRULinkedList) (xs ys : List Nat) (node : Nat)
    (h : ListWF l (xs ++ node :: ys)) :
    ∃ l', l.unlinkNode node = some l' ∧ ListWF l' (xs ++ ys) ∧ l'.id = l.id ∧ l'.pos = l.pos ∧
      l'.head = l.head ∧ l'.rear = l.rear := by
  obtain ⟨w1, w2, w3, w4, w5, w6⟩ := h
  obtain ⟨m1, m2, m3, m4⟩ := Seg_mid _ _ _ _ _ _ _ w6
  have hp := rd_lt _ _ _ m2
  have hx := rd_lt _ _ _ m4
  have hpm := getLastD_mem xs l.head
  obtain ⟨n1, n2⟩ := nodup_mid _ _ _ _ _ w4
  have hne : node ≠ xs.getLastD l.head := by
    intro e
    rw [← e] at hpm
    apply n1
    simp at hpm ⊢
    tauto
  refine ⟨{ l with prev := l.prev.set (ys.headD l.rear) (some (xs.getLastD l.head)),
                   next := l.next.set (xs.getLastD l.head) (some (ys.headD l.rear)) },
    ?_, ⟨?_, ?_, w3, ?_, ?_, ?_⟩, rfl, rfl, rfl, rfl⟩
  · unfold LRULinkedList.unlinkNode
    simp only [m1, m3, Option.some_bind, wr_eq _ _ _ hp, Option.map_some', rd_set, if_neg hne,
      wr_eq _ _ _ hx]
  · simp only [List.length_set]
    exact w1
  · simp only [List.length_set]
    exact w2
  · exact n2
  · intro a ha
    exact w5 a (by simp at ha ⊢; tauto)
  · exact Seg_splice _ _ _ _ _ _ _ w6 w4

theorem linkAtHead_spec (l : LRULinkedList) (zs : List Nat) (node : Nat) (h : ListWF l zs)
    (hn : node < l.id.length) (hnot : node ∉ l.head :: zs ++ [l.rear]) :
    ∃ l', l.linkAtHead node = some l' ∧ ListWF l' (node :: zs) ∧ l'.id = l.id ∧
      l'.pos = l.pos ∧ l'.head = l.head ∧ l'.rear = l.rear := by
  obtain ⟨w1, w2, w3, w4, w5, w6⟩ := h
  obtain ⟨e1, e2⟩ := Seg_head _ _ _ _ _ w6
  have hh := rd_lt _ _ _ e1
  have hf := rd_lt _ _ _ e2
  have hne1 : l.head ≠ node := by
    intro e
    apply hnot
    rw [← e]
    simp
  refine ⟨{ l with prev := (l.prev.set node (some l.head)).set (zs.headD l.rear) (some node),
                   next := (l.next.set node (some (zs.headD l.rear))).set l.head (some node) },
    ?_, ⟨?_, ?_, w3, ?_, ?_, ?_⟩, rfl, rfl, rfl, rfl⟩
  · unfold LRULinkedList.linkAtHead
    simp only [e1, Option.some_bind, wr_eq _ _ _ (by omega : node < l.next.length),
      wr_eq _ _ _ (by omega : node < l.prev.length), rd_set, if_neg hne1]
    rw [wr_eq _ _ _ (by rw [List.length_set]; exact hf),
      wr_eq _ _ _ (by rw [List.length_set]; exact hh)]
    rfl
  · simp only [List.length_set]
    exact w1
  · simp only [List.length_set]
    exact w2
  · simp at w4 hnot ⊢
    tauto
  · intro a ha
    rcases List.mem_cons.mp ha with e | e
    · rw [e]
      exact hn
    · exact w5 a e
  · exact Seg_link _ _ _ _ _ _ w6 w4 hnot (by omega) (by omega)

theorem MoveNodeToHead_spec (l : LRULinkedList) (xs ys : List Nat) (node : Nat)
    (h : ListWF l (xs ++ node :: ys)) :
    ∃ l', l.MoveNodeToHead node = some l' ∧ ListWF l' (node :: (xs ++ ys)) ∧ l'.id = l.id ∧
      l'.pos = l.pos ∧ l'.head = l.head ∧ l'.rear = l.rear := by
  obtain ⟨l1, h1, w1, a1, a2, a3, a4⟩ := unlinkNode_spec l xs ys node h
  have hn : node < l1.id.length := by
    rw [a1]
    exact h.2.2.2.2.1 node (by simp)
  have hnot : node ∉ l1.head :: (xs ++ ys) ++ [l1.rear] := by
    rw [a3, a4]
    exact (nodup_mid _ _ _ _ _ h.2.2.2.1).1
  obtain ⟨l2, h2, w2, b1, b2, b3, b4⟩ := linkAtHead_spec l1 (xs ++ ys) node w1 hn hnot
  refine ⟨l2, ?_, w2, b1.trans a1, b2.trans a2, b3.trans a3, b4.trans a4⟩
  unfold LRULinkedList.MoveNodeToHead
  rw [h1]
  exact h2

theorem rd_append_lt {α : Type} (xs : List α) (v : α) (a : Nat) (h : a < xs.length) :
    rd (xs ++ [v]) a = rd xs a := by
  unfold rd
  rw [List.getElem?_append_left h]

theorem rd_append_self {α : Type} (xs : List α) (v : α) : rd (xs ++ [v]) xs.length = some v := by
  unfold rd
  simp

theorem Seg_lt (prev next : List (Option Nat)) (zs : List Nat) :
    ∀ (h r : Nat), Seg prev next h zs r →
      (∀ a, a ∈ h :: zs → a < next.length) ∧ (∀ a, a ∈ zs ++ [r] → a < prev.length) := by
  induction zs with
  | nil =>
    intro h r hs
    simp only [Seg] at hs
    have h1 := rd_lt _ _ _ hs.1
    have h2 := rd_lt _ _ _ hs.2
    constructor
    · intro a ha
      simp at ha
      rw [ha]
      exact h1
    · intro a ha
      simp at ha
      rw [ha]
      exact h2
  | cons z zs ih =>
    intro h r hs
    simp only [Seg] at hs
    obtain ⟨i1, i2⟩ := ih z r hs.2.2
    have h1 := rd_lt _ _ _ hs.1
    have h2 := rd_lt _ _ _ hs.2.1
    constructor
    · intro a ha
      rcases List.mem_cons.mp ha with e | e
      · rw [e]
        exact h1
      · exact i1 a e
    · intro a ha
      simp only [List.cons_append, List.mem_cons] at ha
      rcases ha with e | e
      · rw [e]
        exact h2
      · exact i2 a e

theorem AddNodeToHead_spec (l : LRULinkedList) (zs : List Nat) (id pos : Nat)
    (h : ListWF l zs) :
    ∃ l', l.AddNodeToHead id pos = some (l.id.length, l') ∧ ListWF l' (l.id.length :: zs) ∧
      l'.id = l.id ++ [id] ∧ l'.pos = l.pos ++ [pos] ∧ l'.head = l.head ∧ l'.rear = l.rear := by
  obtain ⟨w1, w2, w3, w4, w5, w6⟩ := h
  obtain ⟨b1, b2⟩ := Seg_lt _ _ _ _ _ w6
  have hwf : ListWF
      { l with
        id := l.id ++ [id]
        pos := l.pos ++ [pos]
        prev := l.prev ++ [none]
        next := l.next ++ [none] } zs := by
    refine ⟨by simp [w1], by simp [w2], by simp [w3], w4, ?_, ?_⟩
    · intro a ha
      have := w5 a ha
      simp
      omega
    · refine Seg_frame l.prev l.next _ _ zs l.head l.rear ?_ ?_ w6
      · intro a ha
        exact rd_append_lt _ _ _ (b1 a ha)
      · intro a ha
        exact rd_append_lt _ _ _ (b2 a ha)
  have hn : l.id.length < (l.id ++ [id]).length := by simp
  have hnot : l.id.length ∉ l.head :: zs ++ [l.rear] := by
    intro hm
    simp only [List.cons_append, List.mem_cons, List.mem_append, List.mem_singleton] at hm
    rcases hm with e | e | e
    · have := b1 l.head (by simp)
      omega
    · have := w5 _ e
      omega
    · have := b2 l.rear (by simp)
      simp only [List.not_mem_nil, or_false] at e
      omega
  obtain ⟨l2, h2, wf2, c1, c2, c3, c4⟩ := linkAtHead_spec _ zs l.id.length hwf hn hnot
  refine ⟨l2, ?_, wf2, c1, c2, c3, c4⟩
  have e1 : rd (l.prev ++ [none]) l.id.length = some none := by
    rw [← w1]
    exact rd_append_self _ _
  have e2 : rd (l.next ++ [none]) l.id.length = some none := by
    rw [← w2]
    exact rd_append_self _ _
  unfold LRULinkedList.AddNodeToHead LRULinkedList.MoveNodeToHead LRULinkedList.unlinkNode
  simp only [e1, e2, Option.some_bind]
  rw [h2]
  rfl

theorem Seg_last (prev next : List (Option Nat)) (zs : List Nat) :
    ∀ (h r : Nat), Seg prev next h zs r → rd prev r = some (some (zs.getLastD h)) := by
  induction zs with
  | nil =>
    intro h r hs
    exact hs.2
  | cons z zs ih =>
    intro h r hs
    rw [List.getLastD_cons]
    exact ih z r hs.2.2

theorem GetRearNode_nil (l : LRULinkedList) (h : ListWF l []) : l.GetRearNode = some none := by
  have := Seg_last _ _ _ _ _ h.2.2.2.2.2
  unfold LRULinkedList.GetRearNode
  rw [this]
  simp

theorem GetRearNode_snoc (l : LRULinkedList) (xs : List Nat) (z : Nat)
    (h : ListWF l (xs ++ [z])) : l.GetRearNode = some (some z) := by
  have := Seg_last _ _ _ _ _ h.2.2.2.2.2
  have hne : z ≠ l.head := by
    have := h.2.2.2.1
    intro e
    rw [e] at this
    simp at this
  unfold LRULinkedList.GetRearNode
  rw [this]
  simp [hne]

theorem RemoveRearNode_spec (l : LRULinkedList) (xs : List Nat) (z : Nat)
    (h : ListWF l (xs ++ [z])) :
    ∃ l', l.RemoveRearNode = some l' ∧ ListWF l' xs ∧ l'.id = l.id ∧ l'.pos = l.pos ∧
      l'.head = l.head ∧ l'.rear = l.rear := by
  obtain ⟨w1, w2, w3, w4, w5, w6⟩ := h
  obtain ⟨m1, m2, m3, m4⟩ := Seg_mid _ _ _ _ _ _ _ w6
  simp only [List.headD_nil] at m3 m4
  have hp := rd_lt _ _ _ m2
  have hx := rd_lt _ _ _ m4
  obtain ⟨n1, n2⟩ := nodup_mid _ _ _ _ _ w4
  have hne : z ≠ l.head := by
    intro e
    apply n1
    rw [e]
    simp
  have hsp := Seg_splice _ _ _ _ _ _ _ w6 w4
  simp only [List.headD_nil, List.append_nil] at hsp n2
  refine ⟨{ l with prev := l.prev.set l.rear (some (xs.getLastD l.head)),
                   next := l.next.set (xs.getLastD l.head) (some l.rear) },
    ?_, ⟨?_, ?_, w3, n2, ?_, hsp⟩, rfl, rfl, rfl, rfl⟩
  · unfold LRULinkedList.RemoveRearNode
    simp only [m4, Option.some_bind, m1, wr_eq _ _ _ hp, wr_eq _ _ _ hx, Option.map_some']
    simp [hne]
  · simp only [List.length_set]
    exact w1
  · simp only [List.length_set]
    exact w2
  · intro a ha
    exact w5 a (by simp; exact Or.inl ha)

theorem ListWF_new : ListWF LRULinkedList.new [] := by
  refine ⟨rfl, rfl, rfl, by decide, fun a ha => (by cases ha), ?_⟩
  exact ⟨rfl, rfl⟩

theorem walk_Seg (l : LRULinkedList) (zs : List Nat) :
    ∀ (h : Nat), Seg l.prev l.next h zs l.rear → l.rear ∉ zs →
      l.walk zs.length ((l.next.getD h none).getD l.rear) = zs := by
  induction zs with
  | nil =>
    intro h _ _
    rfl
  | cons z zs ih =>
    intro h hs hr
    simp only [Seg] at hs
    have e : (l.next.getD h none).getD l.rear = z := by
      have := hs.1
      unfold rd at this
      rw [List.getD_eq_getElem?_getD, this]
      rfl
    rw [e]
    simp only [List.length_cons, LRULinkedList.walk]
    have hz : z ≠ l.rear := by
      intro e2
      apply hr
      rw [e2]
      simp
    rw [if_neg hz, ih z hs.2.2 (fun hm => hr (List.mem_cons_of_mem _ hm))]

theorem ListWF_nodup (l : LRULinkedList) (as : List Nat) (h : ListWF l as) :
    l.rear ∉ as ∧ l.head ∉ as ∧ as.Nodup ∧ l.head ≠ l.rear := by
  have h1 := h.2.2.2.1
  have e : l.head :: as ++ [l.rear] = (l.head :: as) ++ l.rear :: [] := by simp
  rw [e, List.nodup_middle, List.append_nil] at h1
  have a1 := (List.nodup_cons.mp h1).1
  have h2 := (List.nodup_cons.mp h1).2
  have a2 := (List.nodup_cons.mp h2).1
  have a3 := (List.nodup_cons.mp h2).2
  simp only [List.mem_cons, not_or] at a1
  exact ⟨a1.2, a2, a3, fun e => a1.1 e.symm⟩

theorem entries_of_inv (c : LRUCache) (as : List Nat) (h : CacheInv c as) :
    c.entries = as.map (nodeEntry c.node_list) := by
  obtain ⟨w, hsz, _⟩ := h
  have hr : c.node_list.rear ∉ as := (ListWF_nodup _ _ w).1
  unfold LRUCache.entries
  rw [hsz, walk_Seg _ _ _ w.2.2.2.2.2 hr]
  rfl

/-! ### Association lists -/

theorem lookup_filter_ne (h : List (Nat × Nat)) (k i : Nat) :
    (h.filter fun e => e.1 ≠ k).lookup i = if i = k then none else h.lookup i := by
  induction h with
  | nil => simp
  | cons x h ih =>
    obtain ⟨a, b⟩ := x
    by_cases hak : a = k
    · subst hak
      rw [List.filter_cons_of_neg (by simp), ih]
      by_cases hi : i = a
      · simp [hi]
      · have : (i == a) = false := by simpa using hi
        simp [hi, List.lookup_cons, this]
    · rw [List.filter_cons_of_pos (by simpa using hak)]
      rw [List.lookup_cons, List.lookup_cons, ih]
      by_cases hia : i = a
      · have : (i == a) = true := by simpa using hia
        have hik : i ≠ k := by rw [hia]; exact hak
        simp [this, hik]
      · have : (i == a) = false := by simpa using hia
        simp [this]

theorem lookup_none_iff (h : List (Nat × Nat)) (i : Nat) :
    h.lookup i = none ↔ i ∉ h.map Prod.fst := by
  induction h with
  | nil => simp
  | cons x h ih =>
    obtain ⟨a, b⟩ := x
    rw [List.lookup_cons]
    by_cases hia : i = a
    · have : (i == a) = true := by simpa using hia
      rw [this]
      simp [hia]
    · have : (i == a) = false := by simpa using hia
      rw [this]
      simp only [ih, List.map_cons, List.mem_cons, not_or]
      exact ⟨fun h2 => ⟨hia, h2⟩, fun h2 => h2.2⟩

theorem filter_ne_of_not_mem (h : List (Nat × Nat)) (k : Nat) (hk : k ∉ h.map Prod.fst) :
    (h.filter fun e => e.1 ≠ k) = h := by
  rw [List.filter_eq_self]
  intro e he
  have : e.1 ≠ k := by
    intro e2
    apply hk
    rw [← e2]
    exact List.mem_map_of_mem _ he
  simpa using this

theorem keys_filter_ne (h : List (Nat × Nat)) (k : Nat) :
    (h.filter fun e => e.1 ≠ k).map Prod.fst = (h.map Prod.fst).filter fun x => x ≠ k := by
  induction h with
  | nil => rfl
  | cons x h ih =>
    by_cases hx : x.1 = k
    · rw [List.filter_cons_of_neg (by simpa using hx), ih, List.map_cons,
        List.filter_cons_of_neg (by simpa using hx)]
    · rw [List.filter_cons_of_pos (by simpa using hx), List.map_cons, ih, List.map_cons,
        List.filter_cons_of_pos (by simpa using hx)]

theorem length_filter_ne (h : List (Nat × Nat)) (k : Nat) (hnd : (h.map Prod.fst).Nodup)
    (hk : k ∈ h.map Prod.fst) : (h.filter fun e => e.1 ≠ k).length + 1 = h.length := by
  induction h with
  | nil => simp at hk
  | cons x h ih =>
    rw [List.map_cons, List.nodup_cons] at hnd
    by_cases hx : x.1 = k
    · rw [List.filter_cons_of_neg (by simpa using hx)]
      rw [filter_ne_of_not_mem h k (by rw [← hx]; exact hnd.1)]
      rfl
    · rw [List.filter_cons_of_pos (by simpa using hx)]
      have hk2 : k ∈ h.map Prod.fst := by
        rw [List.map_cons, List.mem_cons] at hk
        rcases hk with e | e
        · exact absurd e.symm hx
        · exact e
      have := ih hnd.2 hk2
      simp only [List.length_cons]
      omega

/-! ### Entries of a list of nodes -/

theorem lookup_map_none (f : Nat → Nat × Nat) (as : List Nat) (i : Nat) :
    (as.map f).lookup i = none ↔ ∀ a, a ∈ as → (f a).1 ≠ i := by
  rw [lookup_none_iff]
  simp only [List.map_map, List.mem_map, Function.comp, not_exists, not_and]

theorem lookup_map_some (f : Nat → Nat × Nat) (as : List Nat)
    (hinj : ∀ a b, a ∈ as → b ∈ as → (f a).1 = (f b).1 → a = b) (a : Nat) (ha : a ∈ as) :
    (as.map f).lookup (f a).1 = some (f a).2 := by
  induction as with
  | nil => cases ha
  | cons x as ih =>
    rw [List.map_cons, List.lookup_cons]
    by_cases hx : (f a).1 = (f x).1
    · have : a = x := hinj a x ha (List.mem_cons_self _ _) hx
      subst this
      simp
    · have : ((f a).1 == (f x).1) = false := by simpa using hx
      rw [this]
      have ha2 : a ∈ as := by
        rcases List.mem_cons.mp ha with e | e
        · rw [e] at hx
          exact absurd rfl hx
        · exact e
      exact ih (fun a b ha hb => hinj a b (List.mem_cons_of_mem _ ha) (List.mem_cons_of_mem _ hb))
        ha2

theorem filter_map_ne (f : Nat → Nat × Nat) (as : List Nat) (k : Nat)
    (h : ∀ a, a ∈ as → (f a).1 ≠ k) : ((as.map f).filter fun e => e.1 ≠ k) = as.map f := by
  rw [List.filter_eq_self]
  intro e he
  rw [List.mem_map] at he
  obtain ⟨a, ha, rfl⟩ := he
  simpa using h a ha

theorem filter_map_mid (f : Nat → Nat × Nat) (xs ys : List Nat) (node : Nat)
    (h : ∀ a, a ∈ xs ++ ys → (f a).1 ≠ (f node).1) :
    (((xs ++ node :: ys).map f).filter fun e => e.1 ≠ (f node).1) = (xs ++ ys).map f := by
  rw [List.map_append, List.filter_append, List.map_cons, List.filter_cons_of_neg (by simp),
    ← List.filter_append, ← List.map_append]
  exact filter_map_ne f _ _ h

theorem CacheInv_inj (c : LRUCache) (as : List Nat) (h : CacheInv c as) (a b : Nat)
    (ha : a ∈ as) (hb : b ∈ as)
    (e : (nodeEntry c.node_list a).1 = (nodeEntry c.node_list b).1) : a = b := by
  have h4 := h.2.2.2.1
  have e1 := (h4 _ a).mpr ⟨ha, rfl⟩
  have e2 := (h4 (c.node_list.id.getD a 0) b).mpr ⟨hb, e.symm⟩
  rw [e1] at e2
  exact Option.some.inj e2

theorem CacheInv_pos_lt (c : LRUCache) (as : List Nat) (h : CacheInv c as) (a : Nat)
    (ha : a ∈ as) : c.node_list.pos.getD a 0 < c.size := by
  have h7 := h.2.2.2.2.2.2
  have : c.node_list.pos.getD a 0 ∈ as.map fun a => c.node_list.pos.getD a 0 :=
    List.mem_map_of_mem _ ha
  have := (h7.mem_iff).mp this
  exact List.mem_range.mp this

theorem rd_getD (xs : List Nat) (a : Nat) (h : a < xs.length) : rd xs a = some (xs.getD a 0) := by
  unfold rd
  rw [List.getD_eq_getElem?_getD, List.getElem?_eq_getElem h]
  rfl

theorem CacheInv_lookup_none (c : LRUCache) (as : List Nat) (h : CacheInv c as) (id : Nat) :
    c.node_hash.lookup id = none ↔ ∀ a, a ∈ as → (nodeEntry c.node_list a).1 ≠ id := by
  have h4 := h.2.2.2.1
  constructor
  · intro hn a ha e
    have := (h4 id a).mpr ⟨ha, e⟩
    rw [hn] at this
    cases this
  · intro hall
    cases hl : c.node_hash.lookup id with
    | none => rfl
    | some a =>
      have := (h4 id a).mp hl
      exact absurd this.2 (hall a this.1)

theorem Get_hit (c : LRUCache) (as : List Nat) (id node : Nat) (h : CacheInv c as)
    (hl : c.node_hash.lookup id = some node) :
    ∃ xs ys l', as = xs ++ node :: ys ∧
      c.Get id = some (c.node_list.pos.getD node 0, { c with node_list := l' }) ∧
      CacheInv { c with node_list := l' } (node :: (xs ++ ys)) ∧
      l'.id = c.node_list.id ∧ l'.pos = c.node_list.pos ∧
      c.node_list.id.getD node 0 = id := by
  obtain ⟨w, h2, h3, h4, h5, h6, h7⟩ := h
  obtain ⟨hm, hid⟩ := (h4 id node).mp hl
  obtain ⟨xs, ys, e⟩ := List.append_of_mem hm
  subst e
  obtain ⟨l', m1, m2, m3, m4, m5, m6⟩ := MoveNodeToHead_spec _ xs ys node w
  have hlt : node < c.node_list.pos.length := by
    rw [w.2.2.1]
    exact w.2.2.2.2.1 node hm
  refine ⟨xs, ys, l', rfl, ?_, ⟨m2, ?_, h3, ?_, h5, h6, ?_⟩, m3, m4, hid⟩
  · unfold LRUCache.Get
    rw [hl]
    simp only []
    rw [m1, Option.some_bind, m4, rd_getD _ _ hlt]
    rfl
  · simp only [List.length_cons, List.length_append] at h2 ⊢
    omega
  · intro i a
    simp only []
    rw [m3, h4 i a]
    simp only [List.mem_append, List.mem_cons]
    tauto
  · simp only []
    rw [m4]
    refine List.Perm.trans ?_ h7
    apply List.Perm.map
    exact (List.perm_middle).symm

theorem Get_rel (c : LRUCache) (r : RefLRU) (id : Nat) (h : LRURel c r) :
    (¬ c.cap + 1 < 2 ^ 31 ∧ c.Get id = none ∧ r.entries.lookup id = none) ∨
    ∃ o c', c.Get id = some (o, c') ∧ LRURel c' (r.Get id).2 ∧ c'.cap = c.cap ∧
      (∀ s, (r.Get id).1 = some s → o = s ∧ s < c.cap) ∧
      ((r.Get id).1 = none → o = c.cap + 1 ∧ c' = c) ∧
      c'.node_hash = c.node_hash ∧ c'.size = c.size ∧ c'.node_list.pos = c.node_list.pos := by
  obtain ⟨as, hinv, hc, he⟩ := h
  cases hl : c.node_hash.lookup id with
  | none =>
    have hr : r.entries.lookup id = none := by
      rw [he, lookup_map_none]
      exact (CacheInv_lookup_none c as hinv id).mp hl
    by_cases hcap : c.cap + 1 < 2 ^ 31
    · right
      refine ⟨c.cap + 1, c, ?_, ?_, rfl, ?_, ?_, rfl, rfl, rfl⟩
      · unfold LRUCache.Get
        rw [hl]
        simp only []
        rw [if_pos hcap]
      · unfold RefLRU.Get
        rw [hr]
        exact ⟨as, hinv, hc, he⟩
      · intro s hs
        unfold RefLRU.Get at hs
        rw [hr] at hs
        cases hs
      · intro _
        exact ⟨rfl, rfl⟩
    · left
      refine ⟨hcap, ?_, hr⟩
      unfold LRUCache.Get
      rw [hl]
      simp only []
      rw [if_neg hcap]
  | some node =>
    obtain ⟨xs, ys, l', e, hg, hinv2, hid, hpos, hnid⟩ := Get_hit c as id node hinv hl
    have hm : node ∈ as := by rw [e]; simp
    have hr : r.entries.lookup id = some (c.node_list.pos.getD node 0) := by
      rw [he]
      have := lookup_map_some (nodeEntry c.node_list) as (CacheInv_inj c as hinv) node hm
      simp only [nodeEntry] at this
      rw [hnid] at this
      exact this
    have hnd := (ListWF_nodup _ _ hinv.1).2.2.1
    right
    refine ⟨_, _, hg, ?_, rfl, ?_, ?_, rfl, rfl, hpos⟩
    · unfold RefLRU.Get
      rw [hr]
      refine ⟨node :: (xs ++ ys), hinv2, hc, ?_⟩
      simp only [RefLRU.promote]
      have en : nodeEntry l' = nodeEntry c.node_list := by
        funext a
        simp only [nodeEntry, hid, hpos]
      rw [en, List.map_cons, he, e]
      have e1 : (id, c.node_list.pos.getD node 0) = nodeEntry c.node_list node := by
        simp only [nodeEntry, hnid]
      rw [e1]
      have e2 : id = (nodeEntry c.node_list node).1 := by
        simp only [nodeEntry, hnid]
      rw [e2, filter_map_mid]
      intro a ha e3
      have ha2 : a ∈ as := by
        rw [e]
        simp only [List.mem_append, List.mem_cons] at ha ⊢
        tauto
      have := CacheInv_inj c as hinv a node ha2 hm e3
      subst this
      rw [e] at hnd
      have := List.nodup_middle.mp hnd
      exact (List.nodup_cons.mp this).1 ha
    · intro s hs
      unfold RefLRU.Get at hs
      rw [hr] at hs
      have hs2 : c.node_list.pos.getD node 0 = s := Option.some.inj hs
      have := CacheInv_pos_lt c as hinv node hm
      have := hinv.2.2.1
      constructor
      · exact hs2
      · omega
    · intro hs
      unfold RefLRU.Get at hs
      rw [hr] at hs
      cases hs

theorem getD_snoc_lt (xs : List Nat) (v a : Nat) (h : a < xs.length) :
    (xs ++ [v]).getD a 0 = xs.getD a 0 := by
  rw [List.getD_eq_getElem?_getD, List.getD_eq_getElem?_getD, List.getElem?_append_left h]

theorem getD_snoc_self (xs : List Nat) (v : Nat) : (xs ++ [v]).getD xs.length 0 = v := by
  rw [List.getD_eq_getElem?_getD, List.getElem?_append_right (Nat.le_refl _)]
  simp

theorem add_inv (l : LRULinkedList) (hash : List (Nat × Nat)) (cap size : Nat) (as : List Nat)
    (id p : Nat) (w : ListWF l as) (h2 : size = as.length) (h3 : size < cap)
    (h4 : ∀ i a, hash.lookup i = some a ↔ a ∈ as ∧ l.id.getD a 0 = i)
    (h5 : (hash.map Prod.fst).Nodup) (h6 : hash.length = size) (hn : hash.lookup id = none)
    (hp : (p :: as.map fun a => l.pos.getD a 0).Perm (List.range (size + 1))) :
    ∃ l', l.AddNodeToHead id p = some (l.id.length, l') ∧
      CacheInv ⟨cap, size + 1, l', (id, l.id.length) :: hash.filter fun e => e.1 ≠ id⟩
        (l.id.length :: as) ∧
      (l.id.length :: as).map (nodeEntry l') = (id, p) :: as.map (nodeEntry l) ∧
      l'.pos = l.pos ++ [p] ∧ l'.id = l.id ++ [id] := by
  obtain ⟨l', m1, m2, m3, m4, _, _⟩ := AddNodeToHead_spec l as id p w
  have hlt : ∀ a, a ∈ as → a < l.id.length := w.2.2.2.2.1
  have hlt2 : ∀ a, a ∈ as → a < l.pos.length := by
    intro a ha
    rw [w.2.2.1]
    exact hlt a ha
  have hk : id ∉ hash.map Prod.fst := (lookup_none_iff hash id).mp hn
  have hf : (hash.filter fun e => e.1 ≠ id) = hash := filter_ne_of_not_mem hash id hk
  have hid : ∀ a, a ∈ as → l'.id.getD a 0 = l.id.getD a 0 := by
    intro a ha
    rw [m3, getD_snoc_lt _ _ _ (hlt a ha)]
  have hpos : ∀ a, a ∈ as → l'.pos.getD a 0 = l.pos.getD a 0 := by
    intro a ha
    rw [m4, getD_snoc_lt _ _ _ (hlt2 a ha)]
  have hidN : l'.id.getD l.id.length 0 = id := by
    rw [m3, getD_snoc_self]
  have hposN : l'.pos.getD l.id.length 0 = p := by
    rw [m4, ← w.2.2.1, getD_snoc_self]
  have hmap : (l.id.length :: as).map (nodeEntry l') = (id, p) :: as.map (nodeEntry l) := by
    rw [List.map_cons]
    congr 1
    · simp only [nodeEntry, hidN, hposN]
    · apply List.map_congr_left
      intro a ha
      simp only [nodeEntry, hid a ha, hpos a ha]
  refine ⟨l', m1, ⟨m2, ?_, ?_, ?_, ?_, ?_, ?_⟩, hmap, m4, m3⟩
  · simp only [List.length_cons]
    omega
  · simp only []
    omega
  · intro i a
    simp only []
    rw [hf, List.lookup_cons]
    by_cases hi : i = id
    · have : (i == id) = true := by simpa using hi
      rw [this]
      simp only [List.mem_cons]
      constructor
      · intro e
        have e2 : l.id.length = a := Option.some.inj e
        rw [← e2]
        exact ⟨Or.inl rfl, by rw [hidN, hi]⟩
      · rintro ⟨ha | ha, e⟩
        · rw [ha]
        · rw [hid a ha] at e
          have := (h4 i a).mpr ⟨ha, e⟩
          rw [hi, hn] at this
          cases this
    · have : (i == id) = false := by simpa using hi
      rw [this]
      simp only [List.mem_cons]
      rw [h4 i a]
      constructor
      · rintro ⟨ha, e⟩
        exact ⟨Or.inr ha, by rw [hid a ha]; exact e⟩
      · rintro ⟨ha | ha, e⟩
        · rw [ha, hidN] at e
          exact absurd e.symm hi
        · rw [hid a ha] at e
          exact ⟨ha, e⟩
  · simp only []
    rw [hf, List.map_cons, List.nodup_cons]
    exact ⟨hk, h5⟩
  · simp only []
    rw [hf, List.length_cons, h6]
  · simp only []
    rw [List.map_cons, hposN]
    refine List.Perm.trans ?_ hp
    apply List.Perm.cons
    apply List.Perm.of_eq
    apply List.map_congr_left
    intro a ha
    exact hpos a ha

theorem slot_stable_add (hash hash1 : List (Nat × Nat)) (pos : List Nat) (p N id i s s' : Nat)
    (hsub : ∀ i, hash1.lookup i = none ∨ hash1.lookup i = hash.lookup i)
    (hn : hash.lookup id = none)
    (h1 : ((hash.lookup i).bind fun a => rd pos a) = some s)
    (h2 : ((((id, N) :: hash1.filter fun e => e.1 ≠ id).lookup i).bind fun a =>
      rd (pos ++ [p]) a) = some s') : s = s' := by
  have hi : i ≠ id := by
    intro e
    rw [e, hn] at h1
    cases h1
  have hb : (i == id) = false := by simpa using hi
  rw [List.lookup_cons, hb] at h2
  simp only [] at h2
  rw [lookup_filter_ne, if_neg hi] at h2
  rcases hsub i with e | e
  · rw [e] at h2
    cases h2
  · rw [e] at h2
    cases hl : hash.lookup i with
    | none =>
      rw [hl] at h1
      cases h1
    | some a =>
      rw [hl] at h1 h2
      simp only [Option.some_bind] at h1 h2
      rw [rd_append_lt _ _ _ (rd_lt _ _ _ h1), h1] at h2
      exact Option.some.inj h2

theorem Put_resident (c : LRUCache) (id evicted_id o : Nat) (c' : LRUCache)
    (hg : c.Get id = some (o, c')) (ho : o < c'.cap) :
    c.Put id evicted_id = some (o, evicted_id, c') := by
  unfold LRUCache.Put
  rw [hg]
  simp only [Option.some_bind]
  rw [if_neg (by omega)]

theorem Put_free (c : LRUCache) (id evicted_id : Nat) (l : LRULinkedList)
    (hg : c.Get id = some (c.cap + 1, c)) (hs : c.size ≠ c.cap)
    (ha : c.node_list.AddNodeToHead id c.size = some (c.node_list.id.length, l)) :
    c.Put id evicted_id = some (c.size, 0, ⟨c.cap, c.size + 1, l,
      (id, c.node_list.id.length) :: c.node_hash.filter fun e => e.1 ≠ id⟩) := by
  unfold LRUCache.Put
  rw [hg]
  simp only [Option.some_bind]
  rw [if_pos (by omega), if_neg hs]
  simp only [Option.some_bind]
  rw [ha]
  rfl

theorem Put_evict (c : LRUCache) (id evicted_id z p eid : Nat) (l1 l : LRULinkedList)
    (hg : c.Get id = some (c.cap + 1, c)) (hs : c.size = c.cap)
    (hz : c.node_list.GetRearNode = some (some z))
    (hp : rd c.node_list.pos z = some p) (he : rd c.node_list.id z = some eid)
    (hr : c.node_list.RemoveRearNode = some l1)
    (ha : l1.AddNodeToHead id p = some (l1.id.length, l)) :
    c.Put id evicted_id = some (p, eid, ⟨c.cap, c.size - 1 + 1, l,
      (id, l1.id.length) :: (c.node_hash.filter fun e => e.1 ≠ eid).filter
        fun e => e.1 ≠ id⟩) := by
  unfold LRUCache.Put
  rw [hg]
  simp only [Option.some_bind]
  rw [if_pos (by omega), if_pos hs, hz]
  simp only []
  rw [hp, Option.some_bind, he, Option.some_bind, hr]
  simp only [Option.map_some', Option.some_bind]
  rw [ha]
  rfl

theorem Put_evict_nil (c : LRUCache) (id evicted_id : Nat)
    (hg : c.Get id = some (c.cap + 1, c)) (hs : c.size = c.cap)
    (hz : c.node_list.GetRearNode = some none) : c.Put id evicted_id = none := by
  unfold LRUCache.Put
  rw [hg]
  simp only [Option.some_bind]
  rw [if_pos (by omega), if_pos hs, hz]
  rfl

theorem Put_none (c : LRUCache) (id evicted_id : Nat) (hg : c.Get id = none) :
    c.Put id evicted_id = none := by
  unfold LRUCache.Put
  rw [hg]
  rfl

theorem Put_rel (c : LRUCache) (r : RefLRU) (id evicted_id : Nat) (h : LRURel c r) :
    (c.Put id evicted_id = none ∧ (c.cap = 0 ∨ ¬ c.cap + 1 < 2 ^ 31)) ∨
    ∃ o e c', c.Put id evicted_id = some (o, e, c') ∧ LRURel c' (r.Put id).2.2 ∧
      c'.cap = c.cap ∧ o = (r.Put id).1 ∧ (∀ x, (r.Put id).2.1 = some x → e = x) ∧
      (∀ i s s', c.slot i = some s → c'.slot i = some s' → s = s') := by
  rcases Get_rel c r id h with ⟨hcap, hgn, _⟩ | ⟨o, c1, hg, hrel, hc1, hhit, hmiss, hh, hsz, hpos⟩
  · exact Or.inl ⟨Put_none c id evicted_id hgn, Or.inr hcap⟩
  cases hr : r.entries.lookup id with
  | some s =>
    have e1 : r.Get id = (some s, r.promote id s) := by
      unfold RefLRU.Get
      rw [hr]
    have e2 : r.Put id = (s, none, r.promote id s) := by
      unfold RefLRU.Put
      rw [hr]
    rw [e1] at hrel hhit
    obtain ⟨ho, hlt⟩ := hhit s rfl
    refine Or.inr ⟨o, evicted_id, c1, Put_resident c id evicted_id o c1 hg (by omega), ?_,
      hc1, ?_, ?_, ?_⟩
    · rw [e2]
      exact hrel
    · rw [e2]
      exact ho
    · rw [e2]
      intro x hx
      cases hx
    · intro i s1 s2 h1 h2
      unfold LRUCache.slot at h1 h2
      rw [hh, hpos, h1] at h2
      exact Option.some.inj h2
  | none =>
    have e1 : r.Get id = (none, r) := by
      unfold RefLRU.Get
      rw [hr]
    rw [e1] at hmiss
    obtain ⟨ho, hc⟩ := hmiss rfl
    subst ho
    subst hc
    obtain ⟨as, hinv, hc, he⟩ := h
    have hn : c1.node_hash.lookup id = none := by
      rw [CacheInv_lookup_none c1 as hinv]
      rw [he, lookup_map_none] at hr
      exact hr
    have hinv0 := hinv
    obtain ⟨w, h2, h3, h4, h5, h6, h7⟩ := hinv
    have hlen : r.entries.length = c1.size := by
      rw [he, List.length_map, h2]
    by_cases hs : c1.size = c1.cap
    · rcases List.eq_nil_or_concat as with e | ⟨xs, z, e⟩
      · subst e
        simp only [List.length_nil] at h2
        exact Or.inl ⟨Put_evict_nil c1 id evicted_id hg hs (GetRearNode_nil _ w),
          Or.inl (by omega)⟩
      rw [List.concat_eq_append] at e
      subst e
      have hzm : z ∈ xs ++ [z] := by simp
      have hsz1 : c1.size = xs.length + 1 := by rw [h2]; simp
      have hzl : z < c1.node_list.id.length := w.2.2.2.2.1 z hzm
      have hzl2 : z < c1.node_list.pos.length := by rw [w.2.2.1]; exact hzl
      obtain ⟨l1, m1, m2, m3, m4, _, _⟩ := RemoveRearNode_spec _ xs z w
      have hnd := (ListWF_nodup _ _ w).2.2.1
      have hzx : z ∉ xs := by
        have := List.nodup_middle.mp hnd
        rw [List.append_nil] at this
        exact (List.nodup_cons.mp this).1
      have hlz : c1.node_hash.lookup (c1.node_list.id.getD z 0) = some z :=
        (h4 _ z).mpr ⟨hzm, rfl⟩
      have hadd := add_inv l1 (c1.node_hash.filter fun e => e.1 ≠ c1.node_list.id.getD z 0)
        c1.cap (c1.size - 1) xs id (c1.node_list.pos.getD z 0) m2
        (by rw [h2]; simp) (by omega)
        (by
          intro i a
          rw [lookup_filter_ne, m3]
          by_cases hi : i = c1.node_list.id.getD z 0
          · rw [if_pos hi]
            constructor
            · intro e
              cases e
            · rintro ⟨ha, e⟩
              have ha2 : a ∈ xs ++ [z] := List.mem_append_left _ ha
              have := CacheInv_inj c1 _ hinv0 a z ha2 hzm (by
                simp only [nodeEntry]
                rw [e, hi])
              rw [this] at ha
              exact absurd ha hzx
          · rw [if_neg hi, h4 i a]
            constructor
            · rintro ⟨ha, e⟩
              rcases List.mem_append.mp ha with ha | ha
              · exact ⟨ha, e⟩
              · simp only [List.mem_singleton] at ha
                rw [ha] at e
                exact absurd e.symm hi
            · rintro ⟨ha, e⟩
              exact ⟨List.mem_append_left _ ha, e⟩)
        (by
          rw [keys_filter_ne]
          exact h5.filter _)
        (by
          have := length_filter_ne c1.node_hash (c1.node_list.id.getD z 0) h5
            ((not_iff_not.mpr (lookup_none_iff _ _)).mp (by rw [hlz]; simp) |> not_not.mp)
          omega)
        (by
          rw [lookup_filter_ne, hn]
          simp)
        (by
          have e : c1.size - 1 + 1 = c1.size := by omega
          rw [e, m4]
          refine List.Perm.trans ?_ h7
          rw [List.map_append, List.map_cons, List.map_nil]
          exact (List.perm_append_singleton _ _).symm)
      obtain ⟨l', n1, n2, n3, n4, n5⟩ := hadd
      have hput := Put_evict c1 id evicted_id z _ _ l1 l' hg hs
        (GetRearNode_snoc _ xs z w) (rd_getD _ _ hzl2) (rd_getD _ _ hzl) m1 n1
      have e2 : r.Put id = (c1.node_list.pos.getD z 0, some (c1.node_list.id.getD z 0),
          RefLRU.mk r.cap ((id, c1.node_list.pos.getD z 0) ::
            List.map (nodeEntry c1.node_list) xs)) := by
        unfold RefLRU.Put
        rw [hr]
        simp only []
        rw [if_neg (by omega), he, List.map_append, List.map_cons, List.map_nil,
          List.getLast?_concat, List.dropLast_concat]
        rfl
      refine Or.inr ⟨_, _, _, hput, ?_, rfl, ?_, ?_, ?_⟩
      · rw [e2]
        refine ⟨_, n2, hc, ?_⟩
        simp only []
        rw [n3]
        have en : nodeEntry l1 = nodeEntry c1.node_list := by
          funext a
          simp only [nodeEntry, m3, m4]
        rw [en]
      · rw [e2]
      · rw [e2]
        intro x hx
        exact Option.some.inj hx
      · intro i s1 s2 h1 h2
        unfold LRUCache.slot at h1 h2
        simp only [] at h2
        rw [n4, m4] at h2
        refine slot_stable_add _ _ _ _ _ _ _ _ _ ?_ hn h1 h2
        intro j
        rw [lookup_filter_ne]
        by_cases hj : j = c1.node_list.id.getD z 0
        · left
          rw [if_pos hj]
        · right
          rw [if_neg hj]
    · obtain ⟨l', n1, n2, n3, n4, n5⟩ := add_inv c1.node_list c1.node_hash c1.cap c1.size as id
        c1.size w h2 (by omega) h4 h5 h6 hn (by
          rw [List.range_succ]
          refine List.Perm.trans ?_ (List.perm_append_singleton _ _).symm
          exact List.Perm.cons _ h7)
      have hput := Put_free c1 id evicted_id l' hg hs n1
      have e2 : r.Put id = (c1.size, some 0,
          { r with entries := (id, c1.size) :: r.entries }) := by
        unfold RefLRU.Put
        rw [hr]
        simp only []
        rw [if_pos (by omega), hlen]
      refine Or.inr ⟨_, _, _, hput, ?_, rfl, ?_, ?_, ?_⟩
      · rw [e2]
        refine ⟨_, n2, hc, ?_⟩
        simp only []
        rw [n3, he]
      · rw [e2]
      · rw [e2]
        intro x hx
        exact Option.some.inj hx
      · intro i s1 s2 h1 h2
        unfold LRUCache.slot at h1 h2
        simp only [] at h2
        rw [n4] at h2
        exact slot_stable_add _ _ _ _ _ _ _ _ _ (fun _ => Or.inr rfl) hn h1 h2

theorem call_rel (c : LRUCache) (r : RefLRU) (x : LRUCall) (h : LRURel c r) :
    (c.call x = none ∧ (c.cap = 0 ∨ ¬ c.cap + 1 < 2 ^ 31)) ∨
    ∃ o c', c.call x = some (o, c') ∧ LRURel c' (r.call x).2 ∧ c'.cap = c.cap ∧
      LRUAgree c.cap o (r.call x).1 ∧
      (∀ i s s', c.slot i = some s → c'.slot i = some s' → s = s') := by
  cases x with
  | Get id =>
    rcases Get_rel c r id h with ⟨hcap, hgn, _⟩ | ⟨o, c1, hg, hrel, hc1, hhit, hmiss, hh, _, hpos⟩
    · left
      refine ⟨?_, Or.inr hcap⟩
      show Option.map _ (c.Get id) = _
      rw [hgn]
      rfl
    · right
      refine ⟨(o, none), c1, ?_, hrel, hc1, ⟨?_, ?_, ?_⟩, ?_⟩
      · show Option.map _ (c.Get id) = _
        rw [hg]
        rfl
      · intro s hs
        exact (hhit s hs).1
      · intro hs
        have := (hmiss hs).1
        simp only []
        omega
      · intro e he
        cases he
      · intro i s1 s2 h1 h2
        unfold LRUCache.slot at h1 h2
        rw [hh, hpos, h1] at h2
        exact Option.some.inj h2
  | Put id evicted_id =>
    rcases Put_rel c r id evicted_id h with ⟨hn, hb⟩ | ⟨o, e, c1, hp, hrel, hc1, ho, he, hst⟩
    · left
      refine ⟨?_, hb⟩
      show Option.map _ (c.Put id evicted_id) = _
      rw [hn]
      rfl
    · right
      refine ⟨(o, some e), c1, ?_, hrel, hc1, ⟨?_, ?_, ?_⟩, hst⟩
      · show Option.map _ (c.Put id evicted_id) = _
        rw [hp]
        rfl
      · intro s hs
        have : (r.Put id).1 = s := Option.some.inj hs
        simp only []
        omega
      · intro hs
        cases hs
      · intro x hx
        have := he x hx
        simp only []
        rw [this]

theorem run_rel (calls : List LRUCall) : ∀ (c : LRUCache) (r : RefLRU), LRURel c r →
    1 ≤ c.cap → c.cap + 1 < 2 ^ 31 →
    ∃ outs c', c.run calls = some (outs, c') ∧ LRURel c' (r.run calls).2 ∧
      List.Forall₂ (LRUAgree c.cap) outs (r.run calls).1 := by
  induction calls with
  | nil =>
    intro c r h _ _
    exact ⟨[], c, rfl, h, List.Forall₂.nil⟩
  | cons x xs ih =>
    intro c r h h1 h2
    rcases call_rel c r x h with ⟨_, hb⟩ | ⟨o, c1, hc, hrel, hcap, hag, _⟩
    · omega
    · obtain ⟨outs, c2, hr, hrel2, hall⟩ := ih c1 _ hrel (by omega) (by omega)
      refine ⟨o :: outs, c2, ?_, hrel2, ?_⟩
      · unfold LRUCache.run
        rw [hc, Option.some_bind, hr]
        rfl
      · rw [hcap] at hall
        exact List.Forall₂.cons hag hall

theorem run_inv (calls : List LRUCall) : ∀ (c : LRUCache) (r : RefLRU)
    (outs : List (Nat × Option Nat)) (c' : LRUCache), LRURel c r →
    c.run calls = some (outs, c') → c'.cap = c.cap ∧ ∃ r', LRURel c' r' := by
  induction calls with
  | nil =>
    intro c r outs c' h hr
    have : c = c' := by
      unfold LRUCache.run at hr
      exact (Prod.mk.inj (Option.some.inj hr)).2
    subst this
    exact ⟨rfl, r, h⟩
  | cons x xs ih =>
    intro c r outs c' h hr
    unfold LRUCache.run at hr
    rcases call_rel c r x h with ⟨hn, _⟩ | ⟨o, c1, hc, hrel, hcap, _, _⟩
    · rw [hn] at hr
      cases hr
    · rw [hc, Option.some_bind] at hr
      cases h2 : c1.run xs with
      | none =>
        rw [h2] at hr
        cases hr
      | some rs =>
        rw [h2] at hr
        have e : rs.2 = c' := (Prod.mk.inj (Option.some.inj hr)).2
        obtain ⟨a1, a2⟩ := ih c1 _ rs.1 rs.2 hrel h2
        rw [e] at a1 a2
        exact ⟨a1.trans hcap, a2⟩

theorem LRURel_new (M : Nat) : LRURel (LRUCache.new M) (RefLRU.new M) := by
  refine ⟨[], ⟨ListWF_new, rfl, Nat.zero_le _, ?_, List.nodup_nil, rfl, List.Perm.refl _⟩, rfl, rfl⟩
  intro i a
  constructor
  · intro h
    cases h
  · rintro ⟨h, _⟩
    cases h

theorem slot_eq_lookup (c : LRUCache) (as : List Nat) (h : CacheInv c as) (i : Nat) :
    c.slot i = (as.map (nodeEntry c.node_list)).lookup i := by
  unfold LRUCache.slot
  cases hl : c.node_hash.lookup i with
  | none =>
    have := (CacheInv_lookup_none c as h i).mp hl
    rw [(lookup_map_none _ _ _).mpr this]
    rfl
  | some a =>
    obtain ⟨ha, hid⟩ := (h.2.2.2.1 i a).mp hl
    have hlt : a < c.node_list.pos.length := by
      rw [h.1.2.2.1]
      exact h.1.2.2.2.2.1 a ha
    have := lookup_map_some (nodeEntry c.node_list) as (CacheInv_inj c as h) a ha
    simp only [nodeEntry] at this
    rw [hid] at this
    rw [Option.some_bind, rd_getD _ _ hlt]
    exact this.symm

theorem slot_some (c : LRUCache) (as : List Nat) (h : CacheInv c as) (i s : Nat) :
    c.slot i = some s ↔
      ∃ a, a ∈ as ∧ c.node_list.id.getD a 0 = i ∧ c.node_list.pos.getD a 0 = s := by
  unfold LRUCache.slot
  constructor
  · intro hs
    cases hl : c.node_hash.lookup i with
    | none =>
      rw [hl] at hs
      cases hs
    | some a =>
      rw [hl, Option.some_bind] at hs
      obtain ⟨ha, hid⟩ := (h.2.2.2.1 i a).mp hl
      have hlt := rd_lt _ _ _ hs
      rw [rd_getD _ _ hlt] at hs
      exact ⟨a, ha, hid, Option.some.inj hs⟩
  · rintro ⟨a, ha, hid, hs⟩
    have hlt : a < c.node_list.pos.length := by
      rw [h.1.2.2.1]
      exact h.1.2.2.2.2.1 a ha
    rw [(h.2.2.2.1 i a).mpr ⟨ha, hid⟩, Option.some_bind, rd_getD _ _ hlt, hs]

theorem CacheInv_slots (c : LRUCache) (as : List Nat) (h : CacheInv c as) :
    c.size ≤ c.cap ∧ c.node_hash.length = c.size ∧ (c.node_hash.map Prod.fst).Nodup ∧
    (∀ i, i ∈ c.node_hash.map Prod.fst ↔ ∃ s, c.slot i = some s) ∧
    (∀ i j s, c.slot i = some s → c.slot j = some s → i = j) ∧
    (∀ s, (∃ i, c.slot i = some s) ↔ s < c.size) := by
  refine ⟨h.2.2.1, h.2.2.2.2.2.1, h.2.2.2.2.1, ?_, ?_, ?_⟩
  · intro i
    constructor
    · intro hi
      cases hl : c.node_hash.lookup i with
      | none => exact absurd hi ((lookup_none_iff _ _).mp hl)
      | some a =>
        obtain ⟨ha, hid⟩ := (h.2.2.2.1 i a).mp hl
        exact ⟨_, (slot_some c as h i _).mpr ⟨a, ha, hid, rfl⟩⟩
    · rintro ⟨s, hs⟩
      by_contra hi
      have := (lookup_none_iff _ _).mpr hi
      unfold LRUCache.slot at hs
      rw [this] at hs
      cases hs
  · intro i j s hi hj
    obtain ⟨a, ha, hia, hsa⟩ := (slot_some c as h i s).mp hi
    obtain ⟨b, hb, hjb, hsb⟩ := (slot_some c as h j s).mp hj
    have hnd : (as.map fun a => c.node_list.pos.getD a 0).Nodup :=
      (h.2.2.2.2.2.2.nodup_iff).mpr (List.nodup_range _)
    have := List.inj_on_of_nodup_map hnd ha hb (hsa.trans hsb.symm)
    rw [← hia, ← hjb, this]
  · intro s
    constructor
    · rintro ⟨i, hi⟩
      obtain ⟨a, ha, _, hsa⟩ := (slot_some c as h i s).mp hi
      rw [← hsa]
      exact CacheInv_pos_lt c as h a ha
    · intro hs
      have : s ∈ as.map fun a => c.node_list.pos.getD a 0 :=
        (h.2.2.2.2.2.2.mem_iff).mpr (List.mem_range.mpr hs)
      obtain ⟨a, ha, hsa⟩ := List.mem_map.mp this
      exact ⟨_, (slot_some c as h _ s).mpr ⟨a, ha, rfl, hsa⟩⟩

/-- Claim C11. In every sequence of `Get` and `Put` calls on a cache of capacity `M`, with
`1 ≤ M` and `M + 1` an `int`, every call returns, the resident entries in recency order are
those of the reference LRU, and each call returns what the reference returns: the slot on a
hit and a value of at least `M` on a miss of `Get`, and for `Put` of an id that is not resident
the slot and the id reported as evicted (0 while fewer than `M` ids are resident, the least
recently used id otherwise, whose slot is reused). -/
theorem LRU_refines (M : Nat) (hM : 1 ≤ M) (hM2 : M + 1 < 2 ^ 31) (calls : List LRUCall) :
    ∃ outs c, (LRUCache.new M).run calls = some (outs, c) ∧
      c.entries = ((RefLRU.new M).run calls).2.entries ∧
      List.Forall₂ (LRUAgree M) outs ((RefLRU.new M).run calls).1 := by
  obtain ⟨outs, c, hr, ⟨as, hinv, _, he⟩, hall⟩ :=
    run_rel calls (LRUCache.new M) (RefLRU.new M) (LRURel_new M) hM hM2
  exact ⟨outs, c, hr, by rw [entries_of_inv c as hinv, he], hall⟩

theorem LRU_refines_witness : 1 ≤ 2 ∧ 2 + 1 < 2 ^ 31 ∧
    ∃ outs c, (LRUCache.new 2).run [LRUCall.Put 5 0, LRUCall.Put 6 0, LRUCall.Get 5,
        LRUCall.Put 7 0, LRUCall.Get 6, LRUCall.Put 7 9] = some (outs, c) ∧
      c.entries = ((RefLRU.new 2).run [LRUCall.Put 5 0, LRUCall.Put 6 0, LRUCall.Get 5,
        LRUCall.Put 7 0, LRUCall.Get 6, LRUCall.Put 7 9]).2.entries ∧
      List.Forall₂ (LRUAgree 2) outs ((RefLRU.new 2).run [LRUCall.Put 5 0, LRUCall.Put 6 0,
        LRUCall.Get 5, LRUCall.Put 7 0, LRUCall.Get 6, LRUCall.Put 7 9]).1 :=
  ⟨by decide, by decide, LRU_refines 2 (by decide) (by decide) _⟩

/-- Claim C12. After every sequence of `Get` and `Put` calls on a cache of capacity `M` that
returns (it does when `1 ≤ M` and `M + 1` is an `int`), `size ≤ M`, the resident ids are `size`
distinct ids, the resident ids are the ids with a slot, distinct ids have distinct slots, the
slots in use are exactly the numbers below `size`, and an id that is resident before and after
a further call has the same slot. -/
theorem LRU_slots (M : Nat) (calls : List LRUCall) :
    (1 ≤ M → M + 1 < 2 ^ 31 → ∃ outs c, (LRUCache.new M).run calls = some (outs, c)) ∧
    ∀ outs c, (LRUCache.new M).run calls = some (outs, c) →
      c.size ≤ M ∧ c.node_hash.length = c.size ∧ (c.node_hash.map Prod.fst).Nodup ∧
      (∀ i, i ∈ c.node_hash.map Prod.fst ↔ ∃ s, c.slot i = some s) ∧
      (∀ i j s, c.slot i = some s → c.slot j = some s → i = j) ∧
      (∀ s, (∃ i, c.slot i = some s) ↔ s < c.size) ∧
      (∀ i, c.slot i = c.entries.lookup i) ∧
      ∀ x o c', c.call x = some (o, c') →
        ∀ i s s', c.slot i = some s → c'.slot i = some s' → s = s' := by
  constructor
  · intro hM hM2
    obtain ⟨outs, c, hr, _⟩ :=
      run_rel calls (LRUCache.new M) (RefLRU.new M) (LRURel_new M) hM hM2
    exact ⟨outs, c, hr⟩
  · intro outs c hr
    obtain ⟨hcap, r, hrel⟩ := run_inv calls _ _ outs c (LRURel_new M) hr
    have hrel2 := hrel
    obtain ⟨as, hinv, _, _⟩ := hrel
    obtain ⟨a1, a2, a3, a4, a5, a6⟩ := CacheInv_slots c as hinv
    refine ⟨?_, a2, a3, a4, a5, a6, ?_, ?_⟩
    · have : c.cap = M := hcap
      omega
    · intro i
      rw [entries_of_inv c as hinv]
      exact slot_eq_lookup c as hinv i
    · intro x o c' hc
      rcases call_rel c r x hrel2 with ⟨hn, _⟩ | ⟨o2, c2, hc2, _, _, _, hst⟩
      · rw [hn] at hc
        cases hc
      · rw [hc2] at hc
        have : c2 = c' := (Prod.mk.inj (Option.some.inj hc)).2
        rw [← this]
        exact hst

theorem LRU_slots_witness : 1 ≤ 2 ∧ 2 + 1 < 2 ^ 31 ∧
    ∃ outs c, (LRUCache.new 2).run [LRUCall.Put 5 0, LRUCall.Put 6 0, LRUCall.Get 5,
        LRUCall.Put 7 0] = some (outs, c) ∧
      c.slot 5 = some 0 ∧ c.slot 6 = none ∧ c.slot 7 = some 1 ∧ c.size = 2 ∧
      (∀ i j s, c.slot i = some s → c.slot j = some s → i = j) ∧
      (∀ s, (∃ i, c.slot i = some s) ↔ s < c.size) :=
  ⟨by decide, by decide, _, _, rfl, rfl, rfl, rfl, rfl,
    ((LRU_slots 2 [LRUCall.Put 5 0, LRUCall.Put 6 0, LRUCall.Get 5,
      LRUCall.Put 7 0]).2 _ _ rfl).2.2.2.2.1,
    ((LRU_slots 2 [LRUCall.Put 5 0, LRUCall.Put 6 0, LRUCall.Get 5,
      LRUCall.Put 7 0]).2 _ _ rfl).2.2.2.2.2.1⟩

/-! ## Page cache -/

theorem lookup_snoc (E : List (Nat × Nat)) (v : Nat × Nat) (i : Nat)
    (hnd : v.1 ∉ E.map Prod.fst) :
    (E ++ [v]).lookup i = if i = v.1 then some v.2 else E.lookup i := by
  induction E with
  | nil =>
    obtain ⟨a, b⟩ := v
    by_cases h : i = a
    · have : (i == a) = true := by simpa using h
      simp [List.lookup_cons, this, h]
    · have : (i == a) = false := by simpa using h
      simp [List.lookup_cons, this, h]
  | cons x E ih =>
    obtain ⟨a, b⟩ := x
    simp only [List.map_cons, List.mem_cons, not_or] at hnd
    rw [List.cons_append, List.lookup_cons, List.lookup_cons, ih hnd.2]
    by_cases h : i = a
    · have hb : (i == a) = true := by simpa using h
      have hv : i ≠ v.1 := by
        rw [h]
        exact fun e => hnd.1 e.symm
      simp [hb, hv]
    · have hb : (i == a) = false := by simpa using h
      simp [hb]

theorem lookup_cons_eq (E : List (Nat × Nat)) (a b i : Nat) :
    ((a, b) :: E).lookup i = if i = a then some b else E.lookup i := by
  rw [List.lookup_cons]
  by_cases h : i = a
  · have hb : (i == a) = true := by simpa using h
    simp [hb, h]
  · have hb : (i == a) = false := by simpa using h
    simp [hb, h]

theorem CacheInv_keys (c : LRUCache) (as : List Nat) (h : CacheInv c as) :
    ((as.map (nodeEntry c.node_list)).map Prod.fst).Nodup := by
  rw [List.map_map]
  refine List.Nodup.map_on ?_ (ListWF_nodup _ _ h.1).2.2.1
  intro a ha b hb e
  exact CacheInv_inj c as h a b ha hb e

theorem LRURel_slot (c : LRUCache) (r : RefLRU) (h : LRURel c r) (i : Nat) :
    c.slot i = r.entries.lookup i := by
  obtain ⟨as, hinv, _, he⟩ := h
  rw [he]
  exact slot_eq_lookup c as hinv i

theorem Get_slot (c : LRUCache) (as : List Nat) (id : Nat) (h : CacheInv c as)
    (hcap : c.cap + 1 < 2 ^ 31) :
    (c.slot id = none ∧ c.Get id = some (c.cap + 1, c)) ∨
    ∃ s c' as', c.slot id = some s ∧ c.Get id = some (s, c') ∧ CacheInv c' as' ∧
      c'.cap = c.cap ∧ s < c.cap ∧ ∀ i, c'.slot i = c.slot i := by
  have hrel : LRURel c ⟨c.cap, as.map (nodeEntry c.node_list)⟩ := ⟨as, h, rfl, rfl⟩
  have hs := LRURel_slot c _ hrel id
  simp only [] at hs
  rcases Get_rel c _ id hrel with ⟨hb, _, _⟩ | ⟨o, c', hg, hrel2, hc, hhit, hmiss, hh, _, hpos⟩
  · exact absurd hcap hb
  · cases hl : (as.map (nodeEntry c.node_list)).lookup id with
    | none =>
      left
      have e : (RefLRU.Get ⟨c.cap, as.map (nodeEntry c.node_list)⟩ id).1 = none := by
        unfold RefLRU.Get
        simp only []
        rw [hl]
      obtain ⟨e1, e2⟩ := hmiss e
      rw [e1, e2] at hg
      rw [hs, hl]
      exact ⟨rfl, hg⟩
    | some s =>
      right
      have e : (RefLRU.Get ⟨c.cap, as.map (nodeEntry c.node_list)⟩ id).1 = some s := by
        unfold RefLRU.Get
        simp only []
        rw [hl]
      obtain ⟨e1, e2⟩ := hhit s e
      obtain ⟨as', hinv', _, _⟩ := hrel2
      refine ⟨s, c', as', by rw [hs, hl], by rw [← e1]; exact hg, hinv', hc, e2, ?_⟩
      intro i
      unfold LRUCache.slot
      rw [hh, hpos]

theorem Put_slot (c : LRUCache) (as : List Nat) (id evicted_id : Nat) (h : CacheInv c as)
    (hcap : c.cap + 1 < 2 ^ 31) (hM : 1 ≤ c.cap) (hn : c.slot id = none) :
    ∃ p e c' as', c.Put id evicted_id = some (p, e, c') ∧ CacheInv c' as' ∧ c'.cap = c.cap ∧
      p < c.cap ∧
      ((e = 0 ∧ (∀ i, c.slot i ≠ some p) ∧
          ∀ i, c'.slot i = if i = id then some p else c.slot i) ∨
       (c.slot e = some p ∧
          ∀ i, c'.slot i = if i = id then some p else if i = e then none else c.slot i)) := by
  have hrel : LRURel c ⟨c.cap, as.map (nodeEntry c.node_list)⟩ := ⟨as, h, rfl, rfl⟩
  have hs := LRURel_slot c _ hrel
  simp only [] at hs
  have hl : (as.map (nodeEntry c.node_list)).lookup id = none := by rw [← hs, hn]
  have hlen : (as.map (nodeEntry c.node_list)).length = c.size := by
    rw [List.length_map, h.2.1]
  obtain ⟨b1, _, _, _, _, b6⟩ := CacheInv_slots c as h
  rcases Put_rel c _ id evicted_id hrel with ⟨_, hb⟩ | ⟨o, e, c', hp, hrel2, hc, ho, he, _⟩
  · omega
  have hs2 := LRURel_slot c' _ hrel2
  obtain ⟨as', hinv', _, _⟩ := hrel2
  by_cases hsz : c.size < c.cap
  · have e2 : RefLRU.Put ⟨c.cap, as.map (nodeEntry c.node_list)⟩ id = (c.size, some 0,
        ⟨c.cap, (id, c.size) :: as.map (nodeEntry c.node_list)⟩) := by
      unfold RefLRU.Put
      simp only []
      rw [hl]
      simp only []
      rw [if_pos (by omega), hlen]
    rw [e2] at ho he hs2
    simp only [] at ho he hs2
    have he0 := he 0 rfl
    subst ho
    refine ⟨_, e, c', as', hp, hinv', hc, hsz, Or.inl ⟨he0, ?_, ?_⟩⟩
    · intro i hi
      have := (b6 c.size).mp ⟨i, hi⟩
      omega
    · intro i
      rw [hs2 i, lookup_cons_eq, hs i]
  · have hne : as.map (nodeEntry c.node_list) ≠ [] := by
      intro e
      rw [e] at hlen
      simp at hlen
      omega
    rcases List.eq_nil_or_concat (as.map (nodeEntry c.node_list)) with e | ⟨E, v, e⟩
    · exact absurd e hne
    rw [List.concat_eq_append] at e
    have hk := CacheInv_keys c as h
    rw [e] at hk hs hl hlen
    have hv : v.1 ∉ E.map Prod.fst := by
      rw [List.map_append, List.map_cons, List.map_nil] at hk
      have := List.nodup_middle.mp hk
      rw [List.append_nil] at this
      exact (List.nodup_cons.mp this).1
    have e2 : RefLRU.Put ⟨c.cap, as.map (nodeEntry c.node_list)⟩ id = (v.2, some v.1,
        ⟨c.cap, (id, v.2) :: E⟩) := by
      unfold RefLRU.Put
      simp only []
      rw [e, hl]
      simp only []
      rw [if_neg (by omega), List.getLast?_concat, List.dropLast_concat]
    rw [e2] at ho he hs2
    simp only [] at ho he hs2
    have he0 := he v.1 rfl
    subst ho
    subst he0
    have hse : c.slot v.1 = some v.2 := by
      rw [hs, lookup_snoc E v _ hv, if_pos rfl]
    have hlt : v.2 < c.size := (b6 v.2).mp ⟨_, hse⟩
    refine ⟨_, _, c', as', hp, hinv', hc, by omega, Or.inr ⟨hse, ?_⟩⟩
    intro i
    rw [hs2 i, lookup_cons_eq, hs i, lookup_snoc E v i hv]
    by_cases h1 : i = id
    · rw [if_pos h1, if_pos h1]
    · rw [if_neg h1, if_neg h1]
      by_cases h2 : i = v.1
      · rw [if_pos h2]
        have hne : (E.lookup i) = none := by
          rw [lookup_none_iff, h2]
          exact hv
        exact hne
      · rw [if_neg h2, if_neg h2]

theorem BLOCKS_IN_MEMORY_eq : Disk.BLOCKS_IN_MEMORY = 16 := rfl

theorem refRead_cons (st : List (Nat × List Nat)) (id i : Nat) (d : List Nat) :
    Disk.refRead ((id, d) :: st) i = if i = id then d else Disk.refRead st i := by
  unfold Disk.refRead
  rw [List.lookup_cons]
  by_cases h : i = id
  · have hb : (i == id) = true := by simpa using h
    simp [hb, h]
  · have hb : (i == id) = false := by simpa using h
    simp [hb, h]

theorem lookup_files_cons (fs : List (Nat × List Nat)) (id i : Nat) (d : List Nat) :
    ((id, d) :: fs).lookup i = if i = id then some d else fs.lookup i := by
  rw [List.lookup_cons]
  by_cases h : i = id
  · have hb : (i == id) = true := by simpa using h
    simp [hb, h]
  · have hb : (i == id) = false := by simpa using h
    simp [hb, h]

theorem load_nil : Disk.load [] = List.replicate BLOCK_SIZE 0 := by
  simp [Disk.load]

theorem load_full (f : List Nat) (h : f.length = BLOCK_SIZE) : Disk.load f = f := by
  unfold Disk.load
  rw [List.take_of_length_le (by omega), h, List.drop_of_length_le (by simp)]
  simp

theorem OpenBlock_hit (bm : Disk.BlockManager) (id s : Nat) (c' : LRUCache)
    (hg : bm.open_blocks.Get id = some (s, c')) (hs : s < Disk.BLOCKS_IN_MEMORY) :
    bm.OpenBlock id = some (s, { bm with open_blocks := c' }) := by
  unfold Disk.BlockManager.OpenBlock
  rw [hg]
  simp only [Option.some_bind]
  rw [if_pos hs]

theorem OpenBlock_load (bm : Disk.BlockManager) (id o p e : Nat) (c0 c' : LRUCache)
    (f : List Nat) (hg : bm.open_blocks.Get id = some (o, c0))
    (ho : ¬ o < Disk.BLOCKS_IN_MEMORY) (hp : c0.Put id 0 = some (p, e, c'))
    (hpl : p < bm.internal_mem.length) (hp16 : p < Disk.BLOCKS_IN_MEMORY)
    (hf : bm.files.lookup id = some f) (hne : e ≠ id) :
    ∃ bm', bm.OpenBlock id = some (p, bm') ∧ bm'.open_blocks = c' ∧
      bm'.cur_num_blocks = bm.cur_num_blocks ∧
      bm'.internal_mem = (bm.internal_mem.set p (List.replicate BLOCK_SIZE 0)).set p
        (Disk.load f) ∧
      ((e = 0 ∧ bm'.files = bm.files) ∨
       (0 < e ∧ ∃ buf, rd bm.internal_mem p = some buf ∧ bm'.files = (e, buf) :: bm.files)) := by
  have hz : rd (bm.internal_mem.set p (List.replicate BLOCK_SIZE 0)) p =
      some (List.replicate BLOCK_SIZE 0) := by
    rw [rd_set, if_pos rfl, if_pos hpl]
  have hl2 : p < (bm.internal_mem.set p (List.replicate BLOCK_SIZE 0)).length := by
    rw [List.length_set]
    exact hpl
  unfold Disk.BlockManager.OpenBlock
  rw [hg]
  simp only [Option.some_bind]
  rw [if_neg ho, hp]
  simp only [Option.some_bind]
  by_cases he : e > 0
  · rw [if_pos he]
    obtain ⟨buf, hbuf⟩ : ∃ buf, rd bm.internal_mem p = some buf := by
      unfold rd
      exact ⟨_, List.getElem?_eq_getElem hpl⟩
    unfold Disk.BlockManager.WriteBlock
    rw [if_neg (by omega)]
    simp only []
    rw [hbuf]
    simp only [Option.map_some', Option.some_bind]
    rw [wr_eq _ _ _ hpl, Option.some_bind]
    unfold Disk.BlockManager.ReadBlock
    simp only []
    rw [lookup_files_cons, if_neg (fun e2 => hne e2.symm), hf]
    simp only []
    rw [hz, Option.some_bind, wr_eq _ _ _ hl2]
    exact ⟨_, rfl, rfl, rfl, rfl, Or.inr ⟨he, buf, rfl, rfl⟩⟩
  · rw [if_neg he]
    simp only [Option.some_bind]
    rw [wr_eq _ _ _ hpl, Option.some_bind]
    unfold Disk.BlockManager.ReadBlock
    simp only []
    rw [hf]
    simp only []
    rw [hz, Option.some_bind, wr_eq _ _ _ hl2]
    exact ⟨_, rfl, rfl, rfl, rfl, Or.inl ⟨by omega, rfl⟩⟩

theorem Coh_new (mem : List (List Nat)) (hmem : mem.length = Disk.BLOCKS_IN_MEMORY) :
    Disk.Coh (Disk.Client.new mem) [] := by
  obtain ⟨as, hinv, _, _⟩ := LRURel_new Disk.BLOCKS_IN_MEMORY
  refine ⟨⟨as, hinv⟩, rfl, hmem, ?_, ?_, ?_, ?_⟩
  · intro id s h
    cases h
  · intro id h1 h2
    have : (Disk.Client.new mem).bm.cur_num_blocks = 0 := rfl
    omega
  · intro id
    simp [Disk.refRead]
  · intro id _
    rfl

theorem Coh_create (cl : Disk.Client) (st : List (Nat × List Nat)) (h : Disk.Coh cl st)
    (hc : cl.bm.cur_num_blocks + 1 < 2 ^ 32) :
    Disk.Coh { cl with bm := cl.bm.CreateBlock.2 } st ∧
    cl.bm.CreateBlock.1 = cl.bm.cur_num_blocks + 1 := by
  obtain ⟨h1, h2, h3, h4, h5, h6, h7⟩ := h
  have e : (cl.bm.cur_num_blocks + 1) % 2 ^ 32 = cl.bm.cur_num_blocks + 1 :=
    Nat.mod_eq_of_lt hc
  refine ⟨⟨h1, h2, h3, ?_, ?_, h6, ?_⟩, e⟩
  · intro id s hs
    obtain ⟨a, b, c, d⟩ := h4 id s hs
    refine ⟨a, b, c, ?_⟩
    show id ≤ (cl.bm.cur_num_blocks + 1) % 2 ^ 32
    omega
  · intro id hi1 hi2 hs
    have hi3 : id ≤ (cl.bm.cur_num_blocks + 1) % 2 ^ 32 := hi2
    show ∃ f, List.lookup id (((cl.bm.cur_num_blocks + 1) % 2 ^ 32, []) :: cl.bm.files) =
      some f ∧ _
    rw [lookup_files_cons, e]
    by_cases hid : id = cl.bm.cur_num_blocks + 1
    · rw [if_pos hid]
      refine ⟨[], rfl, ?_⟩
      rw [load_nil]
      unfold Disk.refRead
      rw [h7 id (by omega)]
      rfl
    · rw [if_neg hid]
      exact h5 id hi1 (by omega) hs
  · intro id hid
    have : cl.bm.cur_num_blocks + 1 < id := by
      have : (cl.bm.cur_num_blocks + 1) % 2 ^ 32 < id := hid
      omega
    exact h7 id (by omega)

theorem Coh_write (cl : Disk.Client) (st : List (Nat × List Nat)) (id off b s : Nat)
    (h : Disk.Coh cl st) (hs : cl.bm.open_blocks.slot id = some s) :
    ∃ cl', cl.call (Disk.Call.Write id off b) = some cl' ∧
      Disk.Coh cl' (Disk.refStep st (Disk.Call.Write id off b)) ∧
      cl'.bm.cur_num_blocks = cl.bm.cur_num_blocks := by
  obtain ⟨⟨as, hinv⟩, h2, h3, h4, h5, h6, h7⟩ := h
  obtain ⟨a1, a2, a3, a4⟩ := h4 id s hs
  have hsl := rd_lt _ _ _ a1
  obtain ⟨_, _, _, _, binj, _⟩ := CacheInv_slots _ as hinv
  refine ⟨⟨{ cl.bm with internal_mem :=
    cl.bm.internal_mem.set s ((Disk.refRead st id).set off b) }, cl.slot_of⟩, ?_,
    ⟨⟨as, hinv⟩, h2, ?_, ?_, ?_, ?_, ?_⟩, rfl⟩
  · simp only [Disk.Client.call]
    rw [a2, Option.some_bind, a1, Option.some_bind, wr_eq _ _ _ hsl]
    rfl
  · show (cl.bm.internal_mem.set s _).length = _
    rw [List.length_set]
    exact h3
  · intro i s' hs'
    have hs2 : cl.bm.open_blocks.slot i = some s' := hs'
    obtain ⟨c1, c2, c3, c4⟩ := h4 i s' hs2
    refine ⟨?_, c2, c3, c4⟩
    show rd (cl.bm.internal_mem.set s _) s' = _
    rw [rd_set]
    show _ = some (Disk.refRead ((id, (Disk.refRead st id).set off b) :: st) i)
    rw [refRead_cons]
    by_cases hi : i = id
    · subst hi
      rw [hs] at hs2
      have : s = s' := Option.some.inj hs2
      subst this
      rw [if_pos rfl, if_pos hsl, if_pos rfl]
    · have hne : s' ≠ s := by
        intro e
        rw [e] at hs2
        exact hi (binj i id s hs2 hs)
      rw [if_neg hne, if_neg hi]
      exact c1
  · intro i hi1 hi2 hn
    have hn2 : cl.bm.open_blocks.slot i = none := hn
    obtain ⟨f, f1, f2⟩ := h5 i hi1 hi2 hn2
    refine ⟨f, f1, ?_⟩
    show _ = Disk.refRead ((id, (Disk.refRead st id).set off b) :: st) i
    rw [refRead_cons]
    have hi : i ≠ id := by
      intro e
      rw [e, hs] at hn2
      cases hn2
    rw [if_neg hi]
    exact f2
  · intro i
    show (Disk.refRead ((id, (Disk.refRead st id).set off b) :: st) i).length = _
    rw [refRead_cons]
    by_cases hi : i = id
    · rw [if_pos hi, List.length_set]
      exact h6 id
    · rw [if_neg hi]
      exact h6 i
  · intro i hi
    have hi2 : cl.bm.cur_num_blocks < i := hi
    show List.lookup i ((id, (Disk.refRead st id).set off b) :: st) = none
    rw [lookup_files_cons, if_neg (by omega)]
    exact h7 i hi2

theorem Coh_open (cl : Disk.Client) (st : List (Nat × List Nat)) (id : Nat)
    (h : Disk.Coh cl st) (hid1 : 1 ≤ id) (hid2 : id ≤ cl.bm.cur_num_blocks) :
    ∃ s bm', cl.bm.OpenBlock id = some (s, bm') ∧ Disk.Coh ⟨bm', (id, s) :: cl.slot_of⟩ st ∧
      bm'.open_blocks.slot id = some s ∧ bm'.cur_num_blocks = cl.bm.cur_num_blocks ∧
      rd bm'.internal_mem s = some (Disk.refRead st id) ∧
      ∀ s0, cl.bm.open_blocks.slot id = some s0 →
        s = s0 ∧ bm'.internal_mem = cl.bm.internal_mem ∧ bm'.files = cl.bm.files := by
  obtain ⟨⟨as, hinv⟩, h2, h3, h4, h5, h6, h7⟩ := h
  have h16 := BLOCKS_IN_MEMORY_eq
  have hcap : cl.bm.open_blocks.cap + 1 < 2 ^ 31 := by
    rw [h2, h16]
    decide
  obtain ⟨_, _, _, _, binj, _⟩ := CacheInv_slots _ as hinv
  rcases Get_slot _ as id hinv hcap with ⟨hn, hg⟩ | ⟨s, c', as', hs, hg, hinv', hc', hlt, hsame⟩
  · -- the page is loaded
    obtain ⟨p, e, c', as', hp, hinv', hc', hplt, hcase⟩ :=
      Put_slot _ as id 0 hinv hcap (by omega) hn
    obtain ⟨f, hf, hload⟩ := h5 id hid1 hid2 hn
    have hne : e ≠ id := by
      rcases hcase with ⟨e0, _, _⟩ | ⟨e1, _⟩
      · omega
      · intro e2
        rw [e2, hn] at e1
        cases e1
    obtain ⟨bm', o1, o2, o3, o4, o5⟩ := OpenBlock_load cl.bm id _ p e _ c' f hg
      (by omega) hp (by omega) (by omega) hf hne
    have hpl : p < cl.bm.internal_mem.length := by omega
    have hrd : ∀ q, rd bm'.internal_mem q =
        if q = p then some (Disk.load f) else rd cl.bm.internal_mem q := by
      intro q
      rw [o4, rd_set, rd_set, List.length_set]
      by_cases hq : q = p
      · rw [if_pos hq, if_pos hq, if_pos hpl]
      · rw [if_neg hq, if_neg hq, if_neg hq]
    have hslot : bm'.open_blocks.slot id = some p := by
      rw [o2]
      rcases hcase with ⟨_, _, e3⟩ | ⟨_, e3⟩
      · rw [e3, if_pos rfl]
      · rw [e3, if_pos rfl]
    have hres : ∀ i s, i ≠ id → bm'.open_blocks.slot i = some s →
        cl.bm.open_blocks.slot i = some s ∧ s ≠ p := by
      intro i s hi hs
      rw [o2] at hs
      rcases hcase with ⟨_, e2, e3⟩ | ⟨e1, e3⟩
      · rw [e3, if_neg hi] at hs
        refine ⟨hs, ?_⟩
        intro e4
        rw [e4] at hs
        exact e2 i hs
      · rw [e3, if_neg hi] at hs
        by_cases hie : i = e
        · rw [if_pos hie] at hs
          cases hs
        · rw [if_neg hie] at hs
          refine ⟨hs, ?_⟩
          intro e4
          rw [e4] at hs
          exact hie (binj i e p hs e1)
    refine ⟨p, bm', o1, ⟨⟨as', by rw [o2]; exact hinv'⟩, ?_, ?_, ?_, ?_, h6, ?_⟩, hslot, o3, ?_,
      ?_⟩
    · show bm'.open_blocks.cap = _
      rw [o2, hc', h2]
    · show bm'.internal_mem.length = _
      rw [o4, List.length_set, List.length_set]
      exact h3
    · intro i s hs
      have hs2 : bm'.open_blocks.slot i = some s := hs
      show rd bm'.internal_mem s = _ ∧ List.lookup i ((id, p) :: cl.slot_of) = some s ∧ _ ∧
        i ≤ bm'.cur_num_blocks
      rw [o3, lookup_cons_eq, hrd]
      by_cases hi : i = id
      · subst hi
        rw [hslot] at hs2
        have : p = s := Option.some.inj hs2
        subst this
        rw [if_pos rfl, if_pos rfl, hload]
        exact ⟨rfl, rfl, hid1, hid2⟩
      · obtain ⟨r1, r2⟩ := hres i s hi hs2
        rw [if_neg r2, if_neg hi]
        exact h4 i s r1
    · intro i hi1 hi2 hn2
      have hn3 : bm'.open_blocks.slot i = none := hn2
      have hi3 : i ≤ cl.bm.cur_num_blocks := by
        have : i ≤ bm'.cur_num_blocks := hi2
        omega
      have hi : i ≠ id := by
        intro e2
        rw [e2, hslot] at hn3
        cases hn3
      show ∃ f, bm'.files.lookup i = some f ∧ _
      rw [o2] at hn3
      rcases hcase with ⟨_, _, e3⟩ | ⟨e1, e3⟩
      · rw [e3, if_neg hi] at hn3
        rcases o5 with ⟨_, o6⟩ | ⟨_, buf, _, o6⟩
        · rw [o6]
          exact h5 i hi1 hi3 hn3
        · omega
      · rw [e3, if_neg hi] at hn3
        obtain ⟨x1, _, x3, _⟩ := h4 e p e1
        rcases o5 with ⟨o7, _⟩ | ⟨_, buf, o7, o6⟩
        · omega
        · rw [o6, lookup_files_cons]
          by_cases hie : i = e
          · rw [if_pos hie]
            rw [x1] at o7
            have : Disk.refRead st e = buf := Option.some.inj o7
            refine ⟨buf, rfl, ?_⟩
            rw [← this, hie]
            exact load_full _ (h6 e)
          · rw [if_neg hie]
            rw [if_neg hie] at hn3
            exact h5 i hi1 hi3 hn3
    · intro i hi
      have : cl.bm.cur_num_blocks < i := by
        have : bm'.cur_num_blocks < i := hi
        omega
      exact h7 i this
    · rw [hrd, if_pos rfl, hload]
    · intro s0 hs0
      rw [hn] at hs0
      cases hs0
  · -- the page is resident
    have ho := OpenBlock_hit cl.bm id s c' hg (by omega)
    obtain ⟨a1, a2, a3, a4⟩ := h4 id s hs
    refine ⟨s, _, ho, ⟨⟨as', hinv'⟩, ?_, h3, ?_, ?_, h6, h7⟩, ?_, rfl, a1, ?_⟩
    · show c'.cap = _
      rw [hc', h2]
    · intro i s' hs'
      have hs2 : c'.slot i = some s' := hs'
      rw [hsame] at hs2
      obtain ⟨c1, c2, c3, c4⟩ := h4 i s' hs2
      refine ⟨c1, ?_, c3, c4⟩
      show List.lookup i ((id, s) :: cl.slot_of) = some s'
      rw [lookup_cons_eq]
      by_cases hi : i = id
      · rw [if_pos hi]
        rw [hi, hs] at hs2
        exact hs2
      · rw [if_neg hi]
        exact c2
    · intro i hi1 hi2 hn
      have hn2 : c'.slot i = none := hn
      rw [hsame] at hn2
      exact h5 i hi1 hi2 hn2
    · show c'.slot id = some s
      rw [hsame]
      exact hs
    · intro s0 hs0
      rw [hs] at hs0
      exact ⟨Option.some.inj hs0, rfl, rfl⟩

theorem run_coh (calls : List Disk.Call) : ∀ (cl : Disk.Client) (st : List (Nat × List Nat)),
    Disk.Coh cl st → cl.validRun calls = true →
    ∃ cl', cl.run calls = some cl' ∧ Disk.Coh cl' (calls.foldl Disk.refStep st) := by
  induction calls with
  | nil =>
    intro cl st h _
    exact ⟨cl, rfl, h⟩
  | cons x xs ih =>
    intro cl st h hv
    unfold Disk.Client.validRun at hv
    rw [Bool.and_eq_true] at hv
    obtain ⟨hv1, hv2⟩ := hv
    have key : ∃ cl1, cl.call x = some cl1 ∧ Disk.Coh cl1 (Disk.refStep st x) := by
      cases x with
      | CreateBlock =>
        have hc : cl.bm.cur_num_blocks + 1 < 2 ^ 32 := of_decide_eq_true hv1
        exact ⟨_, rfl, (Coh_create cl st h hc).1⟩
      | OpenBlock id =>
        have hc : 1 ≤ id ∧ id ≤ cl.bm.cur_num_blocks := of_decide_eq_true hv1
        obtain ⟨s, bm', h1, h2, _⟩ := Coh_open cl st id h hc.1 hc.2
        refine ⟨⟨bm', (id, s) :: cl.slot_of⟩, ?_, h2⟩
        simp only [Disk.Client.call]
        rw [h1]
        rfl
      | Write id off b =>
        have hc : (decide (off < BLOCK_SIZE) && (cl.bm.open_blocks.slot id).isSome) = true :=
          hv1
        rw [Bool.and_eq_true] at hc
        obtain ⟨s, hs⟩ := Option.isSome_iff_exists.mp hc.2
        obtain ⟨cl', h1, h2, _⟩ := Coh_write cl st id off b s h hs
        exact ⟨cl', h1, h2⟩
    obtain ⟨cl1, hc1, hcoh⟩ := key
    rw [hc1] at hv2
    obtain ⟨cl', hr, hfin⟩ := ih cl1 _ hcoh hv2
    refine ⟨cl', ?_, hfin⟩
    unfold Disk.Client.run
    rw [hc1, Option.some_bind, hr]

/-- Claim C13, counterexample. Pages 1 to 17 are created and opened in turn, so that page 1 is
evicted from slot 0 and page 17 is loaded into it, and then byte 7 is written to page 1 through
the slot that the most recent `OpenBlock(1)` returned.  Page 17 was never written, it is
resident in slot 0, and the buffer at the slot returned by `OpenBlock(17)` starts with 7, not
with 0. -/
theorem stale_slot_write :
    (Disk.Client.new (List.replicate 16 [])).permitsRun Disk.staleCalls = true ∧
    (Disk.refStore Disk.staleCalls).lookup 17 = none ∧
    (Disk.refRead (Disk.refStore Disk.staleCalls) 17).getD 0 0 = 0 ∧
    (((Disk.Client.new (List.replicate 16 [])).run Disk.staleCalls).bind fun cl =>
      (cl.bm.OpenBlock 17).map fun r =>
        (cl.bm.open_blocks.slot 17, r.1, (r.2.internal_mem.getD r.1 []).getD 0 0)) =
      some (some 0, 0, 7) := by
  set_option maxRecDepth 4000 in
  refine ⟨?_, ?_, ?_, ?_⟩
  · decide
  · decide
  · decide
  · decide

/-- Claim C13, amended. For every sequence of `CreateBlock` calls (fewer than `2 ^ 32`),
`OpenBlock` calls on created ids and writes to pages that are resident when they are written,
into the slot that the most recent `OpenBlock` of the page returned, every call returns, and
afterwards `OpenBlock(id)` of a created id returns a slot whose buffer holds the content last
written to page `id`, all zeros if it was never written; when `id` is resident the slot is its
current slot and neither a buffer nor the store changes. -/
theorem cache_coherence (mem : List (List Nat)) (hmem : mem.length = Disk.BLOCKS_IN_MEMORY)
    (calls : List Disk.Call) (hv : (Disk.Client.new mem).validRun calls = true) :
    ∃ cl, (Disk.Client.new mem).run calls = some cl ∧
      ∀ id, 1 ≤ id → id ≤ cl.bm.cur_num_blocks →
        ∃ s bm, cl.bm.OpenBlock id = some (s, bm) ∧
          rd bm.internal_mem s = some (Disk.refRead (Disk.refStore calls) id) ∧
          ∀ s0, cl.bm.open_blocks.slot id = some s0 →
            s = s0 ∧ bm.internal_mem = cl.bm.internal_mem ∧ bm.files = cl.bm.files := by
  obtain ⟨cl, hr, hcoh⟩ := run_coh calls _ [] (Coh_new mem hmem) hv
  refine ⟨cl, hr, ?_⟩
  intro id h1 h2
  obtain ⟨s, bm, a1, _, _, _, a5, a6⟩ := Coh_open cl _ id hcoh h1 h2
  exact ⟨s, bm, a1, a5, a6⟩

theorem cache_coherence_witness :
    (List.replicate 16 ([] : List Nat)).length = Disk.BLOCKS_IN_MEMORY ∧
    (Disk.Client.new (List.replicate 16 [])).validRun Disk.evictCalls = true ∧
    ∃ cl, (Disk.Client.new (List.replicate 16 [])).run Disk.evictCalls = some cl ∧
      ∀ id, 1 ≤ id → id ≤ cl.bm.cur_num_blocks →
        ∃ s bm, cl.bm.OpenBlock id = some (s, bm) ∧
          rd bm.internal_mem s = some (Disk.refRead (Disk.refStore Disk.evictCalls) id) ∧
          ∀ s0, cl.bm.open_blocks.slot id = some s0 →
            s = s0 ∧ bm.internal_mem = cl.bm.internal_mem ∧ bm.files = cl.bm.files := by
  set_option maxRecDepth 4000 in
  exact ⟨by decide, by decide, cache_coherence _ (by decide) _ (by decide)⟩

/-! ## Root cursor and leaf application order -/

/-- Claim C14. When the view of the root cursor is on another page than the root, as it is
after a query that descended below the root, `CreateNewRoot` does not touch the page of the old
root, whose `parent_id` is therefore not set to the id of the new root, and it sets the
`parent_id` of the page the view is on instead. -/
theorem CreateNewRoot_stale_view (t : Tree) (split_key new_id : Nat)
    (hview : t.root_view ≠ t.root_id) (hnew : t.root_id ≠ new_id)
    (hcur : t.root_id ≤ t.bmanager.cur_num_blocks)
    (hview2 : t.root_view ≠ new_id) (hview3 : t.root_view ≤ t.bmanager.cur_num_blocks) :
    (CreateNewRoot t split_key new_id).root_id = t.bmanager.cur_num_blocks + 1 ∧
    (CreateNewRoot t split_key new_id).bmanager.OpenBlock t.root_id =
      t.bmanager.OpenBlock t.root_id ∧
    (CreateNewRoot t split_key new_id).bmanager.OpenBlock t.root_view =
      { t.bmanager.OpenBlock t.root_view with parent := t.bmanager.cur_num_blocks + 1 } := by
  refine ⟨rfl, ?_, ?_⟩
  · unfold CreateNewRoot
    simp only [BlockManager.CreateBlock]
    rw [OpenBlock_store_ne _ _ _ _ (by omega), OpenBlock_store_ne _ _ _ _ hnew,
      OpenBlock_store_ne _ _ _ _ (fun e => hview e.symm), OpenBlock_created,
      if_neg (by omega)]
  · unfold CreateNewRoot
    simp only [BlockManager.CreateBlock]
    rw [OpenBlock_store_ne _ _ _ _ (by omega), OpenBlock_store_ne _ _ _ _ hview2,
      OpenBlock_store_same, OpenBlock_created, if_neg (by omega)]

theorem CreateNewRoot_stale_view_witness :
    staleFresh.root_view ≠ staleFresh.root_id ∧
    (CreateNewRoot staleFresh 7 3).root_id = staleFresh.bmanager.cur_num_blocks + 1 ∧
    (CreateNewRoot staleFresh 7 3).bmanager.OpenBlock staleFresh.root_id =
      staleFresh.bmanager.OpenBlock staleFresh.root_id ∧
    (CreateNewRoot staleFresh 7 3).bmanager.OpenBlock staleFresh.root_view =
      { staleFresh.bmanager.OpenBlock staleFresh.root_view with
        parent := staleFresh.bmanager.cur_num_blocks + 1 } :=
  ⟨by decide, CreateNewRoot_stale_view staleFresh 7 3 (by decide) (by decide) (by decide)
    (by decide) (by decide)⟩

/-- Claim C15, evaluated. After `Insert(i + 1, i)` for `i = 0..246` and `Query(1000)` the
buffer of the root (page 1) holds 247 messages and the view of the root cursor is on the leaf
page 2, whose size word is 0: the next `Insert(248, 0)` runs no `FullFlush` and is fatal at the
assertion `buffer->size < NUM_UPSERTS` of `BeNode::Upsert`. -/
theorem Upsert_overflows_after_query :
    ((Tree.run 3 Tree.fresh fullRootOps).bind fun t =>
      some ((t.bmanager.OpenBlock t.root_id).size, t.root_id, t.root_view,
        (t.bmanager.OpenBlock t.root_view).size, (t.Insert 3 248 0).isNone)) =
    some (247, 1, 2, 0, true) := by
  set_option maxRecDepth 100000 in
  set_option maxHeartbeats 4000000 in
  decide

theorem pairwise_rev_range (f : Nat → BeUpsert) (n : Nat)
    (h : ∀ i j, i < j → j < n → (f j).timestamp < (f i).timestamp) :
    ((List.range n).reverse.map f).Pairwise fun u v => u.timestamp < v.timestamp := by
  rw [List.pairwise_map, List.pairwise_reverse]
  refine List.Pairwise.imp_of_mem ?_ (List.pairwise_lt_range n)
  intro a b ha hb hab
  exact h a b hab (List.mem_range.mp hb)

theorem TsDistinct_swap (buf : List BeUpsert) (n p c : Nat) (hp : p < n) (hc : c < n)
    (h : TsDistinct buf n) :
    TsDistinct (writeAt zeroUpsert (writeAt zeroUpsert buf p (buf.getD c zeroUpsert)) c
      (buf.getD p zeroUpsert)) n := by
  have key : ∀ k, (writeAt zeroUpsert (writeAt zeroUpsert buf p (buf.getD c zeroUpsert)) c
      (buf.getD p zeroUpsert)).getD k zeroUpsert =
      buf.getD (if k = c then p else if k = p then c else k) zeroUpsert := by
    intro k
    rw [getD_writeAt, getD_writeAt]
    by_cases h1 : k = c
    · rw [if_pos h1, if_pos h1]
    · rw [if_neg h1, if_neg h1]
      by_cases h2 : k = p
      · rw [if_pos h2, if_pos h2]
      · rw [if_neg h2, if_neg h2]
  intro i j hi hj e
  rw [key, key] at e
  have := h _ _ (by split <;> [exact hp; (split <;> [exact hc; exact hi])])
    (by split <;> [exact hp; (split <;> [exact hc; exact hj])]) e
  split_ifs at this <;> omega

theorem FullFlushSetupReorder_distinct (b : Block) (to_flush n : Nat) :
    ∀ (cur : Nat) (buf : List BeUpsert) (fp1 : Nat) (r : List BeUpsert × Nat),
      TsDistinct buf n → fp1 ≤ n → cur ≤ n →
      FullFlushSetupReorder b to_flush buf fp1 cur = some r → TsDistinct r.1 n := by
  intro cur
  induction cur with
  | zero =>
    intro buf fp1 r h _ _ hr
    rw [FullFlushSetupReorder] at hr
    cases hr
    exact h
  | succ cur ih =>
    intro buf fp1 r h hfp hcur hr
    rw [FullFlushSetupReorder] at hr
    split at hr
    · cases hr
    · simp only [] at hr
      split at hr
      · exact ih _ _ r (TsDistinct_swap buf n (fp1 - 1) cur (by omega) (by omega) h) (by omega)
          (by omega) hr
      · exact ih _ _ r h hfp (by omega) hr

theorem sorted_region (L : List BeUpsert) (hnd : (L.map fun u => u.timestamp).Nodup) :
    (L.insertionSort upsertGe).Pairwise fun u v => u.timestamp > v.timestamp := by
  have htot : IsTotal BeUpsert upsertGe := ⟨fun a b => by unfold upsertGe; omega⟩
  have htr : IsTrans BeUpsert upsertGe := ⟨fun a b c h1 h2 => by unfold upsertGe at *; omega⟩
  have hs : (L.insertionSort upsertGe).Pairwise upsertGe := List.sorted_insertionSort upsertGe L
  have hp := List.perm_insertionSort upsertGe L
  have hnd2 : ((L.insertionSort upsertGe).map fun u => u.timestamp).Nodup :=
    (hp.map _).nodup_iff.mpr hnd
  have hne : (L.insertionSort upsertGe).Pairwise fun u v => u.timestamp ≠ v.timestamp := by
    have := hnd2
    unfold List.Nodup at this
    rw [List.pairwise_map] at this
    exact this
  refine (hs.and hne).imp ?_
  intro u v h
  have h1 : u.timestamp ≥ v.timestamp := h.1
  have h2 := h.2
  omega

theorem FullFlushSetupBlock_region (b b' : Block) (h : FullFlushSetupBlock b = some b')
    (hd : TsDistinct b.buffer b.size) :
    b'.size = b.size ∧ b'.flush_size ≤ b.size ∧
    ∀ i j, i < j → j < b'.flush_size →
      (b'.buffer.getD (b'.size - b'.flush_size + j) zeroUpsert).timestamp <
        (b'.buffer.getD (b'.size - b'.flush_size + i) zeroUpsert).timestamp := by
  unfold FullFlushSetupBlock at h
  simp only [] at h
  split at h
  · cases h
  · rename_i nums _
    split at h
    · cases h
    · rename_i r hr
      split at h
      · cases h
      · rename_i hcnt
        simp only [ne_eq, not_not] at hcnt
        simp only [Option.some.injEq] at h
        have hdr := FullFlushSetupReorder_distinct b _ b.size b.size b.buffer b.size r hd
          (le_refl _) (le_refl _) hr
        generalize nums.getD (FullFlushSetupMax nums 0 1 b.pivots_size) 0 = F at hcnt h
        subst h
        have hF : F ≤ b.size := by omega
        refine ⟨rfl, hF, ?_⟩
        intro i j hij hj
        have hj2 : j < F := hj
        show ((writeList zeroUpsert r.1 (b.size - F)
          ((readRange zeroUpsert r.1 (b.size - F) F).insertionSort upsertGe)).getD
            (b.size - F + j) zeroUpsert).timestamp <
          ((writeList zeroUpsert r.1 (b.size - F)
          ((readRange zeroUpsert r.1 (b.size - F) F).insertionSort upsertGe)).getD
            (b.size - F + i) zeroUpsert).timestamp
        have hlen2 : (readRange zeroUpsert r.1 (b.size - F) F).length = F := by simp [readRange]
        have hlen : ((readRange zeroUpsert r.1 (b.size - F) F).insertionSort upsertGe).length =
            F := by
          rw [(List.perm_insertionSort upsertGe _).length_eq, hlen2]
        have hnd : ((readRange zeroUpsert r.1 (b.size - F) F).map fun u => u.timestamp).Nodup := by
          unfold readRange
          rw [List.map_map]
          refine List.Nodup.map_on ?_ (List.nodup_range F)
          intro x hx y hy e
          have := hdr (b.size - F + x) (b.size - F + y)
            (by have := List.mem_range.mp hx; omega) (by have := List.mem_range.mp hy; omega) e
          omega
        have hpw := sorted_region _ hnd
        rw [List.pairwise_iff_getElem] at hpw
        have := hpw i j (by rw [hlen]; omega) (by rw [hlen]; omega) hij
        rw [getD_writeList, getD_writeList, if_pos (by rw [hlen]; omega),
          if_pos (by rw [hlen]; omega)]
        have e1 : b.size - F + j - (b.size - F) = j := by omega
        have e2 : b.size - F + i - (b.size - F) = i := by omega
        rw [e1, e2, List.getD_eq_getElem?_getD, List.getD_eq_getElem?_getD,
          List.getElem?_eq_getElem (by rw [hlen]; omega),
          List.getElem?_eq_getElem (by rw [hlen]; omega)]
        exact this

/-! ## Leaf application and leaf split -/

theorem length_leafPairs (b : Block) : (leafPairs b).length = b.size := by
  simp [leafPairs]

theorem keys_leafPairs (b : Block) : (leafPairs b).map Prod.fst = liveKeys b := by
  unfold leafPairs liveKeys readRange
  rw [List.map_map]
  apply List.map_congr_left
  intro i _
  simp

theorem leafPairs_nodup (b : Block) :
    ((leafPairs b).map Prod.fst).Nodup ↔
      ∀ i j, i < b.size → j < b.size → b.keys.getD i 0 = b.keys.getD j 0 → i = j := by
  unfold leafPairs
  rw [List.map_map, List.nodup_map_iff_inj_on (List.nodup_range _)]
  constructor
  · intro h i j hi hj e
    exact h i (List.mem_range.mpr hi) j (List.mem_range.mpr hj) e
  · intro h i hi j hj e
    exact h i j (List.mem_range.mp hi) (List.mem_range.mp hj) e

theorem findIndex_some (keys : List Nat) (key : Nat) (n : Nat) : ∀ (j i : Nat),
    findIndex keys key j n = some i → j ≤ i ∧ i < j + n ∧ keys.getD i 0 = key := by
  induction n with
  | zero =>
    intro j i h
    rw [findIndex] at h
    cases h
  | succ n ih =>
    intro j i h
    rw [findIndex] at h
    split at h
    · rename_i hk
      cases h
      exact ⟨le_refl _, by omega, hk⟩
    · obtain ⟨a, b, c⟩ := ih _ _ h
      exact ⟨by omega, by omega, c⟩

theorem shiftLeft_cells (n : Nat) : ∀ (b : Block) (j k : Nat), 1 ≤ j →
    (shiftLeft b j n).keys.getD k 0 =
      (if j - 1 ≤ k ∧ k < j - 1 + n then b.keys.getD (k + 1) 0 else b.keys.getD k 0) ∧
    (shiftLeft b j n).values.getD k 0 =
      (if j - 1 ≤ k ∧ k < j - 1 + n then b.values.getD (k + 1) 0 else b.values.getD k 0) := by
  induction n with
  | zero =>
    intro b j k _
    rw [shiftLeft]
    have : ¬ (j - 1 ≤ k ∧ k < j - 1 + 0) := by omega
    rw [if_neg this, if_neg this]
    exact ⟨rfl, rfl⟩
  | succ n ih =>
    intro b j k hj
    rw [shiftLeft]
    obtain ⟨h1, h2⟩ := ih { b with keys := writeAt 0 b.keys (j - 1) (b.keys.getD j 0),
                                    values := writeAt 0 b.values (j - 1) (b.values.getD j 0) }
      (j + 1) k (by omega)
    rw [h1, h2]
    simp only [getD_writeAt]
    constructor <;> split_ifs <;> first | rfl | (congr 1; omega)

theorem filter_eq_eraseIdx (l : List (Nat × Nat)) (key : Nat) : ∀ (i : Nat) (hi : i < l.length),
    (l.map Prod.fst).Nodup → (l.get ⟨i, hi⟩).1 = key →
    (l.filter fun p => p.1 ≠ key) = l.eraseIdx i := by
  induction l with
  | nil =>
    intro i hi
    cases hi
  | cons x l ih =>
    intro i hi hnd hk
    rw [List.map_cons, List.nodup_cons] at hnd
    cases i with
    | zero =>
      have hx : x.1 = key := hk
      rw [List.filter_cons_of_neg (by simpa using hx), List.eraseIdx_cons_zero]
      rw [List.filter_eq_self]
      intro p hp
      have : p.1 ≠ key := by
        intro e
        apply hnd.1
        rw [hx, ← e]
        exact List.mem_map_of_mem _ hp
      simpa using this
    | succ i =>
      have hi2 : i < l.length := by
        simp only [List.length_cons] at hi
        omega
      have hk2 : (l.get ⟨i, hi2⟩).1 = key := hk
      have hx : x.1 ≠ key := by
        intro e
        apply hnd.1
        rw [e, ← hk2]
        exact List.mem_map_of_mem _ (List.get_mem _ _ _)
      rw [List.filter_cons_of_pos (by simpa using hx), List.eraseIdx_cons_succ,
        ih i hi2 hnd.2 hk2]

theorem refLeafStep_nodup (m m' : List (Nat × Nat)) (u : BeUpsert)
    (hd : (m.map Prod.fst).Nodup) (h : refLeafStep m u = some m') : (m'.map Prod.fst).Nodup := by
  unfold refLeafStep at h
  cases hty : u.type with
  | INSERT =>
    rw [hty] at h
    simp only [] at h
    split at h
    · cases h
    · rename_i hk
      cases h
      rw [List.map_append, List.map_cons, List.map_nil]
      refine List.Nodup.append hd (List.nodup_singleton _) ?_
      intro a ha hb
      rw [List.mem_singleton] at hb
      rw [hb] at ha
      exact hk ha
  | UPDATE =>
    rw [hty] at h
    simp only [] at h
    split at h
    · cases h
      rw [List.map_map]
      have : (Prod.fst ∘ fun p : Nat × Nat => if p.1 = u.key then (p.1, u.parameter) else p) =
          Prod.fst := by
        funext p
        simp only [Function.comp]
        split <;> rfl
      rw [this]
      exact hd
    · cases h
  | DELETE =>
    rw [hty] at h
    simp only [] at h
    split at h
    · cases h
      exact (List.Sublist.map _ (List.filter_sublist _)).nodup hd
    · cases h
  | INVALID =>
    rw [hty] at h
    cases h

theorem leafStep_refines (b : Block) (u : BeUpsert) (hd : ((leafPairs b).map Prod.fst).Nodup) :
    (leafStep b u = none ∧ refLeafStep (leafPairs b) u = none) ∨
    ∃ fl b1, leafStep b u = some (fl, b1) ∧ refLeafStep (leafPairs b) u = some (leafPairs b1) ∧
      (fl = true ↔ u.type = UpsertFunction.INSERT ∧ b1.size = NUM_DATA_PAIRS) ∧
      b1.size ≤ b.size + 1 ∧ (u.type ≠ UpsertFunction.INSERT → b1.size ≤ b.size) ∧
      b1.is_leaf = b.is_leaf := by
  have hidx := (leafPairs_nodup b).mp hd
  unfold leafStep refLeafStep
  rw [keys_leafPairs]
  cases hty : u.type with
  | INSERT =>
    simp only []
    cases hfi : findIndex b.keys u.key 0 b.size with
    | some i =>
      left
      have : ¬ (findIndex b.keys u.key 0 b.size = none) := by rw [hfi]; simp
      rw [findIndex_live, not_not] at this
      simp only []
      rw [if_pos this]
      constructor <;> first | rfl | trivial
    | none =>
      right
      have hk := (findIndex_live b u.key).mp hfi
      simp only []
      rw [if_neg hk]
      refine ⟨_, _, rfl, ?_, ?_, ?_, ?_, rfl⟩
      · congr 1
        unfold leafPairs
        simp only []
        rw [List.range_succ, List.map_append, List.map_cons, List.map_nil]
        congr 1
        · apply List.map_congr_left
          intro i hi
          have := List.mem_range.mp hi
          rw [getD_writeAt, getD_writeAt, if_neg (by omega), if_neg (by omega)]
        · rw [getD_writeAt, getD_writeAt, if_pos rfl, if_pos rfl]
      · simp
      · simp
      · intro h
        exact absurd rfl h
  | UPDATE =>
    simp only []
    cases hfi : findIndex b.keys u.key 0 b.size with
    | none =>
      left
      have hk := (findIndex_live b u.key).mp hfi
      simp only []
      rw [if_neg hk]
      constructor <;> first | rfl | trivial
    | some i =>
      right
      have : ¬ (findIndex b.keys u.key 0 b.size = none) := by rw [hfi]; simp
      rw [findIndex_live, not_not] at this
      obtain ⟨_, hi, hki⟩ := findIndex_some _ _ _ _ _ hfi
      simp only []
      rw [if_pos this]
      refine ⟨_, _, rfl, ?_, ?_, ?_, ?_, rfl⟩
      · congr 1
        unfold leafPairs
        simp only []
        rw [List.map_map]
        apply List.map_congr_left
        intro j hj
        have hj2 := List.mem_range.mp hj
        simp only [Function.comp]
        rw [getD_writeAt]
        by_cases hji : j = i
        · rw [if_pos hji, if_pos (by rw [hji]; exact hki)]
        · have : b.keys.getD j 0 ≠ u.key := by
            intro e
            exact hji (hidx j i hj2 (by omega) (e.trans hki.symm))
          rw [if_neg hji, if_neg this]
      · simp
      · simp
      · intro _
        exact le_refl _
  | DELETE =>
    simp only []
    cases hfi : findIndex b.keys u.key 0 b.size with
    | none =>
      left
      have hk := (findIndex_live b u.key).mp hfi
      simp only []
      rw [if_neg hk]
      constructor <;> first | rfl | trivial
    | some i =>
      right
      have : ¬ (findIndex b.keys u.key 0 b.size = none) := by rw [hfi]; simp
      rw [findIndex_live, not_not] at this
      obtain ⟨_, hi, hki⟩ := findIndex_some _ _ _ _ _ hfi
      have hi0 : i < b.size := by omega
      obtain ⟨f1, f2, f3⟩ := shiftLeft_frame (b.size - (i + 1)) b (i + 1)
      simp only []
      rw [if_pos this]
      refine ⟨_, _, rfl, ?_, ?_, ?_, ?_, f2⟩
      · congr 1
        have hlen : i < (leafPairs b).length := by rw [length_leafPairs]; exact hi0
        have hget : ((leafPairs b).get ⟨i, hlen⟩).1 = u.key := by
          simpa [leafPairs, List.getD_eq_getElem?_getD] using hki
        rw [filter_eq_eraseIdx _ _ i hlen hd hget]
        apply List.ext_getElem?
        intro k
        rw [List.getElem?_eraseIdx]
        unfold leafPairs
        simp only [f3]
        rw [List.getElem?_map, List.getElem?_map, List.getElem?_map]
        obtain ⟨c1, c2⟩ := shiftLeft_cells (b.size - (i + 1)) b (i + 1) k (by omega)
        by_cases hk : k < b.size - 1
        · rw [List.getElem?_range hk]
          simp only [Option.map_some']
          rw [c1, c2]
          by_cases hki2 : k < i
          · rw [if_pos hki2, List.getElem?_range (by omega), if_neg (by omega),
              if_neg (by omega)]
            rfl
          · rw [if_neg hki2, List.getElem?_range (by omega), if_pos (by omega),
              if_pos (by omega)]
            rfl
        · have hk2 : b.size - 1 ≤ k := by omega
          have e1 : (List.range (b.size - 1))[k]? = none :=
            List.getElem?_eq_none (by rw [List.length_range]; omega)
          have e2 : (List.range b.size)[k + 1]? = none :=
            List.getElem?_eq_none (by rw [List.length_range]; omega)
          rw [e1]
          by_cases hki2 : k < i
          · omega
          · rw [if_neg hki2, e2]
            rfl
      · simp
      · simp only [f3]
        omega
      · intro _
        simp only [f3]
        omega
  | INVALID =>
    left
    exact ⟨rfl, rfl⟩

theorem UpsertLeafLoop_refines (upsert : List BeUpsert) (n : Nat) : ∀ (b : Block),
    ((leafPairs b).map Prod.fst).Nodup → b.size < NUM_DATA_PAIRS →
    (UpsertLeafLoop upsert b n).map (fun r => (r.1, leafPairs r.2.1, r.2.2)) =
      refLeaf upsert (leafPairs b) n ∧
    ∀ r, UpsertLeafLoop upsert b n = some r →
      ((leafPairs r.2.1).map Prod.fst).Nodup ∧ (r.1 = true ↔ r.2.1.size = NUM_DATA_PAIRS) ∧
      (r.1 = false → r.2.2 = 0) ∧ r.2.2 ≤ n ∧ r.2.1.is_leaf = b.is_leaf := by
  induction n with
  | zero =>
    intro b hd hsz
    rw [UpsertLeafLoop, refLeaf]
    refine ⟨rfl, ?_⟩
    intro r hr
    cases hr
    refine ⟨hd, ?_, fun _ => rfl, le_refl _, rfl⟩
    simp only []
    constructor
    · intro h
      cases h
    · intro h
      omega
  | succ n ih =>
    intro b hd hsz
    rw [UpsertLeafLoop_succ, refLeaf]
    rcases leafStep_refines b (upsert.getD n zeroUpsert) hd with ⟨h1, h2⟩ |
      ⟨fl, b1, h1, h2, h3, h4, h5, h6⟩
    · rw [h1, h2]
      simp only []
      refine ⟨rfl, ?_⟩
      intro r hr
      cases hr
    · rw [h1, h2]
      have hd1 := refLeafStep_nodup _ _ _ hd h2
      simp only []
      rw [length_leafPairs]
      cases fl with
      | true =>
        have hc := h3.mp rfl
        simp only []
        rw [if_pos hc]
        refine ⟨rfl, ?_⟩
        intro r hr
        cases hr
        refine ⟨hd1, ?_, ?_, Nat.le_succ _, h6⟩
        · simp only []
          exact ⟨fun _ => hc.2, fun _ => trivial⟩
        · intro h
          cases h
      | false =>
        have hc : ¬ ((upsert.getD n zeroUpsert).type = UpsertFunction.INSERT ∧
            b1.size = NUM_DATA_PAIRS) := by
          intro h
          have := h3.mpr h
          cases this
        have hsz1 : b1.size < NUM_DATA_PAIRS := by
          by_cases hty : (upsert.getD n zeroUpsert).type = UpsertFunction.INSERT
          · have : b1.size ≠ NUM_DATA_PAIRS := fun e => hc ⟨hty, e⟩
            omega
          · have := h5 hty
            omega
        simp only []
        rw [if_neg hc]
        obtain ⟨i1, i2⟩ := ih b1 hd1 hsz1
        refine ⟨i1, ?_⟩
        intro r hr
        obtain ⟨a1, a2, a3, a4, a5⟩ := i2 r hr
        exact ⟨a1, a2, a3, by omega, a5.trans h6⟩

/-- Claim C16. On a leaf with pairwise distinct keys and `size < NUM_DATA_PAIRS`, `UpsertLeaf`
with `n` messages returns what the reference returns on the leaf's list of pairs: it is fatal
exactly when a message is not valid at its turn, and otherwise the messages
`upsert[n-1], upsert[n-2], ...` are applied in this order (`INSERT` appends the pair, `UPDATE`
overwrites the value, `DELETE` removes the pair and keeps the order of the others), the result
is `true` with the number of messages not yet applied when an `INSERT` brings `size` to
`NUM_DATA_PAIRS = 510`, and `false` with 0 otherwise.  The keys of the leaf stay pairwise
distinct, and the flag is `true` exactly when the leaf holds 510 pairs. -/
theorem UpsertLeaf_refines (upsert : List BeUpsert) (b : Block) (n : Nat)
    (hleaf : b.is_leaf ≠ 0) (hd : ((leafPairs b).map Prod.fst).Nodup)
    (hsz : b.size < NUM_DATA_PAIRS) :
    NUM_DATA_PAIRS = 510 ∧
    (UpsertLeaf upsert b n).map (fun r => (r.1, leafPairs r.2.1, r.2.2)) =
      refLeaf upsert (leafPairs b) n ∧
    ∀ r, UpsertLeaf upsert b n = some r →
      ((leafPairs r.2.1).map Prod.fst).Nodup ∧ (r.1 = true ↔ r.2.1.size = NUM_DATA_PAIRS) ∧
      (r.1 = false → r.2.2 = 0) ∧ r.2.2 ≤ n ∧ r.2.1.is_leaf = b.is_leaf := by
  unfold UpsertLeaf
  rw [if_neg hleaf]
  exact ⟨by decide, UpsertLeafLoop_refines upsert n b hd hsz⟩

theorem UpsertLeaf_refines_witness :
    twoPairs.is_leaf ≠ 0 ∧ ((leafPairs twoPairs).map Prod.fst).Nodup ∧
    twoPairs.size < NUM_DATA_PAIRS ∧
    (UpsertLeaf [⟨9, UpsertFunction.INSERT, 90, 3⟩, ⟨5, UpsertFunction.DELETE, 0, 2⟩,
        ⟨7, UpsertFunction.UPDATE, 71, 1⟩] twoPairs 3).map
      (fun r => (r.1, leafPairs r.2.1, r.2.2)) = some (false, [(7, 71), (9, 90)], 0) ∧
    refLeaf [⟨9, UpsertFunction.INSERT, 90, 3⟩, ⟨5, UpsertFunction.DELETE, 0, 2⟩,
        ⟨7, UpsertFunction.UPDATE, 71, 1⟩] (leafPairs twoPairs) 3 =
      some (false, [(7, 71), (9, 90)], 0) :=
  ⟨by decide, by decide, by decide, by decide,
    (UpsertLeaf_refines _ twoPairs 3 (by decide) (by decide) (by decide)).2.1 ▸ by decide⟩

theorem pairLe_sorted (L : List (Nat × Nat)) (hnd : (L.map Prod.fst).Nodup) :
    (L.insertionSort pairLe).Pairwise fun p q => p.1 < q.1 := by
  have htot : IsTotal (Nat × Nat) pairLe := ⟨fun a b => by unfold pairLe; omega⟩
  have htr : IsTrans (Nat × Nat) pairLe := ⟨fun a b c h1 h2 => by unfold pairLe at *; omega⟩
  have hs : (L.insertionSort pairLe).Pairwise pairLe := List.sorted_insertionSort pairLe L
  have hp := List.perm_insertionSort pairLe L
  have hnd2 : ((L.insertionSort pairLe).map Prod.fst).Nodup := (hp.map _).nodup_iff.mpr hnd
  have hne : (L.insertionSort pairLe).Pairwise fun p q => p.1 ≠ q.1 := by
    have := hnd2
    unfold List.Nodup at this
    rw [List.pairwise_map] at this
    exact this
  refine (hs.and hne).imp ?_
  intro p q h
  have h1 : pairLe p q := h.1
  have h2 := h.2
  unfold pairLe at h1
  omega

theorem map_range_take (S : List (Nat × Nat)) (f g : Nat → Nat) (h : Nat) (hh : h ≤ S.length)
    (hf : ∀ i, i < h → f i = (S.map Prod.fst).getD i 0)
    (hg : ∀ i, i < h → g i = (S.map Prod.snd).getD i 0) :
    ((List.range h).map fun i => (f i, g i)) = S.take h := by
  apply List.ext_getElem?
  intro k
  rw [List.getElem?_map, List.getElem?_take]
  by_cases hk : k < h
  · rw [List.getElem?_range hk, if_pos hk]
    simp only [Option.map_some']
    rw [hf k hk, hg k hk, List.getD_eq_getElem?_getD, List.getD_eq_getElem?_getD,
      List.getElem?_map, List.getElem?_map, List.getElem?_eq_getElem (by omega)]
    rfl
  · rw [List.getElem?_eq_none (by rw [List.length_range]; omega), if_neg hk]
    rfl

theorem map_range_drop (S : List (Nat × Nat)) (f g : Nat → Nat) (h m : Nat)
    (hm : h + m = S.length)
    (hf : ∀ i, i < m → f i = (S.map Prod.fst).getD (h + i) 0)
    (hg : ∀ i, i < m → g i = (S.map Prod.snd).getD (h + i) 0) :
    ((List.range m).map fun i => (f i, g i)) = S.drop h := by
  apply List.ext_getElem?
  intro k
  rw [List.getElem?_map, List.getElem?_drop]
  by_cases hk : k < m
  · rw [List.getElem?_range hk]
    simp only [Option.map_some']
    rw [hf k hk, hg k hk, List.getD_eq_getElem?_getD, List.getD_eq_getElem?_getD,
      List.getElem?_map, List.getElem?_map, List.getElem?_eq_getElem (by omega)]
    rfl
  · rw [List.getElem?_eq_none (by rw [List.length_range]; omega),
      List.getElem?_eq_none (by omega)]
    rfl

theorem SplitLeaf_spec (bm : BlockManager) (id : Nat) (hleaf : (bm.OpenBlock id).is_leaf ≠ 0)
    (hid : id ≤ bm.cur_num_blocks) (hn : 1 ≤ (bm.OpenBlock id).size)
    (hd : ((leafPairs (bm.OpenBlock id)).map Prod.fst).Nodup) :
    ∃ (sk : Nat) (bm' : BlockManager) (S : List (Nat × Nat)), S = (leafPairs (bm.OpenBlock id)).insertionSort pairLe ∧ SplitLeaf bm id = some (sk, bm.cur_num_blocks + 1, bm') ∧
      S.Perm (leafPairs (bm.OpenBlock id)) ∧ S.Pairwise (fun p q => p.1 < q.1) ∧
      leafPairs (bm'.OpenBlock id) = S.take ((bm.OpenBlock id).size / 2) ∧
      leafPairs (bm'.OpenBlock (bm.cur_num_blocks + 1)) = S.drop ((bm.OpenBlock id).size / 2) ∧
      (bm'.OpenBlock (bm.cur_num_blocks + 1)).parent = (bm.OpenBlock id).parent ∧
      (bm'.OpenBlock (bm.cur_num_blocks + 1)).is_leaf = (bm.OpenBlock id).is_leaf ∧
      (bm'.OpenBlock id).parent = (bm.OpenBlock id).parent ∧
      (bm'.OpenBlock id).is_leaf = (bm.OpenBlock id).is_leaf ∧
      (leafPairs (bm'.OpenBlock (bm.cur_num_blocks + 1))).head? =
        some (sk, (bm'.OpenBlock (bm.cur_num_blocks + 1)).values.getD 0 0) ∧
      (∀ p, p ∈ leafPairs (bm'.OpenBlock id) → p.1 < sk) ∧
      (∀ p, p ∈ leafPairs (bm'.OpenBlock (bm.cur_num_blocks + 1)) → sk ≤ p.1) ∧
      bm'.cur_num_blocks = bm.cur_num_blocks + 1 ∧
      ∀ j, j ≠ id → j ≠ bm.cur_num_blocks + 1 → bm'.OpenBlock j = bm.OpenBlock j := by
  have hne : id ≠ bm.cur_num_blocks + 1 := by omega
  have e1 : bm.created.OpenBlock id = bm.OpenBlock id := by
    rw [OpenBlock_created, if_neg hne]
  have e2 : bm.created.OpenBlock (bm.cur_num_blocks + 1) = zeroBlock := by
    rw [OpenBlock_created, if_pos rfl]
  have hS := pairLe_sorted (leafPairs (bm.OpenBlock id)) hd
  have hP := List.perm_insertionSort pairLe (leafPairs (bm.OpenBlock id))
  have hlen : ((leafPairs (bm.OpenBlock id)).insertionSort pairLe).length =
      (bm.OpenBlock id).size := by
    rw [hP.length_eq, length_leafPairs]
  cases hsl : SplitLeaf bm id with
  | none =>
    unfold SplitLeaf at hsl
    simp only [BlockManager.CreateBlock] at hsl
    rw [if_neg hleaf] at hsl
    cases hsl
  | some r =>
  obtain ⟨sk, nid, bm'⟩ := r
  unfold SplitLeaf at hsl
  simp only [BlockManager.CreateBlock] at hsl
  rw [if_neg hleaf] at hsl
  simp only [Option.some.injEq, Prod.mk.injEq] at hsl
  obtain ⟨hsk, hnid, hbm⟩ := hsl
  subst hsk
  subst hnid
  subst hbm
  refine ⟨_, _, (leafPairs (bm.OpenBlock id)).insertionSort pairLe, rfl, rfl, hP, hS, ?_⟩
  simp only [e1, e2]
  have hne2 : bm.cur_num_blocks + 1 ≠ id := fun e => hne e.symm
  rw [OpenBlock_store_same, OpenBlock_store_ne _ _ _ _ hne, OpenBlock_store_same]
  generalize hSdef : (leafPairs (bm.OpenBlock id)).insertionSort pairLe = S at hS hP hlen
  have hSdef2 : ((List.range (bm.OpenBlock id).size).map fun i =>
      ((bm.OpenBlock id).keys.getD i 0, (bm.OpenBlock id).values.getD i 0)).insertionSort
        pairLe = S := hSdef
  simp only [hSdef2, zeroBlock, Nat.zero_add]
  have hsub : (bm.OpenBlock id).size - ((bm.OpenBlock id).size - (bm.OpenBlock id).size / 2) =
      (bm.OpenBlock id).size / 2 := by omega
  generalize hN : (bm.OpenBlock id).size = n at hlen hn hsub
  have hkeys : ∀ i, i < n →
      (writeList 0 (bm.OpenBlock id).keys 0 (S.map Prod.fst)).getD i 0 =
        (S.map Prod.fst).getD i 0 := by
    intro i hi
    rw [getD_writeList, if_pos (by rw [List.length_map, hlen]; omega)]
    rfl
  have hvals : ∀ i, i < n →
      (writeList 0 (bm.OpenBlock id).values 0 (S.map Prod.snd)).getD i 0 =
        (S.map Prod.snd).getD i 0 := by
    intro i hi
    rw [getD_writeList, if_pos (by rw [List.length_map, hlen]; omega)]
    rfl
  have hskeys : ∀ i, i < n - n / 2 →
      (writeList 0 [] 0 (readRange 0 (writeList 0 (bm.OpenBlock id).keys 0 (S.map Prod.fst))
        (n / 2) (n - n / 2))).getD i 0 = (S.map Prod.fst).getD (n / 2 + i) 0 := by
    intro i hi
    rw [getD_writeList, if_pos (by simp [readRange]; omega), Nat.sub_zero,
      getD_readRange _ _ _ _ _ hi, hkeys _ (by omega)]
  have hsvals : ∀ i, i < n - n / 2 →
      (writeList 0 [] 0 (readRange 0 (writeList 0 (bm.OpenBlock id).values 0 (S.map Prod.snd))
        (n / 2) (n - n / 2))).getD i 0 = (S.map Prod.snd).getD (n / 2 + i) 0 := by
    intro i hi
    rw [getD_writeList, if_pos (by simp [readRange]; omega), Nat.sub_zero,
      getD_readRange _ _ _ _ _ hi, hvals _ (by omega)]
  have hA : leafPairs { (bm.OpenBlock id) with
      keys := writeList 0 (bm.OpenBlock id).keys 0 (S.map Prod.fst),
      values := writeList 0 (bm.OpenBlock id).values 0 (S.map Prod.snd),
      size := n - (n - n / 2) } = S.take (n / 2) := by
    unfold leafPairs
    simp only [hsub]
    exact map_range_take S _ _ (n / 2) (by omega) (fun i hi => hkeys i (by omega))
      (fun i hi => hvals i (by omega))
  have hB : leafPairs { zeroBlock with
      parent := (bm.OpenBlock id).parent,
      is_leaf := (bm.OpenBlock id).is_leaf,
      keys := writeList 0 [] 0 (readRange 0
        (writeList 0 (bm.OpenBlock id).keys 0 (S.map Prod.fst)) (n / 2) (n - n / 2)),
      values := writeList 0 [] 0 (readRange 0
        (writeList 0 (bm.OpenBlock id).values 0 (S.map Prod.snd)) (n / 2) (n - n / 2)),
      size := n - n / 2 } = S.drop (n / 2) := by
    unfold leafPairs
    simp only []
    exact map_range_drop S _ _ (n / 2) (n - n / 2) (by omega) hskeys hsvals
  simp only [zeroBlock] at hA hB
  rw [hA, hB]
  have hk0 := hskeys 0 (by omega)
  have hv0 := hsvals 0 (by omega)
  rw [hk0, hv0]
  have hhead : (S.drop (n / 2)).head? =
      some ((S.map Prod.fst).getD (n / 2 + 0) 0, (S.map Prod.snd).getD (n / 2 + 0) 0) := by
    rw [List.head?_drop, List.getD_eq_getElem?_getD, List.getD_eq_getElem?_getD,
      List.getElem?_map, List.getElem?_map, Nat.add_zero,
      List.getElem?_eq_getElem (by omega)]
    rfl
  have hmem := List.mem_of_mem_head? hhead
  have pw : (S.take (n / 2) ++ S.drop (n / 2)).Pairwise fun p q => p.1 < q.1 := by
    rw [List.take_append_drop]
    exact hS
  rw [List.pairwise_append] at pw
  refine ⟨rfl, rfl, trivial, trivial, trivial, trivial, hhead, ?_, ?_, ?_, ?_⟩
  · intro p hp
    exact pw.2.2 p hp _ hmem
  · intro p hp
    obtain ⟨tl, htl⟩ : ∃ tl, S.drop (n / 2) =
        ((S.map Prod.fst).getD (n / 2 + 0) 0, (S.map Prod.snd).getD (n / 2 + 0) 0) :: tl := by
      cases hdr : S.drop (n / 2) with
      | nil =>
        rw [hdr] at hhead
        cases hhead
      | cons x tl =>
        rw [hdr] at hhead
        simp only [List.head?_cons, Option.some.injEq] at hhead
        exact ⟨tl, by rw [hhead]⟩
    rw [htl] at hp
    have pw2 := pw.2.1
    rw [htl, List.pairwise_cons] at pw2
    rcases List.mem_cons.mp hp with e | e
    · rw [e]
    · exact Nat.le_of_lt (pw2.1 p e)
  · rfl
  · intro j hj1 hj2
    rw [OpenBlock_store_ne _ _ _ _ hj2, OpenBlock_store_ne _ _ _ _ hj1, OpenBlock_created,
      if_neg hj2]

/-- Claim C18. On a leaf page `id` that exists, with `n ≥ 1` pairs with pairwise distinct
keys, `SplitLeaf` returns; it creates the leaf `cur_num_blocks + 1` with the same `parent_id`,
and with `S` the pairs of the leaf in strictly ascending key order, the original holds the
first `n / 2` pairs of `S` and the new leaf the other `n - n / 2`, each from index 0 in this
order, so that together they hold exactly the original pairs; the split key returned is the
first key of the new leaf, every key of the original is below it and every key of the new leaf
is at least it; no other page changes. -/
theorem SplitLeaf_post (bm : BlockManager) (id : Nat) (hleaf : (bm.OpenBlock id).is_leaf ≠ 0)
    (hid : id ≤ bm.cur_num_blocks) (hn : 1 ≤ (bm.OpenBlock id).size)
    (hd : ((leafPairs (bm.OpenBlock id)).map Prod.fst).Nodup) :
    ∃ (sk : Nat) (bm' : BlockManager) (S : List (Nat × Nat)), SplitLeaf bm id = some (sk, bm.cur_num_blocks + 1, bm') ∧
      S.Perm (leafPairs (bm.OpenBlock id)) ∧ S.Pairwise (fun p q => p.1 < q.1) ∧
      leafPairs (bm'.OpenBlock id) = S.take ((bm.OpenBlock id).size / 2) ∧
      leafPairs (bm'.OpenBlock (bm.cur_num_blocks + 1)) = S.drop ((bm.OpenBlock id).size / 2) ∧
      (bm'.OpenBlock (bm.cur_num_blocks + 1)).parent = (bm.OpenBlock id).parent ∧
      (bm'.OpenBlock (bm.cur_num_blocks + 1)).is_leaf = (bm.OpenBlock id).is_leaf ∧
      (bm'.OpenBlock id).parent = (bm.OpenBlock id).parent ∧
      (bm'.OpenBlock id).is_leaf = (bm.OpenBlock id).is_leaf ∧
      (leafPairs (bm'.OpenBlock (bm.cur_num_blocks + 1))).head? =
        some (sk, (bm'.OpenBlock (bm.cur_num_blocks + 1)).values.getD 0 0) ∧
      (∀ p, p ∈ leafPairs (bm'.OpenBlock id) → p.1 < sk) ∧
      (∀ p, p ∈ leafPairs (bm'.OpenBlock (bm.cur_num_blocks + 1)) → sk ≤ p.1) ∧
      bm'.cur_num_blocks = bm.cur_num_blocks + 1 ∧
      ∀ j, j ≠ id → j ≠ bm.cur_num_blocks + 1 → bm'.OpenBlock j = bm.OpenBlock j := by
  obtain ⟨sk, bm', S, _, h⟩ := SplitLeaf_spec bm id hleaf hid hn hd
  exact ⟨sk, bm', S, h⟩

theorem SplitLeaf_post_witness :
    (splitExample.OpenBlock 2).is_leaf ≠ 0 ∧ 2 ≤ splitExample.cur_num_blocks ∧
    1 ≤ (splitExample.OpenBlock 2).size ∧
    ((leafPairs (splitExample.OpenBlock 2)).map Prod.fst).Nodup ∧
    (SplitLeaf splitExample 2).map (fun r => (r.1, r.2.1, leafPairs (r.2.2.OpenBlock 2),
      leafPairs (r.2.2.OpenBlock 4))) = some (7, 4, [(5, 50)], [(7, 70), (9, 90)]) ∧
    ∃ (sk : Nat) (bm' : BlockManager) (S : List (Nat × Nat)),
      SplitLeaf splitExample 2 = some (sk, splitExample.cur_num_blocks + 1, bm') ∧
      S.Perm (leafPairs (splitExample.OpenBlock 2)) ∧ S.Pairwise (fun p q => p.1 < q.1) ∧
      leafPairs (bm'.OpenBlock 2) = S.take ((splitExample.OpenBlock 2).size / 2) ∧
      leafPairs (bm'.OpenBlock (splitExample.cur_num_blocks + 1)) =
        S.drop ((splitExample.OpenBlock 2).size / 2) := by
  refine ⟨by decide, by decide, by decide, by decide, by decide, ?_⟩
  obtain ⟨sk, bm', S, h1, h2, h3, h4, h5, _⟩ :=
    SplitLeaf_post splitExample 2 (by decide) (by decide) (by decide) (by decide)
  exact ⟨sk, bm', S, h1, h2, h3, h4, h5⟩

/-! ## Internal split: pivots, children and buffers -/

theorem moveStep_pivots (id new_id start : Nat) (bm : BlockManager) (i : Nat)
    (hne : id ≠ new_id)
    (hc : (bm.OpenBlock id).pointers.getD i 0 ≠ id ∧ (bm.OpenBlock id).pointers.getD i 0 ≠ new_id) :
    ∀ k, ((moveStep id new_id start bm i).OpenBlock new_id).pivots.getD k 0 =
      if i < (bm.OpenBlock id).pivots_size ∧ k = i - start then (bm.OpenBlock id).pivots.getD i 0
      else (bm.OpenBlock new_id).pivots.getD k 0 := by
  have e1 : ∀ nn : Block, (bm.store new_id nn).OpenBlock id = bm.OpenBlock id :=
    fun nn => OpenBlock_store_ne _ _ _ _ hne
  unfold moveStep
  simp only [e1]
  intro k
  rw [OpenBlock_store_ne _ _ _ _ (Ne.symm hc.2), OpenBlock_store_same]
  by_cases h : i < (bm.OpenBlock id).pivots_size
  · simp only [h, if_true, true_and]
    show (writeAt 0 _ (i - start) _).getD k 0 = _
    rw [getD_writeAt]
  · simp only [h, if_false, false_and]

theorem SplitInternalMove_exact (id new_id start n : Nat) (hne : id ≠ new_id) :
    ∀ (bm : BlockManager) (i : Nat), start ≤ i →
      (∀ j, i ≤ j → j < i + n →
        (bm.OpenBlock id).pointers.getD j 0 ≠ id ∧
        (bm.OpenBlock id).pointers.getD j 0 ≠ new_id) →
      (SplitInternalMove id new_id start bm i n).OpenBlock id = bm.OpenBlock id ∧
      (∀ k, ((SplitInternalMove id new_id start bm i n).OpenBlock new_id).pivots.getD k 0 =
        if i ≤ k + start ∧ k + start < i + n ∧ k + start < (bm.OpenBlock id).pivots_size then
          (bm.OpenBlock id).pivots.getD (k + start) 0
        else (bm.OpenBlock new_id).pivots.getD k 0) ∧
      (∀ k, ((SplitInternalMove id new_id start bm i n).OpenBlock new_id).pointers.getD k 0 =
        if i ≤ k + start ∧ k + start < i + n then (bm.OpenBlock id).pointers.getD (k + start) 0
        else (bm.OpenBlock new_id).pointers.getD k 0) ∧
      ∀ q, q ≠ id → q ≠ new_id →
        (MovedChild (bm.OpenBlock id) i n q ∧
          (SplitInternalMove id new_id start bm i n).OpenBlock q =
            { bm.OpenBlock q with parent := new_id }) ∨
        (¬ MovedChild (bm.OpenBlock id) i n q ∧
          (SplitInternalMove id new_id start bm i n).OpenBlock q = bm.OpenBlock q) := by
  induction n with
  | zero =>
    intro bm i _ _
    rw [SplitInternalMove]
    refine ⟨rfl, ?_, ?_, ?_⟩
    · intro k
      rw [if_neg (by omega)]
    · intro k
      rw [if_neg (by omega)]
    · intro q _ _
      right
      refine ⟨?_, rfl⟩
      rintro ⟨j, h1, h2, _⟩
      omega
  | succ n ih =>
    intro bm i hi hc
    rw [SplitInternalMove_step]
    obtain ⟨m1, _, _, _, m5, m6⟩ := moveStep_spec id new_id start bm i hne
      (hc i (le_refl _) (by omega))
    have m7 := moveStep_pivots id new_id start bm i hne (hc i (le_refl _) (by omega))
    obtain ⟨a1, a2, a3, a4⟩ := ih (moveStep id new_id start bm i) (i + 1) (by omega) (by
      intro j h1 h2
      rw [m1]
      exact hc j (by omega) (by omega))
    rw [m1] at a1 a2 a3 a4
    refine ⟨a1, ?_, ?_, ?_⟩
    · intro k
      rw [a2 k, m7 k]
      by_cases c1 : i + 1 ≤ k + start ∧ k + start < i + 1 + n ∧
          k + start < (bm.OpenBlock id).pivots_size
      · rw [if_pos c1, if_pos (by omega)]
      · rw [if_neg c1]
        by_cases c2 : i < (bm.OpenBlock id).pivots_size ∧ k = i - start
        · rw [if_pos c2, if_pos (by omega)]
          congr 1
          omega
        · rw [if_neg c2, if_neg (by omega)]
    · intro k
      rw [a3 k, m5 k]
      by_cases c1 : i + 1 ≤ k + start ∧ k + start < i + 1 + n
      · rw [if_pos c1, if_pos (by omega)]
      · rw [if_neg c1]
        by_cases c2 : k = i - start
        · rw [if_pos c2, if_pos (by omega)]
          congr 1
          omega
        · rw [if_neg c2, if_neg (by omega)]
    · intro q hq1 hq2
      have hstep := m6 q hq1 hq2
      rcases a4 q hq1 hq2 with ⟨⟨j, j1, j2, j3⟩, e⟩ | ⟨hnm, e⟩
      · left
        refine ⟨⟨j, by omega, by omega, j3⟩, ?_⟩
        rw [e, hstep]
        split <;> rfl
      · by_cases hq : q = (bm.OpenBlock id).pointers.getD i 0
        · left
          refine ⟨⟨i, le_refl _, by omega, hq⟩, ?_⟩
          rw [e, hstep, if_pos hq]
        · right
          refine ⟨?_, ?_⟩
          · rintro ⟨j, j1, j2, j3⟩
            by_cases hji : j = i
            · rw [hji] at j3
              exact hq j3
            · exact hnm ⟨j, by omega, by omega, j3⟩
          · rw [e, hstep, if_neg hq]

theorem SplitInternalBuffer_tree (b nn : Block) :
    (SplitInternalBuffer b nn).1 = b.pivots.getD (b.pivots_size - (nn.pivots_size + 1)) 0 ∧
    (SplitInternalBuffer b nn).2.1.parent = b.parent ∧
    (SplitInternalBuffer b nn).2.1.is_leaf = b.is_leaf ∧
    (SplitInternalBuffer b nn).2.1.pivots_size = b.pivots_size - (nn.pivots_size + 1) ∧
    (SplitInternalBuffer b nn).2.1.pivots = b.pivots ∧
    (SplitInternalBuffer b nn).2.1.pointers = b.pointers ∧
    SameTree nn (SplitInternalBuffer b nn).2.2 := by
  have key := fun (c : Bool) (sk n : Nat) (x y : Block) (i : Nat) =>
    SplitInternalCopy_fields c sk n x y i
  unfold SplitInternalBuffer
  simp only []
  split
  · refine ⟨by first | rfl | trivial, ?_, ?_, ?_, ?_, ?_, ?_, ?_, ?_, ?_, ?_⟩
    · exact ((key _ _ _ _ _ _).1.1).trans ((key _ _ _ _ _ _).1.1)
    · exact ((key _ _ _ _ _ _).1.2.1).trans ((key _ _ _ _ _ _).1.2.1)
    · exact ((key _ _ _ _ _ _).1.2.2.1).trans ((key _ _ _ _ _ _).1.2.2.1)
    · exact ((key _ _ _ _ _ _).1.2.2.2.1).trans ((key _ _ _ _ _ _).1.2.2.2.1)
    · exact ((key _ _ _ _ _ _).1.2.2.2.2).trans ((key _ _ _ _ _ _).1.2.2.2.2)
    · exact ((key _ _ _ _ _ _).2.2.2.1.1).trans ((key _ _ _ _ _ _).2.2.2.1.1)
    · exact ((key _ _ _ _ _ _).2.2.2.1.2.1).trans ((key _ _ _ _ _ _).2.2.2.1.2.1)
    · exact ((key _ _ _ _ _ _).2.2.2.1.2.2.1).trans ((key _ _ _ _ _ _).2.2.2.1.2.2.1)
    · exact ((key _ _ _ _ _ _).2.2.2.1.2.2.2.1).trans ((key _ _ _ _ _ _).2.2.2.1.2.2.2.1)
    · exact ((key _ _ _ _ _ _).2.2.2.1.2.2.2.2).trans ((key _ _ _ _ _ _).2.2.2.1.2.2.2.2)
  · refine ⟨by first | rfl | trivial, ?_, ?_, ?_, ?_, ?_, ?_, ?_, ?_, ?_, ?_⟩
    · exact (key _ _ _ _ _ _).1.1
    · exact (key _ _ _ _ _ _).1.2.1
    · exact (key _ _ _ _ _ _).1.2.2.1
    · exact (key _ _ _ _ _ _).1.2.2.2.1
    · exact (key _ _ _ _ _ _).1.2.2.2.2
    · exact (key _ _ _ _ _ _).2.2.2.1.1
    · exact (key _ _ _ _ _ _).2.2.2.1.2.1
    · exact (key _ _ _ _ _ _).2.2.2.1.2.2.1
    · exact (key _ _ _ _ _ _).2.2.2.1.2.2.2.1
    · exact (key _ _ _ _ _ _).2.2.2.1.2.2.2.2

theorem NUM_PIVOTS_eq : NUM_PIVOTS = 15 := by decide

/-- Claim C19. On an internal page `id` that exists, with `NUM_PIVOTS = 15` strictly increasing
pivots `p` and 16 pairwise distinct pointers `c` to existing pages other than `id`,
`SplitInternal` returns the split key `p[7]` and the fresh id `cur_num_blocks + 1`; the
original keeps `parent_id` and has the pivots `p[0..7)` and the pointers `c[0..7]`, the
sibling has the same `parent_id`, `is_leaf = 0`, the pivots `p[8..15)` and the pointers
`c[8..15]` from index 0; `p[7]` is a pivot of neither; the children `c[8..15]` get the
sibling as parent and the pages of the children `c[0..7]` do not change. -/
theorem SplitInternal_pivots (bm : BlockManager) (id : Nat)
    (hleaf : (bm.OpenBlock id).is_leaf = 0) (hN : (bm.OpenBlock id).pivots_size = NUM_PIVOTS)
    (hid : id ≤ bm.cur_num_blocks)
    (hch : ∀ j, j ≤ 15 → (bm.OpenBlock id).pointers.getD j 0 ≠ id ∧
      (bm.OpenBlock id).pointers.getD j 0 ≤ bm.cur_num_blocks)
    (hdist : ∀ i, i ≤ 15 → ∀ j, j ≤ 15 →
      (bm.OpenBlock id).pointers.getD i 0 = (bm.OpenBlock id).pointers.getD j 0 → i = j)
    (hinc : ∀ j, j < 15 → ∀ i, i < j →
      (bm.OpenBlock id).pivots.getD i 0 < (bm.OpenBlock id).pivots.getD j 0) :
    ∃ bm', SplitInternal bm id =
        some ((bm.OpenBlock id).pivots.getD 7 0, bm.cur_num_blocks + 1, bm') ∧
      (bm'.OpenBlock id).parent = (bm.OpenBlock id).parent ∧
      (bm'.OpenBlock id).is_leaf = 0 ∧ (bm'.OpenBlock id).pivots_size = 7 ∧
      (∀ k, k < 7 → (bm'.OpenBlock id).pivots.getD k 0 = (bm.OpenBlock id).pivots.getD k 0) ∧
      (∀ k, k ≤ 7 →
        (bm'.OpenBlock id).pointers.getD k 0 = (bm.OpenBlock id).pointers.getD k 0) ∧
      (bm'.OpenBlock (bm.cur_num_blocks + 1)).parent = (bm.OpenBlock id).parent ∧
      (bm'.OpenBlock (bm.cur_num_blocks + 1)).is_leaf = 0 ∧
      (bm'.OpenBlock (bm.cur_num_blocks + 1)).pivots_size = 7 ∧
      (∀ k, k < 7 → (bm'.OpenBlock (bm.cur_num_blocks + 1)).pivots.getD k 0 =
        (bm.OpenBlock id).pivots.getD (k + 8) 0) ∧
      (∀ k, k ≤ 7 → (bm'.OpenBlock (bm.cur_num_blocks + 1)).pointers.getD k 0 =
        (bm.OpenBlock id).pointers.getD (k + 8) 0) ∧
      (∀ k, k < 7 → (bm'.OpenBlock id).pivots.getD k 0 ≠ (bm.OpenBlock id).pivots.getD 7 0 ∧
        (bm'.OpenBlock (bm.cur_num_blocks + 1)).pivots.getD k 0 ≠
          (bm.OpenBlock id).pivots.getD 7 0) ∧
      (∀ k, 8 ≤ k → k ≤ 15 →
        (bm'.OpenBlock ((bm.OpenBlock id).pointers.getD k 0)).parent =
          bm.cur_num_blocks + 1) ∧
      ∀ k, k ≤ 7 → bm'.OpenBlock ((bm.OpenBlock id).pointers.getD k 0) =
        bm.OpenBlock ((bm.OpenBlock id).pointers.getD k 0) := by
  have h15 := NUM_PIVOTS_eq
  have hne : id ≠ bm.cur_num_blocks + 1 := by omega
  cases hsl : SplitInternal bm id with
  | none =>
    unfold SplitInternal at hsl
    rw [if_neg (by rw [hleaf]; simp), if_neg (by rw [hN]; simp)] at hsl
    cases hsl
  | some r =>
  obtain ⟨sk, nid, bm'⟩ := r
  obtain ⟨_, _, hnid, bm2, bm3, e2, e3, e4, e5⟩ := SplitInternal_shape bm bm' id sk nid hsl
  subst hnid
  have c1 : bm.created.OpenBlock id = bm.OpenBlock id := by
    rw [OpenBlock_created, if_neg hne]
  have c2 : bm.created.OpenBlock (bm.cur_num_blocks + 1) = zeroBlock := by
    rw [OpenBlock_created, if_pos rfl]
  rw [c1, c2] at e2
  have b2id : bm2.OpenBlock id = bm.OpenBlock id := by
    rw [e2, OpenBlock_store_ne _ _ _ _ hne, c1]
  have b2new : bm2.OpenBlock (bm.cur_num_blocks + 1) =
      { zeroBlock with is_leaf := (bm.OpenBlock id).is_leaf,
                       parent := (bm.OpenBlock id).parent } := by
    rw [e2, OpenBlock_store_same]
  have b2q : ∀ q, q ≠ bm.cur_num_blocks + 1 → bm2.OpenBlock q = bm.OpenBlock q := by
    intro q hq
    rw [e2, OpenBlock_store_ne _ _ _ _ hq, OpenBlock_created, if_neg hq]
  rw [b2id, hN, h15] at e3
  have e8 : (15 + 1) / 2 = 8 := by decide
  have e8b : 15 + 1 - 8 = 8 := by decide
  rw [e8, e8b] at e3
  have hmv : ∀ j, 8 ≤ j → j < 8 + 8 →
      (bm2.OpenBlock id).pointers.getD j 0 ≠ id ∧
      (bm2.OpenBlock id).pointers.getD j 0 ≠ bm.cur_num_blocks + 1 := by
    intro j _ hj
    rw [b2id]
    have := hch j (by omega)
    exact ⟨this.1, by omega⟩
  obtain ⟨m1, m2, m3, m4⟩ := SplitInternalMove_exact id (bm.cur_num_blocks + 1) 8 8 hne bm2 8
    (le_refl _) hmv
  obtain ⟨_, n2, n3, n4, _⟩ := SplitInternalMove_spec id (bm.cur_num_blocks + 1) 8 8 hne bm2 8
    (le_refl _) hmv
  rw [← e3] at m1 m2 m3 m4 n2 n3 n4
  rw [b2id] at m1 m2 m3 m4 n4
  rw [b2new] at m2 m3 n2 n3 n4
  rw [hN, h15] at m2 n4
  have n4b : (bm3.OpenBlock (bm.cur_num_blocks + 1)).pivots_size = 7 := n4
  obtain ⟨t1, t2, t3, t4, t5, t6, t7⟩ :=
    SplitInternalBuffer_tree (bm.OpenBlock id) (bm3.OpenBlock (bm.cur_num_blocks + 1))
  rw [m1] at e4 e5
  rw [n4b, hN, h15] at t1 t4
  obtain ⟨s1, s2, s3, s4, s5⟩ := t7
  have hbid : bm'.OpenBlock id = (SplitInternalBuffer (bm.OpenBlock id)
      (bm3.OpenBlock (bm.cur_num_blocks + 1))).2.1 := by
    rw [e5, OpenBlock_store_ne _ _ _ _ hne, OpenBlock_store_same]
  have hbnew : bm'.OpenBlock (bm.cur_num_blocks + 1) = (SplitInternalBuffer (bm.OpenBlock id)
      (bm3.OpenBlock (bm.cur_num_blocks + 1))).2.2 := by
    rw [e5, OpenBlock_store_same]
  have hbq : ∀ q, q ≠ id → q ≠ bm.cur_num_blocks + 1 → bm'.OpenBlock q = bm3.OpenBlock q := by
    intro q h1 h2
    rw [e5, OpenBlock_store_ne _ _ _ _ h2, OpenBlock_store_ne _ _ _ _ h1]
  have hsk : sk = (bm.OpenBlock id).pivots.getD 7 0 := by
    rw [e4, t1]
  subst hsk
  have hpv : ∀ k, k < 7 → (bm'.OpenBlock (bm.cur_num_blocks + 1)).pivots.getD k 0 =
      (bm.OpenBlock id).pivots.getD (k + 8) 0 := by
    intro k hk
    rw [hbnew, s4, m2 k, if_pos (by omega)]
  refine ⟨bm', rfl, ?_, ?_, ?_, ?_, ?_, ?_, ?_, ?_, hpv, ?_, ?_, ?_, ?_⟩
  · rw [hbid, t2]
  · rw [hbid, t3, hleaf]
  · rw [hbid, t4]
  · intro k _
    rw [hbid, t5]
  · intro k _
    rw [hbid, t6]
  · rw [hbnew, s1, n2]
  · rw [hbnew, s2, n3]
    exact hleaf
  · rw [hbnew, s3, n4b]
  · intro k hk
    rw [hbnew, s5, m3 k, if_pos (by omega)]
  · intro k hk
    rw [hpv k hk, hbid, t5]
    exact ⟨Nat.ne_of_lt (hinc 7 (by omega) k (by omega)),
      Nat.ne_of_gt (hinc (k + 8) (by omega) 7 (by omega))⟩
  · intro k hk1 hk2
    have hq := hch k hk2
    rw [hbq _ hq.1 (by omega)]
    rcases m4 _ hq.1 (by omega) with ⟨_, e⟩ | ⟨hn, _⟩
    · rw [e]
    · exact absurd ⟨k, hk1, by omega, rfl⟩ hn
  · intro k hk
    have hq := hch k (by omega)
    rw [hbq _ hq.1 (by omega)]
    rcases m4 _ hq.1 (by omega) with ⟨⟨j, j1, j2, j3⟩, _⟩ | ⟨_, e⟩
    · have := hdist k (by omega) j (by omega) j3
      omega
    · rw [e, b2q _ (by omega)]

theorem SplitInternal_pivots_witness :
    (splitInternalExample.OpenBlock 1).is_leaf = 0 ∧
    (splitInternalExample.OpenBlock 1).pivots_size = NUM_PIVOTS ∧
    (SplitInternal splitInternalExample 1).map (fun r => (r.1, r.2.1,
      (readRange 0 (r.2.2.OpenBlock 1).pivots 0 (r.2.2.OpenBlock 1).pivots_size,
       readRange 0 (r.2.2.OpenBlock 1).pointers 0 ((r.2.2.OpenBlock 1).pivots_size + 1)),
      (readRange 0 (r.2.2.OpenBlock 18).pivots 0 (r.2.2.OpenBlock 18).pivots_size,
       readRange 0 (r.2.2.OpenBlock 18).pointers 0 ((r.2.2.OpenBlock 18).pivots_size + 1)),
      (r.2.2.OpenBlock 9).parent, (r.2.2.OpenBlock 10).parent)) =
      some (80, 18, ([10, 20, 30, 40, 50, 60, 70], [2, 3, 4, 5, 6, 7, 8, 9]),
        ([90, 100, 110, 120, 130, 140, 150], [10, 11, 12, 13, 14, 15, 16, 17]), 0, 18) ∧
    ∃ bm', SplitInternal splitInternalExample 1 =
        some ((splitInternalExample.OpenBlock 1).pivots.getD 7 0,
          splitInternalExample.cur_num_blocks + 1, bm') ∧
      (bm'.OpenBlock 1).pivots_size = 7 ∧
      (bm'.OpenBlock (splitInternalExample.cur_num_blocks + 1)).pivots_size = 7 := by
  refine ⟨by decide, by decide, by rfl, ?_⟩
  obtain ⟨bm', h1, _, _, h4, _, _, _, _, h9, _⟩ :=
    SplitInternal_pivots splitInternalExample 1 (by decide) (by decide) (by decide)
      (by decide) (by decide) (by decide)
  exact ⟨bm', h1, h4, h9⟩

theorem readRange_succ_left {α : Type} (d : α) (l : List α) (i n : Nat) :
    readRange d l i (n + 1) = l.getD i d :: readRange d l (i + 1) n := by
  unfold readRange
  rw [List.range_succ_eq_map, List.map_cons, List.map_map]
  congr 1
  apply List.map_congr_left
  intro k _
  simp only [Function.comp]
  congr 1
  omega

theorem readRange_succ_right {α : Type} (d : α) (l : List α) (i n : Nat) :
    readRange d l i (n + 1) = readRange d l i n ++ [l.getD (i + n) d] := by
  unfold readRange
  rw [List.range_succ, List.map_append, List.map_cons, List.map_nil]

theorem readRange_congr {α : Type} (d : α) (l l' : List α) (i n : Nat)
    (h : ∀ k, k < n → l.getD (i + k) d = l'.getD (i + k) d) :
    readRange d l i n = readRange d l' i n := by
  unfold readRange
  apply List.map_congr_left
  intro k hk
  exact h k (List.mem_range.mp hk)

theorem readRange_map {α : Type} (d : α) (f : α → α) (l l' : List α) (i n : Nat)
    (h : ∀ k, k < n → l'.getD (i + k) d = f (l.getD (i + k) d)) :
    readRange d l' i n = (readRange d l i n).map f := by
  unfold readRange
  rw [List.map_map]
  apply List.map_congr_left
  intro k hk
  exact h k (List.mem_range.mp hk)

theorem readRange_add {α : Type} (d : α) (l : List α) (i a : Nat) : ∀ b,
    readRange d l i (a + b) = readRange d l i a ++ readRange d l (i + a) b := by
  intro b
  induction b with
  | zero => simp [readRange]
  | succ b ih =>
    rw [← Nat.add_assoc, readRange_succ_right, ih, readRange_succ_right, List.append_assoc,
      Nat.add_assoc]

theorem length_readRange {α : Type} (d : α) (l : List α) (i n : Nat) :
    (readRange d l i n).length = n := by
  simp [readRange]

theorem SplitInternalCopy_list (cond : Bool) (sk : Nat) (n : Nat) :
    ∀ (b nn : Block) (i : Nat),
      readRange zeroUpsert (SplitInternalCopy cond sk b nn i n).2.buffer 0
          (SplitInternalCopy cond sk b nn i n).2.size =
        readRange zeroUpsert nn.buffer 0 nn.size ++
          (readRange zeroUpsert b.buffer i n).filter (fun u => cond = false ∨ u.key ≥ sk) ∧
      ∀ j, (SplitInternalCopy cond sk b nn i n).1.buffer.getD j zeroUpsert =
        if i ≤ j ∧ j < i + n ∧ (cond = false ∨ (b.buffer.getD j zeroUpsert).key ≥ sk) then
          { b.buffer.getD j zeroUpsert with type := UpsertFunction.INVALID }
        else b.buffer.getD j zeroUpsert := by
  induction n with
  | zero =>
    intro b nn i
    rw [SplitInternalCopy]
    refine ⟨by simp [readRange], ?_⟩
    intro j
    rw [if_neg (by omega)]
  | succ n ih =>
    intro b nn i
    rw [SplitInternalCopy]
    simp only []
    by_cases hp : cond = false ∨ (b.buffer.getD i zeroUpsert).key ≥ sk
    · rw [if_pos hp]
      constructor
      · rw [(ih _ _ _).1]
        simp only []
        rw [readRange_succ_right, readRange_succ_left,
          List.filter_cons_of_pos (by simpa using hp),
          Nat.zero_add, getD_writeAt, if_pos rfl, List.append_assoc, List.singleton_append]
        congr 1
        · apply readRange_congr
          intro k hk
          rw [getD_writeAt, if_neg (by omega)]
        · congr 2
          apply readRange_congr
          intro k hk
          rw [getD_writeAt, if_neg (by omega)]
      · intro j
        rw [(ih _ _ _).2 j]
        simp only []
        rw [getD_writeAt]
        by_cases hji : j = i
        · subst hji
          rw [if_pos rfl, if_neg (by omega), if_pos ⟨le_refl _, by omega, hp⟩]
        · rw [if_neg hji]
          by_cases c : i + 1 ≤ j ∧ j < i + 1 + n ∧
              (cond = false ∨ (b.buffer.getD j zeroUpsert).key ≥ sk)
          · rw [if_pos c, if_pos ⟨by omega, by omega, c.2.2⟩]
          · rw [if_neg c, if_neg (fun h => c ⟨by omega, by omega, h.2.2⟩)]
    · rw [if_neg hp]
      obtain ⟨h1, h2⟩ := ih b nn (i + 1)
      constructor
      · rw [h1, readRange_succ_left, List.filter_cons_of_neg (by simpa using hp)]
      · intro j
        rw [h2 j]
        by_cases hji : j = i
        · subst hji
          rw [if_neg (by omega), if_neg (fun h => hp h.2.2)]
        · by_cases c : i + 1 ≤ j ∧ j < i + 1 + n ∧
              (cond = false ∨ (b.buffer.getD j zeroUpsert).key ≥ sk)
          · rw [if_pos c, if_pos ⟨by omega, by omega, c.2.2⟩]
          · rw [if_neg c, if_neg (fun h => c ⟨by omega, by omega, h.2.2⟩)]

theorem SplitInternalTighten_list (n : Nat) :
    ∀ (buf : List BeUpsert) (k i : Nat), k ≤ i →
      readRange zeroUpsert (SplitInternalTighten buf k i n).1 0 (SplitInternalTighten buf k i n).2 =
        readRange zeroUpsert buf 0 k ++
          (readRange zeroUpsert buf i n).filter (fun u => u.type ≠ UpsertFunction.INVALID) := by
  induction n with
  | zero =>
    intro buf k i _
    rw [SplitInternalTighten]
    simp [readRange]
  | succ n ih =>
    intro buf k i hk
    rw [SplitInternalTighten]
    by_cases hv : (buf.getD i zeroUpsert).type ≠ UpsertFunction.INVALID
    · rw [if_pos hv, ih _ _ _ (by omega), readRange_succ_right, readRange_succ_left,
        List.filter_cons_of_pos (by simpa using hv), Nat.zero_add, getD_writeAt, if_pos rfl,
        List.append_assoc, List.singleton_append]
      congr 1
      · apply readRange_congr
        intro j hj
        rw [getD_writeAt, if_neg (by omega)]
      · congr 2
        apply readRange_congr
        intro j hj
        rw [getD_writeAt, if_neg (by omega)]
    · rw [if_neg hv, ih _ _ _ (by omega), readRange_succ_left,
        List.filter_cons_of_neg (by simpa using hv)]

theorem tail_region {α : Type} (d : α) (l : List α) (s f : Nat) (X F : List α)
    (h : readRange d l 0 s = X ++ F) (hF : F.length = f) (hs : f ≤ s) :
    readRange d l (s - f) f = F := by
  have e : s = (s - f) + f := by omega
  rw [e, readRange_add, Nat.zero_add] at h
  have hl : (readRange d l 0 (s - f)).length = X.length := by
    have := congrArg List.length h
    simp only [List.length_append, length_readRange] at this
    rw [length_readRange]
    omega
  exact (List.append_inj h hl).2

theorem mark_filter (sk : Nat) (N : List BeUpsert)
    (h : ∀ u, u ∈ N → u.type ≠ UpsertFunction.INVALID) :
    ((N.map (markMoved sk)).filter fun u => u.type ≠ UpsertFunction.INVALID) =
      N.filter fun u => u.key < sk := by
  induction N with
  | nil => rfl
  | cons x N ih =>
    have hx := h x (List.mem_cons_self _ _)
    have ih2 := ih (fun u hu => h u (List.mem_cons_of_mem _ hu))
    rw [List.map_cons]
    by_cases c : x.key ≥ sk
    · have e : markMoved sk x = { x with type := UpsertFunction.INVALID } := by
        unfold markMoved
        rw [if_pos c]
      rw [e, List.filter_cons_of_neg (by simp), List.filter_cons_of_neg (by simp; omega), ih2]
    · have e : markMoved sk x = x := by
        unfold markMoved
        rw [if_neg c]
      rw [e, List.filter_cons_of_pos (by simpa using hx),
        List.filter_cons_of_pos (by simp; omega), ih2]

theorem filter_ge_eq (sk : Nat) (N : List BeUpsert) :
    (N.filter fun u => (true = false) ∨ u.key ≥ sk) = N.filter fun u => sk ≤ u.key := by
  apply List.filter_congr
  intro u _
  simp

theorem filter_all_eq (sk : Nat) (N : List BeUpsert) :
    (N.filter fun u => (false = false) ∨ u.key ≥ sk) = N := by
  rw [List.filter_eq_self]
  intro u _
  simp

theorem SplitBuffer_common (b0 nn : Block) (sk : Nat) (hn1 : nn.size = 0)
    (hfs : b0.flush_size ≤ b0.size) :
    liveBuffer b0 = readRange zeroUpsert b0.buffer 0 (b0.size - b0.flush_size) ++ flushRegion b0 ∧
    (SplitInternalCopy true sk b0 nn 0 (b0.size - b0.flush_size)).1.size = b0.size ∧
    (SplitInternalCopy true sk b0 nn 0 (b0.size - b0.flush_size)).1.flush_size = b0.flush_size ∧
    (SplitInternalCopy true sk b0 nn 0 (b0.size - b0.flush_size)).2.flush_size = nn.flush_size ∧
    liveBuffer (SplitInternalCopy true sk b0 nn 0 (b0.size - b0.flush_size)).2 =
      (readRange zeroUpsert b0.buffer 0 (b0.size - b0.flush_size)).filter (fun u => sk ≤ u.key) ∧
    readRange zeroUpsert (SplitInternalCopy true sk b0 nn 0 (b0.size - b0.flush_size)).1.buffer 0
        (b0.size - b0.flush_size) =
      (readRange zeroUpsert b0.buffer 0 (b0.size - b0.flush_size)).map (markMoved sk) ∧
    readRange zeroUpsert (SplitInternalCopy true sk b0 nn 0 (b0.size - b0.flush_size)).1.buffer
        (b0.size - b0.flush_size) b0.flush_size = flushRegion b0 ∧
    (SplitInternalCopy true sk b0 nn 0 (b0.size - b0.flush_size)).1.buffer.getD
        (b0.size - b0.flush_size) zeroUpsert = b0.buffer.getD (b0.size - b0.flush_size) zeroUpsert := by
  obtain ⟨_, f2, f3, _, f5, _⟩ := SplitInternalCopy_fields true sk (b0.size - b0.flush_size) b0 nn 0
  obtain ⟨l1, l2⟩ := SplitInternalCopy_list true sk (b0.size - b0.flush_size) b0 nn 0
  refine ⟨?_, f2, f3, f5, ?_, ?_, ?_, ?_⟩
  · unfold liveBuffer flushRegion
    have e : b0.size = (b0.size - b0.flush_size) + b0.flush_size := by omega
    conv_lhs => rw [e]
    rw [readRange_add, Nat.zero_add]
  · unfold liveBuffer
    rw [l1, hn1, filter_ge_eq]
    simp [readRange]
  · apply readRange_map
    intro k hk
    rw [l2, Nat.zero_add]
    unfold markMoved
    by_cases c : (b0.buffer.getD k zeroUpsert).key ≥ sk
    · rw [if_pos ⟨by omega, by omega, Or.inr c⟩, if_pos c]
    · rw [if_neg (by
        intro h
        rcases h.2.2 with e | e
        · cases e
        · exact c e), if_neg c]
  · unfold flushRegion
    apply readRange_congr
    intro k hk
    rw [l2, if_neg (by omega)]
  · rw [l2, if_neg (by omega)]

theorem SplitBuffer_lists_moved (b0 nn : Block) (sk : Nat) (hn1 : nn.size = 0)
    (hfs : b0.flush_size ≤ b0.size)
    (hval : ∀ u, u ∈ liveBuffer b0 → u.type ≠ UpsertFunction.INVALID)
    (hside : ∀ u, u ∈ flushRegion b0 → sk ≤ u.key) (r1 r2 : Block × Block)
    (t : List BeUpsert × Nat)
    (e1 : r1 = SplitInternalCopy true sk b0 nn 0 (b0.size - b0.flush_size))
    (e2 : r2 = SplitInternalCopy false sk r1.1 r1.2 (r1.1.size - r1.1.flush_size)
      r1.1.flush_size)
    (e3 : t = SplitInternalTighten r2.1.buffer 0 0 (r2.1.size - r2.1.flush_size)) :
    readRange zeroUpsert t.1 0 t.2 = (liveBuffer b0).filter (fun u => u.key < sk) ∧
    liveBuffer r2.2 = (liveBuffer b0).filter (fun u => sk ≤ u.key) ∧
    r2.1.flush_size = b0.flush_size ∧
    readRange zeroUpsert r2.2.buffer (r2.2.size - b0.flush_size) b0.flush_size =
      flushRegion b0 := by
  obtain ⟨c1, c2, c3, c4, c5, c6, c7, _⟩ := SplitBuffer_common b0 nn sk hn1 hfs
  rw [← e1] at c2 c3 c4 c5 c6 c7
  obtain ⟨_, g2, g3, _, g5, _⟩ := SplitInternalCopy_fields false sk r1.1.flush_size r1.1 r1.2
    (r1.1.size - r1.1.flush_size)
  obtain ⟨l1, l2⟩ := SplitInternalCopy_list false sk r1.1.flush_size r1.1 r1.2
    (r1.1.size - r1.1.flush_size)
  rw [← e2] at g2 g3 g5 l1 l2
  rw [c2] at g2
  rw [c3] at g3
  rw [c2, c3] at l1 l2
  have hN : ∀ u, u ∈ readRange zeroUpsert b0.buffer 0 (b0.size - b0.flush_size) →
      u.type ≠ UpsertFunction.INVALID := by
    intro u hu
    apply hval
    rw [c1]
    exact List.mem_append_left _ hu
  have hlive2 : liveBuffer r2.2 =
      (readRange zeroUpsert b0.buffer 0 (b0.size - b0.flush_size)).filter (fun u => sk ≤ u.key) ++
        flushRegion b0 := by
    unfold liveBuffer
    rw [l1, c7, filter_all_eq]
    congr 1
  have hF1 : (flushRegion b0).filter (fun u => sk ≤ u.key) = flushRegion b0 := by
    rw [List.filter_eq_self]
    intro u hu
    simpa using hside u hu
  have hF2 : (flushRegion b0).filter (fun u => u.key < sk) = [] := by
    rw [List.filter_eq_nil_iff]
    intro u hu
    have := hside u hu
    simp
    omega
  refine ⟨?_, ?_, g3, ?_⟩
  · rw [e3, g2, g3, SplitInternalTighten_list _ _ _ _ (le_refl _), c1, List.filter_append, hF2,
      List.append_nil]
    have : readRange zeroUpsert r2.1.buffer 0 (b0.size - b0.flush_size) =
        (readRange zeroUpsert b0.buffer 0 (b0.size - b0.flush_size)).map (markMoved sk) := by
      rw [← c6]
      apply readRange_congr
      intro k hk
      rw [l2, if_neg (by omega)]
    rw [this, mark_filter sk _ hN]
    simp [readRange]
  · rw [hlive2, c1, List.filter_append, hF1]
  · refine tail_region zeroUpsert _ _ _ _ _ hlive2 ?_ ?_
    · unfold flushRegion
      rw [length_readRange]
    · have := congrArg List.length hlive2
      unfold liveBuffer flushRegion at this
      simp only [List.length_append, length_readRange] at this
      omega

theorem SplitBuffer_lists_stays (b0 nn : Block) (sk : Nat) (hn1 : nn.size = 0)
    (hfs : b0.flush_size ≤ b0.size)
    (hval : ∀ u, u ∈ liveBuffer b0 → u.type ≠ UpsertFunction.INVALID)
    (hside : ∀ u, u ∈ flushRegion b0 → u.key < sk) (r1 : Block × Block)
    (t : List BeUpsert × Nat)
    (e1 : r1 = SplitInternalCopy true sk b0 nn 0 (b0.size - b0.flush_size))
    (e3 : t = SplitInternalTighten r1.1.buffer 0 0 r1.1.size) :
    readRange zeroUpsert t.1 0 t.2 = (liveBuffer b0).filter (fun u => u.key < sk) ∧
    liveBuffer r1.2 = (liveBuffer b0).filter (fun u => sk ≤ u.key) ∧
    r1.1.flush_size = b0.flush_size ∧ r1.2.flush_size = nn.flush_size ∧
    readRange zeroUpsert t.1 (t.2 - b0.flush_size) b0.flush_size = flushRegion b0 := by
  obtain ⟨c1, c2, c3, c4, c5, c6, c7, _⟩ := SplitBuffer_common b0 nn sk hn1 hfs
  rw [← e1] at c2 c3 c4 c5 c6 c7
  have hN : ∀ u, u ∈ readRange zeroUpsert b0.buffer 0 (b0.size - b0.flush_size) →
      u.type ≠ UpsertFunction.INVALID := by
    intro u hu
    apply hval
    rw [c1]
    exact List.mem_append_left _ hu
  have hFv : ∀ u, u ∈ flushRegion b0 → u.type ≠ UpsertFunction.INVALID := by
    intro u hu
    apply hval
    rw [c1]
    exact List.mem_append_right _ hu
  have hF1 : (flushRegion b0).filter (fun u => sk ≤ u.key) = [] := by
    rw [List.filter_eq_nil_iff]
    intro u hu
    have := hside u hu
    simp
    omega
  have hF2 : (flushRegion b0).filter (fun u => u.key < sk) = flushRegion b0 := by
    rw [List.filter_eq_self]
    intro u hu
    simpa using hside u hu
  have hF3 : (flushRegion b0).filter (fun u => u.type ≠ UpsertFunction.INVALID) =
      flushRegion b0 := by
    rw [List.filter_eq_self]
    intro u hu
    simpa using hFv u hu
  have ht : readRange zeroUpsert t.1 0 t.2 =
      (readRange zeroUpsert b0.buffer 0 (b0.size - b0.flush_size)).filter
        (fun u => u.key < sk) ++ flushRegion b0 := by
    have e : b0.size = (b0.size - b0.flush_size) + b0.flush_size := by omega
    rw [e3, c2, SplitInternalTighten_list _ _ _ _ (le_refl _)]
    conv_lhs => rw [e]
    rw [readRange_add, Nat.zero_add, c6, c7, List.filter_append, mark_filter sk _ hN, hF3]
    simp [readRange]
  refine ⟨?_, ?_, c3, c4, ?_⟩
  · rw [ht, c1, List.filter_append, hF2]
  · rw [c5, c1, List.filter_append, hF1, List.append_nil]
  · refine tail_region zeroUpsert _ _ _ _ _ ht ?_ ?_
    · unfold flushRegion
      rw [length_readRange]
    · have := congrArg List.length ht
      unfold flushRegion at this
      simp only [List.length_append, length_readRange] at this
      omega

theorem flushRegion_head (b : Block) (h : 0 < b.flush_size) :
    b.buffer.getD (b.size - b.flush_size) zeroUpsert ∈ flushRegion b := by
  unfold flushRegion
  rw [mem_readRange]
  exact ⟨0, h, rfl⟩

theorem flushRegion_nil (b : Block) (h : ¬ 0 < b.flush_size) (u : BeUpsert) :
    u ∉ flushRegion b := by
  unfold flushRegion
  have : b.flush_size = 0 := by omega
  rw [this]
  simp [readRange]

theorem SplitInternalBuffer_lists (b nn : Block) (hn1 : nn.size = 0) (hn2 : nn.flush_size = 0)
    (hfs : b.flush_size ≤ b.size)
    (hval : ∀ u, u ∈ liveBuffer b → u.type ≠ UpsertFunction.INVALID)
    (hside : (∀ u, u ∈ flushRegion b → u.key < (SplitInternalBuffer b nn).1) ∨
      (∀ u, u ∈ flushRegion b → (SplitInternalBuffer b nn).1 ≤ u.key)) :
    liveBuffer (SplitInternalBuffer b nn).2.1 =
      (liveBuffer b).filter (fun u => u.key < (SplitInternalBuffer b nn).1) ∧
    liveBuffer (SplitInternalBuffer b nn).2.2 =
      (liveBuffer b).filter (fun u => (SplitInternalBuffer b nn).1 ≤ u.key) ∧
    (((SplitInternalBuffer b nn).2.1.flush_size = 0 ∧
        (SplitInternalBuffer b nn).2.2.flush_size = b.flush_size ∧
        flushRegion (SplitInternalBuffer b nn).2.2 = flushRegion b) ∨
     ((SplitInternalBuffer b nn).2.1.flush_size = b.flush_size ∧
        (SplitInternalBuffer b nn).2.2.flush_size = 0 ∧
        flushRegion (SplitInternalBuffer b nn).2.1 = flushRegion b)) := by
  have hsk := (SplitInternalBuffer_tree b nn).1
  rw [hsk] at hside ⊢
  have hcm := SplitBuffer_common
    { b with pivots_size := b.pivots_size - (nn.pivots_size + 1) } nn
    (b.pivots.getD (b.pivots_size - (nn.pivots_size + 1)) 0) hn1 hfs
  obtain ⟨_, k2, k3, _, _, _, _, k8⟩ := hcm
  simp only [] at k2 k3 k8
  simp only [SplitInternalBuffer]
  split
  · rename_i htest
    rw [k2, k3, k8] at htest
    have hge : ∀ u, u ∈ flushRegion b →
        b.pivots.getD (b.pivots_size - (nn.pivots_size + 1)) 0 ≤ u.key := by
      rcases hside with hs | hs
      · by_cases hf : 0 < b.flush_size
        · have := hs _ (flushRegion_head b hf)
          omega
        · intro u hu
          exact absurd hu (flushRegion_nil b hf u)
      · exact hs
    obtain ⟨m1, m2, m3, m4⟩ := SplitBuffer_lists_moved
      { b with pivots_size := b.pivots_size - (nn.pivots_size + 1) } nn _ hn1 hfs hval hge
      _ _ _ rfl rfl rfl
    refine ⟨m1, m2, Or.inl ⟨rfl, m3, ?_⟩⟩
    unfold flushRegion
    simp only []
    rw [m3]
    exact m4
  · rename_i htest
    rw [k2, k3, k8] at htest
    have hlt : ∀ u, u ∈ flushRegion b →
        u.key < b.pivots.getD (b.pivots_size - (nn.pivots_size + 1)) 0 := by
      rcases hside with hs | hs
      · exact hs
      · by_cases hf : 0 < b.flush_size
        · have := hs _ (flushRegion_head b hf)
          omega
        · intro u hu
          exact absurd hu (flushRegion_nil b hf u)
    obtain ⟨m1, m2, m3, m4, m5⟩ := SplitBuffer_lists_stays
      { b with pivots_size := b.pivots_size - (nn.pivots_size + 1) } nn _ hn1 hfs hval hlt
      _ _ rfl rfl
    refine ⟨m1, m2, Or.inr ⟨m3, by rw [m4, hn2], ?_⟩⟩
    unfold flushRegion
    simp only []
    rw [m3]
    exact m5

theorem IndexOfKeyLoop_some (pivots : List Nat) (size key : Nat) (n : Nat) : ∀ (i c : Nat),
    IndexOfKeyLoop pivots size key i n = some c →
    i ≤ c ∧ c < i + n ∧ (c = size ∨ key < pivots.getD c 0) ∧
      (c = 0 ∨ key ≥ pivots.getD (c - 1) 0) := by
  induction n with
  | zero =>
    intro i c h
    rw [IndexOfKeyLoop] at h
    cases h
  | succ n ih =>
    intro i c h
    rw [IndexOfKeyLoop] at h
    split at h
    · rename_i hc
      cases h
      exact ⟨le_refl _, by omega, hc.1, hc.2⟩
    · obtain ⟨a1, a2, a3, a4⟩ := ih _ _ h
      exact ⟨by omega, by omega, a3, a4⟩

theorem SplitInternal_setup (bm : BlockManager) (id : Nat)
    (hleaf : (bm.OpenBlock id).is_leaf = 0) (hN : (bm.OpenBlock id).pivots_size = NUM_PIVOTS)
    (hid : id ≤ bm.cur_num_blocks)
    (hch : ∀ j, 8 ≤ j → j ≤ 15 → (bm.OpenBlock id).pointers.getD j 0 ≠ id ∧
      (bm.OpenBlock id).pointers.getD j 0 ≤ bm.cur_num_blocks) :
    ∃ (bm' : BlockManager) (nn : Block),
      SplitInternal bm id = some ((bm.OpenBlock id).pivots.getD 7 0, bm.cur_num_blocks + 1, bm') ∧
      (SplitInternalBuffer (bm.OpenBlock id) nn).1 = (bm.OpenBlock id).pivots.getD 7 0 ∧
      bm'.OpenBlock id = (SplitInternalBuffer (bm.OpenBlock id) nn).2.1 ∧
      bm'.OpenBlock (bm.cur_num_blocks + 1) = (SplitInternalBuffer (bm.OpenBlock id) nn).2.2 ∧
      nn.size = 0 ∧ nn.flush_size = 0 := by
  have h15 := NUM_PIVOTS_eq
  have hne : id ≠ bm.cur_num_blocks + 1 := by omega
  cases hsl : SplitInternal bm id with
  | none =>
    unfold SplitInternal at hsl
    rw [if_neg (by rw [hleaf]; simp), if_neg (by rw [hN]; simp)] at hsl
    cases hsl
  | some r =>
  obtain ⟨sk, nid, bm'⟩ := r
  obtain ⟨_, _, hnid, bm2, bm3, e2, e3, e4, e5⟩ := SplitInternal_shape bm bm' id sk nid hsl
  subst hnid
  have c1 : bm.created.OpenBlock id = bm.OpenBlock id := by
    rw [OpenBlock_created, if_neg hne]
  have c2 : bm.created.OpenBlock (bm.cur_num_blocks + 1) = zeroBlock := by
    rw [OpenBlock_created, if_pos rfl]
  rw [c1, c2] at e2
  have b2id : bm2.OpenBlock id = bm.OpenBlock id := by
    rw [e2, OpenBlock_store_ne _ _ _ _ hne, c1]
  have b2new : bm2.OpenBlock (bm.cur_num_blocks + 1) =
      { zeroBlock with is_leaf := (bm.OpenBlock id).is_leaf,
                       parent := (bm.OpenBlock id).parent } := by
    rw [e2, OpenBlock_store_same]
  rw [b2id, hN, h15] at e3
  have e8 : (15 + 1) / 2 = 8 := by decide
  have e8b : 15 + 1 - 8 = 8 := by decide
  rw [e8, e8b] at e3
  have hmv : ∀ j, 8 ≤ j → j < 8 + 8 →
      (bm2.OpenBlock id).pointers.getD j 0 ≠ id ∧
      (bm2.OpenBlock id).pointers.getD j 0 ≠ bm.cur_num_blocks + 1 := by
    intro j hj1 hj
    rw [b2id]
    have := hch j hj1 (by omega)
    exact ⟨this.1, by omega⟩
  obtain ⟨m1, _, _, n4, _⟩ := SplitInternalMove_spec id (bm.cur_num_blocks + 1) 8 8 hne bm2 8
    (le_refl _) hmv
  have hsb := SplitInternalMove_sameBuf id (bm.cur_num_blocks + 1) 8 8 bm2 bm2 8
    (SameBufAll_refl bm2) (bm.cur_num_blocks + 1)
  rw [← e3] at m1 n4 hsb
  rw [b2id] at m1 n4
  rw [b2new] at n4 hsb
  rw [hN, h15] at n4
  have n4b : (bm3.OpenBlock (bm.cur_num_blocks + 1)).pivots_size = 7 := n4
  obtain ⟨_, s2, s3, _⟩ := hsb
  rw [m1] at e4 e5
  have t1 := (SplitInternalBuffer_tree (bm.OpenBlock id)
    (bm3.OpenBlock (bm.cur_num_blocks + 1))).1
  rw [n4b, hN, h15] at t1
  have hsk : sk = (bm.OpenBlock id).pivots.getD 7 0 := by
    rw [e4, t1]
  subst hsk
  refine ⟨bm', bm3.OpenBlock (bm.cur_num_blocks + 1), rfl, t1, ?_, ?_, s2, s3⟩
  · rw [e5, OpenBlock_store_ne _ _ _ _ hne, OpenBlock_store_same]
  · rw [e5, OpenBlock_store_same]

/-- Claim C20. On an internal page `id` that exists, with `NUM_PIVOTS = 15` strictly increasing
pivots, `flush_size ≤ size < NUM_UPSERTS`, no live message `INVALID`, and every message of the
flush region routed to the same child, `SplitInternal` returns the split key `sk = pivots[7]`;
afterwards the buffer of the original holds the messages of the old buffer with `key < sk` and
the buffer of the sibling those with `key ≥ sk`, each in their old order, so that together they
hold exactly the old messages, none of them `INVALID`; and the flush region is, unchanged, the
trailing region of the sibling while the original has `flush_size = 0`, or of the original
while the sibling has `flush_size = 0`. -/
theorem SplitInternal_buffer (bm : BlockManager) (id : Nat)
    (hleaf : (bm.OpenBlock id).is_leaf = 0) (hN : (bm.OpenBlock id).pivots_size = NUM_PIVOTS)
    (hid : id ≤ bm.cur_num_blocks)
    (hch : ∀ j, 8 ≤ j → j ≤ 15 → (bm.OpenBlock id).pointers.getD j 0 ≠ id ∧
      (bm.OpenBlock id).pointers.getD j 0 ≤ bm.cur_num_blocks)
    (hinc : ∀ j, j < 15 → ∀ i, i < j →
      (bm.OpenBlock id).pivots.getD i 0 < (bm.OpenBlock id).pivots.getD j 0)
    (hfs : (bm.OpenBlock id).flush_size ≤ (bm.OpenBlock id).size)
    (hsz : (bm.OpenBlock id).size < NUM_UPSERTS)
    (hval : ∀ u, u ∈ liveBuffer (bm.OpenBlock id) → u.type ≠ UpsertFunction.INVALID)
    (hroute : ∃ c, ∀ u, u ∈ flushRegion (bm.OpenBlock id) →
      IndexOfKey (bm.OpenBlock id) u.key = some c) :
    ∃ bm', SplitInternal bm id =
        some ((bm.OpenBlock id).pivots.getD 7 0, bm.cur_num_blocks + 1, bm') ∧
      liveBuffer (bm'.OpenBlock id) = (liveBuffer (bm.OpenBlock id)).filter
        (fun u => u.key < (bm.OpenBlock id).pivots.getD 7 0) ∧
      liveBuffer (bm'.OpenBlock (bm.cur_num_blocks + 1)) = (liveBuffer (bm.OpenBlock id)).filter
        (fun u => (bm.OpenBlock id).pivots.getD 7 0 ≤ u.key) ∧
      (liveBuffer (bm'.OpenBlock id) ++ liveBuffer (bm'.OpenBlock (bm.cur_num_blocks + 1))).Perm
        (liveBuffer (bm.OpenBlock id)) ∧
      (∀ u, u ∈ liveBuffer (bm'.OpenBlock id) ++
          liveBuffer (bm'.OpenBlock (bm.cur_num_blocks + 1)) →
        u.type ≠ UpsertFunction.INVALID) ∧
      (((bm'.OpenBlock id).flush_size = 0 ∧
          (bm'.OpenBlock (bm.cur_num_blocks + 1)).flush_size = (bm.OpenBlock id).flush_size ∧
          flushRegion (bm'.OpenBlock (bm.cur_num_blocks + 1)) = flushRegion (bm.OpenBlock id)) ∨
       ((bm'.OpenBlock id).flush_size = (bm.OpenBlock id).flush_size ∧
          (bm'.OpenBlock (bm.cur_num_blocks + 1)).flush_size = 0 ∧
          flushRegion (bm'.OpenBlock id) = flushRegion (bm.OpenBlock id))) := by
  have h15 := NUM_PIVOTS_eq
  obtain ⟨bm', nn, h1, h2, h3, h4, h5, h6⟩ := SplitInternal_setup bm id hleaf hN hid hch
  have hmono : ∀ i j, i ≤ j → j < 15 →
      (bm.OpenBlock id).pivots.getD i 0 ≤ (bm.OpenBlock id).pivots.getD j 0 := by
    intro i j hij hj
    rcases Nat.lt_or_ge i j with h | h
    · exact Nat.le_of_lt (hinc j hj i h)
    · have : i = j := by omega
      rw [this]
  have hside : (∀ u, u ∈ flushRegion (bm.OpenBlock id) →
        u.key < (SplitInternalBuffer (bm.OpenBlock id) nn).1) ∨
      (∀ u, u ∈ flushRegion (bm.OpenBlock id) →
        (SplitInternalBuffer (bm.OpenBlock id) nn).1 ≤ u.key) := by
    rw [h2]
    obtain ⟨c, hc⟩ := hroute
    by_cases hc7 : c ≤ 7
    · left
      intro u hu
      have := hc u hu
      unfold IndexOfKey at this
      rw [if_neg (by rw [hleaf]; simp)] at this
      obtain ⟨_, _, a3, _⟩ := IndexOfKeyLoop_some _ _ _ _ _ _ this
      rw [hN, h15] at a3
      have := hmono c 7 hc7 (by omega)
      omega
    · right
      intro u hu
      have := hc u hu
      unfold IndexOfKey at this
      rw [if_neg (by rw [hleaf]; simp)] at this
      obtain ⟨_, a2, _, a4⟩ := IndexOfKeyLoop_some _ _ _ _ _ _ this
      rw [hN, h15] at a2
      have := hmono 7 (c - 1) (by omega) (by omega)
      omega
  obtain ⟨g1, g2, g3⟩ := SplitInternalBuffer_lists (bm.OpenBlock id) nn h5 h6 hfs hval hside
  rw [h2] at g1 g2
  rw [← h3] at g1 g3
  rw [← h4] at g2 g3
  refine ⟨bm', h1, g1, g2, ?_, ?_, g3⟩
  · rw [g1, g2]
    have e : (fun u : BeUpsert => decide ((bm.OpenBlock id).pivots.getD 7 0 ≤ u.key)) =
        fun u => !(decide (u.key < (bm.OpenBlock id).pivots.getD 7 0)) := by
      funext u
      by_cases c : u.key < (bm.OpenBlock id).pivots.getD 7 0
      · have c2 : ¬ (bm.OpenBlock id).pivots.getD 7 0 ≤ u.key := by omega
        rw [decide_eq_true c, decide_eq_false c2]
        rfl
      · have c2 : (bm.OpenBlock id).pivots.getD 7 0 ≤ u.key := by omega
        rw [decide_eq_false c, decide_eq_true c2]
        rfl
    rw [e]
    exact List.filter_append_perm _ _
  · intro u hu
    rw [g1, g2] at hu
    rcases List.mem_append.mp hu with h | h
    · exact hval u (List.mem_of_mem_filter h)
    · exact hval u (List.mem_of_mem_filter h)

theorem SplitInternal_buffer_witness :
    (splitBufferExample.OpenBlock 1).is_leaf = 0 ∧
    (splitBufferExample.OpenBlock 1).pivots_size = NUM_PIVOTS ∧
    (SplitInternal splitBufferExample 1).map (fun r => (r.1, r.2.1,
      (liveBuffer (r.2.2.OpenBlock 1)).map (fun u => u.key), (r.2.2.OpenBlock 1).flush_size,
      (liveBuffer (r.2.2.OpenBlock 18)).map (fun u => u.key), (r.2.2.OpenBlock 18).flush_size)) =
      some (80, 18, [15], 0, [105, 80, 85], 1) ∧
    ∃ bm', SplitInternal splitBufferExample 1 =
        some ((splitBufferExample.OpenBlock 1).pivots.getD 7 0,
          splitBufferExample.cur_num_blocks + 1, bm') ∧
      liveBuffer (bm'.OpenBlock 1) = (liveBuffer (splitBufferExample.OpenBlock 1)).filter
        (fun u => u.key < (splitBufferExample.OpenBlock 1).pivots.getD 7 0) := by
  refine ⟨by decide, by decide, by rfl, ?_⟩
  obtain ⟨bm', h1, h2, _⟩ :=
    SplitInternal_buffer splitBufferExample 1 (by decide) (by decide) (by decide)
      (by decide) (by decide) (by decide) (by decide) (by decide) ⟨8, by decide⟩
  exact ⟨bm', h1, h2⟩

/-! ## IndexOfKey, AddPivot and FullFlushSetup -/

theorem length_filter_lt_range (i : Nat) : ∀ n : Nat,
    ((List.range n).filter (fun j => decide (j < i))).length = min i n := by
  intro n
  induction n with
  | zero => simp
  | succ n ih =>
    rw [List.range_succ, List.filter_append, List.length_append, ih]
    by_cases h : n < i
    · rw [List.filter_cons_of_pos (by simpa using h)]
      simp
      omega
    · rw [List.filter_cons_of_neg (by simpa using h)]
      simp
      omega

/-- Claim C22. On an internal node whose `pivots[0..size)` are strictly increasing (any size,
`size = 0` included) `IndexOfKey` returns for every key: the loop does not fall through.  The
value `i` returned satisfies `i ≤ size`, `i = 0 ∨ pivots[i-1] ≤ key` and
`i = size ∨ key < pivots[i]`, it is the only index in `[0, size]` that does, it is the number
of pivots `≤ key`, and it is `0` when `size = 0`. -/
theorem IndexOfKey_sorted (b : Block) (key : Nat) (hleaf : b.is_leaf = 0)
    (hinc : ∀ j, j < b.pivots_size → ∀ i, i < j → b.pivots.getD i 0 < b.pivots.getD j 0) :
    ∃ i, IndexOfKey b key = some i ∧ i ≤ b.pivots_size ∧
      (i = 0 ∨ b.pivots.getD (i - 1) 0 ≤ key) ∧
      (i = b.pivots_size ∨ key < b.pivots.getD i 0) ∧
      (∀ k, k ≤ b.pivots_size → (k = 0 ∨ b.pivots.getD (k - 1) 0 ≤ key) →
        (k = b.pivots_size ∨ key < b.pivots.getD k 0) → k = i) ∧
      i = ((List.range b.pivots_size).filter (fun j => b.pivots.getD j 0 ≤ key)).length ∧
      (b.pivots_size = 0 → i = 0) := by
  obtain ⟨i, hi, he⟩ := IndexOfKey_total b key hleaf
  have hs := he
  unfold IndexOfKey at hs
  rw [if_neg (by rw [hleaf]; simp)] at hs
  obtain ⟨_, _, a3, a4⟩ := IndexOfKeyLoop_some _ _ _ _ _ _ hs
  have hmono : ∀ x y, x ≤ y → y < b.pivots_size →
      b.pivots.getD x 0 ≤ b.pivots.getD y 0 := by
    intro x y hxy hy
    rcases Nat.lt_or_ge x y with h | h
    · exact Nat.le_of_lt (hinc y hy x h)
    · have : x = y := by omega
      rw [this]
  refine ⟨i, he, hi, a4, a3, ?_, ?_, fun h => by omega⟩
  · intro k hk k1 k2
    rcases Nat.lt_trichotomy k i with h | h | h
    · have := hmono k (i - 1) (by omega) (by omega)
      omega
    · exact h
    · have := hmono i (k - 1) (by omega) (by omega)
      omega
  · have e : (List.range b.pivots_size).filter (fun j => decide (b.pivots.getD j 0 ≤ key)) =
        (List.range b.pivots_size).filter (fun j => decide (j < i)) := by
      apply List.filter_congr
      intro j hj
      have hj2 : j < b.pivots_size := List.mem_range.mp hj
      by_cases c : j < i
      · have := hmono j (i - 1) (by omega) (by omega)
        have c2 : b.pivots.getD j 0 ≤ key := by omega
        rw [decide_eq_true c, decide_eq_true c2]
      · have := hmono i j (by omega) hj2
        have c2 : ¬ b.pivots.getD j 0 ≤ key := by omega
        rw [decide_eq_false c, decide_eq_false c2]
    rw [e, length_filter_lt_range]
    omega

theorem IndexOfKey_sorted_witness :
    threePivots.is_leaf = 0 ∧ IndexOfKey threePivots 20 = some 2 ∧
    IndexOfKey { threePivots with pivots_size := 0 } 20 = some 0 ∧
    ∃ i, IndexOfKey threePivots 25 = some i ∧
      i = ((List.range threePivots.pivots_size).filter
        (fun j => threePivots.pivots.getD j 0 ≤ 25)).length := by
  refine ⟨by decide, by decide, by decide, ?_⟩
  obtain ⟨i, h1, _, _, _, _, h6, _⟩ := IndexOfKey_sorted threePivots 25 (by decide) (by decide)
  exact ⟨i, h1, h6⟩

theorem readRange_insert {α : Type} (d : α) (l l' : List α) (n pos : Nat) (x : α)
    (hpos : pos ≤ n)
    (h : ∀ k, k ≤ n → l'.getD k d =
      if k = pos then x else if pos < k then l.getD (k - 1) d else l.getD k d) :
    readRange d l' 0 (n + 1) =
      (readRange d l 0 n).take pos ++ x :: (readRange d l 0 n).drop pos := by
  apply List.ext_getElem?
  intro k
  unfold readRange
  by_cases hk : k ≤ n
  · rw [List.getElem?_map, List.getElem?_range (by omega)]
    simp only [Option.map_some', Nat.zero_add]
    rw [h k hk]
    by_cases h1 : k < pos
    · rw [if_neg (by omega), if_neg (by omega)]
      rw [List.getElem?_append_left (by simp; omega)]
      rw [List.getElem?_take_of_lt h1, List.getElem?_map, List.getElem?_range (by omega)]
      simp
    · rw [List.getElem?_append_right (by simp; omega)]
      have hl : (List.take pos (List.map (fun k => l.getD k d) (List.range n))).length = pos := by
        simp; omega
      rw [hl]
      by_cases h2 : k = pos
      · rw [if_pos h2, h2]
        simp
      · rw [if_neg h2, if_pos (by omega)]
        obtain ⟨m, hm⟩ : ∃ m, k - pos = m + 1 := ⟨k - pos - 1, by omega⟩
        rw [hm, List.getElem?_cons_succ, List.getElem?_drop, List.getElem?_map,
          List.getElem?_range (by omega)]
        simp only [Option.map_some', Nat.zero_add]
        congr 2
        omega
  · rw [List.getElem?_eq_none (by simp; omega), List.getElem?_eq_none (by simp; omega)]

theorem AddPivotShift_pivots (n : Nat) : ∀ (b : Block) (j1 : Nat), n ≤ j1 →
    ∀ k, (AddPivotShift b j1 n).pivots.getD k 0 =
      if j1 - n < k ∧ k ≤ j1 then b.pivots.getD (k - 1) 0 else b.pivots.getD k 0 := by
  induction n with
  | zero =>
    intro b j1 _ k
    rw [AddPivotShift, if_neg (by omega)]
  | succ n ih =>
    intro b j1 hn k
    rw [AddPivotShift]
    simp only []
    rw [ih _ (j1 - 1) (by omega) k]
    by_cases h1 : j1 - 1 - n < k ∧ k ≤ j1 - 1
    · rw [if_pos h1, if_pos (by omega), getD_writeAt, if_neg (by omega)]
    · rw [if_neg h1, getD_writeAt]
      by_cases h2 : k = j1
      · rw [if_pos h2, if_pos (by omega), h2]
      · rw [if_neg h2, if_neg (by omega)]

theorem AddPivotBlock_cells (b : Block) (sk nid pos : Nat) (hpos : pos ≤ b.pivots_size) :
    (∀ k, (AddPivotBlock b sk nid pos).pivots.getD k 0 =
      if k = pos then sk else if pos < k ∧ k ≤ b.pivots_size then b.pivots.getD (k - 1) 0
        else b.pivots.getD k 0) ∧
    (∀ k, (AddPivotBlock b sk nid pos).pointers.getD k 0 =
      if k = pos + 1 then nid else if pos + 1 < k ∧ k ≤ b.pivots_size + 1
        then b.pointers.getD (k - 1) 0 else b.pointers.getD k 0) ∧
    (AddPivotBlock b sk nid pos).pivots_size = b.pivots_size + 1 ∧
    (AddPivotBlock b sk nid pos).parent = b.parent ∧
    (AddPivotBlock b sk nid pos).is_leaf = b.is_leaf ∧
    (AddPivotBlock b sk nid pos).size = b.size ∧
    (AddPivotBlock b sk nid pos).flush_size = b.flush_size ∧
    (AddPivotBlock b sk nid pos).buffer = b.buffer ∧
    (AddPivotBlock b sk nid pos).keys = b.keys ∧
    (AddPivotBlock b sk nid pos).values = b.values := by
  obtain ⟨⟨s1, s2, s3, s4⟩, s5, s6⟩ := AddPivotShift_sameBuf (b.pivots_size - pos) b b.pivots_size
  have kv : ∀ (n : Nat) (b : Block) (j : Nat),
      (AddPivotShift b j n).keys = b.keys ∧ (AddPivotShift b j n).values = b.values := by
    intro n
    induction n with
    | zero => intro b j; exact ⟨rfl, rfl⟩
    | succ n ih =>
      intro b j
      rw [AddPivotShift]
      exact ⟨(ih _ _).1, (ih _ _).2⟩
  unfold AddPivotBlock
  simp only []
  refine ⟨?_, ?_, by rw [s6], s5, s1, s2, s3, s4, (kv _ _ _).1, (kv _ _ _).2⟩
  · intro k
    rw [getD_writeAt, AddPivotShift_pivots _ b b.pivots_size (by omega) k]
    by_cases h1 : k = pos
    · rw [if_pos h1, if_pos h1]
    · rw [if_neg h1, if_neg h1]
      by_cases h2 : pos < k ∧ k ≤ b.pivots_size
      · rw [if_pos h2, if_pos (by omega)]
      · rw [if_neg h2, if_neg (by omega)]
  · intro k
    rw [getD_writeAt, AddPivotShift_pointers _ b b.pivots_size (by omega) k]
    by_cases h1 : k = pos + 1
    · rw [if_pos h1, if_pos h1]
    · rw [if_neg h1, if_neg h1]
      by_cases h2 : pos + 1 < k ∧ k ≤ b.pivots_size + 1
      · rw [if_pos h2, if_pos (by omega)]
      · rw [if_neg h2, if_neg (by omega)]

/-- Claim C21. On an internal page `id` with `n < NUM_PIVOTS` strictly increasing pivots, for a
key `k` that is none of them and `new_id > 0`, `AddPivot(k, new_id)` returns, with
`pos = IndexOfKey(k)`: the pivots are the old pivots with `k` inserted at index `pos` and are
strictly increasing, the pointers are the old `n + 1` pointers with `new_id` inserted at index
`pos + 1` (`pointers[0..pos]` unchanged, the later ones one cell to the right),
`pivots->size = n + 1`, and the value returned is true exactly when `n + 1 = NUM_PIVOTS = 15`.
The buffer, the parent and the kind of the page and every other page are unchanged. -/
theorem AddPivot_post (bm : BlockManager) (id k new_id : Nat)
    (hleaf : (bm.OpenBlock id).is_leaf = 0) (hnew : new_id ≠ 0)
    (hn : (bm.OpenBlock id).pivots_size < NUM_PIVOTS)
    (hinc : ∀ j, j < (bm.OpenBlock id).pivots_size → ∀ i, i < j →
      (bm.OpenBlock id).pivots.getD i 0 < (bm.OpenBlock id).pivots.getD j 0)
    (hk : ∀ j, j < (bm.OpenBlock id).pivots_size → (bm.OpenBlock id).pivots.getD j 0 ≠ k) :
    ∃ pos bm', IndexOfKey (bm.OpenBlock id) k = some pos ∧ pos ≤ (bm.OpenBlock id).pivots_size ∧
      AddPivot bm id k new_id =
        some (decide ((bm.OpenBlock id).pivots_size + 1 = NUM_PIVOTS), bm') ∧
      NUM_PIVOTS = 15 ∧
      (bm'.OpenBlock id).pivots_size = (bm.OpenBlock id).pivots_size + 1 ∧
      readRange 0 (bm'.OpenBlock id).pivots 0 ((bm.OpenBlock id).pivots_size + 1) =
        (readRange 0 (bm.OpenBlock id).pivots 0 (bm.OpenBlock id).pivots_size).take pos ++
          k :: (readRange 0 (bm.OpenBlock id).pivots 0 (bm.OpenBlock id).pivots_size).drop pos ∧
      readRange 0 (bm'.OpenBlock id).pointers 0 ((bm.OpenBlock id).pivots_size + 2) =
        (readRange 0 (bm.OpenBlock id).pointers 0
            ((bm.OpenBlock id).pivots_size + 1)).take (pos + 1) ++
          new_id :: (readRange 0 (bm.OpenBlock id).pointers 0
            ((bm.OpenBlock id).pivots_size + 1)).drop (pos + 1) ∧
      (∀ j, j < (bm.OpenBlock id).pivots_size + 1 → ∀ i, i < j →
        (bm'.OpenBlock id).pivots.getD i 0 < (bm'.OpenBlock id).pivots.getD j 0) ∧
      (∀ j, j ≤ pos → (bm'.OpenBlock id).pointers.getD j 0 =
        (bm.OpenBlock id).pointers.getD j 0) ∧
      (bm'.OpenBlock id).pointers.getD (pos + 1) 0 = new_id ∧
      (∀ j, pos + 1 < j → j ≤ (bm.OpenBlock id).pivots_size + 1 →
        (bm'.OpenBlock id).pointers.getD j 0 = (bm.OpenBlock id).pointers.getD (j - 1) 0) ∧
      SameBuf (bm.OpenBlock id) (bm'.OpenBlock id) ∧
      (bm'.OpenBlock id).parent = (bm.OpenBlock id).parent ∧
      bm'.cur_num_blocks = bm.cur_num_blocks ∧
      ∀ q, q ≠ id → bm'.OpenBlock q = bm.OpenBlock q := by
  obtain ⟨pos, hpos, he⟩ := IndexOfKey_total (bm.OpenBlock id) k hleaf
  have hs := he
  unfold IndexOfKey at hs
  rw [if_neg (by rw [hleaf]; simp)] at hs
  obtain ⟨_, _, a3, a4⟩ := IndexOfKeyLoop_some _ _ _ _ _ _ hs
  obtain ⟨c1, c2, c3, c4, c5, c6, c7, c8, _, _⟩ :=
    AddPivotBlock_cells (bm.OpenBlock id) k new_id pos hpos
  have hmono : ∀ x y, x ≤ y → y < (bm.OpenBlock id).pivots_size →
      (bm.OpenBlock id).pivots.getD x 0 ≤ (bm.OpenBlock id).pivots.getD y 0 := by
    intro x y hxy hy
    rcases Nat.lt_or_ge x y with h | h
    · exact Nat.le_of_lt (hinc y hy x h)
    · have : x = y := by omega
      rw [this]
  have hA : AddPivot bm id k new_id =
      some (decide ((bm.OpenBlock id).pivots_size + 1 = NUM_PIVOTS),
        bm.store id (AddPivotBlock (bm.OpenBlock id) k new_id pos)) := by
    unfold AddPivot
    rw [if_neg (by rw [hleaf]; simp), if_neg hnew, he]
    simp only []
    rw [c3]
  refine ⟨pos, _, he, hpos, hA, NUM_PIVOTS_eq, ?_, ?_, ?_, ?_, ?_, ?_, ?_, ?_, ?_, rfl, ?_⟩
  · rw [OpenBlock_store_same, c3]
  · rw [OpenBlock_store_same]
    apply readRange_insert 0 _ _ _ pos k hpos
    intro j hj
    rw [c1 j]
    by_cases h1 : j = pos
    · rw [if_pos h1, if_pos h1]
    · rw [if_neg h1, if_neg h1]
      by_cases h2 : pos < j
      · rw [if_pos ⟨h2, hj⟩, if_pos h2]
      · rw [if_neg (by omega), if_neg h2]
  · rw [OpenBlock_store_same]
    apply readRange_insert 0 _ _ _ (pos + 1) new_id (by omega)
    intro j hj
    rw [c2 j]
    by_cases h1 : j = pos + 1
    · rw [if_pos h1, if_pos h1]
    · rw [if_neg h1, if_neg h1]
      by_cases h2 : pos + 1 < j
      · rw [if_pos ⟨h2, hj⟩, if_pos h2]
      · rw [if_neg (by omega), if_neg h2]
  · rw [OpenBlock_store_same]
    intro j hj i hij
    rw [c1 i, c1 j]
    have hk1 : pos = 0 ∨ (bm.OpenBlock id).pivots.getD (pos - 1) 0 < k := by
      rcases a4 with h | h
      · exact Or.inl h
      · by_cases hp : pos = 0
        · exact Or.inl hp
        · have := hk (pos - 1) (by omega)
          exact Or.inr (by omega)
    by_cases i1 : i = pos
    · rw [if_pos i1, if_neg (by omega), if_pos (by omega)]
      have := hmono pos (j - 1) (by omega) (by omega)
      omega
    · rw [if_neg i1]
      by_cases i2 : pos < i
      · rw [if_pos (by omega), if_neg (by omega), if_pos (by omega)]
        exact hinc (j - 1) (by omega) (i - 1) (by omega)
      · rw [if_neg (by omega)]
        by_cases j1 : j = pos
        · rw [if_pos j1]
          have := hmono i (pos - 1) (by omega) (by omega)
          omega
        · rw [if_neg j1]
          by_cases j2 : pos < j
          · rw [if_pos (by omega)]
            have := hmono i (pos - 1) (by omega) (by omega)
            have := hmono pos (j - 1) (by omega) (by omega)
            omega
          · rw [if_neg (by omega)]
            exact hinc j (by omega) i hij
  · intro j hj
    rw [OpenBlock_store_same, c2 j, if_neg (by omega), if_neg (by omega)]
  · rw [OpenBlock_store_same, c2 (pos + 1), if_pos rfl]
  · intro j hj1 hj2
    rw [OpenBlock_store_same, c2 j, if_neg (by omega), if_pos ⟨hj1, hj2⟩]
  · rw [OpenBlock_store_same]
    exact ⟨c5, c6, c7, c8⟩
  · rw [OpenBlock_store_same, c4]
  · intro q hq
    rw [OpenBlock_store_ne _ _ _ _ hq]

theorem AddPivot_post_witness :
    (addPivotExample.OpenBlock 1).is_leaf = 0 ∧
    (AddPivot addPivotExample 1 25 9).map (fun r => (r.1,
      readRange 0 (r.2.OpenBlock 1).pivots 0 (r.2.OpenBlock 1).pivots_size,
      readRange 0 (r.2.OpenBlock 1).pointers 0 ((r.2.OpenBlock 1).pivots_size + 1))) =
      some (false, [10, 20, 25, 30], [2, 3, 4, 9, 5]) ∧
    ∃ pos bm', IndexOfKey (addPivotExample.OpenBlock 1) 25 = some pos ∧
      AddPivot addPivotExample 1 25 9 =
        some (decide ((addPivotExample.OpenBlock 1).pivots_size + 1 = NUM_PIVOTS), bm') ∧
      (bm'.OpenBlock 1).pivots_size = (addPivotExample.OpenBlock 1).pivots_size + 1 := by
  refine ⟨by decide, by decide, ?_⟩
  obtain ⟨pos, bm', h1, _, h3, _, h5, _⟩ :=
    AddPivot_post addPivotExample 1 25 9 (by decide) (by decide) (by decide) (by decide)
      (by decide)
  exact ⟨pos, bm', h1, h3, h5⟩

theorem swapIdx_perm (n i j : Nat) (hi : i < n) (hj : j < n) :
    ((List.range n).map (swapIdx i j)).Perm (List.range n) := by
  have hinj : Function.Injective (swapIdx i j) := by
    intro a c h
    unfold swapIdx at h
    split_ifs at h <;> omega
  rw [List.perm_ext_iff_of_nodup ((List.nodup_range n).map hinj) (List.nodup_range n)]
  intro a
  rw [List.mem_map, List.mem_range]
  constructor
  · rintro ⟨k, hk, rfl⟩
    rw [List.mem_range] at hk
    unfold swapIdx
    split_ifs <;> omega
  · intro h
    refine ⟨swapIdx i j a, ?_, ?_⟩
    · rw [List.mem_range]
      unfold swapIdx
      split_ifs <;> omega
    · unfold swapIdx
      split_ifs <;> omega

theorem swap_perm (buf : List BeUpsert) (n i j : Nat) (hi : i < n) (hj : j < n) :
    (readRange zeroUpsert (writeAt zeroUpsert (writeAt zeroUpsert buf j
      (buf.getD i zeroUpsert)) i (buf.getD j zeroUpsert)) 0 n).Perm
      (readRange zeroUpsert buf 0 n) := by
  have e : readRange zeroUpsert (writeAt zeroUpsert (writeAt zeroUpsert buf j
      (buf.getD i zeroUpsert)) i (buf.getD j zeroUpsert)) 0 n =
      ((List.range n).map (swapIdx i j)).map (fun k => buf.getD (0 + k) zeroUpsert) := by
    unfold readRange
    rw [List.map_map]
    apply List.map_congr_left
    intro k _
    simp only [Function.comp, Nat.zero_add]
    rw [getD_writeAt, getD_writeAt]
    unfold swapIdx
    by_cases h1 : k = i
    · rw [if_pos h1, if_pos h1]
    · rw [if_neg h1, if_neg h1]
      by_cases h2 : k = j
      · rw [if_pos h2, if_pos h2]
      · rw [if_neg h2, if_neg h2]
  rw [e]
  exact (swapIdx_perm n i j hi hj).map _

theorem FullFlushSetupCount_spec (b : Block) (hleaf : b.is_leaf = 0) (n : Nat) :
    ∀ (nums : List Nat) (i : Nat),
    ∃ nums', FullFlushSetupCount b nums i n = some nums' ∧
      ∀ c, nums'.getD c 0 = nums.getD c 0 +
        ((readRange zeroUpsert b.buffer i n).filter
          (fun u => IndexOfKey b u.key = some c)).length := by
  induction n with
  | zero =>
    intro nums i
    exact ⟨nums, rfl, fun c => by simp [readRange]⟩
  | succ n ih =>
    intro nums i
    obtain ⟨c0, _, hc0⟩ := IndexOfKey_total b (b.buffer.getD i zeroUpsert).key hleaf
    obtain ⟨nums', h1, h2⟩ := ih (writeAt 0 nums c0 (nums.getD c0 0 + 1)) (i + 1)
    refine ⟨nums', ?_, ?_⟩
    · rw [FullFlushSetupCount, hc0]
      exact h1
    · intro c
      rw [h2 c, getD_writeAt, readRange_succ_left]
      by_cases hc : c = c0
      · rw [if_pos hc, List.filter_cons_of_pos (by rw [hc0, hc]; simp), List.length_cons, hc]
        omega
      · rw [if_neg hc, List.filter_cons_of_neg (by
          rw [hc0]
          simp only [Option.some.injEq, decide_eq_true_eq]
          exact fun e => hc e.symm)]

theorem FullFlushSetupMax_spec (nums : List Nat) (n : Nat) : ∀ (t i : Nat), t < i →
    (∀ c, c < i → nums.getD c 0 ≤ nums.getD t 0) →
    (∀ c, c < t → nums.getD c 0 < nums.getD t 0) →
    FullFlushSetupMax nums t i n < i + n ∧
    (∀ c, c < i + n → nums.getD c 0 ≤ nums.getD (FullFlushSetupMax nums t i n) 0) ∧
    (∀ c, c < FullFlushSetupMax nums t i n →
      nums.getD c 0 < nums.getD (FullFlushSetupMax nums t i n) 0) := by
  induction n with
  | zero =>
    intro t i ht h1 h2
    exact ⟨ht, h1, h2⟩
  | succ n ih =>
    intro t i ht h1 h2
    rw [FullFlushSetupMax]
    by_cases hc : nums.getD i 0 > nums.getD t 0
    · rw [if_pos hc]
      obtain ⟨a1, a2, a3⟩ := ih i (i + 1) (by omega)
        (fun c hc2 => by
          rcases Nat.lt_or_ge c i with h | h
          · have := h1 c h
            omega
          · have : c = i := by omega
            rw [this])
        (fun c hc2 => by
          have := h1 c hc2
          omega)
      exact ⟨by omega, fun c hc2 => a2 c (by omega), a3⟩
    · rw [if_neg hc]
      obtain ⟨a1, a2, a3⟩ := ih t (i + 1) (by omega)
        (fun c hc2 => by
          rcases Nat.lt_or_ge c i with h | h
          · exact h1 c h
          · have : c = i := by omega
            rw [this]
            omega)
        h2
      exact ⟨by omega, fun c hc2 => a2 c (by omega), a3⟩

theorem FullFlushSetupReorder_spec (b : Block) (hleaf : b.is_leaf = 0) (T n : Nat) :
    ∀ (cur : Nat) (buf : List BeUpsert) (fp1 : Nat), cur ≤ fp1 → fp1 ≤ n →
    (∀ k, fp1 ≤ k → k < n → IndexOfKey b (buf.getD k zeroUpsert).key = some T) →
    (∀ k, cur ≤ k → k < fp1 → IndexOfKey b (buf.getD k zeroUpsert).key ≠ some T) →
    ∃ buf' fp', FullFlushSetupReorder b T buf fp1 cur = some (buf', fp') ∧ fp' ≤ n ∧
      (∀ k, fp' ≤ k → k < n → IndexOfKey b (buf'.getD k zeroUpsert).key = some T) ∧
      (∀ k, k < fp' → IndexOfKey b (buf'.getD k zeroUpsert).key ≠ some T) ∧
      (readRange zeroUpsert buf' 0 n).Perm (readRange zeroUpsert buf 0 n) := by
  intro cur
  induction cur with
  | zero =>
    intro buf fp1 _ h2 h3 h4
    exact ⟨buf, fp1, rfl, h2, h3, fun k hk => h4 k (by omega) hk, List.Perm.refl _⟩
  | succ cur ih =>
    intro buf fp1 h1 h2 h3 h4
    obtain ⟨c0, _, hc0⟩ := IndexOfKey_total b (buf.getD cur zeroUpsert).key hleaf
    rw [FullFlushSetupReorder, hc0]
    simp only []
    by_cases hc : c0 = T
    · rw [if_pos hc]
      obtain ⟨buf', fp', e1, e2, e3, e4, e5⟩ := ih
        (writeAt zeroUpsert (writeAt zeroUpsert buf (fp1 - 1) (buf.getD cur zeroUpsert)) cur
          (buf.getD (fp1 - 1) zeroUpsert)) (fp1 - 1) (by omega) (by omega)
        (fun k hk1 hk2 => by
          rw [getD_writeAt, getD_writeAt]
          by_cases a : k = cur
          · rw [if_pos a]
            have : fp1 - 1 = cur := by omega
            rw [this, hc0, hc]
          · rw [if_neg a]
            by_cases a2 : k = fp1 - 1
            · rw [if_pos a2, hc0, hc]
            · rw [if_neg a2]
              exact h3 k (by omega) hk2)
        (fun k hk1 hk2 => by
          rw [getD_writeAt, getD_writeAt]
          by_cases a : k = cur
          · rw [if_pos a]
            exact h4 (fp1 - 1) (by omega) (by omega)
          · rw [if_neg a, if_neg (by omega)]
            exact h4 k (by omega) (by omega))
      exact ⟨buf', fp', e1, e2, e3, e4, e5.trans (swap_perm buf n cur (fp1 - 1) (by omega) (by omega))⟩
    · rw [if_neg hc]
      obtain ⟨buf', fp', e1, e2, e3, e4, e5⟩ := ih buf fp1 (by omega) h2 h3
        (fun k hk1 hk2 => by
          by_cases a : k = cur
          · rw [a, hc0]
            simp only [ne_eq, Option.some.injEq]
            exact hc
          · exact h4 k (by omega) hk2)
      exact ⟨buf', fp', e1, e2, e3, e4, e5⟩

theorem readRange_writeList_same {α : Type} (d : α) (l xs : List α) (i : Nat) :
    readRange d (writeList d l i xs) i xs.length = xs := by
  apply List.ext_getElem?
  intro k
  unfold readRange
  rw [List.getElem?_map]
  by_cases hk : k < xs.length
  · rw [List.getElem?_range hk]
    simp only [Option.map_some']
    rw [getD_writeList, if_pos (by omega), List.getD_eq_getElem?_getD]
    have : i + k - i = k := by omega
    rw [this, List.getElem?_eq_getElem hk]
    rfl
  · rw [List.getElem?_eq_none (by simp; omega), List.getElem?_eq_none (by omega)]
    rfl

theorem FullFlushSetupBlock_post (b : Block) (hleaf : b.is_leaf = 0) :
    ∃ b' cstar, FullFlushSetupBlock b = some b' ∧ cstar ≤ b.pivots_size ∧
      (∀ c, c ≤ b.pivots_size → routedCount b c ≤ routedCount b cstar) ∧
      (∀ c, c < cstar → routedCount b c < routedCount b cstar) ∧
      b'.flush_size = routedCount b cstar ∧ b'.size = b.size ∧ SameTree b b' ∧
      (liveBuffer b').Perm (liveBuffer b) ∧
      (∀ u, u ∈ flushRegion b' → IndexOfKey b u.key = some cstar) ∧
      (∀ u, u ∈ readRange zeroUpsert b'.buffer 0 (b'.size - b'.flush_size) →
        IndexOfKey b u.key ≠ some cstar) ∧
      (flushRegion b').Pairwise (fun u v => u.timestamp ≥ v.timestamp) := by
  obtain ⟨nums, hn1, hn2⟩ :=
    FullFlushSetupCount_spec b hleaf b.size (List.replicate NUM_CHILDREN 0) 0
  have hnums : ∀ c, nums.getD c 0 = routedCount b c := by
    intro c
    rw [hn2 c]
    have : (List.replicate NUM_CHILDREN 0).getD c 0 = 0 := by
      rw [List.getD_eq_getElem?_getD, List.getElem?_replicate]
      split <;> rfl
    rw [this, Nat.zero_add]
    rfl
  obtain ⟨m1, m2, m3⟩ := FullFlushSetupMax_spec nums b.pivots_size 0 1 (by omega)
    (fun c hc => by
      have : c = 0 := by omega
      rw [this])
    (fun c hc => by omega)
  generalize hT : FullFlushSetupMax nums 0 1 b.pivots_size = T at m1 m2 m3
  obtain ⟨buf, fp, r1, r2, r3, r4, r5⟩ :=
    FullFlushSetupReorder_spec b hleaf T b.size b.size b.buffer b.size (le_refl _) (le_refl _)
      (fun k hk1 hk2 => by omega) (fun k hk1 hk2 => by omega)
  have hsplit : readRange zeroUpsert buf 0 b.size =
      readRange zeroUpsert buf 0 fp ++ readRange zeroUpsert buf fp (b.size - fp) := by
    have := readRange_add zeroUpsert buf 0 fp (b.size - fp)
    rw [Nat.zero_add] at this
    rw [← this]
    congr 1
    omega
  have hcount : b.size - fp = nums.getD T 0 := by
    rw [hnums T]
    unfold routedCount liveBuffer
    rw [← (r5.filter _).length_eq, hsplit, List.filter_append, List.length_append]
    have f1 : (readRange zeroUpsert buf 0 fp).filter
        (fun u => decide (IndexOfKey b u.key = some T)) = [] := by
      rw [List.filter_eq_nil_iff]
      intro u hu
      rw [mem_readRange] at hu
      obtain ⟨k, hk, rfl⟩ := hu
      simp only [decide_eq_true_eq]
      exact r4 _ (by omega)
    have f2 : (readRange zeroUpsert buf fp (b.size - fp)).filter
        (fun u => decide (IndexOfKey b u.key = some T)) =
        readRange zeroUpsert buf fp (b.size - fp) := by
      rw [List.filter_eq_self]
      intro u hu
      rw [mem_readRange] at hu
      obtain ⟨k, hk, rfl⟩ := hu
      simp only [decide_eq_true_eq]
      exact r3 _ (by omega) (by omega)
    rw [f1, f2, length_readRange, List.length_nil, Nat.zero_add]
  have hfp : b.size - nums.getD T 0 = fp := by omega
  have hperm := List.perm_insertionSort upsertGe
    (readRange zeroUpsert buf (b.size - nums.getD T 0) (nums.getD T 0))
  have hlen : ((readRange zeroUpsert buf (b.size - nums.getD T 0)
      (nums.getD T 0)).insertionSort upsertGe).length = nums.getD T 0 := by
    rw [hperm.length_eq, length_readRange]
  have hE : FullFlushSetupBlock b = some { b with
      flush_size := nums.getD T 0,
      buffer := writeList zeroUpsert buf (b.size - nums.getD T 0)
        ((readRange zeroUpsert buf (b.size - nums.getD T 0)
          (nums.getD T 0)).insertionSort upsertGe) } := by
    unfold FullFlushSetupBlock
    simp only []
    rw [hn1]
    simp only []
    rw [hT, r1]
    simp only []
    rw [if_neg (by rw [hcount]; simp)]
  have hreg : readRange zeroUpsert (writeList zeroUpsert buf (b.size - nums.getD T 0)
        ((readRange zeroUpsert buf (b.size - nums.getD T 0)
          (nums.getD T 0)).insertionSort upsertGe)) (b.size - nums.getD T 0) (nums.getD T 0) =
      (readRange zeroUpsert buf (b.size - nums.getD T 0)
          (nums.getD T 0)).insertionSort upsertGe := by
    have := readRange_writeList_same zeroUpsert buf
      ((readRange zeroUpsert buf (b.size - nums.getD T 0)
          (nums.getD T 0)).insertionSort upsertGe) (b.size - nums.getD T 0)
    rw [hlen] at this
    exact this
  have hpre : readRange zeroUpsert (writeList zeroUpsert buf (b.size - nums.getD T 0)
        ((readRange zeroUpsert buf (b.size - nums.getD T 0)
          (nums.getD T 0)).insertionSort upsertGe)) 0 (b.size - nums.getD T 0) =
      readRange zeroUpsert buf 0 (b.size - nums.getD T 0) := by
    apply readRange_congr
    intro k hk
    rw [getD_writeList, if_neg (by omega)]
  refine ⟨_, T, hE, by omega, ?_, ?_, ?_, rfl, ⟨rfl, rfl, rfl, rfl, rfl⟩, ?_, ?_, ?_, ?_⟩
  · intro c hc
    rw [← hnums c, ← hnums T]
    exact m2 c (by omega)
  · intro c hc
    rw [← hnums c, ← hnums T]
    exact m3 c hc
  · exact hnums T
  · show (readRange zeroUpsert _ 0 b.size).Perm (readRange zeroUpsert b.buffer 0 b.size)
    refine List.Perm.trans ?_ r5
    have e1 : b.size = (b.size - nums.getD T 0) + nums.getD T 0 := by omega
    have a1 := readRange_add zeroUpsert (writeList zeroUpsert buf (b.size - nums.getD T 0)
        ((readRange zeroUpsert buf (b.size - nums.getD T 0)
          (nums.getD T 0)).insertionSort upsertGe)) 0 (b.size - nums.getD T 0) (nums.getD T 0)
    have a2 := readRange_add zeroUpsert buf 0 (b.size - nums.getD T 0) (nums.getD T 0)
    rw [Nat.zero_add, ← e1] at a1 a2
    rw [a1, a2, hreg, hpre]
    exact List.Perm.append_left _ hperm
  · intro u hu
    have hu2 : u ∈ (readRange zeroUpsert buf (b.size - nums.getD T 0)
          (nums.getD T 0)).insertionSort upsertGe := by
      rw [← hreg]
      exact hu
    rw [hperm.mem_iff, mem_readRange] at hu2
    obtain ⟨k, hk, rfl⟩ := hu2
    exact r3 _ (by omega) (by omega)
  · intro u hu
    have hu2 : u ∈ readRange zeroUpsert buf 0 (b.size - nums.getD T 0) := by
      rw [← hpre]
      exact hu
    rw [mem_readRange] at hu2
    obtain ⟨k, hk, rfl⟩ := hu2
    exact r4 _ (by omega)
  · have htot : IsTotal BeUpsert upsertGe := ⟨fun a b => by unfold upsertGe; omega⟩
    have htr : IsTrans BeUpsert upsertGe :=
      ⟨fun a b c h1 h2 => by unfold upsertGe at *; omega⟩
    have hs := List.sorted_insertionSort upsertGe
      (readRange zeroUpsert buf (b.size - nums.getD T 0) (nums.getD T 0))
    show (readRange zeroUpsert _ (b.size - nums.getD T 0) (nums.getD T 0)).Pairwise _
    rw [hreg]
    exact hs

/-- Claim C23. On an internal page `id` with `flush_size = 0`, at most `NUM_UPSERTS` buffered
messages and at most `NUM_PIVOTS` pivots (strictly increasing or not), `FullFlushSetup` returns.
With `cstar` the lowest child index whose number of buffered messages routed to it by
`IndexOfKey` is maximal, it sets `flush_size` to that number, keeps `size`, pivots and
pointers, leaves the buffer a permutation of its former contents, and arranges it so that the
trailing `flush_size` cells hold messages routed to `cstar`, no cell before them holds one, and
the trailing cells are sorted by timestamp descending.  No other page changes. -/
theorem FullFlushSetup_post (bm : BlockManager) (id : Nat)
    (hleaf : (bm.OpenBlock id).is_leaf = 0) (hfs : (bm.OpenBlock id).flush_size = 0)
    (hsz : (bm.OpenBlock id).size ≤ NUM_UPSERTS)
    (hps : (bm.OpenBlock id).pivots_size ≤ NUM_PIVOTS) :
    ∃ bm' cstar, FullFlushSetup bm id = some bm' ∧ cstar ≤ (bm.OpenBlock id).pivots_size ∧
      (∀ c, c ≤ (bm.OpenBlock id).pivots_size →
        routedCount (bm.OpenBlock id) c ≤ routedCount (bm.OpenBlock id) cstar) ∧
      (∀ c, c < cstar → routedCount (bm.OpenBlock id) c < routedCount (bm.OpenBlock id) cstar) ∧
      (bm'.OpenBlock id).flush_size = routedCount (bm.OpenBlock id) cstar ∧
      (bm'.OpenBlock id).size = (bm.OpenBlock id).size ∧
      SameTree (bm.OpenBlock id) (bm'.OpenBlock id) ∧
      (liveBuffer (bm'.OpenBlock id)).Perm (liveBuffer (bm.OpenBlock id)) ∧
      (∀ u, u ∈ flushRegion (bm'.OpenBlock id) →
        IndexOfKey (bm'.OpenBlock id) u.key = some cstar) ∧
      (∀ u, u ∈ readRange zeroUpsert (bm'.OpenBlock id).buffer 0
          ((bm'.OpenBlock id).size - (bm'.OpenBlock id).flush_size) →
        IndexOfKey (bm'.OpenBlock id) u.key ≠ some cstar) ∧
      (flushRegion (bm'.OpenBlock id)).Pairwise (fun u v => u.timestamp ≥ v.timestamp) ∧
      bm'.cur_num_blocks = bm.cur_num_blocks ∧
      ∀ q, q ≠ id → bm'.OpenBlock q = bm.OpenBlock q := by
  obtain ⟨b', cstar, h1, h2, h3, h4, h5, h6, h7, h8, h9, h10, h11⟩ :=
    FullFlushSetupBlock_post (bm.OpenBlock id) hleaf
  have hE : FullFlushSetup bm id = some (bm.store id b') := by
    unfold FullFlushSetup
    rw [if_neg (by rw [hfs]; simp), if_neg (by rw [hleaf]; simp), h1]
  have hroute : ∀ k, IndexOfKey b' k = IndexOfKey (bm.OpenBlock id) k := by
    intro k
    obtain ⟨_, t2, t3, t4, _⟩ := h7
    unfold IndexOfKey
    rw [t2, t3, t4]
  refine ⟨_, cstar, hE, h2, h3, h4, ?_, ?_, ?_, ?_, ?_, ?_, ?_, rfl, ?_⟩
  · rw [OpenBlock_store_same]
    exact h5
  · rw [OpenBlock_store_same]
    exact h6
  · rw [OpenBlock_store_same]
    exact h7
  · rw [OpenBlock_store_same]
    exact h8
  · rw [OpenBlock_store_same]
    intro u hu
    rw [hroute]
    exact h9 u hu
  · rw [OpenBlock_store_same]
    intro u hu
    rw [hroute]
    exact h10 u hu
  · rw [OpenBlock_store_same]
    exact h11
  · intro q hq
    rw [OpenBlock_store_ne _ _ _ _ hq]

theorem FullFlushSetup_post_witness :
    (setupExample.OpenBlock 1).is_leaf = 0 ∧ (setupExample.OpenBlock 1).flush_size = 0 ∧
    (FullFlushSetup setupExample 1).map (fun r =>
      ((liveBuffer (r.OpenBlock 1)).map (fun u => (u.key, u.timestamp)),
        (r.OpenBlock 1).flush_size)) =
      some ([(27, 4), (25, 2), (5, 3), (15, 5), (12, 1)], 2) ∧
    (List.range 4).map (routedCount (setupExample.OpenBlock 1)) = [1, 2, 2, 0] ∧
    ∃ bm' cstar, FullFlushSetup setupExample 1 = some bm' ∧
      (bm'.OpenBlock 1).flush_size = routedCount (setupExample.OpenBlock 1) cstar ∧
      (liveBuffer (bm'.OpenBlock 1)).Perm (liveBuffer (setupExample.OpenBlock 1)) := by
  refine ⟨by decide, by decide, by decide, by decide, ?_⟩
  obtain ⟨bm', cstar, h1, _, _, _, h5, _, _, h8, _⟩ :=
    FullFlushSetup_post setupExample 1 (by decide) (by decide) (by decide) (by decide)
  exact ⟨bm', cstar, h1, h5, h8⟩

/-! ## FlushOneInternal and FlushOneLeaf -/

theorem readRange_take {α : Type} (d : α) (l : List α) (i n m : Nat) (h : m ≤ n) :
    (readRange d l i n).take m = readRange d l i m := by
  have e : n = m + (n - m) := by omega
  rw [e, readRange_add, List.take_left' (length_readRange d l i m)]

theorem readRange_drop {α : Type} (d : α) (l : List α) (i n m : Nat) (h : m ≤ n) :
    (readRange d l i n).drop m = readRange d l (i + m) (n - m) := by
  have e : n = m + (n - m) := by omega
  rw [e, readRange_add, List.drop_left' (length_readRange d l i m)]
  congr 1
  omega

theorem FlushOneInternalNum_partial (b c : Block) (hc : c.size ≤ NUM_UPSERTS)
    (h1 : FLUSH_THRESHOLD ≤ NUM_UPSERTS - c.size) (h2 : NUM_UPSERTS - c.size < b.flush_size) :
    FlushOneInternalNum b c = some FLUSH_THRESHOLD := by
  unfold FlushOneInternalNum
  simp only [NUM_UPSERTS_eq, FLUSH_THRESHOLD_eq] at hc h1 h2 ⊢
  have key : ((((247 : Nat) : Int) - (c.size : Int)) % (2 ^ 32 : Int)).toNat = 247 - c.size := by
    have : (((247 : Nat) : Int) - (c.size : Int)) % (2 ^ 32 : Int) =
        ((247 - c.size : Nat) : Int) := by
      norm_num
      omega
    rw [this]
    exact Int.toNat_ofNat _
  rw [key, if_neg (by omega), if_pos (by omega)]

/-- Claim C24. For a parent `id` with a flush region of length `f ≤ size` and an internal child
of `id` with `FLUSH_THRESHOLD = 11 ≤ NUM_UPSERTS - child.size < f`, `FlushOneInternal` returns
`NO_SPLIT` and leaves the cursor on `id`; the child's buffer is its old buffer followed by the
first `FLUSH_THRESHOLD` messages of the parent's flush region, the parent's buffer is its old
buffer without its last `FLUSH_THRESHOLD` messages, and the parent's `flush_size` is `0`. -/
theorem FlushOneInternal_partial (bm : BlockManager) (id child : Nat)
    (hleaf : (bm.OpenBlock id).is_leaf = 0) (hcleaf : (bm.OpenBlock child).is_leaf = 0)
    (hpar : (bm.OpenBlock child).parent = id) (hne : child ≠ id)
    (hfs : (bm.OpenBlock id).flush_size ≤ (bm.OpenBlock id).size)
    (hc : (bm.OpenBlock child).size ≤ NUM_UPSERTS)
    (h1 : FLUSH_THRESHOLD ≤ NUM_UPSERTS - (bm.OpenBlock child).size)
    (h2 : NUM_UPSERTS - (bm.OpenBlock child).size < (bm.OpenBlock id).flush_size) :
    ∃ bm', FlushOneInternal bm id child = some (FlushResult.NO_SPLIT, bm', id) ∧
      FLUSH_THRESHOLD = 11 ∧
      liveBuffer (bm'.OpenBlock child) =
        liveBuffer (bm.OpenBlock child) ++ (flushRegion (bm.OpenBlock id)).take FLUSH_THRESHOLD ∧
      liveBuffer (bm.OpenBlock id) =
        liveBuffer (bm'.OpenBlock id) ++
          (flushRegion (bm.OpenBlock id)).drop ((bm.OpenBlock id).flush_size - FLUSH_THRESHOLD) ∧
      (bm'.OpenBlock id).size = (bm.OpenBlock id).size - FLUSH_THRESHOLD ∧
      (bm'.OpenBlock id).flush_size = 0 ∧
      (bm'.OpenBlock child).size = (bm.OpenBlock child).size + FLUSH_THRESHOLD := by
  have hnum := FlushOneInternalNum_partial (bm.OpenBlock id) (bm.OpenBlock child) hc h1 h2
  have h11 := FLUSH_THRESHOLD_eq
  have hne2 : id ≠ child := fun e => hne e.symm
  unfold liveBuffer flushRegion
  generalize hb : bm.OpenBlock id = b at *
  generalize hcc : bm.OpenBlock child = c at *
  obtain ⟨R, hR⟩ : ∃ R, R = readRange zeroUpsert b.buffer (b.size - b.flush_size)
    FLUSH_THRESHOLD := ⟨_, rfl⟩
  have hRl : R.length = FLUSH_THRESHOLD := by rw [hR, length_readRange]
  have hE : FlushOneInternal bm id child = some (FlushResult.NO_SPLIT,
      ((bm.store child { c with buffer := writeList zeroUpsert c.buffer c.size R }).store id { b with size := b.size - FLUSH_THRESHOLD, flush_size := 0 }).store child { c with buffer := writeList zeroUpsert c.buffer c.size R, size := c.size + FLUSH_THRESHOLD }, id) := by
    unfold FlushOneInternal
    rw [hb, hcc, if_neg (by rw [hleaf]; simp), if_neg (by rw [hcleaf]; simp),
      if_neg (by rw [hpar]; simp), hnum]
    simp only []
    rw [OpenBlock_store_ne _ _ _ _ hne2, hb, OpenBlock_store_ne _ _ _ _ hne,
      OpenBlock_store_same, ← hR]
  have e1 : (((bm.store child { c with buffer := writeList zeroUpsert c.buffer c.size R }).store id { b with size := b.size - FLUSH_THRESHOLD, flush_size := 0 }).store child { c with buffer := writeList zeroUpsert c.buffer c.size R, size := c.size + FLUSH_THRESHOLD }).OpenBlock child = { c with buffer := writeList zeroUpsert c.buffer c.size R, size := c.size + FLUSH_THRESHOLD } := OpenBlock_store_same _ _ _
  have e2 : (((bm.store child { c with buffer := writeList zeroUpsert c.buffer c.size R }).store id { b with size := b.size - FLUSH_THRESHOLD, flush_size := 0 }).store child { c with buffer := writeList zeroUpsert c.buffer c.size R, size := c.size + FLUSH_THRESHOLD }).OpenBlock id = { b with size := b.size - FLUSH_THRESHOLD, flush_size := 0 } := by
    rw [OpenBlock_store_ne _ _ _ _ hne2, OpenBlock_store_same]
  refine ⟨_, hE, h11, ?_, ?_, ?_, ?_, ?_⟩
  · rw [e1]
    simp only []
    have a := readRange_add zeroUpsert (writeList zeroUpsert c.buffer c.size R) 0 c.size
      FLUSH_THRESHOLD
    rw [Nat.zero_add] at a
    have a1 : readRange zeroUpsert (writeList zeroUpsert c.buffer c.size R) 0 c.size =
        readRange zeroUpsert c.buffer 0 c.size := by
      apply readRange_congr
      intro k hk
      rw [getD_writeList, if_neg (by omega)]
    have a2 := readRange_writeList_same zeroUpsert c.buffer R c.size
    rw [hRl] at a2
    rw [a, a1, a2, readRange_take _ _ _ _ _ (by omega), hR]
  · rw [e2]
    simp only []
    rw [readRange_drop _ _ _ _ _ (by omega)]
    have e : b.size = (b.size - FLUSH_THRESHOLD) +
        (b.flush_size - (b.flush_size - FLUSH_THRESHOLD)) := by omega
    have a := readRange_add zeroUpsert b.buffer 0 (b.size - FLUSH_THRESHOLD)
      (b.flush_size - (b.flush_size - FLUSH_THRESHOLD))
    rw [← e, Nat.zero_add] at a
    have e3 : b.size - b.flush_size + (b.flush_size - FLUSH_THRESHOLD) =
        b.size - FLUSH_THRESHOLD := by omega
    rw [a, e3]
  · rw [e2]
  · rw [e2]
  · rw [e1]

theorem FlushOneInternal_partial_witness :
    (flushRegion (partialFlushExample.OpenBlock 1)).map (fun u => u.key) =
      [1, 2, 3, 4, 5, 6, 7, 8, 9, 10, 11, 12] ∧
    (FlushOneInternal partialFlushExample 1 2).map (fun r => (r.1,
      (liveBuffer (r.2.1.OpenBlock 1)).map (fun u => u.key),
      ((liveBuffer (r.2.1.OpenBlock 2)).drop 236).map (fun u => u.key))) =
      some (FlushResult.NO_SPLIT, [1], [1, 2, 3, 4, 5, 6, 7, 8, 9, 10, 11]) ∧
    ∃ bm', FlushOneInternal partialFlushExample 1 2 = some (FlushResult.NO_SPLIT, bm', 1) ∧
      liveBuffer (bm'.OpenBlock 2) = liveBuffer (partialFlushExample.OpenBlock 2) ++
        (flushRegion (partialFlushExample.OpenBlock 1)).take FLUSH_THRESHOLD ∧
      liveBuffer (partialFlushExample.OpenBlock 1) = liveBuffer (bm'.OpenBlock 1) ++
        (flushRegion (partialFlushExample.OpenBlock 1)).drop
          ((partialFlushExample.OpenBlock 1).flush_size - FLUSH_THRESHOLD) := by
  refine ⟨by decide, ?_, ?_⟩
  · set_option maxRecDepth 100000 in
    rfl
  obtain ⟨bm', h1, _, h3, h4, _⟩ :=
    FlushOneInternal_partial partialFlushExample 1 2 (by decide) (by decide) (by decide)
      (by decide) (by decide) (by decide) (by decide) (by decide)
  exact ⟨bm', h1, h3, h4⟩

theorem FlushOneLeaf_split (bm : BlockManager) (id child sk0 nid0 : Nat) (c : Block) (num : Nat)
    (hleaf : (bm.OpenBlock id).is_leaf = 0) (hcl : (bm.OpenBlock child).is_leaf ≠ 0)
    (hpar : (bm.OpenBlock child).parent = id) (hne : child ≠ id)
    (hch : child ≤ bm.cur_num_blocks) (hid : id ≤ bm.cur_num_blocks)
    (hd : ((leafPairs (bm.OpenBlock child)).map Prod.fst).Nodup)
    (hsz : (bm.OpenBlock child).size < NUM_DATA_PAIRS)
    (h1 : UpsertLeaf (flushCells (bm.OpenBlock id)) (bm.OpenBlock child)
      (min (bm.OpenBlock id).flush_size LEAF_FLUSH_THRESHOLD) = some (true, c, num)) :
    ∃ sk, (((leafPairs c).insertionSort pairLe).drop (NUM_DATA_PAIRS / 2)).head?.map Prod.fst =
        some sk ∧
      (∀ p, p ∈ ((leafPairs c).insertionSort pairLe).take (NUM_DATA_PAIRS / 2) → p.1 < sk) ∧
      (∀ p, p ∈ ((leafPairs c).insertionSort pairLe).drop (NUM_DATA_PAIRS / 2) → sk ≤ p.1) ∧
      (FlushOneLeaf bm id child sk0 nid0).map (fun r => (r.1, r.2.1, r.2.2.1,
          leafPairs (r.2.2.2.OpenBlock child),
          leafPairs (r.2.2.2.OpenBlock (bm.cur_num_blocks + 1)),
          (r.2.2.2.OpenBlock id).size, (r.2.2.2.OpenBlock id).flush_size)) =
        (refLeaf (flushCells (bm.OpenBlock id))
          (if ((flushCells (bm.OpenBlock id)).getD 0 zeroUpsert).key ≥ sk
            then ((leafPairs c).insertionSort pairLe).drop (NUM_DATA_PAIRS / 2)
            else ((leafPairs c).insertionSort pairLe).take (NUM_DATA_PAIRS / 2)) num).map
          (fun q => (FlushResult.SPLIT, sk, bm.cur_num_blocks + 1,
            (if ((flushCells (bm.OpenBlock id)).getD 0 zeroUpsert).key ≥ sk
              then ((leafPairs c).insertionSort pairLe).take (NUM_DATA_PAIRS / 2) else q.2.1),
            (if ((flushCells (bm.OpenBlock id)).getD 0 zeroUpsert).key ≥ sk
              then q.2.1 else ((leafPairs c).insertionSort pairLe).drop (NUM_DATA_PAIRS / 2)),
            (bm.OpenBlock id).size - min (bm.OpenBlock id).flush_size LEAF_FLUSH_THRESHOLD,
            0)) := by
  have hu := h1
  unfold UpsertLeaf at hu
  rw [if_neg hcl] at hu
  obtain ⟨c1, c2, _, _, c5⟩ := (UpsertLeafLoop_refines _ _ _ hd hsz).2 _ hu
  have csz : c.size = NUM_DATA_PAIRS := c2.mp rfl
  have c5b : c.is_leaf = (bm.OpenBlock child).is_leaf := c5
  have hND : NUM_DATA_PAIRS = 510 := by decide
  have hcur : (bm.store child c).cur_num_blocks = bm.cur_num_blocks := rfl
  obtain ⟨sk, bm1, S, hS, hsl, sP, sS, s1, s2, _, s4, _, s6, s7, s8, s9, _, s11⟩ :=
    SplitLeaf_spec (bm.store child c) child
      (by rw [OpenBlock_store_same, c5b]; exact hcl) (by rw [hcur]; exact hch)
      (by rw [OpenBlock_store_same, csz, hND]; omega)
      (by rw [OpenBlock_store_same]; exact c1)
  rw [OpenBlock_store_same] at hS sP s1 s2 s4 s6
  rw [hcur] at hsl s2 s4 s7 s9 s11
  rw [csz] at s1 s2
  rw [← hS]
  have hnew : bm.cur_num_blocks + 1 ≠ id := by omega
  have hnewc : bm.cur_num_blocks + 1 ≠ child := by omega
  have hidc : id ≠ child := fun e => hne e.symm
  have hb1 : bm1.OpenBlock id = bm.OpenBlock id := by
    rw [s11 id hidc (by omega), OpenBlock_store_ne _ _ _ _ hidc]
  have hsib : (bm1.OpenBlock (bm.cur_num_blocks + 1)).is_leaf ≠ 0 := by
    rw [s4, c5b]; exact hcl
  have horig : (bm1.OpenBlock child).is_leaf ≠ 0 := by
    rw [s6, c5b]; exact hcl
  have hlenS : S.length = 510 := by
    rw [sP.length_eq, length_leafPairs, csz, hND]
  have hSnd : (S.map Prod.fst).Nodup := by
    have : (S.map Prod.fst).Pairwise (fun a b => a < b) := by
      rw [List.pairwise_map]
      exact sS
    exact this.imp (fun h => Nat.ne_of_lt h)
  refine ⟨sk, ?_, ?_, ?_, ?_⟩
  · rw [← s2, s7]
    rfl
  · intro p hp
    rw [← s1] at hp
    exact s8 p hp
  · intro p hp
    rw [← s2] at hp
    exact s9 p hp
  generalize htf : flushCells (bm.OpenBlock id) = tf at h1 ⊢
  unfold FlushOneLeaf
  rw [if_neg (by rw [hleaf]; simp), if_neg hcl, if_neg (by rw [hpar]; simp)]
  simp only []
  unfold flushCells at htf
  rw [htf, h1]
  simp only []
  rw [hsl]
  simp only []
  by_cases hfk : (tf.getD 0 zeroUpsert).key ≥ sk
  · rw [if_pos hfk, if_pos hfk]
    have hd2 : ((leafPairs (bm1.OpenBlock (bm.cur_num_blocks + 1))).map Prod.fst).Nodup := by
      rw [s2, List.map_drop]
      exact hSnd.sublist (List.drop_sublist _ _)
    have hsz2 : (bm1.OpenBlock (bm.cur_num_blocks + 1)).size < NUM_DATA_PAIRS := by
      rw [← length_leafPairs, s2, List.length_drop, hlenS, hND]
      omega
    have hr := (UpsertLeafLoop_refines tf num _ hd2 hsz2).1
    rw [s2] at hr
    rw [← hr]
    unfold UpsertLeaf
    rw [if_neg hsib]
    cases hq : UpsertLeafLoop tf (bm1.OpenBlock (bm.cur_num_blocks + 1)) num with
    | none => rfl
    | some r =>
      simp only [Option.map_some', Option.some.injEq, Prod.mk.injEq, if_pos hfk]
      rw [OpenBlock_store_ne _ _ _ _ hne, OpenBlock_store_ne _ _ _ _ hnewc.symm, s1,
        OpenBlock_store_ne _ _ _ _ hnew, OpenBlock_store_same, OpenBlock_store_same,
        OpenBlock_store_ne _ _ _ _ hnew.symm, hb1]
      exact ⟨trivial, trivial, trivial, rfl, rfl, rfl, rfl⟩
  · rw [if_neg hfk, if_neg hfk]
    have hd2 : ((leafPairs (bm1.OpenBlock child)).map Prod.fst).Nodup := by
      rw [s1, List.map_take]
      exact hSnd.sublist (List.take_sublist _ _)
    have hsz2 : (bm1.OpenBlock child).size < NUM_DATA_PAIRS := by
      rw [← length_leafPairs, s1, List.length_take, hlenS, hND]
      omega
    have hr := (UpsertLeafLoop_refines tf num _ hd2 hsz2).1
    rw [s1] at hr
    rw [← hr]
    unfold UpsertLeaf
    rw [if_neg horig]
    cases hq : UpsertLeafLoop tf (bm1.OpenBlock child) num with
    | none => rfl
    | some r =>
      simp only [Option.map_some', Option.some.injEq, Prod.mk.injEq, if_neg hfk]
      rw [OpenBlock_store_ne _ _ _ _ hne, OpenBlock_store_same,
        OpenBlock_store_ne _ _ _ _ hnew, OpenBlock_store_ne _ _ _ _ hnewc, s2,
        OpenBlock_store_same, OpenBlock_store_ne _ _ _ _ hidc, hb1]
      exact ⟨trivial, trivial, trivial, rfl, rfl, rfl, rfl⟩

theorem leafPairs_leafOf (L : List (Nat × Nat)) (p : Nat) : leafPairs (leafOf L p) = L := by
  unfold leafPairs leafOf
  simp only []
  apply List.ext_getElem?
  intro k
  rw [List.getElem?_map]
  by_cases hk : k < L.length
  · rw [List.getElem?_range hk]
    simp only [Option.map_some', List.getD_eq_getElem?_getD, List.getElem?_map,
      List.getElem?_eq_getElem hk, Option.getD_some]
  · rw [List.getElem?_eq_none (by simp; omega), List.getElem?_eq_none (by omega)]
    rfl

theorem evens_nodup : (evens.map Prod.fst).Nodup := by
  unfold evens
  rw [List.map_map]
  refine (List.nodup_range 509).map ?_
  intro a b h
  simp only [Function.comp] at h
  omega

theorem FlushOneLeaf_split_ref (bm : BlockManager) (id child sk0 nid0 : Nat)
    (m : List (Nat × Nat)) (num : Nat)
    (hleaf : (bm.OpenBlock id).is_leaf = 0) (hcl : (bm.OpenBlock child).is_leaf ≠ 0)
    (hpar : (bm.OpenBlock child).parent = id) (hne : child ≠ id)
    (hch : child ≤ bm.cur_num_blocks) (hid : id ≤ bm.cur_num_blocks)
    (hd : ((leafPairs (bm.OpenBlock child)).map Prod.fst).Nodup)
    (hsz : (bm.OpenBlock child).size < NUM_DATA_PAIRS)
    (h1 : refLeaf (flushCells (bm.OpenBlock id)) (leafPairs (bm.OpenBlock child))
      (min (bm.OpenBlock id).flush_size LEAF_FLUSH_THRESHOLD) = some (true, m, num)) :
    ∃ sk, ((m.insertionSort pairLe).drop (NUM_DATA_PAIRS / 2)).head?.map Prod.fst = some sk ∧
      (∀ p, p ∈ (m.insertionSort pairLe).take (NUM_DATA_PAIRS / 2) → p.1 < sk) ∧
      (∀ p, p ∈ (m.insertionSort pairLe).drop (NUM_DATA_PAIRS / 2) → sk ≤ p.1) ∧
      (FlushOneLeaf bm id child sk0 nid0).map (fun r => (r.1, r.2.1, r.2.2.1,
          leafPairs (r.2.2.2.OpenBlock child),
          leafPairs (r.2.2.2.OpenBlock (bm.cur_num_blocks + 1)),
          (r.2.2.2.OpenBlock id).size, (r.2.2.2.OpenBlock id).flush_size)) =
        (refLeaf (flushCells (bm.OpenBlock id))
          (if ((flushCells (bm.OpenBlock id)).getD 0 zeroUpsert).key ≥ sk
            then (m.insertionSort pairLe).drop (NUM_DATA_PAIRS / 2)
            else (m.insertionSort pairLe).take (NUM_DATA_PAIRS / 2)) num).map
          (fun q => (FlushResult.SPLIT, sk, bm.cur_num_blocks + 1,
            (if ((flushCells (bm.OpenBlock id)).getD 0 zeroUpsert).key ≥ sk
              then (m.insertionSort pairLe).take (NUM_DATA_PAIRS / 2) else q.2.1),
            (if ((flushCells (bm.OpenBlock id)).getD 0 zeroUpsert).key ≥ sk
              then q.2.1 else (m.insertionSort pairLe).drop (NUM_DATA_PAIRS / 2)),
            (bm.OpenBlock id).size - min (bm.OpenBlock id).flush_size LEAF_FLUSH_THRESHOLD,
            0)) := by
  have hr := (UpsertLeafLoop_refines (flushCells (bm.OpenBlock id))
    (min (bm.OpenBlock id).flush_size LEAF_FLUSH_THRESHOLD) _ hd hsz).1
  rw [h1] at hr
  cases hq : UpsertLeafLoop (flushCells (bm.OpenBlock id)) (bm.OpenBlock child)
      (min (bm.OpenBlock id).flush_size LEAF_FLUSH_THRESHOLD) with
  | none =>
    rw [hq] at hr
    cases hr
  | some r =>
    rw [hq] at hr
    obtain ⟨fl, c, n2⟩ := r
    simp only [Option.map_some', Option.some.injEq, Prod.mk.injEq] at hr
    obtain ⟨rfl, hm, rfl⟩ := hr
    have hU : UpsertLeaf (flushCells (bm.OpenBlock id)) (bm.OpenBlock child)
        (min (bm.OpenBlock id).flush_size LEAF_FLUSH_THRESHOLD) = some (true, c, n2) := by
      unfold UpsertLeaf
      rw [if_neg hcl]
      exact hq
    have := FlushOneLeaf_split bm id child sk0 nid0 c n2 hleaf hcl hpar hne hch hid hd hsz hU
    rw [hm] at this
    exact this

/-- In a `FlushOneLeaf` call from the internal page `id` into its leaf child
`child` (distinct keys, fewer than `NUM_DATA_PAIRS` pairs) in which the leaf becomes full with
`num ≥ 1` messages of the flush region not yet applied, the leaf, holding the pairs `m`, is
split: with `S` the pairs `m` in ascending key order, the original keeps the lower 255 pairs
and the new page `cur_num_blocks + 1` gets the upper 255, whose first key is the split key
`sk`.  The leaf that receives all `num` remaining messages is chosen by the key of
`to_flush[0]`, the first cell of the flush region: the new leaf if that key is `≥ sk`, the
original otherwise; the other leaf keeps its half.  The call returns exactly when the
remaining messages are valid for the chosen leaf, and then it returns `SPLIT`, `sk` and the id
of the new leaf, with the parent's `size` reduced and its `flush_size` 0. -/
theorem FlushOneLeaf_split_choice (bm : BlockManager) (id child sk0 nid0 : Nat)
    (m : List (Nat × Nat)) (num : Nat)
    (hleaf : (bm.OpenBlock id).is_leaf = 0) (hcl : (bm.OpenBlock child).is_leaf ≠ 0)
    (hpar : (bm.OpenBlock child).parent = id) (hne : child ≠ id)
    (hch : child ≤ bm.cur_num_blocks) (hid : id ≤ bm.cur_num_blocks)
    (hd : ((leafPairs (bm.OpenBlock child)).map Prod.fst).Nodup)
    (hsz : (bm.OpenBlock child).size < NUM_DATA_PAIRS)
    (h1 : refLeaf (flushCells (bm.OpenBlock id)) (leafPairs (bm.OpenBlock child))
      (min (bm.OpenBlock id).flush_size LEAF_FLUSH_THRESHOLD) = some (true, m, num))
    (hnum : 1 ≤ num) :
    ∃ sk, ((m.insertionSort pairLe).drop (NUM_DATA_PAIRS / 2)).head?.map Prod.fst = some sk ∧
      (∀ p, p ∈ (m.insertionSort pairLe).take (NUM_DATA_PAIRS / 2) → p.1 < sk) ∧
      (∀ p, p ∈ (m.insertionSort pairLe).drop (NUM_DATA_PAIRS / 2) → sk ≤ p.1) ∧
      (FlushOneLeaf bm id child sk0 nid0).map (fun r => (r.1, r.2.1, r.2.2.1,
          leafPairs (r.2.2.2.OpenBlock child),
          leafPairs (r.2.2.2.OpenBlock (bm.cur_num_blocks + 1)),
          (r.2.2.2.OpenBlock id).size, (r.2.2.2.OpenBlock id).flush_size)) =
        (refLeaf (flushCells (bm.OpenBlock id))
          (if ((flushCells (bm.OpenBlock id)).getD 0 zeroUpsert).key ≥ sk
            then (m.insertionSort pairLe).drop (NUM_DATA_PAIRS / 2)
            else (m.insertionSort pairLe).take (NUM_DATA_PAIRS / 2)) num).map
          (fun q => (FlushResult.SPLIT, sk, bm.cur_num_blocks + 1,
            (if ((flushCells (bm.OpenBlock id)).getD 0 zeroUpsert).key ≥ sk
              then (m.insertionSort pairLe).take (NUM_DATA_PAIRS / 2) else q.2.1),
            (if ((flushCells (bm.OpenBlock id)).getD 0 zeroUpsert).key ≥ sk
              then q.2.1 else (m.insertionSort pairLe).drop (NUM_DATA_PAIRS / 2)),
            (bm.OpenBlock id).size - min (bm.OpenBlock id).flush_size LEAF_FLUSH_THRESHOLD,
            0)) ∧
      ∀ r, FlushOneLeaf bm id child sk0 nid0 = some r →
        r.1 = FlushResult.SPLIT ∧ r.2.1 = sk ∧ r.2.2.1 = bm.cur_num_blocks + 1 ∧
        (((flushCells (bm.OpenBlock id)).getD 0 zeroUpsert).key ≥ sk →
          leafPairs (r.2.2.2.OpenBlock child) =
            (m.insertionSort pairLe).take (NUM_DATA_PAIRS / 2)) ∧
        (((flushCells (bm.OpenBlock id)).getD 0 zeroUpsert).key < sk →
          leafPairs (r.2.2.2.OpenBlock (bm.cur_num_blocks + 1)) =
            (m.insertionSort pairLe).drop (NUM_DATA_PAIRS / 2)) := by
  obtain ⟨sk, a1, a2, a3, a4⟩ :=
    FlushOneLeaf_split_ref bm id child sk0 nid0 m num hleaf hcl hpar hne hch hid hd hsz h1
  refine ⟨sk, a1, a2, a3, a4, ?_⟩
  intro r hr
  rw [hr] at a4
  cases hq : refLeaf (flushCells (bm.OpenBlock id))
      (if ((flushCells (bm.OpenBlock id)).getD 0 zeroUpsert).key ≥ sk
        then (m.insertionSort pairLe).drop (NUM_DATA_PAIRS / 2)
        else (m.insertionSort pairLe).take (NUM_DATA_PAIRS / 2)) num with
  | none =>
    rw [hq] at a4
    cases a4
  | some q =>
    rw [hq] at a4
    simp only [Option.map_some', Option.some.injEq, Prod.mk.injEq] at a4
    obtain ⟨b1, b2, b3, b4, b5, _, _⟩ := a4
    refine ⟨b1, b2, b3, ?_, ?_⟩
    · intro h
      rw [b4, if_pos h]
    · intro h
      rw [b5, if_neg (by omega)]

theorem size_leafOf (L : List (Nat × Nat)) (p : Nat) : (leafOf L p).size = L.length := rfl

theorem evens_length : evens.length = 509 := by
  unfold evens
  rw [List.length_map, List.length_range]

theorem leafFlushExample_child (region : List BeUpsert) :
    (leafFlushExample region).OpenBlock 2 = leafOf evens 1 := rfl

theorem leafFlushExample_cells (region : List BeUpsert) :
    flushCells ((leafFlushExample region).OpenBlock 1) = region := by
  unfold flushCells
  show List.drop (region.length - region.length) region = region
  rw [Nat.sub_self, List.drop_zero]

theorem leafFlushExample_split (region : List BeUpsert) (m : List (Nat × Nat)) (num : Nat)
    (h1 : refLeaf region evens (min region.length LEAF_FLUSH_THRESHOLD) = some (true, m, num)) :
    ∃ sk, ((m.insertionSort pairLe).drop (NUM_DATA_PAIRS / 2)).head?.map Prod.fst = some sk ∧
      (FlushOneLeaf (leafFlushExample region) 1 2 0 0).map (fun r => (r.1, r.2.1, r.2.2.1,
          leafPairs (r.2.2.2.OpenBlock 2), leafPairs (r.2.2.2.OpenBlock 4),
          (r.2.2.2.OpenBlock 1).size, (r.2.2.2.OpenBlock 1).flush_size)) =
        (refLeaf region
          (if (region.getD 0 zeroUpsert).key ≥ sk
            then (m.insertionSort pairLe).drop (NUM_DATA_PAIRS / 2)
            else (m.insertionSort pairLe).take (NUM_DATA_PAIRS / 2)) num).map
          (fun q => (FlushResult.SPLIT, sk, 4,
            (if (region.getD 0 zeroUpsert).key ≥ sk
              then (m.insertionSort pairLe).take (NUM_DATA_PAIRS / 2) else q.2.1),
            (if (region.getD 0 zeroUpsert).key ≥ sk
              then q.2.1 else (m.insertionSort pairLe).drop (NUM_DATA_PAIRS / 2)),
            region.length - min region.length LEAF_FLUSH_THRESHOLD, 0)) := by
  have hd : ((leafPairs ((leafFlushExample region).OpenBlock 2)).map Prod.fst).Nodup := by
    rw [leafFlushExample_child, leafPairs_leafOf]
    exact evens_nodup
  have h1b : refLeaf (flushCells ((leafFlushExample region).OpenBlock 1))
      (leafPairs ((leafFlushExample region).OpenBlock 2))
      (min ((leafFlushExample region).OpenBlock 1).flush_size LEAF_FLUSH_THRESHOLD) =
      some (true, m, num) := by
    rw [leafFlushExample_cells, leafFlushExample_child, leafPairs_leafOf]
    exact h1
  obtain ⟨sk, a1, _, _, a4⟩ := FlushOneLeaf_split_ref (leafFlushExample region) 1 2 0 0 m num
    rfl (by rw [leafFlushExample_child]; decide) rfl (by decide)
    (by show (2 : Nat) ≤ 3; decide) (by show (1 : Nat) ≤ 3; decide) hd
    (by
      rw [leafFlushExample_child, size_leafOf, evens_length]
      decide) h1b
  rw [leafFlushExample_cells] at a4
  exact ⟨sk, a1, a4⟩

theorem FlushOneLeaf_split_choice_witness :
    refLeaf straddleRegion evens 3 = some (true, evens ++ [(5, 0)], 2) ∧
    ∃ sk, (((evens ++ [(5, 0)]).insertionSort pairLe).drop
        (NUM_DATA_PAIRS / 2)).head?.map Prod.fst = some sk ∧
      ∀ r, FlushOneLeaf (leafFlushExample straddleRegion) 1 2 0 0 = some r →
        r.1 = FlushResult.SPLIT ∧ r.2.1 = sk ∧
          r.2.2.1 = (leafFlushExample straddleRegion).cur_num_blocks + 1 := by
  have h1 : refLeaf straddleRegion evens 3 = some (true, evens ++ [(5, 0)], 2) := by
    set_option maxRecDepth 100000 in
    decide
  refine ⟨h1, ?_⟩
  obtain ⟨sk, a1, _, _, _, a5⟩ := FlushOneLeaf_split_choice (leafFlushExample straddleRegion)
    1 2 0 0 (evens ++ [(5, 0)]) 2 rfl (by rw [leafFlushExample_child]; decide) rfl (by decide)
    (by show (2 : Nat) ≤ 3; decide) (by show (1 : Nat) ≤ 3; decide)
    (by rw [leafFlushExample_child, leafPairs_leafOf]; exact evens_nodup)
    (by rw [leafFlushExample_child, size_leafOf, evens_length]; decide)
    (by rw [leafFlushExample_cells, leafFlushExample_child, leafPairs_leafOf]; exact h1)
    (by decide)
  exact ⟨sk, a1, fun r hr => ⟨(a5 r hr).1, (a5 r hr).2.1, (a5 r hr).2.2.1⟩⟩

/-- Claim C25. The leaf page 2 holds the 509 keys `2, 4, ..., 1018`; the flush
region of its parent is, newest first, `INSERT 2001`, `INSERT 3`, `INSERT 5`.  Application
stops after `INSERT 5` (index 2) with the leaf full and two messages left; the split key is
510.  The message at which application stopped has key 5 and the next one key 3, both below
the split key, but the remaining messages go to the new leaf, page 4, because the first cell
of the region has key `2001 ≥ 510`: afterwards key 3 is in page 4 and not in page 2. -/
theorem leaf_chosen_by_first_key :
    refLeaf straddleRegion evens 3 = some (true, evens ++ [(5, 0)], 2) ∧
    (straddleRegion.getD 2 zeroUpsert).key = 5 ∧ (straddleRegion.getD 1 zeroUpsert).key = 3 ∧
    (straddleRegion.getD 0 zeroUpsert).key = 2001 ∧
    leafPairs ((leafFlushExample straddleRegion).OpenBlock 2) = evens ∧
    flushRegion ((leafFlushExample straddleRegion).OpenBlock 1) = straddleRegion ∧
    (FlushOneLeaf (leafFlushExample straddleRegion) 1 2 0 0).map (fun r => (r.1, r.2.1, r.2.2.1,
      decide (3 ∈ (leafPairs (r.2.2.2.OpenBlock 2)).map Prod.fst),
      decide (3 ∈ (leafPairs (r.2.2.2.OpenBlock 4)).map Prod.fst))) =
      some (FlushResult.SPLIT, 510, 4, false, true) := by
  have h1 : refLeaf straddleRegion evens 3 = some (true, evens ++ [(5, 0)], 2) := by
    set_option maxRecDepth 100000 in
    decide
  refine ⟨h1, rfl, rfl, rfl, ?_, by decide, ?_⟩
  · rw [leafFlushExample_child, leafPairs_leafOf]
  obtain ⟨sk, a1, a4⟩ := leafFlushExample_split straddleRegion (evens ++ [(5, 0)]) 2 h1
  have hsk : (((evens ++ [(5, 0)]).insertionSort pairLe).drop
      (NUM_DATA_PAIRS / 2)).head?.map Prod.fst = some 510 := by
    set_option maxRecDepth 100000 in
    decide
  rw [hsk] at a1
  simp only [Option.some.injEq] at a1
  subst a1
  have e := congrArg (Option.map (fun t : FlushResult × Nat × Nat × List (Nat × Nat) ×
    List (Nat × Nat) × Nat × Nat => (t.1, t.2.1, t.2.2.1,
      decide (3 ∈ t.2.2.2.1.map Prod.fst), decide (3 ∈ t.2.2.2.2.1.map Prod.fst)))) a4
  rw [Option.map_map, Option.map_map] at e
  refine Eq.trans e ?_
  set_option maxRecDepth 100000 in
  decide

/-- Claim C27. The internal page 1 has `flush_size = size = 3 ≤ NUM_UPSERTS`; its flush region
is, newest first, `INSERT 2001`, `UPDATE 4`, `INSERT 5`, all routed to its child 0, the leaf
page 2, which holds the 509 distinct keys `2, 4, ..., 1018`.  The region is valid for the leaf:
applied oldest first to the leaf's pairs, every message is valid at its turn.  `FlushOneLeaf`
does not return: after `INSERT 5` the leaf is full and is split at 510, the two remaining
messages go to the new leaf because `2001 ≥ 510`, and `UPDATE 4` finds no key 4 there. -/
theorem FlushOneLeaf_valid_region_fatal :
    ((leafFlushExample updateRegion).OpenBlock 1).is_leaf = 0 ∧
    ((leafFlushExample updateRegion).OpenBlock 1).flush_size = 3 ∧
    ((leafFlushExample updateRegion).OpenBlock 1).size = 3 ∧
    flushRegion ((leafFlushExample updateRegion).OpenBlock 1) = updateRegion ∧
    (∀ u, u ∈ updateRegion →
      (IndexOfKey ((leafFlushExample updateRegion).OpenBlock 1) u.key).map
        (fun i => ((leafFlushExample updateRegion).OpenBlock 1).pointers.getD i 0) = some 2) ∧
    ((leafFlushExample updateRegion).OpenBlock 2).is_leaf = 1 ∧
    ((leafFlushExample updateRegion).OpenBlock 2).parent = 1 ∧
    leafPairs ((leafFlushExample updateRegion).OpenBlock 2) = evens ∧
    evens.length = 509 ∧ (evens.map Prod.fst).Nodup ∧
    (refRun updateRegion evens 3).isSome = true ∧
    FlushOneLeaf (leafFlushExample updateRegion) 1 2 0 0 = none := by
  have h1 : refLeaf updateRegion evens 3 = some (true, evens ++ [(5, 0)], 2) := by
    set_option maxRecDepth 100000 in
    decide
  refine ⟨rfl, rfl, rfl, by decide, by decide, rfl, rfl, ?_, evens_length, evens_nodup, ?_, ?_⟩
  · rw [leafFlushExample_child, leafPairs_leafOf]
  · set_option maxRecDepth 100000 in
    decide
  obtain ⟨sk, a1, a4⟩ := leafFlushExample_split updateRegion (evens ++ [(5, 0)]) 2 h1
  have hsk : (((evens ++ [(5, 0)]).insertionSort pairLe).drop
      (NUM_DATA_PAIRS / 2)).head?.map Prod.fst = some 510 := by
    set_option maxRecDepth 100000 in
    decide
  rw [hsk] at a1
  simp only [Option.some.injEq] at a1
  subst a1
  have hn : refLeaf updateRegion
      (if (updateRegion.getD 0 zeroUpsert).key ≥ 510
        then ((evens ++ [(5, 0)]).insertionSort pairLe).drop (NUM_DATA_PAIRS / 2)
        else ((evens ++ [(5, 0)]).insertionSort pairLe).take (NUM_DATA_PAIRS / 2)) 2 = none := by
    set_option maxRecDepth 100000 in
    decide
  rw [hn] at a4
  exact Option.map_eq_none'.mp a4

/-! ## AddPivot under a pending flush region -/

theorem AddPivotBlock_mono (b : Block) (k nid pos : Nat) (hpos : pos ≤ b.pivots_size)
    (h3 : pos = b.pivots_size ∨ k < b.pivots.getD pos 0)
    (h4 : pos = 0 ∨ b.pivots.getD (pos - 1) 0 ≤ k)
    (hmono : ∀ x y, x ≤ y → y < b.pivots_size → b.pivots.getD x 0 ≤ b.pivots.getD y 0) :
    ∀ x y, x ≤ y → y ≤ b.pivots_size →
      (AddPivotBlock b k nid pos).pivots.getD x 0 ≤ (AddPivotBlock b k nid pos).pivots.getD y 0 := by
  obtain ⟨c1, _⟩ := AddPivotBlock_cells b k nid pos hpos
  intro x y hxy hy
  rw [c1 x, c1 y]
  by_cases x1 : x = pos
  · rw [if_pos x1]
    by_cases y1 : y = pos
    · rw [if_pos y1]
    · rw [if_neg y1, if_pos (by omega)]
      have := hmono pos (y - 1) (by omega) (by omega)
      omega
  · rw [if_neg x1]
    by_cases x2 : pos < x
    · rw [if_pos (by omega), if_neg (by omega), if_pos (by omega)]
      exact hmono (x - 1) (y - 1) (by omega) (by omega)
    · rw [if_neg (by omega)]
      by_cases y1 : y = pos
      · rw [if_pos y1]
        have := hmono x (pos - 1) (by omega) (by omega)
        omega
      · rw [if_neg y1]
        by_cases y2 : pos < y
        · rw [if_pos (by omega)]
          exact hmono x (y - 1) (by omega) (by omega)
        · rw [if_neg (by omega)]
          exact hmono x y hxy (by omega)

/-- Claim C26. On an internal page `id` with `n < NUM_PIVOTS` strictly increasing pivots and a
flush region that holds a message `u` and a message `v`, `AddPivot(k, new_id)` with a new key
`u.key < k ≤ v.key` returns and leaves buffer, `size` and `flush_size` as they are, and
afterwards `IndexOfKey` routes `u` to a child index `≤ pos` and `v` to a child index `> pos`,
where `pos = IndexOfKey(k)` before the call: the flush region has no single target any more,
whatever it had before. -/
theorem AddPivot_straddle (bm : BlockManager) (id k new_id : Nat) (u v : BeUpsert)
    (hleaf : (bm.OpenBlock id).is_leaf = 0) (hnew : new_id ≠ 0)
    (hn : (bm.OpenBlock id).pivots_size < NUM_PIVOTS)
    (hinc : ∀ j, j < (bm.OpenBlock id).pivots_size → ∀ i, i < j →
      (bm.OpenBlock id).pivots.getD i 0 < (bm.OpenBlock id).pivots.getD j 0)
    (hu : u ∈ flushRegion (bm.OpenBlock id)) (hv : v ∈ flushRegion (bm.OpenBlock id))
    (huk : u.key < k) (hkv : k ≤ v.key) :
    ∃ full bm' pos iu iv, AddPivot bm id k new_id = some (full, bm') ∧
      IndexOfKey (bm.OpenBlock id) k = some pos ∧
      flushRegion (bm'.OpenBlock id) = flushRegion (bm.OpenBlock id) ∧
      (bm'.OpenBlock id).flush_size = (bm.OpenBlock id).flush_size ∧
      IndexOfKey (bm'.OpenBlock id) u.key = some iu ∧
      IndexOfKey (bm'.OpenBlock id) v.key = some iv ∧ iu ≤ pos ∧ pos < iv ∧
      ¬ SingleTarget (bm'.OpenBlock id) := by
  obtain ⟨pos, hpos, he⟩ := IndexOfKey_total (bm.OpenBlock id) k hleaf
  have hs := he
  unfold IndexOfKey at hs
  rw [if_neg (by rw [hleaf]; simp)] at hs
  obtain ⟨_, _, a3, a4⟩ := IndexOfKeyLoop_some _ _ _ _ _ _ hs
  obtain ⟨c1, _, c3, _, c5, c6, c7, c8, _, _⟩ :=
    AddPivotBlock_cells (bm.OpenBlock id) k new_id pos hpos
  have hmono : ∀ x y, x ≤ y → y < (bm.OpenBlock id).pivots_size →
      (bm.OpenBlock id).pivots.getD x 0 ≤ (bm.OpenBlock id).pivots.getD y 0 := by
    intro x y hxy hy
    rcases Nat.lt_or_ge x y with h | h
    · exact Nat.le_of_lt (hinc y hy x h)
    · have : x = y := by omega
      rw [this]
  have hm := AddPivotBlock_mono (bm.OpenBlock id) k new_id pos hpos a3 a4 hmono
  have hA : AddPivot bm id k new_id =
      some (decide ((AddPivotBlock (bm.OpenBlock id) k new_id pos).pivots_size = NUM_PIVOTS),
        bm.store id (AddPivotBlock (bm.OpenBlock id) k new_id pos)) := by
    unfold AddPivot
    rw [if_neg (by rw [hleaf]; simp), if_neg hnew, he]
  generalize hB : AddPivotBlock (bm.OpenBlock id) k new_id pos = b' at c1 c3 c5 c6 c7 c8 hm hA
  have hl' : b'.is_leaf = 0 := by rw [c5, hleaf]
  obtain ⟨iu, hiu, eu⟩ := IndexOfKey_total b' u.key hl'
  obtain ⟨iv, hiv, ev⟩ := IndexOfKey_total b' v.key hl'
  have su := eu
  unfold IndexOfKey at su
  rw [if_neg (by rw [hl']; simp)] at su
  obtain ⟨_, _, u3, u4⟩ := IndexOfKeyLoop_some _ _ _ _ _ _ su
  have sv := ev
  unfold IndexOfKey at sv
  rw [if_neg (by rw [hl']; simp)] at sv
  obtain ⟨_, _, v3, v4⟩ := IndexOfKeyLoop_some _ _ _ _ _ _ sv
  have hkp : b'.pivots.getD pos 0 = k := by rw [c1 pos, if_pos rfl]
  have h1 : iu ≤ pos := by
    by_contra hc
    have := hm pos (iu - 1) (by omega) (by omega)
    omega
  have h2 : pos < iv := by
    by_contra hc
    have := hm iv pos (by omega) (by omega)
    omega
  have hreg : flushRegion b' = flushRegion (bm.OpenBlock id) := by
    unfold flushRegion
    rw [c6, c7, c8]
  refine ⟨_, _, pos, iu, iv, hA, he, ?_, ?_, ?_, ?_, h1, h2, ?_⟩
  · rw [OpenBlock_store_same, hreg]
  · rw [OpenBlock_store_same, c7]
  · rw [OpenBlock_store_same, eu]
  · rw [OpenBlock_store_same, ev]
  · rw [OpenBlock_store_same]
    intro hst
    have := hst u v (by rw [hreg]; exact hu) (by rw [hreg]; exact hv)
    rw [eu, ev] at this
    simp only [Option.some.injEq] at this
    omega

theorem AddPivot_straddle_witness :
    (flushRegion (straddleExample.OpenBlock 1)).map
      (fun u => IndexOfKey (straddleExample.OpenBlock 1) u.key) = [some 1, some 1] ∧
    (AddPivot straddleExample 1 15 9).map (fun r =>
      ((flushRegion (r.2.OpenBlock 1)).map (fun u => (IndexOfKey (r.2.OpenBlock 1) u.key).map
        (fun i => (r.2.OpenBlock 1).pointers.getD i 0)))) = some [some 9, some 3] ∧
    ∃ full bm', AddPivot straddleExample 1 15 9 = some (full, bm') ∧
      ¬ SingleTarget (bm'.OpenBlock 1) := by
  refine ⟨by decide, by decide, ?_⟩
  obtain ⟨full, bm', _, _, _, h1, _, _, _, _, _, _, _, h9⟩ :=
    AddPivot_straddle straddleExample 1 15 9 ⟨12, UpsertFunction.INSERT, 0, 1⟩
      ⟨17, UpsertFunction.INSERT, 0, 2⟩ (by decide) (by decide) (by decide) (by decide)
      (by decide) (by decide) (by decide) (by decide)
  exact ⟨full, bm', h1, h9⟩

/-! ## Timestamp wrap and the order of leaf application -/

theorem refLeaf_eq_refFold (upsert : List BeUpsert) : ∀ (n : Nat) (m : List (Nat × Nat)),
    refLeaf upsert m n =
      refFold ((List.range n).reverse.map (fun k => upsert.getD k zeroUpsert)) m := by
  intro n
  induction n with
  | zero =>
    intro m
    rfl
  | succ n ih =>
    intro m
    rw [List.range_succ, List.reverse_append, List.reverse_singleton, List.singleton_append,
      List.map_cons, refLeaf, refFold]
    cases refLeafStep m (upsert.getD n zeroUpsert) with
    | none => rfl
    | some m' =>
      simp only []
      rw [ih m', List.length_map, List.length_reverse, List.length_range]

theorem drop_rev_range (g : Nat → BeUpsert) (num : Nat) : ∀ d : Nat,
    ((List.range (num + d)).reverse.map g).drop d = (List.range num).reverse.map g := by
  intro d
  induction d with
  | zero => rfl
  | succ d ih =>
    rw [← Nat.add_assoc, List.range_succ, List.reverse_append, List.reverse_singleton,
      List.singleton_append, List.map_cons, List.drop_succ_cons, ih]

theorem handed_reverse (b : Block) :
    (handed b).reverse = (List.range (min b.flush_size LEAF_FLUSH_THRESHOLD)).reverse.map
      (fun k => (flushCells b).getD k zeroUpsert) := by
  unfold handed readRange flushCells
  rw [← List.map_reverse]
  apply List.map_congr_left
  intro k _
  rw [getD_drop]

theorem handed_pairwise (b0 b : Block) (h : FullFlushSetupBlock b0 = some b)
    (hd : TsDistinct b0.buffer b0.size) :
    ((handed b).reverse).Pairwise (fun u v => u.timestamp < v.timestamp) := by
  obtain ⟨_, _, hreg⟩ := FullFlushSetupBlock_region b0 b h hd
  have e : (handed b).reverse = (List.range (min b.flush_size LEAF_FLUSH_THRESHOLD)).reverse.map
      (fun k => b.buffer.getD (b.size - b.flush_size + k) zeroUpsert) := by
    unfold handed readRange
    rw [List.map_reverse]
  rw [e]
  apply pairwise_rev_range
  intro i j hij hj
  exact hreg i j hij (by omega)

/-- Claim C17, amended. Let the flush region of the internal page `id` be prepared by
`FullFlushSetup` from a buffer with pairwise distinct timestamps, and let `L` be the messages
handed to the leaf `child` (the cells `to_flush[0..n)`, `n` the smaller of `flush_size` and
`LEAF_FLUSH_THRESHOLD`) read from index `n-1` down to 0.  Then the timestamps along `L` are
strictly increasing, and `UpsertLeaf` and `FlushOneLeaf` do to the leaf what the reference map
does under the messages of `L` applied in this order, oldest first: the first call is fatal,
runs through, or stops at the `INSERT` that fills the leaf exactly as the reference does; when
it runs through, `FlushOneLeaf` returns `NO_SPLIT` and the leaf holds the pairs of the
reference; when it stops with `num` messages left, the leaf is split and the second call
applies the last `num` messages of `L`, again in the order of `L`, to one of the two leaves. -/
theorem leaf_application_order (bm : BlockManager) (id child sk0 nid0 : Nat) (b0 : Block)
    (hsetup : FullFlushSetupBlock b0 = some (bm.OpenBlock id))
    (hd : TsDistinct b0.buffer b0.size)
    (hleaf : (bm.OpenBlock id).is_leaf = 0) (hcl : (bm.OpenBlock child).is_leaf ≠ 0)
    (hpar : (bm.OpenBlock child).parent = id) (hne : child ≠ id)
    (hch : child ≤ bm.cur_num_blocks) (hid : id ≤ bm.cur_num_blocks)
    (hdk : ((leafPairs (bm.OpenBlock child)).map Prod.fst).Nodup)
    (hsz : (bm.OpenBlock child).size < NUM_DATA_PAIRS) :
    ((handed (bm.OpenBlock id)).reverse).Pairwise (fun u v => u.timestamp < v.timestamp) ∧
    (UpsertLeaf (flushCells (bm.OpenBlock id)) (bm.OpenBlock child)
        (min (bm.OpenBlock id).flush_size LEAF_FLUSH_THRESHOLD)).map
        (fun r => (r.1, leafPairs r.2.1, r.2.2)) =
      refFold (handed (bm.OpenBlock id)).reverse (leafPairs (bm.OpenBlock child)) ∧
    (refFold (handed (bm.OpenBlock id)).reverse (leafPairs (bm.OpenBlock child)) = none →
      FlushOneLeaf bm id child sk0 nid0 = none) ∧
    (∀ m k, refFold (handed (bm.OpenBlock id)).reverse (leafPairs (bm.OpenBlock child)) =
        some (false, m, k) →
      (FlushOneLeaf bm id child sk0 nid0).map (fun r => (r.1,
        leafPairs (r.2.2.2.OpenBlock child), (r.2.2.2.OpenBlock id).size,
        (r.2.2.2.OpenBlock id).flush_size)) =
      some (FlushResult.NO_SPLIT, m,
        (bm.OpenBlock id).size - min (bm.OpenBlock id).flush_size LEAF_FLUSH_THRESHOLD, 0)) ∧
    (∀ m num, refFold (handed (bm.OpenBlock id)).reverse (leafPairs (bm.OpenBlock child)) =
        some (true, m, num) →
      ∃ sk, ((m.insertionSort pairLe).drop (NUM_DATA_PAIRS / 2)).head?.map Prod.fst = some sk ∧
        (FlushOneLeaf bm id child sk0 nid0).map (fun r => (r.1, r.2.1, r.2.2.1,
            leafPairs (r.2.2.2.OpenBlock child),
            leafPairs (r.2.2.2.OpenBlock (bm.cur_num_blocks + 1)),
            (r.2.2.2.OpenBlock id).size, (r.2.2.2.OpenBlock id).flush_size)) =
          (refFold ((handed (bm.OpenBlock id)).reverse.drop
              ((handed (bm.OpenBlock id)).length - num))
            (if ((flushCells (bm.OpenBlock id)).getD 0 zeroUpsert).key ≥ sk
              then (m.insertionSort pairLe).drop (NUM_DATA_PAIRS / 2)
              else (m.insertionSort pairLe).take (NUM_DATA_PAIRS / 2))).map
            (fun q => (FlushResult.SPLIT, sk, bm.cur_num_blocks + 1,
              (if ((flushCells (bm.OpenBlock id)).getD 0 zeroUpsert).key ≥ sk
                then (m.insertionSort pairLe).take (NUM_DATA_PAIRS / 2) else q.2.1),
              (if ((flushCells (bm.OpenBlock id)).getD 0 zeroUpsert).key ≥ sk
                then q.2.1 else (m.insertionSort pairLe).drop (NUM_DATA_PAIRS / 2)),
              (bm.OpenBlock id).size - min (bm.OpenBlock id).flush_size LEAF_FLUSH_THRESHOLD,
              0))) := by
  have hrev := handed_reverse (bm.OpenBlock id)
  have hU : (UpsertLeaf (flushCells (bm.OpenBlock id)) (bm.OpenBlock child)
        (min (bm.OpenBlock id).flush_size LEAF_FLUSH_THRESHOLD)).map
        (fun r => (r.1, leafPairs r.2.1, r.2.2)) =
      refFold (handed (bm.OpenBlock id)).reverse (leafPairs (bm.OpenBlock child)) := by
    unfold UpsertLeaf
    rw [if_neg hcl, (UpsertLeafLoop_refines _ _ _ hdk hsz).1, refLeaf_eq_refFold, hrev]
  have hrl : refLeaf (flushCells (bm.OpenBlock id)) (leafPairs (bm.OpenBlock child))
      (min (bm.OpenBlock id).flush_size LEAF_FLUSH_THRESHOLD) =
      refFold (handed (bm.OpenBlock id)).reverse (leafPairs (bm.OpenBlock child)) := by
    rw [refLeaf_eq_refFold, hrev]
  have hne2 : id ≠ child := fun e => hne e.symm
  refine ⟨handed_pairwise b0 _ hsetup hd, hU, ?_, ?_, ?_⟩
  · intro hn
    rw [hn] at hU
    have h0 := Option.map_eq_none'.mp hU
    unfold FlushOneLeaf
    rw [if_neg (by rw [hleaf]; simp), if_neg hcl, if_neg (by rw [hpar]; simp)]
    simp only []
    unfold flushCells at h0
    rw [h0]
  · intro m k hs
    rw [hs] at hU
    cases hq : UpsertLeaf (flushCells (bm.OpenBlock id)) (bm.OpenBlock child)
        (min (bm.OpenBlock id).flush_size LEAF_FLUSH_THRESHOLD) with
    | none =>
      rw [hq] at hU
      cases hU
    | some r =>
      rw [hq] at hU
      obtain ⟨fl, c, n2⟩ := r
      simp only [Option.map_some', Option.some.injEq, Prod.mk.injEq] at hU
      obtain ⟨rfl, hm, _⟩ := hU
      unfold FlushOneLeaf
      rw [if_neg (by rw [hleaf]; simp), if_neg hcl, if_neg (by rw [hpar]; simp)]
      simp only []
      unfold flushCells at hq
      rw [hq]
      simp only [Option.map_some', Option.some.injEq, Prod.mk.injEq]
      rw [OpenBlock_store_ne _ _ _ _ hne, OpenBlock_store_same, OpenBlock_store_same,
        OpenBlock_store_ne _ _ _ _ hne2]
      exact ⟨trivial, hm, rfl, rfl⟩
  · intro m num hs
    rw [← hrl] at hs
    obtain ⟨sk, a1, _, _, a4⟩ :=
      FlushOneLeaf_split_ref bm id child sk0 nid0 m num hleaf hcl hpar hne hch hid hdk hsz hs
    refine ⟨sk, a1, ?_⟩
    rw [a4]
    have hnum : num ≤ min (bm.OpenBlock id).flush_size LEAF_FLUSH_THRESHOLD := by
      have h2 := (UpsertLeafLoop_refines (flushCells (bm.OpenBlock id))
        (min (bm.OpenBlock id).flush_size LEAF_FLUSH_THRESHOLD) _ hdk hsz)
      rw [hs] at h2
      cases hq : UpsertLeafLoop (flushCells (bm.OpenBlock id)) (bm.OpenBlock child)
          (min (bm.OpenBlock id).flush_size LEAF_FLUSH_THRESHOLD) with
      | none =>
        rw [hq] at h2
        cases h2.1
      | some r =>
        have h3 := (h2.2 r hq).2.2.2.1
        rw [hq] at h2
        have h4 := h2.1
        simp only [Option.map_some', Option.some.injEq, Prod.mk.injEq] at h4
        omega
    have hlen : (handed (bm.OpenBlock id)).length =
        min (bm.OpenBlock id).flush_size LEAF_FLUSH_THRESHOLD := by
      unfold handed
      rw [length_readRange]
    have hdrop : (handed (bm.OpenBlock id)).reverse.drop
        ((handed (bm.OpenBlock id)).length - num) =
        (List.range num).reverse.map
          (fun k => (flushCells (bm.OpenBlock id)).getD k zeroUpsert) := by
      rw [hrev, hlen]
      have e : min (bm.OpenBlock id).flush_size LEAF_FLUSH_THRESHOLD =
          num + (min (bm.OpenBlock id).flush_size LEAF_FLUSH_THRESHOLD - num) := by omega
      have := drop_rev_range (fun k => (flushCells (bm.OpenBlock id)).getD k zeroUpsert) num
        (min (bm.OpenBlock id).flush_size LEAF_FLUSH_THRESHOLD - num)
      rw [← e] at this
      exact this
    rw [hdrop, ← refLeaf_eq_refFold]

theorem leaf_application_order_witness :
    FullFlushSetupBlock twoMessages = some (twoMessagesStore.OpenBlock 1) ∧
    ((handed (twoMessagesStore.OpenBlock 1)).reverse).map (fun u => u.timestamp) = [1, 2] ∧
    (FlushOneLeaf twoMessagesStore 1 2 0 0).map (fun r => (r.1,
      leafPairs (r.2.2.2.OpenBlock 2), (r.2.2.2.OpenBlock 1).size,
      (r.2.2.2.OpenBlock 1).flush_size)) =
      some (FlushResult.NO_SPLIT, [(5, 50), (6, 60)], 0, 0) ∧
    ((handed (twoMessagesStore.OpenBlock 1)).reverse).Pairwise
      (fun u v => u.timestamp < v.timestamp) := by
  obtain ⟨h1, _, _, h4, _⟩ := leaf_application_order twoMessagesStore 1 2 0 0 twoMessages
    (by decide) (by
      intro i j hi hj
      have hi2 : i < 2 := hi
      have hj2 : j < 2 := hj
      interval_cases i <;> interval_cases j <;> simp [twoMessages])
    (by decide) (by decide) (by decide) (by decide) (by decide) (by decide) (by decide)
    (by decide)
  exact ⟨by decide, by decide, h4 [(5, 50), (6, 60)] 0 (by decide), h1⟩

/-- Claim C17, counterexample. After `Insert(5, 50)` and `Update(5, 70)` on a fresh tree the
root holds the two messages with the timestamps 1 and 2.  `FullFlushSetup` makes them the
flush region, timestamps 2, 1 in index order, and `FlushOneLevel` hands both to the empty leaf
page 2 and returns `NO_SPLIT` with the leaf holding `(5, 70)`: the `INSERT` with timestamp 1
was applied before the `UPDATE` with timestamp 2.  Applied newest first, in index order, the
`UPDATE` meets no key 5 and is fatal; applied in the reverse order the reference gives
`(5, 70)`. -/
theorem leaf_applied_oldest_first :
    (Tree.run 3 Tree.fresh [Op.Insert 5 50, Op.Update 5 70]).map (fun t => t.bmanager) =
      some (Tree.fresh.bmanager.store 1 insertThenUpdate) ∧
    (FullFlushSetup (Tree.fresh.bmanager.store 1 insertThenUpdate) 1).bind (fun bm1 =>
      (FlushOneLevel bm1 1 0 0).map (fun r =>
        ((handed (bm1.OpenBlock 1)).map (fun u => u.timestamp), r.1,
          leafPairs (r.2.2.2.1.OpenBlock 2),
          refFold (handed (bm1.OpenBlock 1)) (leafPairs (bm1.OpenBlock 2)),
          refFold (handed (bm1.OpenBlock 1)).reverse (leafPairs (bm1.OpenBlock 2))))) =
      some ([2, 1], FlushResult.NO_SPLIT, [(5, 70)], none, some (false, [(5, 70)], 0)) := by
  constructor
  · decide
  · rfl

end BeTree
